import Mathlib

/-!
# RTEMS run-time linker symbol table (`cpukit/libdl/rtl-sym.c`)

A shallow embedding of the symbol table of the run-time linker and the
properties of its operations.

Conventions of the embedding.

* A byte (`unsigned char`) is a `Fin 256`.
* A C string is the list of its bytes before the terminating NUL, so
  `strcmp (a, b) == 0` is equality of the two lists. Where the order matters
  `strcmp` is the sign (-1, 0 or 1) of the comparison of the bytes as
  unsigned values; the source reads only the sign.
* `bsearch` is the binary search of the C library over the half-open range
  of indices between a lower and an upper bound; it takes a bound on its
  passes that the `nmemb + 1` of its caller never reaches.
* `qsort` is the sort of the C library, written as an insertion sort. It moves
  whole records, each with its chain node. `rtems_rtl_symbol_obj_sort` gives
  the memory of the sorted tables in every case; a sort that moves the record
  of a linked symbol to another slot leaves chains that no state here stands
  for, and the result then has the memory and no state.
* A pointer to a `rtems_rtl_obj_sym` is a `SymPtr`: the address of the
  allocated table it lives in and its index in that table.
* Memory that holds symbol tables is the `heap` of `Rtl`; a table that was
  freed, or never allocated, is not there.
* Undefined behaviour of the C code (a read outside the memory that is
  modelled, a dereference of a pointer to no live symbol, a NULL name handed
  to a string function, a remainder by zero) is the result `none`.
* `size_t` indices and counts, and the `int` that holds the result of
  `strlen`, are natural numbers: the memory that is modelled is shorter than
  the range of these types. The number of buckets of
  `rtems_rtl_symbol_table_open` is an argument and no length of memory, and
  its product with the size of a chain control is reduced modulo the width of
  `size_t`. The hash is computed modulo the width of `uint_fast32_t` as in
  the source.
* The loops over an export table take a bound on their passes as first
  argument; `count_loop_fuel` and `populate_loop_fuel` show that the bound
  `size + 1` that `rtems_rtl_symbol_global_add` passes is never reached.
* The trace output (`rtems_rtl_trace`, `printf`) does not change the control
  flow or the state and is left out.

The file also holds two small neighbours of the linker.

* `CPU_swap_u32` of the nios2, or1k and arm ports (`score/cpu/*/cpu.h`): a
  `uint32_t` is a natural number below `2 ^ 32`, and a left shift is reduced
  modulo `2 ^ 32`.
* The shell command `cmdchown` (`libmisc/shell/main_cmdchown.c`): `sscanf`,
  `getuid` and the lookup and visibility of commands come from the
  environment of the shell and are fields of `ShellEnv`; the output of the
  command is the list of the lines it prints.
-/

namespace RtlSym

/-- An `unsigned char`. -/
abbrev Byte := Fin 256

/-- The parameters of the target that the source takes from the compiler. -/
structure Target where
  /-- The value of `sizeof (void*)`. -/
  ptr_bytes : Nat
  /-- The byte order of a pointer in memory. -/
  big_endian : Bool
  /-- The width of `uint_fast32_t` in bits. -/
  fast32_bits : Nat
  /-- The value of `sizeof (rtems_rtl_obj_sym)`. -/
  sym_bytes : Nat
  /-- The value of `sizeof (rtems_chain_control)`. -/
  chain_bytes : Nat
  /-- The width of `size_t` in bits. -/
  size_bits : Nat

/-- The error codes that the source hands to `rtems_rtl_set_error`. -/
inductive Errno where
  | ENOMEM
  | EINVAL
deriving DecidableEq

/-- The fields `name`, `value` and `data` of `rtems_rtl_obj_sym` (rtl-sym.h).
The `node` field is the membership of the symbol in a bucket chain and is kept
in the chains of `rtems_rtl_symbols`. A `name` of `none` is the NULL pointer. -/
structure rtems_rtl_obj_sym where
  name : Option (List Byte)
  value : Nat
  data : Nat
deriving DecidableEq

/-- A `rtems_rtl_obj_sym*`: entry `index` of the symbol table allocated at
address `block`. -/
structure SymPtr where
  block : Nat
  index : Nat
deriving DecidableEq

/-- Modelled from the spec: `rtems_chain_control` (rtems/chain.h), the chain of
a bucket. The spec calls it a chain of symbols with a structural, non-owning
membership; it is the list of the linked nodes from the head to the tail. -/
abbrev rtems_chain_control := List SymPtr

/-- The struct `rtems_rtl_symbols` (rtl-sym.h). A `buckets` pointer of NULL is
the empty list: no bucket can be read. -/
structure rtems_rtl_symbols where
  buckets : List rtems_chain_control
  nbuckets : Nat
deriving DecidableEq

/-- The struct `rtems_rtl_tls_offset` (rtl-sym.h). The offset function is a C
function without arguments; it may read and change its environment `W`. -/
structure rtems_rtl_tls_offset (W : Type) where
  index : Nat
  offset : W → Nat × W

/-- The symbol table fields of `rtems_rtl_obj` (rtl-obj.h) that rtl-sym.c
uses. A table pointer is the address of its block in the heap, `none` is NULL. -/
structure rtems_rtl_obj where
  local_table : Option Nat
  local_size : Nat
  local_syms : Nat
  global_table : Option Nat
  global_size : Nat
  global_syms : Nat
deriving DecidableEq

/-- The memory that holds symbol tables: the table at each live address. -/
abbrev Heap := Nat → Option (List rtems_rtl_obj_sym)

/-- The state of the run-time linker that rtl-sym.c reads and writes: the
global symbol table (`rtems_rtl_global_symbols ()`), the symbol tables in
memory, and the errors recorded with `rtems_rtl_set_error`, latest first. -/
structure Rtl where
  symbols : rtems_rtl_symbols
  heap : Heap
  errors : List (Errno × String)

/-- Modelled from the spec: `rtems_rtl_set_error` (rtl-error.h), the error
reporting collaborator `record_error (code, message)`. -/
def rtems_rtl_set_error (rtl : Rtl) (code : Errno) (msg : String) : Rtl :=
  { rtl with errors := (code, msg) :: rtl.errors }

/-- The symbol a pointer refers to, `none` when the pointer is dangling. -/
def deref (heap : Heap) (p : SymPtr) : Option rtems_rtl_obj_sym :=
  match heap p.block with
  | none => none
  | some tbl => tbl[p.index]?

/-- The name `p->name` as a C string: `none` when `p` is dangling or the name
is NULL. -/
def name_of (heap : Heap) (p : SymPtr) : Option (List Byte) :=
  match deref heap p with
  | none => none
  | some sym => sym.name

/-- The function `rtems_rtl_symbol_hash` (rtl-sym.c:51). -/
def rtems_rtl_symbol_hash (T : Target) (s : List Byte) : Nat :=
  (s.foldl (fun h c => (h * 33 + c.val) % 2 ^ T.fast32_bits) 5381) % 2 ^ 32

/-- Modelled from the spec: `rtems_chain_is_node_off_chain` (rtems/chain.h).
A symbol is a member of one bucket chain or of none; it is off chain when no
bucket chain holds it. -/
def rtems_chain_is_node_off_chain (symbols : rtems_rtl_symbols) (node : SymPtr) : Bool :=
  symbols.buckets.all (fun chain => !chain.contains node)

/-- Modelled from the spec: `rtems_chain_append` (rtems/chain.h) on bucket
`i`: the node becomes the tail of that chain. A bucket outside the array, and
a node that is already a member of a chain (a symbol is a member of at most
one bucket at a time), are undefined. -/
def rtems_chain_append (symbols : rtems_rtl_symbols) (i : Nat) (node : SymPtr) :
    Option rtems_rtl_symbols :=
  match symbols.buckets[i]? with
  | none => none
  | some chain =>
    if rtems_chain_is_node_off_chain symbols node then
      some { symbols with buckets := symbols.buckets.set i (chain ++ [node]) }
    else none

/-- Modelled from the spec: `rtems_chain_extract` (rtems/chain.h): the node is
removed from the chain that holds it. -/
def rtems_chain_extract (symbols : rtems_rtl_symbols) (node : SymPtr) : rtems_rtl_symbols :=
  { symbols with buckets := symbols.buckets.map (fun chain => chain.filter (fun q => q ≠ node)) }

/-- The index `hash % symbols->nbuckets` of the bucket of a name; the
remainder by zero is undefined. -/
def bucket_index (T : Target) (symbols : rtems_rtl_symbols) (name : List Byte) : Option Nat :=
  if symbols.nbuckets = 0 then none
  else some (rtems_rtl_symbol_hash T name % symbols.nbuckets)

/-- The function `rtems_rtl_symbol_table_open` (rtl-sym.c:77). `alloc` is the
allocator `rtems_rtl_alloc_new`: the address of the new zeroed memory for a
size in bytes, or `none` for NULL. The size `buckets * sizeof
(rtems_chain_control)` is a product of two `size_t` and is reduced modulo
`2 ^ size_bits`. The loop initialises `buckets` chains in the new memory; when
the memory is shorter than `buckets` chains, which it is after the product
wrapped, the loop writes outside it and the result is `none`. -/
def rtems_rtl_symbol_table_open (T : Target) (alloc : Nat → Option Nat) (rtl : Rtl)
    (buckets : Nat) : Option (Bool × Rtl) :=
  let size := (buckets * T.chain_bytes) % 2 ^ T.size_bits
  match alloc size with
  | none =>
    some (false, rtems_rtl_set_error { rtl with symbols := { rtl.symbols with buckets := [] } }
                   Errno.ENOMEM "no memory for global symbol table")
  | some _ =>
    if buckets * T.chain_bytes ≤ size then
      some (true,
        { rtl with symbols := { buckets := List.replicate buckets [], nbuckets := buckets } })
    else none

/-- The function `rtems_rtl_symbol_global_insert` (rtl-sym.c:101). -/
def rtems_rtl_symbol_global_insert (T : Target) (heap : Heap) (symbols : rtems_rtl_symbols)
    (symbol : SymPtr) : Option rtems_rtl_symbols :=
  match name_of heap symbol with
  | none => none
  | some name =>
    match bucket_index T symbols name with
    | none => none
    | some i => rtems_chain_append symbols i symbol

/-- The loop of `rtems_rtl_symbol_global_find` (rtl-sym.c:224) from `node` to
the tail of the bucket. -/
def find_in_chain (heap : Heap) (name : List Byte) : rtems_chain_control → Option (Option SymPtr)
  | [] => some none
  | node :: rest =>
    match name_of heap node with
    | none => none
    | some sname => if name = sname then some (some node) else find_in_chain heap name rest

/-- The function `rtems_rtl_symbol_global_find` (rtl-sym.c:210) on the table
`symbols = rtems_rtl_global_symbols ()`. The outer `none` is undefined
behaviour, `some none` is the result NULL. -/
def rtems_rtl_symbol_global_find (T : Target) (heap : Heap) (symbols : rtems_rtl_symbols)
    (name : List Byte) : Option (Option SymPtr) :=
  match bucket_index T symbols name with
  | none => none
  | some i =>
    match symbols.buckets[i]? with
    | none => none
    | some bucket => find_in_chain heap name bucket

/-- The function `rtems_rtl_symbol_find_tls_offset` (rtl-sym.c:61): the loop
from `entry` with `remaining = tls_size - entry` entries to go. The outer
`none` is a read outside the table, `some none` is the result NULL. -/
def find_tls_offset_from {W : Type} (index : Nat) (tls_offsets : List (rtems_rtl_tls_offset W)) :
    Nat → Nat → Option (Option (rtems_rtl_tls_offset W))
  | 0, _ => some none
  | remaining + 1, entry =>
    match tls_offsets[entry]? with
    | none => none
    | some e =>
      if e.index = index then some (some e)
      else find_tls_offset_from index tls_offsets remaining (entry + 1)

/-- The function `rtems_rtl_symbol_find_tls_offset` (rtl-sym.c:61). -/
def rtems_rtl_symbol_find_tls_offset {W : Type} (index : Nat)
    (tls_offsets : List (rtems_rtl_tls_offset W)) (tls_size : Nat) :
    Option (Option (rtems_rtl_tls_offset W)) :=
  find_tls_offset_from index tls_offsets tls_size 0

/-- The call `strlen ((char*) &esyms[s])`: the number of bytes from index `s`
to the first zero byte, undefined when the memory ends before one. -/
def strlen (esyms : List Byte) (s : Nat) : Option Nat :=
  let l := ((esyms.drop s).takeWhile (fun b => b ≠ 0)).length
  if l < (esyms.drop s).length then some l else none

/-- The C string at `&esyms[s]` of length `l`. -/
def string_at (esyms : List Byte) (s l : Nat) : List Byte :=
  (esyms.drop s).take l

/-- The first loop of `rtems_rtl_symbol_global_add` (rtl-sym.c:125), which
counts the records. The result `some none` is the return with the error
`EINVAL`; `some (some (s, count))` is the end of the loop. Every pass moves `s`
forward, so `size + 1` passes are enough; the first argument bounds them. -/
def count_loop (T : Target) (esyms : List Byte) (size : Nat) :
    Nat → Nat → Nat → Option (Option (Nat × Nat))
  | 0, _, _ => none
  | fuel + 1, s, count =>
    if s < size then
      match esyms[s]? with
      | none => none
      | some c =>
        if c ≠ 0 then
          match strlen esyms s with
          | none => none
          | some l =>
            match esyms[s + l]? with
            | none => none
            | some e =>
              if e ≠ 0 ∨ s + l > size then some none
              else count_loop T esyms size fuel (s + (l + T.ptr_bytes + 1)) (count + 1)
        else some (some (s, count))
    else some (some (s, count))

/-- The end marker of `rtems_rtl_symbol_global_add` (rtl-sym.c:140): the bytes
`esyms[s + 1]` to `esyms[s + 4]` shifted into a `uint32_t`. -/
def read_marker (esyms : List Byte) (s : Nat) : Option Nat :=
  match esyms[s + 1]?, esyms[s + 2]?, esyms[s + 3]?, esyms[s + 4]? with
  | some b1, some b2, some b3, some b4 =>
    let marker := b1.val
    let marker := (marker <<< 8) % 2 ^ 32
    let marker := marker ||| b2.val
    let marker := (marker <<< 8) % 2 ^ 32
    let marker := marker ||| b3.val
    let marker := (marker <<< 8) % 2 ^ 32
    let marker := marker ||| b4.val
    some marker
  | _, _, _, _ => none

/-- The loop `for (b = 0; b < sizeof (void*); ++b, ++s)` of
`rtems_rtl_symbol_global_add` (rtl-sym.c:191): the `n` bytes from index `s`. -/
def read_bytes (esyms : List Byte) : Nat → Nat → Option (List Byte)
  | _, 0 => some []
  | s, n + 1 =>
    match esyms[s]? with
    | none => none
    | some x =>
      match read_bytes esyms (s + 1) n with
      | none => none
      | some rest => some (x :: rest)

/-- The member `voidp` of the union `copy_voidp` (rtl-sym.c:182): the bytes of
`data` read as a pointer in the byte order of the target. -/
def copy_voidp (T : Target) (data : List Byte) : Nat :=
  if T.big_endian then data.foldl (fun acc b => acc * 256 + b.val) 0
  else data.foldr (fun b acc => b.val + 256 * acc) 0

/-- The heap after a write to the fields of the symbol `*p`; undefined when `p`
points to no live symbol. -/
def store (heap : Heap) (p : SymPtr) (f : rtems_rtl_obj_sym → rtems_rtl_obj_sym) : Option Heap :=
  match heap p.block with
  | none => none
  | some tbl =>
    match tbl[p.index]? with
    | none => none
    | some sym => some (fun b => if b = p.block then some (tbl.set p.index (f sym)) else heap b)

/-- Modelled from the spec: the memory `rtems_rtl_alloc_new` returns
(rtl-allocator.h) for a table of `count` symbols, zero filled: every name is
NULL and every node is off chain. -/
def heap_alloc (heap : Heap) (base count : Nat) : Heap :=
  fun b => if b = base then some (List.replicate count ⟨none, 0, 0⟩) else heap b

/-- Modelled from the spec: `rtems_rtl_alloc_del` (rtl-allocator.h): the table
at `base` is freed. -/
def heap_free (heap : Heap) (base : Nat) : Heap :=
  fun b => if b = base then none else heap b

/-- The choice of `rtems_rtl_symbol_global_add` (rtl-sym.c:194) for the value
of a symbol: the pointer in the bytes of the record when no TLS entry was
found, the result of one call of the offset function of the entry otherwise.
The second component is the environment after it. -/
def resolve_value {W : Type} (T : Target) (data : List Byte)
    (tls_off : Option (rtems_rtl_tls_offset W)) (env : W) : Nat × W :=
  match tls_off with
  | none => (copy_voidp T data, env)
  | some e => e.offset env

/-- The body of the second loop of `rtems_rtl_symbol_global_add`
(rtl-sym.c:176 to 204) for the record at index `s`, which is written to
`sym = &global_table[count]` in the table at `base` and linked when its name
is not found. The result is the index after the record with the state and the
environment. -/
def populate_record {W : Type} (T : Target) (esyms : List Byte)
    (tls_offsets : List (rtems_rtl_tls_offset W)) (tls_size : Nat) (base : Nat)
    (s count : Nat) (rtl : Rtl) (env : W) : Option (Nat × Rtl × W) :=
  match strlen esyms s with
  | none => none
  | some l =>
    let name := string_at esyms s l
    match store rtl.heap ⟨base, count⟩ (fun sym => { sym with name := some name }) with
    | none => none
    | some heap1 =>
      match read_bytes esyms (s + (l + 1)) T.ptr_bytes with
      | none => none
      | some data =>
        match rtems_rtl_symbol_find_tls_offset count tls_offsets tls_size with
        | none => none
        | some tls_off =>
          let value := (resolve_value T data tls_off env).1
          let env1 := (resolve_value T data tls_off env).2
          match store heap1 ⟨base, count⟩ (fun sym => { sym with value := value }) with
          | none => none
          | some heap2 =>
            match rtems_rtl_symbol_global_find T heap2 rtl.symbols name with
            | none => none
            | some (some _) =>
              some (s + (l + 1) + T.ptr_bytes, { rtl with heap := heap2 }, env1)
            | some none =>
              match rtems_rtl_symbol_global_insert T heap2 rtl.symbols ⟨base, count⟩ with
              | none => none
              | some symbols1 =>
                some (s + (l + 1) + T.ptr_bytes, { rtl with heap := heap2, symbols := symbols1 }, env1)

/-- The second loop of `rtems_rtl_symbol_global_add` (rtl-sym.c:175), which
writes the symbols of the table at `base` and links them. The first argument
bounds the passes as in `count_loop`. -/
def populate_loop {W : Type} (T : Target) (esyms : List Byte) (size : Nat)
    (tls_offsets : List (rtems_rtl_tls_offset W)) (tls_size : Nat) (base : Nat) :
    Nat → Nat → Nat → Rtl → W → Option (Rtl × W)
  | 0, _, _, _, _ => none
  | fuel + 1, s, count, rtl, env =>
    if s < size then
      match esyms[s]? with
      | none => none
      | some c =>
        if c ≠ 0 then
          match populate_record T esyms tls_offsets tls_size base s count rtl env with
          | none => none
          | some (s1, rtl1, env1) =>
            populate_loop T esyms size tls_offsets tls_size base fuel s1 (count + 1) rtl1 env1
        else some (rtl, env)
    else some (rtl, env)

/-- The function `rtems_rtl_symbol_global_add` (rtl-sym.c:110). `alloc` is the
allocator `rtems_rtl_alloc_new`, `env` the environment of the TLS offset
functions. The result is the return value with the state, the object and the
environment after the call; `none` is undefined behaviour. -/
def rtems_rtl_symbol_global_add {W : Type} (T : Target) (alloc : Nat → Option Nat) (rtl : Rtl)
    (obj : rtems_rtl_obj) (esyms : List Byte) (size : Nat)
    (tls_offsets : List (rtems_rtl_tls_offset W)) (tls_size : Nat) (env : W) :
    Option (Bool × Rtl × rtems_rtl_obj × W) :=
  match count_loop T esyms size (size + 1) 0 0 with
  | none => none
  | some none =>
    some (false, rtems_rtl_set_error rtl Errno.EINVAL "invalid exported symbol table", obj, env)
  | some (some (s, count)) =>
    match read_marker esyms s with
    | none => none
    | some marker =>
      if marker ≠ 0xdeadbeef then
        some (false, rtems_rtl_set_error rtl Errno.ENOMEM "invalid export symbol table", obj, env)
      else
        match alloc (count * T.sym_bytes) with
        | none =>
          some (false, rtems_rtl_set_error rtl Errno.ENOMEM "no memory for global symbols",
                { obj with global_size := 0, global_table := none }, env)
        | some base =>
          match populate_loop T esyms size tls_offsets tls_size base (size + 1) 0 0
                  { rtl with heap := heap_alloc rtl.heap base count } env with
          | none => none
          | some (rtl1, env1) =>
            some (true, rtl1,
                  { obj with global_size := count * T.sym_bytes, global_table := some base,
                             global_syms := count }, env1)

/-- The function `rtems_rtl_symbol_obj_erase_local` (rtl-sym.c:308). -/
def rtems_rtl_symbol_obj_erase_local (rtl : Rtl) (obj : rtems_rtl_obj) : Rtl × rtems_rtl_obj :=
  match obj.local_table with
  | none => (rtl, obj)
  | some base =>
    ({ rtl with heap := heap_free rtl.heap base },
     { obj with local_table := none, local_size := 0, local_syms := 0 })

/-- The loop of `rtems_rtl_symbol_obj_erase` (rtl-sym.c:328) over the symbols
`sym = &global_table[s]` with `remaining = global_syms - s` to go. The node of
a symbol outside the live table cannot be read. -/
def erase_loop (heap : Heap) (base : Nat) : Nat → Nat → rtems_rtl_symbols → Option rtems_rtl_symbols
  | 0, _, symbols => some symbols
  | remaining + 1, s, symbols =>
    match deref heap ⟨base, s⟩ with
    | none => none
    | some _ =>
      if !rtems_chain_is_node_off_chain symbols ⟨base, s⟩ then
        erase_loop heap base remaining (s + 1) (rtems_chain_extract symbols ⟨base, s⟩)
      else erase_loop heap base remaining (s + 1) symbols

/-- The function `rtems_rtl_symbol_obj_erase` (rtl-sym.c:320). -/
def rtems_rtl_symbol_obj_erase (rtl : Rtl) (obj : rtems_rtl_obj) : Option (Rtl × rtems_rtl_obj) :=
  match rtems_rtl_symbol_obj_erase_local rtl obj with
  | (rtl1, obj1) =>
    match obj1.global_table with
    | none => some (rtl1, obj1)
    | some base =>
      match erase_loop rtl1.heap base obj1.global_syms 0 rtl1.symbols with
      | none => none
      | some symbols1 =>
        some ({ rtl1 with symbols := symbols1, heap := heap_free rtl1.heap base },
              { obj1 with global_table := none, global_size := 0, global_syms := 0 })

/-- A symbol is linked when a bucket chain of the table holds it. -/
def Linked (symbols : rtems_rtl_symbols) (p : SymPtr) : Prop :=
  ∃ chain, chain ∈ symbols.buckets ∧ p ∈ chain

/-- The state of a table that the operations keep: there are `nbuckets > 0`
buckets, and every linked symbol is live, has a name and sits in the bucket of
the hash of its name. -/
structure TableOk (T : Target) (heap : Heap) (symbols : rtems_rtl_symbols) : Prop where
  len : symbols.buckets.length = symbols.nbuckets
  pos : 0 < symbols.nbuckets
  placed : ∀ i chain, symbols.buckets[i]? = some chain → ∀ p, p ∈ chain →
    ∃ nm, name_of heap p = some nm ∧ rtems_rtl_symbol_hash T nm % symbols.nbuckets = i

/-- A sequence of calls of `rtems_rtl_symbol_global_insert`, one for each
symbol of the list in order. -/
def insert_all (T : Target) (heap : Heap) : rtems_rtl_symbols → List SymPtr → Option rtems_rtl_symbols
  | symbols, [] => some symbols
  | symbols, p :: ps =>
    match rtems_rtl_symbol_global_insert T heap symbols p with
    | none => none
    | some symbols1 => insert_all T heap symbols1 ps

/-- A 32 bit little endian target: pointers of 4 bytes, a `uint_fast32_t` of 32
bits, symbols of 20 bytes and chain controls of 12 bytes. -/
def target32 : Target := ⟨4, false, 32, 20, 12, 32⟩

/-- The bytes of the characters of a string literal. -/
def cstring (s : String) : List Byte := s.data.map (fun c => Fin.ofNat c.toNat)

/-- A heap with one table at address 100 that holds the symbols `alpha`,
`beta` and `gamma`. -/
def scenario_heap : Heap :=
  fun b => if b = 100 then
    some [⟨some (cstring "alpha"), 1, 0⟩, ⟨some (cstring "beta"), 2, 0⟩,
          ⟨some (cstring "gamma"), 3, 0⟩]
  else none

/-- The state before the global table is opened. -/
def scenario_start : Rtl := ⟨⟨[], 0⟩, scenario_heap, []⟩

/-- The state after the global table is opened with 16 buckets. -/
def scenario_opened : Rtl :=
  match rtems_rtl_symbol_table_open target32 (fun _ => some 7) scenario_start 16 with
  | some r => r.2
  | none => scenario_start

/-- The table with 16 buckets after `alpha`, `beta` and `gamma` are inserted:
`alpha` hashes to bucket 11, `beta` to bucket 1 and `gamma` to bucket 8. -/
def scenario_table : rtems_rtl_symbols :=
  { buckets := [[], [⟨100, 1⟩], [], [], [], [], [], [], [⟨100, 2⟩], [], [], [⟨100, 0⟩], [], [],
                [], []],
    nbuckets := 16 }

/-- The invariant of the second loop of `rtems_rtl_symbol_global_add` before
the record `count`, for the table of `n` symbols at `base` and the state `rtl0`
at the start of the loop: the global table is in order, only the table at
`base` was written, every chain of `rtl0` is extended by symbols of the table
at `base` below `count` only, every find that returned a symbol in `rtl0`
returns the same symbol, the name of every record written so far is found,
and a linked symbol of the table has a name that no symbol linked in `rtl0`
and no earlier record has. -/
structure PubInv (T : Target) (base n : Nat) (rtl0 : Rtl) (count : Nat) (rtl : Rtl) : Prop where
  ok : TableOk T rtl.heap rtl.symbols
  errors : rtl.errors = rtl0.errors
  nb : rtl.symbols.nbuckets = rtl0.symbols.nbuckets
  heap_other : ∀ b, b ≠ base → rtl.heap b = rtl0.heap b
  live : ∀ k, k < n → ∃ sym, deref rtl.heap ⟨base, k⟩ = some sym
  chains : ∀ (i : Nat) (c : rtems_chain_control), rtl0.symbols.buckets[i]? = some c →
    ∃ extra, rtl.symbols.buckets[i]? = some (c ++ extra) ∧
      ∀ p, p ∈ extra → p.block = base ∧ p.index < count
  linked_new : ∀ p, Linked rtl.symbols p →
    Linked rtl0.symbols p ∨ (p.block = base ∧ p.index < count)
  keeps : ∀ nm x, rtems_rtl_symbol_global_find T rtl0.heap rtl0.symbols nm = some (some x) →
    rtems_rtl_symbol_global_find T rtl.heap rtl.symbols nm = some (some x)
  found : ∀ k, k < count → ∃ nm x, name_of rtl.heap ⟨base, k⟩ = some nm ∧
    rtems_rtl_symbol_global_find T rtl.heap rtl.symbols nm = some (some x)
  first : ∀ k, Linked rtl.symbols ⟨base, k⟩ →
    (∀ q, Linked rtl0.symbols q → name_of rtl.heap q ≠ name_of rtl.heap ⟨base, k⟩) ∧
    (∀ j, j < k → name_of rtl.heap ⟨base, j⟩ ≠ name_of rtl.heap ⟨base, k⟩)

/-- The state with the table of 16 buckets that holds `alpha`, `beta` and
`gamma`. -/
def scenario_linked : Rtl := ⟨scenario_table, scenario_heap, []⟩

/-- An object without symbol tables. -/
def empty_obj : rtems_rtl_obj := ⟨none, 0, 0, none, 0, 0⟩

/-- An export table for the 32 bit target with the records `beta` and `foo`
and the end marker. -/
def scenario_blob : List Byte :=
  cstring "beta" ++ [0, 9, 0, 0, 0] ++ cstring "foo" ++ [0, 0x11, 0x22, 0x33, 0x44] ++
    [0, 0xDE, 0xAD, 0xBE, 0xEF]

/-- The state after `scenario_blob` is added to `scenario_linked` with the new
table at address 200. -/
def scenario_published : Rtl :=
  match rtems_rtl_symbol_global_add target32 (fun _ => some 200) scenario_linked empty_obj
      scenario_blob scenario_blob.length ([] : List (rtems_rtl_tls_offset Unit)) 0 () with
  | some r => r.2.1
  | none => scenario_linked

/-- The export table `scenario_blob` with a wrong last byte of the marker. -/
def bad_marker_blob : List Byte :=
  cstring "beta" ++ [0, 9, 0, 0, 0] ++ cstring "foo" ++ [0, 0x11, 0x22, 0x33, 0x44] ++
    [0, 0xDE, 0xAD, 0xBE, 0xEE]

/-- A record of an export table: the name and the bytes of the value. -/
abbrev Record := List Byte × List Byte

/-- The bytes of a record: the name, a NUL and the bytes of the value. -/
def encode_record (r : Record) : List Byte := r.1 ++ 0 :: r.2

/-- The bytes of a sequence of records, one after the other. -/
def encode_records : List Record → List Byte
  | [] => []
  | r :: rs => encode_record r ++ encode_records rs

/-- The end of an export table: the nul string and the bytes `DE AD BE EF`. -/
def end_marker : List Byte := [0, 0xDE, 0xAD, 0xBE, 0xEF]

/-- The export table of a sequence of records, as rtl-sym.h describes it. -/
def export_table (recs : List Record) : List Byte := encode_records recs ++ end_marker

/-- A record of a well formed export table: the name is not empty and has no
NUL, and the value has the size of a pointer. -/
def WfRecord (T : Target) (r : Record) : Prop :=
  r.1 ≠ [] ∧ (0 : Byte) ∉ r.1 ∧ r.2.length = T.ptr_bytes

/-- The `n` low bytes of a number, the lowest first. -/
def le_bytes : Nat → Nat → List Byte
  | 0, _ => []
  | n + 1, v => Fin.ofNat (v % 256) :: le_bytes n (v / 256)

/-- The bytes of a pointer sized value in the byte order of the target. -/
def encode_value (T : Target) (v : Nat) : List Byte :=
  if T.big_endian then (le_bytes T.ptr_bytes v).reverse else le_bytes T.ptr_bytes v

/-- The entry of a TLS offset table for the ordinal `k`: the first entry with
that index. -/
def tls_entry {W : Type} (tls_offsets : List (rtems_rtl_tls_offset W)) (k : Nat) :
    Option (rtems_rtl_tls_offset W) :=
  tls_offsets.find? (fun e => e.index = k)

/-- The values of the records from the ordinal `k` on, and the environment
after them, when each record with a TLS entry takes the result of one call of
the offset function of its entry, in the order of the records, and each other
record takes the pointer in its bytes. -/
def published_values {W : Type} (T : Target) (tls_offsets : List (rtems_rtl_tls_offset W)) :
    Nat → List Record → W → List Nat × W
  | _, [], env => ([], env)
  | k, r :: rs, env =>
    let first := resolve_value T r.2 (tls_entry tls_offsets k) env
    let rest := published_values T tls_offsets (k + 1) rs first.2
    (first.1 :: rest.1, rest.2)

/-- The export table of a sequence of names with pointer sized values: for
each record the name, a NUL and the bytes of the value in the byte order of
the target, then one zero byte and the bytes `DE AD BE EF`. -/
def export_table_of (T : Target) (recs : List (List Byte × Nat)) : List Byte :=
  export_table (recs.map (fun r => (r.1, encode_value T r.2)))

/-- An export table of four records for the 32 bit target. -/
def tls_blob : List Byte :=
  export_table_of target32
    [(cstring "a", 1), (cstring "bb", 2), (cstring "ccc", 3), (cstring "tls_var", 0x44332211)]

/-- A TLS offset table with one entry for the ordinal 3. The environment of
the offset function counts its calls; the function returns `0x1000` plus the
number of earlier calls. -/
def tls_table : List (rtems_rtl_tls_offset Nat) :=
  [⟨3, fun calls => (0x1000 + calls, calls + 1)⟩]

/-- The state after `tls_blob` is added to `scenario_linked` with the TLS
table `tls_table` and the new table at address 200. -/
def tls_published : Rtl :=
  match rtems_rtl_symbol_global_add target32 (fun _ => some 200) scenario_linked empty_obj
      tls_blob tls_blob.length tls_table tls_table.length 0 with
  | some r => r.2.1
  | none => scenario_linked

/-- The memory of an export table with the one record `a` and the end marker.
With a declared size of 1 the NUL of the name `a`, at index 1, is outside the
declared size. -/
def short_blob : List Byte := cstring "a" ++ [0, 1, 0, 0, 0, 0, 0xDE, 0xAD, 0xBE, 0xEF]

/-- The state after `short_blob` is added to `scenario_linked` with the
declared size 1 and the new table at address 200. -/
def short_published : Rtl :=
  match rtems_rtl_symbol_global_add target32 (fun _ => some 200) scenario_linked empty_obj
      short_blob 1 ([] : List (rtems_rtl_tls_offset Unit)) 0 () with
  | some r => r.2.1
  | none => scenario_linked

/-- The ownership of the symbols of an object that the linker keeps: no symbol
of the local table is linked, and a linked symbol of the global table is one
of its first `global_syms` entries. -/
structure ObjOk (rtl : Rtl) (obj : rtems_rtl_obj) : Prop where
  local_unlinked : ∀ p, Linked rtl.symbols p → obj.local_table ≠ some p.block
  global_bound : ∀ p, Linked rtl.symbols p → obj.global_table = some p.block →
    p.index < obj.global_syms

/-- The test for a symbol that is not one of the first `global_syms` entries of
the global table of the object. -/
def not_of_obj (obj : rtems_rtl_obj) (q : SymPtr) : Bool :=
  !(decide (obj.global_table = some q.block) && decide (q.index < obj.global_syms))

/-- The object after `scenario_blob` is added: its global table of two symbols
is at address 200. -/
def scenario_obj : rtems_rtl_obj := ⟨none, 0, 0, some 200, 40, 2⟩

/-- The state after `scenario_obj` is erased from `scenario_published`. -/
def scenario_erased : Rtl :=
  match rtems_rtl_symbol_obj_erase scenario_published scenario_obj with
  | some r => r.1
  | none => scenario_published

/-- The C library function `strcmp` on two C strings: ISO C fixes the sign of
the result only, and the result here is that sign, -1, 0 or 1, of the
difference of the first two bytes that differ, taken as `unsigned char`; the
end of a string is its NUL, which is below every byte of a string. -/
def strcmp : List Byte → List Byte → Int
  | [], [] => 0
  | [], _ :: _ => -1
  | _ :: _, [] => 1
  | a :: as, b :: bs => if a = b then strcmp as bs else if a < b then -1 else 1

/-- The function `rtems_rtl_symbol_obj_compare` (rtl-sym.c:238); a NULL name
cannot be handed to `strcmp`. -/
def rtems_rtl_symbol_obj_compare (a b : rtems_rtl_obj_sym) : Option Int :=
  match a.name, b.name with
  | some sa, some sb => some (strcmp sa sb)
  | _, _ => none

/-- Modelled from the spec: the loop of the C library function `bsearch`
(stdlib.h), which the spec calls a binary search, as newlib, the C library of
RTEMS, writes it: the search between `lower` and `upper` that returns the
index of an element for which `compar` returns 0. Every pass makes
`upper - lower` smaller; the first argument bounds the passes. -/
def bsearch_loop (compar : rtems_rtl_obj_sym → rtems_rtl_obj_sym → Option Int)
    (key : rtems_rtl_obj_sym) (base : List rtems_rtl_obj_sym) :
    Nat → Nat → Nat → Option (Option Nat)
  | 0, _, _ => none
  | fuel + 1, lower, upper =>
    if lower < upper then
      match base[(lower + upper) / 2]? with
      | none => none
      | some current =>
        match compar key current with
        | none => none
        | some result =>
          if result < 0 then bsearch_loop compar key base fuel lower ((lower + upper) / 2)
          else if result > 0 then
            bsearch_loop compar key base fuel ((lower + upper) / 2 + 1) upper
          else some (some ((lower + upper) / 2))
    else some none

/-- Modelled from the spec: the C library function `bsearch` (stdlib.h) on an
array of `nmemb` symbols (the size of an element,
`sizeof (rtems_rtl_obj_sym)`, is not zero). The result is the index of the
element found, `some none` is NULL. -/
def bsearch (compar : rtems_rtl_obj_sym → rtems_rtl_obj_sym → Option Int)
    (key : rtems_rtl_obj_sym) (base : List rtems_rtl_obj_sym) (nmemb : Nat) :
    Option (Option Nat) :=
  if nmemb = 0 then some none else bsearch_loop compar key base (nmemb + 1) 0 nmemb

/-- The search of `rtems_rtl_symbol_obj_find` (rtl-sym.c:268 and 280) in one
table of the object: when the count is not zero, `bsearch` with the key
`{ 0 }` whose name is `name`; the match is a pointer into the table. -/
def obj_table_search (heap : Heap) (table : Option Nat) (syms : Nat) (name : List Byte) :
    Option (Option SymPtr) :=
  if syms = 0 then some none
  else
    match table with
    | none => none
    | some base =>
      match heap base with
      | none => none
      | some tbl =>
        match bsearch rtems_rtl_symbol_obj_compare ⟨some name, 0, 0⟩ tbl syms with
        | none => none
        | some none => some none
        | some (some i) => some (some ⟨base, i⟩)

/-- The function `rtems_rtl_symbol_obj_find` (rtl-sym.c:261). -/
def rtems_rtl_symbol_obj_find (T : Target) (rtl : Rtl) (obj : rtems_rtl_obj) (name : List Byte) :
    Option (Option SymPtr) :=
  match obj_table_search rtl.heap obj.local_table obj.local_syms name with
  | none => none
  | some (some m) => some (some m)
  | some none =>
    match obj_table_search rtl.heap obj.global_table obj.global_syms name with
    | none => none
    | some (some m) => some (some m)
    | some none => rtems_rtl_symbol_global_find T rtl.heap rtl.symbols name

/-- The loop of `rtems_rtl_symbol_obj_add` (rtl-sym.c:304) over the symbols
`sym = &global_table[s]` with `remaining = global_syms - s` to go. -/
def obj_add_loop (T : Target) (heap : Heap) (table : Option Nat) :
    Nat → Nat → rtems_rtl_symbols → Option rtems_rtl_symbols
  | 0, _, symbols => some symbols
  | remaining + 1, s, symbols =>
    match table with
    | none => none
    | some base =>
      match rtems_rtl_symbol_global_insert T heap symbols ⟨base, s⟩ with
      | none => none
      | some symbols1 => obj_add_loop T heap table remaining (s + 1) symbols1

/-- The function `rtems_rtl_symbol_obj_add` (rtl-sym.c:295). -/
def rtems_rtl_symbol_obj_add (T : Target) (rtl : Rtl) (obj : rtems_rtl_obj) : Option Rtl :=
  match obj_add_loop T rtl.heap obj.global_table obj.global_syms 0 rtl.symbols with
  | none => none
  | some symbols1 => some { rtl with symbols := symbols1 }

/-- The DJB2 hash as the specification states it, without any bound on the
accumulator: `h = 5381`, then `h = h * 33 + b` for every byte `b`. -/
def djb2 (s : List Byte) : Nat :=
  s.foldl (fun h b => h * 33 + b.val) 5381

/-- The number of linked symbols of a table. -/
def linked_count (symbols : rtems_rtl_symbols) : Nat :=
  symbols.buckets.flatten.length

/-- An object whose global table is the table at address 100 of
`scenario_heap`, with its three symbols. -/
def unpublished_obj : rtems_rtl_obj := ⟨none, 0, 0, some 100, 60, 3⟩

/-- An object with a local table of two symbols at address 50 and the global
table of `scenario_obj`. -/
def local_obj : rtems_rtl_obj := ⟨some 50, 40, 2, some 200, 40, 2⟩

/-- The state `scenario_published` with a local table at address 50 that holds
the symbols `beta` and `x`, in the order of their names. -/
def local_state : Rtl :=
  { scenario_published with
    heap := fun b =>
      if b = 50 then some [⟨some (cstring "beta"), 70, 0⟩, ⟨some (cstring "x"), 71, 0⟩]
      else scenario_published.heap b }

/-- The heap `scenario_heap` with a second table at address 300 that holds
another symbol named `beta`. -/
def dup_heap : Heap :=
  fun b => if b = 300 then some [⟨some (cstring "beta"), 22, 0⟩] else scenario_heap b

/-- The table with 16 buckets after the inserts of `beta` of the table at 100,
`alpha`, `beta` of the table at 300 and `gamma`, in this order. -/
def dup_table : rtems_rtl_symbols :=
  { buckets := [[], [⟨100, 1⟩, ⟨300, 0⟩], [], [], [], [], [], [], [⟨100, 2⟩], [], [],
                [⟨100, 0⟩], [], [], [], []],
    nbuckets := 16 }

/-- The pointers to the `k` symbols from index `s` of the table at `base`, in
the order of the array. -/
def table_ptrs (base s k : Nat) : List SymPtr :=
  (List.range' s k).map (fun i => ⟨base, i⟩)

/-- A state whose table of 16 buckets holds the one symbol `beta` of the table
at address 300 of `dup_heap`. -/
def dup_state : Rtl :=
  ⟨{ buckets := [[], [⟨300, 0⟩], [], [], [], [], [], [], [], [], [], [], [], [], [], []],
     nbuckets := 16 }, dup_heap, []⟩

/-- A list of names in non-decreasing order under `strcmp`. -/
def SortedNames (names : List (List Byte)) : Prop :=
  names.Pairwise (fun a b => strcmp a b ≤ 0)

instance (names : List (List Byte)) : Decidable (SortedNames names) :=
  inferInstanceAs (Decidable (names.Pairwise (fun a b => strcmp a b ≤ 0)))

/-- The contents of a symbol table of an object as `rtems_rtl_symbol_obj_find`
reads it: `names` are the names of its first `syms` symbols, in the order of
the array; when `syms` is not zero the table is live and has these symbols. -/
structure TableNames (heap : Heap) (table : Option Nat) (syms : Nat)
    (names : List (List Byte)) : Prop where
  len : names.length = syms
  live : 0 < syms → ∃ (base : Nat) (tbl : List rtems_rtl_obj_sym),
    table = some base ∧ heap base = some tbl ∧
    ∀ (i : Nat) (nm : List Byte), names[i]? = some nm →
      ∃ sym : rtems_rtl_obj_sym, tbl[i]? = some sym ∧ sym.name = some nm

/-- A TLS offset table with one entry for the ordinal 5 and two entries for
the ordinal 3. -/
def tls_table3 : List (rtems_rtl_tls_offset Nat) :=
  [⟨5, fun calls => (0x500, calls + 1)⟩, ⟨3, fun calls => (0x1000, calls + 1)⟩,
   ⟨3, fun calls => (0x2000, calls + 1)⟩]

/-- The memory of an export table with the one record `a`, whose six bytes
fill a declared size of 6; the byte at index 6 is not zero and the bytes
`DE AD BE EF` follow it. -/
def exact_blob : List Byte := cstring "a" ++ [0, 1, 0, 0, 0, 0x55, 0xDE, 0xAD, 0xBE, 0xEF]

/-- The memory `exact_blob` with a wrong byte at index 7, outside the declared
size of 6. -/
def exact_blob_bad : List Byte := cstring "a" ++ [0, 1, 0, 0, 0, 0x55, 0xDF, 0xAD, 0xBE, 0xEF]

/-- The memory of an export table with the one record `ab` and the end marker.
With a declared size of 1 the NUL of the name `ab`, at index 2, is beyond the
declared size. -/
def long_blob : List Byte := cstring "ab" ++ [0, 1, 0, 0, 0, 0, 0xDE, 0xAD, 0xBE, 0xEF]

/-- The reading of the export table by the second loop of
`rtems_rtl_symbol_global_add` (rtl-sym.c:189 to 198) without the symbol table
it writes to: the state after the first `n` records, which is the index `s`
behind them, their names and values in the order of the records, and the
environment of the TLS offset functions. The record with the ordinal `n` has
its name at `s`, its pointer bytes after the NUL of the name, and the value
that `resolve_value` gives for the entry that
`rtems_rtl_symbol_find_tls_offset` finds for `n`. -/
def decode_first {W : Type} (T : Target) (esyms : List Byte)
    (tls_offsets : List (rtems_rtl_tls_offset W)) (tls_size : Nat) (env : W) :
    Nat → Option (Nat × List (List Byte × Nat) × W)
  | 0 => some (0, [], env)
  | n + 1 =>
    match decode_first T esyms tls_offsets tls_size env n with
    | none => none
    | some (s, recs, env1) =>
      match strlen esyms s with
      | none => none
      | some l =>
        match read_bytes esyms (s + (l + 1)) T.ptr_bytes with
        | none => none
        | some data =>
          match rtems_rtl_symbol_find_tls_offset n tls_offsets tls_size with
          | none => none
          | some tls_off =>
            some (s + (l + 1) + T.ptr_bytes,
                  recs ++ [(string_at esyms s l, (resolve_value T data tls_off env1).1)],
                  (resolve_value T data tls_off env1).2)

/-- The state with the table of 16 buckets after `scenario_blob` is added to
the opened, empty table with the new table at address 300. -/
def fresh_published : Rtl :=
  match rtems_rtl_symbol_global_add target32 (fun _ => some 300) scenario_opened empty_obj
      scenario_blob scenario_blob.length ([] : List (rtems_rtl_tls_offset Unit)) 0 () with
  | some r => r.2.1
  | none => scenario_opened

/-- An export table for the 32 bit target in which the name `foo` occurs
twice, with the record `beta` between the two. -/
def twice_blob : List Byte :=
  export_table_of target32 [(cstring "foo", 1), (cstring "beta", 2), (cstring "foo", 3)]

/-- The state after `twice_blob` is added to `scenario_linked` with the new
table at address 200. -/
def twice_published : Rtl :=
  match rtems_rtl_symbol_global_add target32 (fun _ => some 200) scenario_linked empty_obj
      twice_blob twice_blob.length ([] : List (rtems_rtl_tls_offset Unit)) 0 () with
  | some r => r.2.1
  | none => scenario_linked

/-- The states of the linker that are reachable from a successful
`rtems_rtl_symbol_table_open` with `n` buckets by the operations of rtl-sym.c
that touch the global symbol table, called as the linker calls them:
`rtems_rtl_symbol_global_add` with an allocator that returns memory not in
use, `rtems_rtl_symbol_obj_erase_local` for a local table that holds no linked
symbol, and `rtems_rtl_symbol_obj_erase` for an object that owns its linked
symbols. The step `load` is the loader, outside rtl-sym.c, which builds the
symbol table of an object in memory that was not in use. -/
inductive Reachable (T : Target) (n : Nat) : Rtl → Prop where
  | opened (alloc : Nat → Option Nat) (rtl rtl1 : Rtl) :
    rtems_rtl_symbol_table_open T alloc rtl n = some (true, rtl1) → Reachable T n rtl1
  | load (rtl : Rtl) (a : Nat) (tbl : List rtems_rtl_obj_sym) :
    Reachable T n rtl → rtl.heap a = none →
    Reachable T n { rtl with heap := fun b => if b = a then some tbl else rtl.heap b }
  | insert (rtl : Rtl) (p : SymPtr) (t1 : rtems_rtl_symbols) :
    Reachable T n rtl → rtems_rtl_symbol_global_insert T rtl.heap rtl.symbols p = some t1 →
    Reachable T n { rtl with symbols := t1 }
  | global_add {W : Type} (alloc : Nat → Option Nat) (rtl : Rtl) (obj : rtems_rtl_obj)
    (esyms : List Byte) (size : Nat) (tls_offsets : List (rtems_rtl_tls_offset W))
    (tls_size : Nat) (env : W) (b : Bool) (rtl1 : Rtl) (obj1 : rtems_rtl_obj) (env1 : W) :
    Reachable T n rtl → (∀ k base, alloc k = some base → rtl.heap base = none) →
    rtems_rtl_symbol_global_add T alloc rtl obj esyms size tls_offsets tls_size env
      = some (b, rtl1, obj1, env1) →
    Reachable T n rtl1
  | obj_add (rtl : Rtl) (obj : rtems_rtl_obj) (rtl1 : Rtl) :
    Reachable T n rtl → rtems_rtl_symbol_obj_add T rtl obj = some rtl1 → Reachable T n rtl1
  | erase_local (rtl : Rtl) (obj : rtems_rtl_obj) :
    Reachable T n rtl → (∀ p, Linked rtl.symbols p → obj.local_table ≠ some p.block) →
    Reachable T n (rtems_rtl_symbol_obj_erase_local rtl obj).1
  | erase (rtl : Rtl) (obj : rtems_rtl_obj) (rtl1 : Rtl) (obj1 : rtems_rtl_obj) :
    Reachable T n rtl → ObjOk rtl obj →
    rtems_rtl_symbol_obj_erase rtl obj = some (rtl1, obj1) → Reachable T n rtl1

/-- Modelled from the spec: one step of the C library function `qsort`
(stdlib.h) as an insertion sort: the element `x` is put before the first
element of the sorted list that `compar` orders after it. -/
def qsort_insert {α : Type} (compar : α → α → Option Int) (x : α) : List α → Option (List α)
  | [] => some [x]
  | y :: ys =>
    match compar x y with
    | none => none
    | some result =>
      if result < 0 then some (x :: y :: ys)
      else
        match qsort_insert compar x ys with
        | none => none
        | some zs => some (y :: zs)

/-- Modelled from the spec: the loop of the C library function `qsort` over
the elements that are not yet in the sorted list, the first one first. -/
def qsort_from {α : Type} (compar : α → α → Option Int) : List α → List α → Option (List α)
  | sorted, [] => some sorted
  | sorted, x :: rest =>
    match qsort_insert compar x sorted with
    | none => none
    | some sorted1 => qsort_from compar sorted1 rest

/-- Modelled from the spec: the C library function `qsort` (stdlib.h) on the
first `nmemb` elements of an array, which the spec calls sorting by a total
order. ISO C leaves the order of elements that compare equal open; this is an
insertion sort, which keeps the order they had. An array of less than `nmemb`
elements cannot be sorted, and a comparison that is undefined makes the call
undefined. -/
def qsort {α : Type} (compar : α → α → Option Int) (base : List α) (nmemb : Nat) :
    Option (List α) :=
  if base.length < nmemb then none
  else
    match qsort_from compar [] (base.take nmemb) with
    | none => none
    | some sorted => some (sorted ++ base.drop nmemb)

/-- The call of `qsort` in `rtems_rtl_symbol_obj_sort` (rtl-sym.c:251 and 255)
on one table of the object: the memory of the tables after the call, and
whether every record that is on a chain is in the slot it was in. With a
count of zero nothing is read or written. The records are sorted together with
the index of the slot they come from, which the second result needs. A record
holds its chain node (rtl-sym.h:50) and `qsort` moves whole records: when a
record whose node is on a chain ends in another slot, its neighbours on the
chain point to a slot that holds another node. -/
def sort_table (symbols : rtems_rtl_symbols) (heap : Heap) (table : Option Nat) (syms : Nat) :
    Option (Heap × Bool) :=
  if syms = 0 then some (heap, true)
  else
    match table with
    | none => none
    | some base =>
      match heap base with
      | none => none
      | some tbl =>
        match qsort (fun a b => rtems_rtl_symbol_obj_compare a.2 b.2) tbl.enum syms with
        | none => none
        | some moved =>
          some (fun b => if b = base then some (moved.map Prod.snd) else heap b,
                moved.enum.all (fun slot =>
                  decide (slot.1 = slot.2.1) ||
                    rtems_chain_is_node_off_chain symbols ⟨base, slot.2.1⟩))

/-- The function `rtems_rtl_symbol_obj_sort` (rtl-sym.c:248): the two calls of
`qsort`, which return with both tables sorted. The result is the memory of
the symbol tables after the call and, in the second place, the state of the
linker with this memory. The chains of the global symbol table are lists of
table entries in a state; after a sort that moved the record of a linked
symbol, node and all, the memory of the chains is no such list, and the second
place is `none`: the tables are sorted and there is no state to go on from.
The result `none` of the function is undefined behaviour of `qsort`. -/
def rtems_rtl_symbol_obj_sort (rtl : Rtl) (obj : rtems_rtl_obj) : Option (Heap × Option Rtl) :=
  match sort_table rtl.symbols rtl.heap obj.local_table obj.local_syms with
  | none => none
  | some (heap1, kept1) =>
    match sort_table rtl.symbols heap1 obj.global_table obj.global_syms with
    | none => none
    | some (heap2, kept2) =>
      some (heap2, if kept1 && kept2 then some { rtl with heap := heap2 } else none)

/-- A state with an empty table of 16 buckets, a local table at address 50 with
the symbols `x` and `beta`, and a global table at address 60 with the symbols
`gamma`, `alpha` and `beta`, none of them in the order of the names. -/
def unsorted_state : Rtl :=
  ⟨{ buckets := List.replicate 16 [], nbuckets := 16 },
   fun b =>
     if b = 50 then some [⟨some (cstring "x"), 71, 0⟩, ⟨some (cstring "beta"), 70, 0⟩]
     else if b = 60 then
       some [⟨some (cstring "gamma"), 3, 0⟩, ⟨some (cstring "alpha"), 1, 0⟩,
             ⟨some (cstring "beta"), 2, 0⟩]
     else none,
   []⟩

/-- The object of the two tables of `unsorted_state`. -/
def unsorted_obj : rtems_rtl_obj := ⟨some 50, 40, 2, some 60, 60, 3⟩

/-- The state after the tables of `unsorted_obj` are sorted. -/
def sorted_state : Rtl :=
  match rtems_rtl_symbol_obj_sort unsorted_state unsorted_obj with
  | some (_, some r) => r
  | _ => unsorted_state


/-- The table `table` of `syms` symbols in `heap1` is the table in `heap`
after a sort: its first `syms` symbols are a permutation of the first `syms`
symbols it had, in non-decreasing order under
`rtems_rtl_symbol_obj_compare`, and the symbols behind them are as before. -/
def SortedTable (heap heap1 : Heap) (table : Option Nat) (syms : Nat) : Prop :=
  ∀ (base : Nat) (tbl : List rtems_rtl_obj_sym), 0 < syms → table = some base →
    heap base = some tbl →
    ∃ tbl1 : List rtems_rtl_obj_sym, heap1 base = some tbl1 ∧ tbl1.length = tbl.length ∧
      (tbl1.take syms).Perm (tbl.take syms) ∧ tbl1.drop syms = tbl.drop syms ∧
      (tbl1.take syms).Pairwise
        (fun a b => ∃ r, rtems_rtl_symbol_obj_compare a b = some r ∧ r ≤ 0)

/-- The function `CPU_swap_u32` of the nios2 port (nios2 cpu.h:333) on a
`uint32_t`, a number below `2 ^ 32`. -/
def nios2.CPU_swap_u32 (value : Nat) : Nat :=
  let byte4 := (value >>> 24) &&& 0xff
  let byte3 := (value >>> 16) &&& 0xff
  let byte2 := (value >>> 8) &&& 0xff
  let byte1 := value &&& 0xff
  let swapped := (byte1 <<< 24) % 2 ^ 32 ||| (byte2 <<< 16) % 2 ^ 32 |||
    (byte3 <<< 8) % 2 ^ 32 ||| byte4
  swapped

/-- The function `CPU_swap_u32` of the or1k port (or1k cpu.h:557) on an
`unsigned int` of 32 bits. -/
def or1k.CPU_swap_u32 (value : Nat) : Nat :=
  let byte4 := (value >>> 24) &&& 0xff
  let byte3 := (value >>> 16) &&& 0xff
  let byte2 := (value >>> 8) &&& 0xff
  let byte1 := value &&& 0xff
  let swapped := (byte1 <<< 24) % 2 ^ 32 ||| (byte2 <<< 16) % 2 ^ 32 |||
    (byte3 <<< 8) % 2 ^ 32 ||| byte4
  swapped

/-- The function `CPU_swap_u32` of the ARM port (arm cpu.h:542) in the branch
for `__thumb__` without `__thumb2__`, the one written in C. -/
def arm.CPU_swap_u32 (value : Nat) : Nat :=
  let byte4 := (value >>> 24) &&& 0xff
  let byte3 := (value >>> 16) &&& 0xff
  let byte2 := (value >>> 8) &&& 0xff
  let byte1 := value &&& 0xff
  let swapped := (byte1 <<< 24) % 2 ^ 32 ||| (byte2 <<< 16) % 2 ^ 32 |||
    (byte3 <<< 8) % 2 ^ 32 ||| byte4
  swapped

/-- The fields `uid` and `gid` of `rtems_shell_cmd_t` (rtems/shell.h), the ones
that `rtems_shell_main_cmdchown` reads and writes. -/
structure rtems_shell_cmd_t where
  uid : Nat
  gid : Nat
deriving DecidableEq

/-- The error numbers that `rtems_shell_main_cmdchown` hands to `error`. -/
inductive ShellErrno where
  | EACCES
  | ENOENT
deriving DecidableEq

/-- The lines that `rtems_shell_main_cmdchown` prints: the usage text, or a
command name with the text of an error number. -/
inductive ShellOutput where
  | usage
  | error (cmd : List Byte) (eno : ShellErrno)
deriving DecidableEq

/-- The surroundings of `rtems_shell_main_cmdchown` (main_cmdchown.c), which
are not in the sources at hand and are taken as they come. -/
structure ShellEnv where
  /-- The call `sscanf (s, "%u:%u", &new_uid, &new_gid)` of the C library: from
  the string and the values of the two variables before the call, the result
  of the call and the values of the two variables after it. -/
  sscanf_uid_gid : List Byte → Nat → Nat → Int × Nat × Nat
  /-- The call `sscanf (s, ":%u", &new_gid)` of the C library: from the string
  and the value of the variable before the call, the result and the value of
  the variable after it. -/
  sscanf_gid : List Byte → Nat → Int × Nat
  /-- The result of `getuid ()`. -/
  getuid : Nat
  /-- The function `rtems_shell_lookup_cmd`: the command of a name, `none` for
  NULL. A command is known by its number. -/
  rtems_shell_lookup_cmd : List Byte → Option Nat
  /-- The function `rtems_shell_can_see_cmd`. -/
  rtems_shell_can_see_cmd : rtems_shell_cmd_t → Bool
  /-- The width of `uid_t` in bits. -/
  uid_bits : Nat
  /-- The width of `gid_t` in bits. -/
  gid_bits : Nat

/-- The value `UINT_MAX` of an `unsigned` of 32 bits. -/
def UINT_MAX : Nat := 4294967295

/-- The loop `for (i = 2; i < argc; ++i)` of `rtems_shell_main_cmdchown`
(main_cmdchown.c:93) over the command names `argv[2]` to `argv[argc - 1]`,
with the commands and the lines printed so far. -/
def cmdchown_loop (E : ShellEnv) (task_uid : Nat) (change_uid change_gid : Bool)
    (new_uid new_gid : Nat) :
    List (List Byte) → (Nat → rtems_shell_cmd_t) × List ShellOutput →
      (Nat → rtems_shell_cmd_t) × List ShellOutput
  | [], state => state
  | cmd :: rest, (cmds, out) =>
    match E.rtems_shell_lookup_cmd cmd with
    | some id =>
      if task_uid = 0 ∨ task_uid = (cmds id).uid then
        let cmd1 : rtems_shell_cmd_t :=
          if change_uid then { cmds id with uid := new_uid % 2 ^ E.uid_bits } else cmds id
        let cmd2 : rtems_shell_cmd_t :=
          if change_gid then { cmd1 with gid := new_gid % 2 ^ E.gid_bits } else cmd1
        cmdchown_loop E task_uid change_uid change_gid new_uid new_gid rest
          (fun k => if k = id then cmd2 else cmds k, out)
      else if E.rtems_shell_can_see_cmd (cmds id) then
        cmdchown_loop E task_uid change_uid change_gid new_uid new_gid rest
          (cmds, out ++ [ShellOutput.error cmd ShellErrno.EACCES])
      else
        cmdchown_loop E task_uid change_uid change_gid new_uid new_gid rest
          (cmds, out ++ [ShellOutput.error cmd ShellErrno.ENOENT])
    | none =>
      cmdchown_loop E task_uid change_uid change_gid new_uid new_gid rest
        (cmds, out ++ [ShellOutput.error cmd ShellErrno.ENOENT])

/-- The function `rtems_shell_main_cmdchown` (main_cmdchown.c:59); `argc` is
the length of `argv`. The result is the return value, the commands and the
lines printed. -/
def rtems_shell_main_cmdchown (E : ShellEnv) (cmds : Nat → rtems_shell_cmd_t) :
    List (List Byte) → Int × (Nat → rtems_shell_cmd_t) × List ShellOutput
  | _ :: s :: rest =>
    if s ≠ cstring ":" then
      let scan := E.sscanf_uid_gid s UINT_MAX UINT_MAX
      if scan.1 = 2 then
        (0, cmdchown_loop E E.getuid true true scan.2.1 scan.2.2 rest (cmds, []))
      else if scan.1 = 1 then
        (0, cmdchown_loop E E.getuid true false scan.2.1 scan.2.2 rest (cmds, []))
      else
        let scan2 := E.sscanf_gid s scan.2.2
        if scan2.1 = 1 then
          (0, cmdchown_loop E E.getuid false true scan.2.1 scan2.2 rest (cmds, []))
        else (-1, cmds, [ShellOutput.usage])
    else (0, cmdchown_loop E E.getuid false false UINT_MAX UINT_MAX rest (cmds, []))
  | _ => (-1, cmds, [ShellOutput.usage])

/-- The decimal digits at the start of a string as a number, with the rest of
the string; `none` when the string does not start with a digit. -/
def scan_digits : List Byte → Option (Nat × List Byte)
  | [] => none
  | c :: rest =>
    if 48 ≤ c.val ∧ c.val ≤ 57 then
      match scan_digits rest with
      | some (v, rest1) =>
        some ((c.val - 48) * 10 ^ (rest.length - rest1.length) + v, rest1)
      | none => some (c.val - 48, rest)
    else none

/-- A shell for the scenario: `sscanf` reads plain decimal numbers, the task
has the uid 5, and the commands `ls` and `rm` have the numbers 0 and 1. -/
def demo_shell : ShellEnv where
  sscanf_uid_gid := fun s uid gid =>
    match scan_digits s with
    | none => (0, uid, gid)
    | some (u, rest) =>
      match rest with
      | 58 :: rest1 =>
        match scan_digits rest1 with
        | some (g, _) => (2, u, g)
        | none => (1, u, gid)
      | _ => (1, u, gid)
  sscanf_gid := fun s gid =>
    match s with
    | 58 :: rest =>
      match scan_digits rest with
      | some (g, _) => (1, g)
      | none => (0, gid)
    | _ => (0, gid)
  getuid := 5
  rtems_shell_lookup_cmd := fun name =>
    if name = cstring "ls" then some 0 else if name = cstring "rm" then some 1 else none
  rtems_shell_can_see_cmd := fun _ => true
  uid_bits := 16
  gid_bits := 16

/-- The commands of the scenario: `ls` of the uid 0 and `rm` of the uid 5. -/
def demo_cmds : Nat → rtems_shell_cmd_t :=
  fun k => if k = 1 then ⟨5, 5⟩ else ⟨0, 0⟩

/-- An export table for the 32 bit target with the records `foo` and `beta`,
which are not in the order of their names. -/
def unsorted_blob : List Byte :=
  export_table_of target32 [(cstring "foo", 1), (cstring "beta", 2)]

/-- The state after `unsorted_blob` is added to the opened, empty table with
the new table at address 300: `foo` and `beta` are both linked. -/
def unsorted_published : Rtl :=
  match rtems_rtl_symbol_global_add target32 (fun _ => some 300) scenario_opened empty_obj
      unsorted_blob unsorted_blob.length ([] : List (rtems_rtl_tls_offset Unit)) 0 () with
  | some r => r.2.1
  | none => scenario_opened

/-- The object of `unsorted_published`: its global table of two symbols is at
address 300. -/
def unsorted_published_obj : rtems_rtl_obj := ⟨none, 0, 0, some 300, 40, 2⟩

/-- An export table for the 32 bit target with the records `aaa`, `gamma` and
`beta`. -/
def partly_blob : List Byte :=
  export_table_of target32 [(cstring "aaa", 1), (cstring "gamma", 2), (cstring "beta", 3)]

/-- The state after `partly_blob` is added to `scenario_linked`, which holds
`gamma` and `beta` already, with the new table at address 200: of the new
table only `aaa` is linked. -/
def partly_published : Rtl :=
  match rtems_rtl_symbol_global_add target32 (fun _ => some 200) scenario_linked empty_obj
      partly_blob partly_blob.length ([] : List (rtems_rtl_tls_offset Unit)) 0 () with
  | some r => r.2.1
  | none => scenario_linked

/-- The object of `partly_published`. -/
def partly_obj : rtems_rtl_obj := ⟨none, 0, 0, some 200, 60, 3⟩

/-- The state after the tables of `partly_obj` are sorted in
`partly_published`. -/
def partly_sorted : Rtl :=
  match rtems_rtl_symbol_obj_sort partly_published partly_obj with
  | some (_, some r) => r
  | _ => partly_published

/-! ## Properties of the operations -/

theorem off_chain_iff (symbols : rtems_rtl_symbols) (p : SymPtr) :
    rtems_chain_is_node_off_chain symbols p = true ↔ ¬ Linked symbols p := by
  simp [rtems_chain_is_node_off_chain, Linked]

theorem find_in_chain_defined (heap : Heap) (name : List Byte) (chain : rtems_chain_control)
    (h : ∀ p, p ∈ chain → ∃ nm, name_of heap p = some nm) :
    ∃ r, find_in_chain heap name chain = some r := by
  induction chain with
  | nil => exact ⟨none, rfl⟩
  | cons q rest ih =>
    obtain ⟨nm, hnm⟩ := h q (List.mem_cons_self _ _)
    simp only [find_in_chain, hnm]
    by_cases hq : name = nm
    · simp [hq]
    · simp only [hq, if_false]
      exact ih (fun p hp => h p (List.mem_cons_of_mem _ hp))

theorem find_in_chain_some (heap : Heap) (name : List Byte) (chain : rtems_chain_control)
    (p : SymPtr) (h : find_in_chain heap name chain = some (some p)) :
    p ∈ chain ∧ name_of heap p = some name := by
  induction chain with
  | nil => simp [find_in_chain] at h
  | cons q rest ih =>
    simp only [find_in_chain] at h
    cases hq : name_of heap q with
    | none => simp [hq] at h
    | some nm =>
      simp only [hq] at h
      by_cases hn : name = nm
      · simp only [hn, if_true, Option.some.injEq] at h
        subst h
        exact ⟨List.mem_cons_self _ _, by rw [hq, hn]⟩
      · simp only [hn, if_false] at h
        exact ⟨List.mem_cons_of_mem _ (ih h).1, (ih h).2⟩

theorem find_in_chain_none (heap : Heap) (name : List Byte) (chain : rtems_chain_control)
    (h : find_in_chain heap name chain = some none) :
    ∀ p, p ∈ chain → name_of heap p ≠ some name := by
  induction chain with
  | nil => intro p hp; simp at hp
  | cons q rest ih =>
    simp only [find_in_chain] at h
    cases hq : name_of heap q with
    | none => simp [hq] at h
    | some nm =>
      simp only [hq] at h
      by_cases hn : name = nm
      · simp [hn] at h
      · simp only [hn, if_false] at h
        intro p hp
        rcases List.mem_cons.1 hp with rfl | hp
        · rw [hq]; intro e; exact hn (Option.some.inj e).symm
        · exact ih h p hp


theorem linked_iff_getElem (symbols : rtems_rtl_symbols) (p : SymPtr) :
    Linked symbols p ↔ ∃ (i : Nat) (chain : rtems_chain_control),
      symbols.buckets[i]? = some chain ∧ p ∈ chain := by
  constructor
  · rintro ⟨chain, hc, hp⟩
    obtain ⟨i, hi⟩ := List.mem_iff_getElem?.1 hc
    exact ⟨i, chain, hi, hp⟩
  · rintro ⟨i, chain, hi, hp⟩
    exact ⟨chain, List.mem_iff_getElem?.2 ⟨i, hi⟩, hp⟩

theorem insert_inv (T : Target) (heap : Heap) (t t1 : rtems_rtl_symbols) (p : SymPtr)
    (h : rtems_rtl_symbol_global_insert T heap t p = some t1) :
    ∃ nm chain, name_of heap p = some nm ∧ t.nbuckets ≠ 0 ∧
      t.buckets[rtems_rtl_symbol_hash T nm % t.nbuckets]? = some chain ∧ ¬ Linked t p ∧
      t1 = { t with buckets := t.buckets.set (rtems_rtl_symbol_hash T nm % t.nbuckets) (chain ++ [p]) } := by
  unfold rtems_rtl_symbol_global_insert at h
  cases hn : name_of heap p with
  | none => simp [hn] at h
  | some nm =>
    simp only [hn, bucket_index] at h
    by_cases hz : t.nbuckets = 0
    · simp [hz] at h
    · simp only [hz, if_false, rtems_chain_append] at h
      cases hb : t.buckets[rtems_rtl_symbol_hash T nm % t.nbuckets]? with
      | none => simp [hb] at h
      | some chain =>
        simp only [hb] at h
        by_cases ho : rtems_chain_is_node_off_chain t p = true
        · simp only [ho, if_true, Option.some.injEq] at h
          exact ⟨nm, chain, rfl, hz, hb, (off_chain_iff t p).1 ho, h.symm⟩
        · simp [ho] at h

theorem insert_linked (T : Target) (heap : Heap) (t t1 : rtems_rtl_symbols) (p : SymPtr)
    (h : rtems_rtl_symbol_global_insert T heap t p = some t1) (q : SymPtr) :
    Linked t1 q ↔ Linked t q ∨ q = p := by
  obtain ⟨nm, chain, _, _, hb, _, rfl⟩ := insert_inv T heap t t1 p h
  simp only [linked_iff_getElem]
  have hlt : rtems_rtl_symbol_hash T nm % t.nbuckets < t.buckets.length := by
    by_contra hge
    rw [List.getElem?_eq_none (Nat.le_of_not_lt hge)] at hb
    cases hb
  constructor
  · rintro ⟨i, c, hi, hq⟩
    simp only [List.getElem?_set] at hi
    by_cases hij : rtems_rtl_symbol_hash T nm % t.nbuckets = i
    · simp only [hij, if_true] at hi
      rw [hij] at hlt
      simp only [hlt, if_true, Option.some.injEq] at hi
      subst hi
      rcases List.mem_append.1 hq with hq | hq
      · exact Or.inl ⟨i, chain, hij ▸ hb, hq⟩
      · exact Or.inr (List.mem_singleton.1 hq)
    · simp only [hij, if_false] at hi
      exact Or.inl ⟨i, c, hi, hq⟩
  · rintro (⟨i, c, hi, hq⟩ | rfl)
    · by_cases hij : rtems_rtl_symbol_hash T nm % t.nbuckets = i
      · refine ⟨i, chain ++ [p], ?_, ?_⟩
        · simp only [List.getElem?_set, hij, if_true]
          rw [hij] at hlt
          simp [hlt]
        · rw [hij, hi] at hb
          cases hb
          exact List.mem_append_left _ hq
      · exact ⟨i, c, by simp only [List.getElem?_set, hij, if_false]; exact hi, hq⟩
    · exact ⟨rtems_rtl_symbol_hash T nm % t.nbuckets, chain ++ [q],
        by simp [List.getElem?_set, hlt], by simp⟩

theorem insert_nbuckets (T : Target) (heap : Heap) (t t1 : rtems_rtl_symbols) (p : SymPtr)
    (h : rtems_rtl_symbol_global_insert T heap t p = some t1) : t1.nbuckets = t.nbuckets := by
  obtain ⟨nm, chain, _, _, _, _, rfl⟩ := insert_inv T heap t t1 p h
  rfl

theorem insert_ok (T : Target) (heap : Heap) (t t1 : rtems_rtl_symbols) (p : SymPtr)
    (hok : TableOk T heap t) (h : rtems_rtl_symbol_global_insert T heap t p = some t1) :
    TableOk T heap t1 := by
  obtain ⟨nm, chain, hnm, _, hb, _, rfl⟩ := insert_inv T heap t t1 p h
  refine ⟨by simpa using hok.len, hok.pos, ?_⟩
  intro i c hi q hq
  simp only [List.getElem?_set] at hi
  by_cases hij : rtems_rtl_symbol_hash T nm % t.nbuckets = i
  · simp only [hij, if_true] at hi
    by_cases hlt : i < t.buckets.length
    · simp only [hlt, if_true, Option.some.injEq] at hi
      subst hi
      rcases List.mem_append.1 hq with hq | hq
      · exact hok.placed i chain (hij ▸ hb) q hq
      · rw [List.mem_singleton.1 hq]
        exact ⟨nm, hnm, hij⟩
    · simp [hlt] at hi
  · simp only [hij, if_false] at hi
    exact hok.placed i c hi q hq

theorem find_spec (T : Target) (heap : Heap) (t : rtems_rtl_symbols) (name : List Byte)
    (hok : TableOk T heap t) :
    ∃ r, rtems_rtl_symbol_global_find T heap t name = some r ∧
      (r = none ↔ ∀ p, Linked t p → name_of heap p ≠ some name) ∧
      (∀ p, r = some p → Linked t p ∧ name_of heap p = some name) := by
  have hz : t.nbuckets ≠ 0 := Nat.pos_iff_ne_zero.1 hok.pos
  have hlt : rtems_rtl_symbol_hash T name % t.nbuckets < t.buckets.length := by
    rw [hok.len]; exact Nat.mod_lt _ hok.pos
  have hb : t.buckets[rtems_rtl_symbol_hash T name % t.nbuckets]? =
      some (t.buckets[rtems_rtl_symbol_hash T name % t.nbuckets]) := List.getElem?_eq_getElem hlt
  obtain ⟨r, hr⟩ := find_in_chain_defined heap name
    (t.buckets[rtems_rtl_symbol_hash T name % t.nbuckets])
    (fun p hp => by
      obtain ⟨nm, hnm, _⟩ := hok.placed _ _ hb p hp
      exact ⟨nm, hnm⟩)
  have hfind : rtems_rtl_symbol_global_find T heap t name = some r := by
    simp only [rtems_rtl_symbol_global_find, bucket_index, hz, if_false, hb]
    exact hr
  have hsome : ∀ p, r = some p → Linked t p ∧ name_of heap p = some name := by
    intro p hp
    subst hp
    obtain ⟨hmem, hnm⟩ := find_in_chain_some heap name _ p hr
    exact ⟨(linked_iff_getElem t p).2 ⟨_, _, hb, hmem⟩, hnm⟩
  refine ⟨r, hfind, ?_, hsome⟩
  constructor
  · intro hnone p hp hname
    subst hnone
    obtain ⟨i, c, hi, hpc⟩ := (linked_iff_getElem t p).1 hp
    obtain ⟨nm, hnm, hidx⟩ := hok.placed i c hi p hpc
    rw [hname] at hnm
    cases hnm
    rw [← hidx, hb] at hi
    cases hi
    exact find_in_chain_none heap name _ hr p hpc hname
  · intro hall
    cases r with
    | none => rfl
    | some p => exact absurd (hsome p rfl).2 (hall p (hsome p rfl).1)

theorem insert_all_ok (T : Target) (heap : Heap) (ps : List SymPtr) :
    ∀ (t t1 : rtems_rtl_symbols), TableOk T heap t → insert_all T heap t ps = some t1 →
      TableOk T heap t1 ∧ t1.nbuckets = t.nbuckets ∧ ∀ q, Linked t1 q ↔ Linked t q ∨ q ∈ ps := by
  induction ps with
  | nil =>
    intro t t1 hok h
    simp only [insert_all, Option.some.injEq] at h
    subst h
    exact ⟨hok, rfl, fun q => by simp⟩
  | cons p ps ih =>
    intro t t1 hok h
    simp only [insert_all] at h
    cases hi : rtems_rtl_symbol_global_insert T heap t p with
    | none => simp [hi] at h
    | some t2 =>
      simp only [hi] at h
      obtain ⟨hok1, hn1, hl1⟩ := ih t2 t1 (insert_ok T heap t t2 p hok hi) h
      refine ⟨hok1, by rw [hn1, insert_nbuckets T heap t t2 p hi], fun q => ?_⟩
      rw [hl1, insert_linked T heap t t2 p hi q, List.mem_cons]
      tauto

theorem open_inv (T : Target) (alloc : Nat → Option Nat) (rtl rtl1 : Rtl) (n : Nat)
    (h : rtems_rtl_symbol_table_open T alloc rtl n = some (true, rtl1)) :
    rtl1 = { rtl with symbols := { buckets := List.replicate n [], nbuckets := n } } := by
  unfold rtems_rtl_symbol_table_open at h
  simp only at h
  cases ha : alloc (n * T.chain_bytes % 2 ^ T.size_bits) with
  | none => simp [ha] at h
  | some a =>
    simp only [ha] at h
    split at h
    · simp only [Option.some.injEq, Prod.mk.injEq, true_and] at h
      exact h.symm
    · cases h

theorem empty_table_ok (T : Target) (heap : Heap) (n : Nat) (hn : 0 < n) :
    TableOk T heap { buckets := List.replicate n [], nbuckets := n } := by
  refine ⟨by simp, hn, ?_⟩
  intro i chain hi p hp
  rw [List.getElem?_replicate] at hi
  split at hi
  · cases hi; simp at hp
  · cases hi

theorem empty_table_not_linked (n : Nat) (p : SymPtr) :
    ¬ Linked { buckets := List.replicate n [], nbuckets := n } p := by
  rintro ⟨chain, hc, hp⟩
  rw [List.eq_of_mem_replicate hc] at hp
  simp at hp

/-- C1: on a table opened with `n > 0` buckets, once `sym` is inserted (after
any inserts `before`, and with any inserts `after` it, so `sym` is still
linked), `rtems_rtl_symbol_global_find` of the name of `sym` returns a symbol,
not NULL, whose name is equal to that name byte for byte. -/
theorem insert_then_find (T : Target) (alloc : Nat → Option Nat) (rtl rtl1 : Rtl) (n : Nat)
    (hn : 0 < n) (hopen : rtems_rtl_symbol_table_open T alloc rtl n = some (true, rtl1))
    (before after : List SymPtr) (sym : SymPtr) (t : rtems_rtl_symbols)
    (hrun : insert_all T rtl1.heap rtl1.symbols (before ++ sym :: after) = some t) :
    ∃ nm p, name_of rtl1.heap sym = some nm ∧
      rtems_rtl_symbol_global_find T rtl1.heap t nm = some (some p) ∧
      name_of rtl1.heap p = some nm := by
  have hsym := open_inv T alloc rtl rtl1 n hopen
  have hs : rtl1.symbols = { buckets := List.replicate n [], nbuckets := n } := by rw [hsym]
  rw [hs] at hrun
  obtain ⟨hok, _, hl⟩ := insert_all_ok T rtl1.heap _ _ t (empty_table_ok T rtl1.heap n hn) hrun
  have hlinked : Linked t sym := (hl sym).2 (Or.inr (by simp))
  obtain ⟨i, c, hi, hc⟩ := (linked_iff_getElem t sym).1 hlinked
  obtain ⟨nm, hnm, _⟩ := hok.placed i c hi sym hc
  obtain ⟨r, hr, hnone, hsome⟩ := find_spec T rtl1.heap t nm hok
  cases r with
  | none => exact absurd hnm (hnone.1 rfl sym hlinked)
  | some p => exact ⟨nm, p, hnm, hr, (hsome p rfl).2⟩

/-- C1, at the table with 16 buckets: `beta` is inserted after `alpha` and
before `gamma`. -/
theorem insert_then_find_witness :
    (0 < 16 ∧
      rtems_rtl_symbol_table_open target32 (fun _ => some 7) scenario_start 16
        = some (true, scenario_opened) ∧
      insert_all target32 scenario_opened.heap scenario_opened.symbols
        ([⟨100, 0⟩] ++ ⟨100, 1⟩ :: [⟨100, 2⟩]) = some scenario_table) ∧
    ∃ nm p, name_of scenario_opened.heap ⟨100, 1⟩ = some nm ∧
      rtems_rtl_symbol_global_find target32 scenario_opened.heap scenario_table nm
        = some (some p) ∧
      name_of scenario_opened.heap p = some nm :=
  ⟨⟨by decide, rfl, by decide⟩,
   insert_then_find target32 (fun _ => some 7) scenario_start scenario_opened 16 (by decide) rfl
     [⟨100, 0⟩] [⟨100, 2⟩] ⟨100, 1⟩ scenario_table (by decide)⟩

/-- C2: in every table state reached from a table opened with `n > 0` buckets
by inserts, the linked symbols are the inserted ones, and
`rtems_rtl_symbol_global_find` returns NULL if and only if no linked symbol has
the name; a symbol it returns is linked and has exactly that name. -/
theorem find_null_iff_absent (T : Target) (alloc : Nat → Option Nat) (rtl rtl1 : Rtl) (n : Nat)
    (hn : 0 < n) (hopen : rtems_rtl_symbol_table_open T alloc rtl n = some (true, rtl1))
    (ps : List SymPtr) (t : rtems_rtl_symbols)
    (hrun : insert_all T rtl1.heap rtl1.symbols ps = some t) (name : List Byte) :
    (∀ p, Linked t p ↔ p ∈ ps) ∧
    ∃ r, rtems_rtl_symbol_global_find T rtl1.heap t name = some r ∧
      (r = none ↔ ∀ p, Linked t p → name_of rtl1.heap p ≠ some name) ∧
      (∀ p, r = some p → Linked t p ∧ name_of rtl1.heap p = some name) := by
  have hsym := open_inv T alloc rtl rtl1 n hopen
  have hs : rtl1.symbols = { buckets := List.replicate n [], nbuckets := n } := by rw [hsym]
  rw [hs] at hrun
  obtain ⟨hok, _, hl⟩ := insert_all_ok T rtl1.heap _ _ t (empty_table_ok T rtl1.heap n hn) hrun
  refine ⟨fun p => ?_, find_spec T rtl1.heap t name hok⟩
  rw [hl p]
  constructor
  · rintro (h | h)
    · exact absurd h (empty_table_not_linked n p)
    · exact h
  · exact Or.inr

/-- C2, the scenario of the specification: with 16 buckets and `alpha`, `beta`
and `gamma` inserted, the find of `beta` returns the entry of `beta` and the
find of `delta` returns NULL. -/
theorem find_null_iff_absent_witness :
    (0 < 16 ∧
      rtems_rtl_symbol_table_open target32 (fun _ => some 7) scenario_start 16
        = some (true, scenario_opened) ∧
      insert_all target32 scenario_opened.heap scenario_opened.symbols
        [⟨100, 0⟩, ⟨100, 1⟩, ⟨100, 2⟩] = some scenario_table) ∧
    ((∀ p, Linked scenario_table p ↔ p ∈ [(⟨100, 0⟩ : SymPtr), ⟨100, 1⟩, ⟨100, 2⟩]) ∧
      ∃ r, rtems_rtl_symbol_global_find target32 scenario_opened.heap scenario_table
          (cstring "delta") = some r ∧
        (r = none ↔ ∀ p, Linked scenario_table p →
          name_of scenario_opened.heap p ≠ some (cstring "delta")) ∧
        (∀ p, r = some p → Linked scenario_table p ∧
          name_of scenario_opened.heap p = some (cstring "delta"))) ∧
    rtems_rtl_symbol_global_find target32 scenario_opened.heap scenario_table (cstring "beta")
      = some (some ⟨100, 1⟩) ∧
    name_of scenario_opened.heap ⟨100, 1⟩ = some (cstring "beta") ∧
    rtems_rtl_symbol_global_find target32 scenario_opened.heap scenario_table (cstring "delta")
      = some none :=
  ⟨⟨by decide, rfl, by decide⟩,
   find_null_iff_absent target32 (fun _ => some 7) scenario_start scenario_opened 16 (by decide)
     rfl [⟨100, 0⟩, ⟨100, 1⟩, ⟨100, 2⟩] scenario_table (by decide) (cstring "delta"),
   by decide, by decide, by decide⟩

theorem store_inv (heap heap1 : Heap) (p : SymPtr) (f : rtems_rtl_obj_sym → rtems_rtl_obj_sym)
    (h : store heap p f = some heap1) :
    ∃ tbl sym, heap p.block = some tbl ∧ tbl[p.index]? = some sym ∧
      heap1 = fun b => if b = p.block then some (tbl.set p.index (f sym)) else heap b := by
  unfold store at h
  cases hb : heap p.block with
  | none => simp [hb] at h
  | some tbl =>
    simp only [hb] at h
    cases hs : tbl[p.index]? with
    | none => simp [hs] at h
    | some sym =>
      simp only [hs, Option.some.injEq] at h
      exact ⟨tbl, sym, rfl, hs, h.symm⟩

theorem deref_store (heap heap1 : Heap) (p : SymPtr) (f : rtems_rtl_obj_sym → rtems_rtl_obj_sym)
    (h : store heap p f = some heap1) :
    ∃ sym, deref heap p = some sym ∧ deref heap1 p = some (f sym) ∧
      (∀ q, q ≠ p → deref heap1 q = deref heap q) ∧
      (∀ b, b ≠ p.block → heap1 b = heap b) ∧
      (∀ tbl, heap p.block = some tbl → ∃ tbl1, heap1 p.block = some tbl1 ∧ tbl1.length = tbl.length) := by
  obtain ⟨tbl, sym, hb, hs, rfl⟩ := store_inv heap heap1 p f h
  have hlt : p.index < tbl.length := by
    by_contra hge
    rw [List.getElem?_eq_none (Nat.le_of_not_lt hge)] at hs
    cases hs
  refine ⟨sym, by simp [deref, hb, hs], by simp [deref, hlt], ?_, ?_, ?_⟩
  · intro q hq
    by_cases hqb : q.block = p.block
    · have hqi : p.index ≠ q.index := by
        intro e
        apply hq
        cases q; cases p
        simp only at hqb e
        simp [hqb, e]
      simp [deref, hqb, hb, List.getElem?_set, hqi]
    · simp [deref, hqb]
  · intro b hbne
    simp [hbne]
  · intro tbl1 h1
    rw [hb] at h1
    cases h1
    exact ⟨tbl.set p.index (f sym), by simp, by simp⟩


theorem populate_record_inv {W : Type} (T : Target) (esyms : List Byte)
    (tls_offsets : List (rtems_rtl_tls_offset W)) (tls_size base s count : Nat)
    (rtl rtl1 : Rtl) (env env1 : W) (s1 : Nat)
    (h : populate_record T esyms tls_offsets tls_size base s count rtl env = some (s1, rtl1, env1)) :
    ∃ l data tls_off sym0,
      strlen esyms s = some l ∧
      read_bytes esyms (s + (l + 1)) T.ptr_bytes = some data ∧
      rtems_rtl_symbol_find_tls_offset count tls_offsets tls_size = some tls_off ∧
      deref rtl.heap ⟨base, count⟩ = some sym0 ∧
      deref rtl1.heap ⟨base, count⟩ =
        some ⟨some (string_at esyms s l), (resolve_value T data tls_off env).1, sym0.data⟩ ∧
      (∀ q, q ≠ ⟨base, count⟩ → deref rtl1.heap q = deref rtl.heap q) ∧
      (∀ b, b ≠ base → rtl1.heap b = rtl.heap b) ∧
      (∀ tbl, rtl.heap base = some tbl →
        ∃ tbl1, rtl1.heap base = some tbl1 ∧ tbl1.length = tbl.length) ∧
      s1 = s + (l + 1) + T.ptr_bytes ∧
      env1 = (resolve_value T data tls_off env).2 ∧
      rtl1.errors = rtl.errors ∧
      ((∃ x, rtems_rtl_symbol_global_find T rtl1.heap rtl.symbols (string_at esyms s l)
            = some (some x) ∧ rtl1.symbols = rtl.symbols) ∨
       (rtems_rtl_symbol_global_find T rtl1.heap rtl.symbols (string_at esyms s l) = some none ∧
         rtems_rtl_symbol_global_insert T rtl1.heap rtl.symbols ⟨base, count⟩
            = some rtl1.symbols)) := by
  unfold populate_record at h
  cases hl : strlen esyms s with
  | none => simp [hl] at h
  | some l =>
    simp only [hl] at h
    cases hs1 : store rtl.heap ⟨base, count⟩
        (fun sym => { sym with name := some (string_at esyms s l) }) with
    | none => simp [hs1] at h
    | some heap1 =>
      simp only [hs1] at h
      cases hd : read_bytes esyms (s + (l + 1)) T.ptr_bytes with
      | none => simp [hd] at h
      | some data =>
        simp only [hd] at h
        cases ht : rtems_rtl_symbol_find_tls_offset count tls_offsets tls_size with
        | none => simp [ht] at h
        | some tls_off =>
          simp only [ht] at h
          cases hs2 : store heap1 ⟨base, count⟩
              (fun sym => { sym with value := (resolve_value T data tls_off env).1 }) with
          | none => simp [hs2] at h
          | some heap2 =>
            simp only [hs2] at h
            obtain ⟨sym0, hd0, hd1, hq1, hb1, hlen1⟩ := deref_store _ _ _ _ hs1
            obtain ⟨sym1, hd1', hd2, hq2, hb2, hlen2⟩ := deref_store _ _ _ _ hs2
            rw [hd1] at hd1'
            cases hd1'
            have hheap : ∀ (r : Rtl), r.heap = heap2 →
                deref r.heap ⟨base, count⟩ =
                  some ⟨some (string_at esyms s l), (resolve_value T data tls_off env).1, sym0.data⟩ ∧
                (∀ q, q ≠ ⟨base, count⟩ → deref r.heap q = deref rtl.heap q) ∧
                (∀ b, b ≠ base → r.heap b = rtl.heap b) ∧
                (∀ tbl, rtl.heap base = some tbl →
                  ∃ tbl1, r.heap base = some tbl1 ∧ tbl1.length = tbl.length) := by
              intro r hr
              rw [hr]
              refine ⟨hd2, fun q hq => by rw [hq2 q hq, hq1 q hq],
                fun b hb => by rw [hb2 b hb, hb1 b hb], ?_⟩
              intro tbl htbl
              obtain ⟨tbl1, h1, hl1⟩ := hlen1 tbl htbl
              obtain ⟨tbl2, h2, hl2⟩ := hlen2 tbl1 h1
              exact ⟨tbl2, h2, by rw [hl2, hl1]⟩
            cases hf : rtems_rtl_symbol_global_find T heap2 rtl.symbols (string_at esyms s l) with
            | none => simp [hf] at h
            | some r =>
              cases r with
              | some x =>
                simp only [hf, Option.some.injEq, Prod.mk.injEq] at h
                obtain ⟨rfl, rfl, rfl⟩ := h
                obtain ⟨a, b, c, d⟩ := hheap { rtl with heap := heap2 } rfl
                exact ⟨l, data, tls_off, sym0, rfl, hd, rfl, hd0, a, b, c, d, rfl, rfl, rfl,
                  Or.inl ⟨x, hf, rfl⟩⟩
              | none =>
                simp only [hf] at h
                cases hi : rtems_rtl_symbol_global_insert T heap2 rtl.symbols ⟨base, count⟩ with
                | none => simp [hi] at h
                | some symbols1 =>
                  simp only [hi, Option.some.injEq, Prod.mk.injEq] at h
                  obtain ⟨rfl, rfl, rfl⟩ := h
                  obtain ⟨a, b, c, d⟩ := hheap { rtl with heap := heap2, symbols := symbols1 } rfl
                  exact ⟨l, data, tls_off, sym0, rfl, hd, rfl, hd0, a, b, c, d, rfl, rfl, rfl,
                    Or.inr ⟨hf, hi⟩⟩


theorem name_of_congr (h1 h2 : Heap) (q : SymPtr) (h : deref h1 q = deref h2 q) :
    name_of h1 q = name_of h2 q := by
  simp only [name_of, h]

theorem find_in_chain_congr (h1 h2 : Heap) (name : List Byte) (chain : rtems_chain_control)
    (h : ∀ p, p ∈ chain → name_of h1 p = name_of h2 p) :
    find_in_chain h1 name chain = find_in_chain h2 name chain := by
  induction chain with
  | nil => rfl
  | cons q rest ih =>
    simp only [find_in_chain, h q (List.mem_cons_self _ _)]
    rw [ih (fun p hp => h p (List.mem_cons_of_mem _ hp))]

theorem find_congr (T : Target) (h1 h2 : Heap) (t : rtems_rtl_symbols) (name : List Byte)
    (h : ∀ p, Linked t p → name_of h1 p = name_of h2 p) :
    rtems_rtl_symbol_global_find T h1 t name = rtems_rtl_symbol_global_find T h2 t name := by
  unfold rtems_rtl_symbol_global_find
  cases hb : bucket_index T t name with
  | none => rfl
  | some i =>
    simp only
    cases hc : t.buckets[i]? with
    | none => rfl
    | some chain =>
      simp only
      exact find_in_chain_congr h1 h2 name chain
        (fun p hp => h p ((linked_iff_getElem t p).2 ⟨i, chain, hc, hp⟩))

theorem tableok_congr (T : Target) (h1 h2 : Heap) (t : rtems_rtl_symbols)
    (h : ∀ p, Linked t p → name_of h1 p = name_of h2 p) (hok : TableOk T h2 t) :
    TableOk T h1 t := by
  refine ⟨hok.len, hok.pos, ?_⟩
  intro i chain hi p hp
  rw [h p ((linked_iff_getElem t p).2 ⟨i, chain, hi, hp⟩)]
  exact hok.placed i chain hi p hp

theorem find_in_chain_append (heap : Heap) (name : List Byte) (chain extra : rtems_chain_control)
    (x : SymPtr) (h : find_in_chain heap name chain = some (some x)) :
    find_in_chain heap name (chain ++ extra) = some (some x) := by
  induction chain with
  | nil => simp [find_in_chain] at h
  | cons q rest ih =>
    simp only [find_in_chain, List.cons_append] at h ⊢
    cases hq : name_of heap q with
    | none => simp [hq] at h
    | some nm =>
      simp only [hq] at h ⊢
      by_cases hn : name = nm
      · simpa [hn] using h
      · simp only [hn, if_false] at h ⊢
        exact ih h

theorem find_insert_some (T : Target) (heap : Heap) (t t1 : rtems_rtl_symbols) (p x : SymPtr)
    (name : List Byte) (hi : rtems_rtl_symbol_global_insert T heap t p = some t1)
    (h : rtems_rtl_symbol_global_find T heap t name = some (some x)) :
    rtems_rtl_symbol_global_find T heap t1 name = some (some x) := by
  obtain ⟨nm, chain, _, hz, hb, _, rfl⟩ := insert_inv T heap t t1 p hi
  unfold rtems_rtl_symbol_global_find at h ⊢
  simp only [bucket_index, hz, if_false] at h ⊢
  cases hc : t.buckets[rtems_rtl_symbol_hash T name % t.nbuckets]? with
  | none => simp [hc] at h
  | some c =>
    simp only [hc] at h
    by_cases hij : rtems_rtl_symbol_hash T nm % t.nbuckets
        = rtems_rtl_symbol_hash T name % t.nbuckets
    · rw [hij] at hb
      rw [hb] at hc
      cases hc
      have hlt : rtems_rtl_symbol_hash T name % t.nbuckets < t.buckets.length := by
        by_contra hge
        rw [List.getElem?_eq_none (Nat.le_of_not_lt hge)] at hb
        cases hb
      simp only [hij, List.getElem?_set, if_true, hlt]
      exact find_in_chain_append heap name chain [p] x h
    · simp only [List.getElem?_set, hij, if_false, hc]
      exact h


theorem pubinv_not_linked (T : Target) (base n : Nat) (rtl0 rtl : Rtl) (count k : Nat)
    (hold : ∀ p, Linked rtl0.symbols p → p.block ≠ base)
    (inv : PubInv T base n rtl0 count rtl) (hk : count ≤ k) :
    ¬ Linked rtl.symbols ⟨base, k⟩ := by
  intro hl
  rcases inv.linked_new _ hl with h | ⟨_, h⟩
  · exact hold _ h rfl
  · exact absurd h (Nat.not_lt.2 hk)

theorem pubinv_linked_old (T : Target) (base n : Nat) (rtl0 rtl : Rtl) (count : Nat)
    (inv : PubInv T base n rtl0 count rtl) (p : SymPtr) (h : Linked rtl0.symbols p) :
    Linked rtl.symbols p := by
  obtain ⟨i, c, hi, hp⟩ := (linked_iff_getElem _ p).1 h
  obtain ⟨extra, he, _⟩ := inv.chains i c hi
  exact (linked_iff_getElem _ p).2 ⟨i, c ++ extra, he, List.mem_append_left _ hp⟩

theorem insert_chains (T : Target) (heap : Heap) (t t1 : rtems_rtl_symbols) (p : SymPtr)
    (h : rtems_rtl_symbol_global_insert T heap t p = some t1)
    (i : Nat) (c : rtems_chain_control) (hc : t.buckets[i]? = some c) :
    t1.buckets[i]? = some c ∨ t1.buckets[i]? = some (c ++ [p]) := by
  obtain ⟨nm, chain, _, _, hb, _, rfl⟩ := insert_inv T heap t t1 p h
  by_cases hij : rtems_rtl_symbol_hash T nm % t.nbuckets = i
  · right
    rw [hij, hc] at hb
    cases hb
    have hlt : i < t.buckets.length := by
      by_contra hge
      rw [List.getElem?_eq_none (Nat.le_of_not_lt hge)] at hc
      cases hc
    simp [List.getElem?_set, hij, hlt]
  · left
    simp only [List.getElem?_set, hij, if_false]
    exact hc

theorem pubinv_step {W : Type} (T : Target) (esyms : List Byte)
    (tls_offsets : List (rtems_rtl_tls_offset W)) (tls_size base n : Nat) (rtl0 : Rtl)
    (hold : ∀ p, Linked rtl0.symbols p → p.block ≠ base)
    (s count : Nat) (rtl rtl1 : Rtl) (env env1 : W) (s1 : Nat)
    (inv : PubInv T base n rtl0 count rtl)
    (h : populate_record T esyms tls_offsets tls_size base s count rtl env = some (s1, rtl1, env1)) :
    PubInv T base n rtl0 (count + 1) rtl1 := by
  obtain ⟨l, data, tls_off, sym0, hl, _, _, hd0, hd1, hq, hb, _, _, _, herr, hcase⟩ :=
    populate_record_inv T esyms tls_offsets tls_size base s count rtl rtl1 env env1 s1 h
  have hnl : ¬ Linked rtl.symbols ⟨base, count⟩ :=
    pubinv_not_linked T base n rtl0 rtl count count hold inv (Nat.le_refl _)
  -- the names of the linked symbols and of the earlier records are not touched
  have hname : ∀ q, q ≠ (⟨base, count⟩ : SymPtr) → name_of rtl1.heap q = name_of rtl.heap q :=
    fun q hne => name_of_congr _ _ q (hq q hne)
  have hnameL : ∀ q, Linked rtl.symbols q → name_of rtl1.heap q = name_of rtl.heap q :=
    fun q hlq => hname q (fun e => hnl (e ▸ hlq))
  have hnameK : ∀ k, k < count → name_of rtl1.heap ⟨base, k⟩ = name_of rtl.heap ⟨base, k⟩ := by
    intro k hk
    apply hname
    intro e
    injection e with _ e2
    omega
  have hnew : name_of rtl1.heap ⟨base, count⟩ = some (string_at esyms s l) := by
    simp [name_of, hd1]
  have hok1 : TableOk T rtl1.heap rtl.symbols := tableok_congr T _ _ _ hnameL inv.ok
  have hfind1 : ∀ nm, rtems_rtl_symbol_global_find T rtl1.heap rtl.symbols nm
      = rtems_rtl_symbol_global_find T rtl.heap rtl.symbols nm :=
    fun nm => find_congr T _ _ _ nm hnameL
  have hlive : ∀ k, k < n → ∃ sym, deref rtl1.heap ⟨base, k⟩ = some sym := by
    intro k hk
    by_cases hkc : k = count
    · subst hkc; exact ⟨_, hd1⟩
    · rw [hq ⟨base, k⟩ (by intro e; injection e with _ e2; exact hkc e2)]
      exact inv.live k hk
  have hheap : ∀ b, b ≠ base → rtl1.heap b = rtl0.heap b :=
    fun b hbne => by rw [hb b hbne, inv.heap_other b hbne]
  rcases hcase with ⟨x, hfx, hsym⟩ | ⟨hfn, hins⟩
  · -- the name is found: nothing is linked
    refine ⟨by rw [hsym]; exact hok1, by rw [herr, inv.errors], by rw [hsym, inv.nb], hheap,
      hlive, ?_, ?_, ?_, ?_, ?_⟩
    · intro i c hi
      obtain ⟨extra, he, hx⟩ := inv.chains i c hi
      exact ⟨extra, by rw [hsym]; exact he, fun p hp => ⟨(hx p hp).1, Nat.lt_succ_of_lt (hx p hp).2⟩⟩
    · intro p hp
      rw [hsym] at hp
      rcases inv.linked_new p hp with h1 | ⟨h1, h2⟩
      · exact Or.inl h1
      · exact Or.inr ⟨h1, Nat.lt_succ_of_lt h2⟩
    · intro nm y hy
      rw [hsym, hfind1]
      exact inv.keeps nm y hy
    · intro k hk
      rw [hsym]
      by_cases hkc : k = count
      · subst hkc
        exact ⟨_, x, hnew, hfx⟩
      · have hk2 : k < count := by omega
        obtain ⟨nm, y, h1, h2⟩ := inv.found k hk2
        exact ⟨nm, y, by rw [hnameK k hk2]; exact h1, by rw [hfind1]; exact h2⟩
    · intro k hk
      rw [hsym] at hk
      have hkc : k < count := by
        by_contra hge
        exact pubinv_not_linked T base n rtl0 rtl count k hold inv (Nat.le_of_not_lt hge) hk
      obtain ⟨f1, f2⟩ := inv.first k hk
      refine ⟨fun q hq0 => ?_, fun j hj => ?_⟩
      · rw [hnameL q (pubinv_linked_old T base n rtl0 rtl count inv q hq0), hnameK k hkc]
        exact f1 q hq0
      · rw [hnameK j (by omega), hnameK k hkc]
        exact f2 j hj
  · -- the name is not found: the symbol is linked at the tail of its bucket
    have hok2 : TableOk T rtl1.heap rtl1.symbols := insert_ok T _ _ _ _ hok1 hins
    have hlk := insert_linked T _ _ _ _ hins
    obtain ⟨r0, hr0, hnone0, _⟩ := find_spec T rtl1.heap rtl.symbols (string_at esyms s l) hok1
    rw [hfn] at hr0
    cases hr0
    have hfresh := hnone0.1 rfl
    refine ⟨hok2, by rw [herr, inv.errors],
      by rw [insert_nbuckets T _ _ _ _ hins, inv.nb], hheap, hlive, ?_, ?_, ?_, ?_, ?_⟩
    · intro i c hi
      obtain ⟨extra, he, hx⟩ := inv.chains i c hi
      rcases insert_chains T _ _ _ _ hins i (c ++ extra) he with h1 | h1
      · exact ⟨extra, h1, fun p hp => ⟨(hx p hp).1, Nat.lt_succ_of_lt (hx p hp).2⟩⟩
      · refine ⟨extra ++ [⟨base, count⟩], by rw [h1, List.append_assoc], fun p hp => ?_⟩
        rcases List.mem_append.1 hp with hp | hp
        · exact ⟨(hx p hp).1, Nat.lt_succ_of_lt (hx p hp).2⟩
        · rw [List.mem_singleton.1 hp]
          exact ⟨rfl, Nat.lt_succ_self _⟩
    · intro p hp
      rcases (hlk p).1 hp with hp | hp
      · rcases inv.linked_new p hp with h1 | ⟨h1, h2⟩
        · exact Or.inl h1
        · exact Or.inr ⟨h1, Nat.lt_succ_of_lt h2⟩
      · rw [hp]
        exact Or.inr ⟨rfl, Nat.lt_succ_self _⟩
    · intro nm y hy
      apply find_insert_some T _ _ _ _ y nm hins
      rw [hfind1]
      exact inv.keeps nm y hy
    · intro k hk
      by_cases hkc : k = count
      · subst hkc
        obtain ⟨r, hr, hnone, _⟩ := find_spec T rtl1.heap rtl1.symbols (string_at esyms s l) hok2
        cases r with
        | none => exact absurd hnew (hnone.1 rfl _ ((hlk _).2 (Or.inr rfl)))
        | some y => exact ⟨_, y, hnew, hr⟩
      · have hk2 : k < count := by omega
        obtain ⟨nm, y, h1, h2⟩ := inv.found k hk2
        refine ⟨nm, y, by rw [hnameK k hk2]; exact h1, ?_⟩
        apply find_insert_some T _ _ _ _ y nm hins
        rw [hfind1]
        exact h2
    · intro k hk
      rcases (hlk _).1 hk with hk | hk
      · have hkc : k < count := by
          by_contra hge
          exact pubinv_not_linked T base n rtl0 rtl count k hold inv (Nat.le_of_not_lt hge) hk
        obtain ⟨f1, f2⟩ := inv.first k hk
        refine ⟨fun q hq0 => ?_, fun j hj => ?_⟩
        · rw [hnameL q (pubinv_linked_old T base n rtl0 rtl count inv q hq0), hnameK k hkc]
          exact f1 q hq0
        · rw [hnameK j (by omega), hnameK k hkc]
          exact f2 j hj
      · have hkc : k = count := by injection hk
        rw [hkc, hnew]
        refine ⟨fun q hq0 => ?_, fun j hj => ?_⟩
        · exact hfresh q (pubinv_linked_old T base n rtl0 rtl count inv q hq0)
        · obtain ⟨nm, y, h1, h2⟩ := inv.found j hj
          rw [hnameK j hj, h1]
          intro e
          cases e
          rw [← hfind1, hfn] at h2
          cases h2

theorem count_loop_step (T : Target) (esyms : List Byte) (size fuel s count : Nat)
    (r : Nat × Nat) (h : count_loop T esyms size (fuel + 1) s count = some (some r)) :
    (r = (s, count) ∧ (¬ s < size ∨ esyms[s]? = some 0)) ∨
    (s < size ∧ ∃ c l, esyms[s]? = some c ∧ c ≠ 0 ∧ strlen esyms s = some l ∧
      esyms[s + l]? = some 0 ∧ s + l ≤ size ∧
      count_loop T esyms size fuel (s + (l + T.ptr_bytes + 1)) (count + 1) = some (some r)) := by
  unfold count_loop at h
  by_cases hs : s < size
  · simp only [hs, if_true] at h
    cases hc : esyms[s]? with
    | none => simp [hc] at h
    | some c =>
      simp only [hc] at h
      by_cases hz : c = 0
      · simp only [hz, ne_eq, not_true_eq_false, if_false, Option.some.injEq] at h
        exact Or.inl ⟨h.symm, Or.inr (by rw [hz])⟩
      · simp only [ne_eq, hz, not_false_eq_true, if_true] at h
        cases hl : strlen esyms s with
        | none => simp [hl] at h
        | some l =>
          simp only [hl] at h
          cases he : esyms[s + l]? with
          | none => simp [he] at h
          | some e =>
            simp only [he] at h
            by_cases hbad : e ≠ 0 ∨ s + l > size
            · simp [hbad] at h
            · simp only [hbad, if_false] at h
              have he0 : e = 0 := by
                by_contra hne
                exact hbad (Or.inl hne)
              have hle : s + l ≤ size := by
                by_contra hgt
                exact hbad (Or.inr (Nat.lt_of_not_le hgt))
              exact Or.inr ⟨hs, c, l, rfl, hz, rfl, by rw [he, he0], hle, h⟩
  · simp only [hs, if_false, Option.some.injEq] at h
    exact Or.inl ⟨h.symm, Or.inl hs⟩

theorem populate_loop_induct {W : Type} (T : Target) (esyms : List Byte) (size : Nat)
    (tls_offsets : List (rtems_rtl_tls_offset W)) (tls_size base : Nat)
    (P : Nat → Nat → Rtl → W → Prop)
    (hstep : ∀ s count rtl env s1 rtl1 env1, P s count rtl env →
      populate_record T esyms tls_offsets tls_size base s count rtl env = some (s1, rtl1, env1) →
      P s1 (count + 1) rtl1 env1) :
    ∀ (fuel s count : Nat) (rtl : Rtl) (env : W) (rtl1 : Rtl) (env1 : W) (r : Nat × Nat),
      P s count rtl env →
      populate_loop T esyms size tls_offsets tls_size base fuel s count rtl env = some (rtl1, env1) →
      count_loop T esyms size fuel s count = some (some r) →
      P r.1 r.2 rtl1 env1 := by
  intro fuel
  induction fuel with
  | zero =>
    intro s count rtl env rtl1 env1 r _ h _
    simp [populate_loop] at h
  | succ fuel ih =>
    intro s count rtl env rtl1 env1 r hP h hc
    rcases count_loop_step T esyms size fuel s count r hc with ⟨rfl, hend⟩ | ⟨hs, c, l, hcs, hcz, hl, _, _, hrest⟩
    · unfold populate_loop at h
      rcases hend with hs | hz
      · simp only [hs, if_false, Option.some.injEq, Prod.mk.injEq] at h
        obtain ⟨rfl, rfl⟩ := h
        exact hP
      · by_cases hs : s < size
        · simp only [hs, if_true, hz, ne_eq, not_true_eq_false, if_false, Option.some.injEq,
            Prod.mk.injEq] at h
          obtain ⟨rfl, rfl⟩ := h
          exact hP
        · simp only [hs, if_false, Option.some.injEq, Prod.mk.injEq] at h
          obtain ⟨rfl, rfl⟩ := h
          exact hP
    · unfold populate_loop at h
      simp only [hs, if_true, hcs, ne_eq, hcz, not_false_eq_true] at h
      cases hrec : populate_record T esyms tls_offsets tls_size base s count rtl env with
      | none => simp [hrec] at h
      | some res =>
        obtain ⟨s1, rtl2, env2⟩ := res
        simp only [hrec] at h
        obtain ⟨l2, _, _, _, hl2, _, _, _, _, _, _, _, hs1, _⟩ :=
          populate_record_inv T esyms tls_offsets tls_size base s count rtl rtl2 env env2 s1 hrec
        rw [hl] at hl2
        cases hl2
        have hs1' : s1 = s + (l + T.ptr_bytes + 1) := by omega
        rw [hs1'] at h
        exact ih _ _ _ _ _ _ r (by rw [← hs1']; exact hstep _ _ _ _ _ _ _ hP hrec) h hrest


theorem global_add_inv {W : Type} (T : Target) (alloc : Nat → Option Nat) (rtl : Rtl)
    (obj : rtems_rtl_obj) (esyms : List Byte) (size : Nat)
    (tls_offsets : List (rtems_rtl_tls_offset W)) (tls_size : Nat) (env : W)
    (b : Bool) (rtl1 : Rtl) (obj1 : rtems_rtl_obj) (env1 : W)
    (h : rtems_rtl_symbol_global_add T alloc rtl obj esyms size tls_offsets tls_size env
      = some (b, rtl1, obj1, env1)) :
    (b = false ∧ env1 = env ∧
      ((count_loop T esyms size (size + 1) 0 0 = some none ∧ obj1 = obj ∧
          rtl1 = rtems_rtl_set_error rtl Errno.EINVAL "invalid exported symbol table") ∨
       (∃ s count marker, count_loop T esyms size (size + 1) 0 0 = some (some (s, count)) ∧
          read_marker esyms s = some marker ∧ marker ≠ 0xdeadbeef ∧ obj1 = obj ∧
          rtl1 = rtems_rtl_set_error rtl Errno.ENOMEM "invalid export symbol table") ∨
       (∃ s count, count_loop T esyms size (size + 1) 0 0 = some (some (s, count)) ∧
          read_marker esyms s = some 0xdeadbeef ∧ alloc (count * T.sym_bytes) = none ∧
          obj1 = { obj with global_size := 0, global_table := none } ∧
          rtl1 = rtems_rtl_set_error rtl Errno.ENOMEM "no memory for global symbols"))) ∨
    (b = true ∧ ∃ s count base,
      count_loop T esyms size (size + 1) 0 0 = some (some (s, count)) ∧
      read_marker esyms s = some 0xdeadbeef ∧ alloc (count * T.sym_bytes) = some base ∧
      populate_loop T esyms size tls_offsets tls_size base (size + 1) 0 0
        { rtl with heap := heap_alloc rtl.heap base count } env = some (rtl1, env1) ∧
      obj1 = { obj with global_size := count * T.sym_bytes, global_table := some base,
                        global_syms := count }) := by
  unfold rtems_rtl_symbol_global_add at h
  cases hc : count_loop T esyms size (size + 1) 0 0 with
  | none => simp [hc] at h
  | some r =>
    cases r with
    | none =>
      simp only [hc, Option.some.injEq, Prod.mk.injEq] at h
      obtain ⟨rfl, rfl, rfl, rfl⟩ := h
      exact Or.inl ⟨rfl, rfl, Or.inl ⟨rfl, rfl, rfl⟩⟩
    | some sc =>
      obtain ⟨s, count⟩ := sc
      simp only [hc] at h
      cases hm : read_marker esyms s with
      | none => simp [hm] at h
      | some marker =>
        simp only [hm] at h
        by_cases hne : marker ≠ 0xdeadbeef
        · rw [if_pos hne] at h
          simp only [Option.some.injEq, Prod.mk.injEq] at h
          obtain ⟨rfl, rfl, rfl, rfl⟩ := h
          exact Or.inl ⟨rfl, rfl, Or.inr (Or.inl ⟨s, count, marker, rfl, hm, hne, rfl, rfl⟩)⟩
        · have hme : marker = 0xdeadbeef := not_not.1 hne
          rw [if_neg hne] at h
          cases ha : alloc (count * T.sym_bytes) with
          | none =>
            simp only [ha, Option.some.injEq, Prod.mk.injEq] at h
            obtain ⟨rfl, rfl, rfl, rfl⟩ := h
            exact Or.inl ⟨rfl, rfl, Or.inr (Or.inr ⟨s, count, rfl, by rw [hm, hme], ha, rfl, rfl⟩)⟩
          | some base =>
            simp only [ha] at h
            cases hp : populate_loop T esyms size tls_offsets tls_size base (size + 1) 0 0
                { rtl with heap := heap_alloc rtl.heap base count } env with
            | none => simp [hp] at h
            | some res =>
              obtain ⟨rtl2, env2⟩ := res
              simp only [hp, Option.some.injEq, Prod.mk.injEq] at h
              obtain ⟨rfl, rfl, rfl, rfl⟩ := h
              exact Or.inr ⟨rfl, s, count, base, rfl, by rw [hm, hme], ha, hp, rfl⟩

theorem linked_block_live (T : Target) (heap : Heap) (t : rtems_rtl_symbols)
    (hok : TableOk T heap t) (p : SymPtr) (hp : Linked t p) : heap p.block ≠ none := by
  obtain ⟨i, c, hi, hc⟩ := (linked_iff_getElem t p).1 hp
  obtain ⟨nm, hnm, _⟩ := hok.placed i c hi p hc
  intro hnone
  simp [name_of, deref, hnone] at hnm

theorem deref_heap_alloc (heap : Heap) (base count : Nat) (p : SymPtr) (hp : p.block ≠ base) :
    deref (heap_alloc heap base count) p = deref heap p := by
  simp [deref, heap_alloc, hp]

theorem pubinv_init (T : Target) (rtl : Rtl) (base count : Nat)
    (hok : TableOk T rtl.heap rtl.symbols) (hfresh : rtl.heap base = none) :
    (∀ p, Linked rtl.symbols p → p.block ≠ base) ∧
    PubInv T base count { rtl with heap := heap_alloc rtl.heap base count } 0
      { rtl with heap := heap_alloc rtl.heap base count } := by
  have hold : ∀ p, Linked rtl.symbols p → p.block ≠ base := by
    intro p hp e
    exact linked_block_live T rtl.heap rtl.symbols hok p hp (by rw [e]; exact hfresh)
  refine ⟨hold, ?_, rfl, rfl, fun _ _ => rfl, ?_, ?_, fun p hp => Or.inl hp,
    fun _ _ h => h, fun k hk => absurd hk (Nat.not_lt_zero k), ?_⟩
  · exact tableok_congr T _ _ _
      (fun p hp => name_of_congr _ _ p (deref_heap_alloc rtl.heap base count p (hold p hp))) hok
  · intro k hk
    exact ⟨⟨none, 0, 0⟩, by simp [deref, heap_alloc, hk]⟩
  · intro i c hi
    exact ⟨[], by simpa using hi, fun p hp => by simp at hp⟩
  · intro k hk
    exact absurd rfl (hold _ hk)

theorem global_add_true_inv {W : Type} (T : Target) (alloc : Nat → Option Nat) (rtl : Rtl)
    (obj : rtems_rtl_obj) (esyms : List Byte) (size : Nat)
    (tls_offsets : List (rtems_rtl_tls_offset W)) (tls_size : Nat) (env : W)
    (rtl1 : Rtl) (obj1 : rtems_rtl_obj) (env1 : W)
    (hok : TableOk T rtl.heap rtl.symbols)
    (hfresh : ∀ n base, alloc n = some base → rtl.heap base = none)
    (h : rtems_rtl_symbol_global_add T alloc rtl obj esyms size tls_offsets tls_size env
      = some (true, rtl1, obj1, env1)) :
    ∃ base count,
      obj1 = { obj with global_size := count * T.sym_bytes, global_table := some base,
                        global_syms := count } ∧
      rtl.heap base = none ∧ (∀ p, Linked rtl.symbols p → p.block ≠ base) ∧
      PubInv T base count { rtl with heap := heap_alloc rtl.heap base count } count rtl1 := by
  rcases global_add_inv T alloc rtl obj esyms size tls_offsets tls_size env true rtl1 obj1 env1 h
    with ⟨hb, _⟩ | ⟨_, s, count, base, hc, _, ha, hp, hobj⟩
  · cases hb
  · have hf := hfresh _ _ ha
    obtain ⟨hold, hinit⟩ := pubinv_init T rtl base count hok hf
    refine ⟨base, count, hobj, hf, hold, ?_⟩
    exact populate_loop_induct T esyms size tls_offsets tls_size base
      (fun _ c r _ => PubInv T base count { rtl with heap := heap_alloc rtl.heap base count } c r)
      (fun s c r e s1 r1 e1 hP hrec =>
        pubinv_step T esyms tls_offsets tls_size base count
          { rtl with heap := heap_alloc rtl.heap base count } hold s c r r1 e e1 s1 hP hrec)
      (size + 1) 0 0 _ env rtl1 env1 (s, count) hinit hp hc

theorem marker_value (b1 b2 b3 b4 : Byte) :
    ((((((b1.val <<< 8) % 2 ^ 32) ||| b2.val) <<< 8) % 2 ^ 32 ||| b3.val) <<< 8) % 2 ^ 32 ||| b4.val
      = b1.val * 16777216 + b2.val * 65536 + b3.val * 256 + b4.val := by
  have h1 := b1.isLt
  have h2 := b2.isLt
  have h3 := b3.isLt
  have h4 := b4.isLt
  have hor : ∀ a b : Nat, b < 256 → (a <<< 8) % 2 ^ 32 ||| b = (a * 256) % 2 ^ 32 + b := by
    intro a b hb
    rw [Nat.shiftLeft_eq]
    have hdvd : (a * 2 ^ 8) % 2 ^ 32 = 2 ^ 8 * ((a * 2 ^ 8) % 2 ^ 32 / 2 ^ 8) := by
      have : 2 ^ 8 ∣ (a * 2 ^ 8) % 2 ^ 32 :=
        (Nat.dvd_mod_iff (by norm_num : 2 ^ 8 ∣ 2 ^ 32)).2 (Dvd.intro_left a rfl)
      exact (Nat.mul_div_cancel' this).symm
    rw [hdvd, ← Nat.mul_add_lt_is_or (by simpa using hb), ← hdvd]
    norm_num
  rw [hor _ _ h2]
  rw [hor _ _ h3, hor _ _ h4]
  omega

theorem read_marker_spec (esyms : List Byte) (s : Nat) (b1 b2 b3 b4 : Byte)
    (h1 : esyms[s + 1]? = some b1) (h2 : esyms[s + 2]? = some b2)
    (h3 : esyms[s + 3]? = some b3) (h4 : esyms[s + 4]? = some b4) :
    read_marker esyms s = some (b1.val * 16777216 + b2.val * 65536 + b3.val * 256 + b4.val) := by
  simp only [read_marker, h1, h2, h3, h4]
  rw [marker_value]

theorem read_marker_inv (esyms : List Byte) (s m : Nat) (h : read_marker esyms s = some m) :
    ∃ b1 b2 b3 b4, esyms[s + 1]? = some b1 ∧ esyms[s + 2]? = some b2 ∧
      esyms[s + 3]? = some b3 ∧ esyms[s + 4]? = some b4 ∧
      m = b1.val * 16777216 + b2.val * 65536 + b3.val * 256 + b4.val := by
  cases h1 : esyms[s + 1]? with
  | none => simp [read_marker, h1] at h
  | some b1 =>
    cases h2 : esyms[s + 2]? with
    | none => simp [read_marker, h1, h2] at h
    | some b2 =>
      cases h3 : esyms[s + 3]? with
      | none => simp [read_marker, h1, h2, h3] at h
      | some b3 =>
        cases h4 : esyms[s + 4]? with
        | none => simp [read_marker, h1, h2, h3, h4] at h
        | some b4 =>
          rw [read_marker_spec esyms s b1 b2 b3 b4 h1 h2 h3 h4] at h
          exact ⟨b1, b2, b3, b4, rfl, rfl, rfl, rfl, (Option.some.inj h).symm⟩

theorem marker_bytes (b1 b2 b3 b4 : Byte) :
    b1.val * 16777216 + b2.val * 65536 + b3.val * 256 + b4.val = 0xdeadbeef ↔
      b1 = 0xDE ∧ b2 = 0xAD ∧ b3 = 0xBE ∧ b4 = 0xEF := by
  have h1 := b1.isLt
  have h2 := b2.isLt
  have h3 := b3.isLt
  have h4 := b4.isLt
  constructor
  · intro h
    refine ⟨Fin.ext ?_, Fin.ext ?_, Fin.ext ?_, Fin.ext ?_⟩
    · show b1.val = 0xDE
      omega
    · show b2.val = 0xAD
      omega
    · show b3.val = 0xBE
      omega
    · show b4.val = 0xEF
      omega
  · rintro ⟨rfl, rfl, rfl, rfl⟩
    rfl


theorem scenario_table_ok : TableOk target32 scenario_heap scenario_table :=
  (insert_all_ok target32 scenario_heap [⟨100, 0⟩, ⟨100, 1⟩, ⟨100, 2⟩]
    { buckets := List.replicate 16 [], nbuckets := 16 } scenario_table
    (empty_table_ok target32 scenario_heap 16 (by decide)) (by decide)).1

theorem scenario_fresh (a : Nat) (ha : scenario_heap a = none) :
    ∀ n base, (fun _ : Nat => some a) n = some base → scenario_heap base = none := by
  intro n base h
  cases h
  exact ha

theorem global_add_false_inv {W : Type} (T : Target) (alloc : Nat → Option Nat)
    (rtl : Rtl) (obj : rtems_rtl_obj) (esyms : List Byte) (size : Nat)
    (tls_offsets : List (rtems_rtl_tls_offset W)) (tls_size : Nat) (env : W)
    (rtl1 : Rtl) (obj1 : rtems_rtl_obj) (env1 : W)
    (h : rtems_rtl_symbol_global_add T alloc rtl obj esyms size tls_offsets tls_size env
      = some (false, rtl1, obj1, env1)) :
    rtl1.symbols = rtl.symbols ∧ rtl1.heap = rtl.heap ∧ obj1.global_syms = obj.global_syms := by
  rcases global_add_inv T alloc rtl obj esyms size tls_offsets tls_size env false rtl1 obj1 env1 h
    with ⟨_, _, hcase⟩ | ⟨hb, _⟩
  · rcases hcase with ⟨_, rfl, rfl⟩ | ⟨_, _, _, _, _, _, rfl, rfl⟩ | ⟨_, _, _, _, _, rfl, rfl⟩
    · exact ⟨rfl, rfl, rfl⟩
    · exact ⟨rfl, rfl, rfl⟩
    · exact ⟨rfl, rfl, rfl⟩
  · cases hb

/-- C8: whenever `rtems_rtl_symbol_global_add` returns false (an invalid name,
a bad end marker or a failed allocation), the global symbol table, with every
bucket chain, and the symbol tables in memory are what they were before the
call, and `global_syms` of the object is unchanged. -/
theorem global_add_failure_atomic {W : Type} (T : Target) (alloc : Nat → Option Nat)
    (rtl : Rtl) (obj : rtems_rtl_obj) (esyms : List Byte) (size : Nat)
    (tls_offsets : List (rtems_rtl_tls_offset W)) (tls_size : Nat) (env : W)
    (rtl1 : Rtl) (obj1 : rtems_rtl_obj) (env1 : W)
    (h : rtems_rtl_symbol_global_add T alloc rtl obj esyms size tls_offsets tls_size env
      = some (false, rtl1, obj1, env1)) :
    rtl1.symbols.buckets = rtl.symbols.buckets ∧ rtl1.symbols = rtl.symbols ∧
      rtl1.heap = rtl.heap ∧ obj1.global_syms = obj.global_syms := by
  obtain ⟨h1, h2, h3⟩ := global_add_false_inv T alloc rtl obj esyms size tls_offsets tls_size
    env rtl1 obj1 env1 h
  exact ⟨by rw [h1], h1, h2, h3⟩

/-- C8, at a table with a bad end marker, and at a failed allocation. -/
theorem global_add_failure_atomic_witness :
    rtems_rtl_symbol_global_add target32 (fun _ => some 200) scenario_linked empty_obj
        bad_marker_blob bad_marker_blob.length ([] : List (rtems_rtl_tls_offset Unit)) 0 ()
      = some (false, rtems_rtl_set_error scenario_linked Errno.ENOMEM "invalid export symbol table",
              empty_obj, ()) ∧
    (rtems_rtl_set_error scenario_linked Errno.ENOMEM "invalid export symbol table").symbols.buckets
        = scenario_linked.symbols.buckets ∧
    (rtems_rtl_set_error scenario_linked Errno.ENOMEM "invalid export symbol table").symbols
        = scenario_linked.symbols ∧
    (rtems_rtl_set_error scenario_linked Errno.ENOMEM "invalid export symbol table").heap
        = scenario_linked.heap ∧
    empty_obj.global_syms = empty_obj.global_syms :=
  ⟨rfl, global_add_failure_atomic target32 (fun _ => some 200) scenario_linked empty_obj
    bad_marker_blob bad_marker_blob.length ([] : List (rtems_rtl_tls_offset Unit)) 0 ()
    (rtems_rtl_set_error scenario_linked Errno.ENOMEM "invalid export symbol table")
    empty_obj () rfl⟩


/-- C4: `rtems_rtl_symbol_global_add` links a decoded symbol only if no symbol
of its name is found in the global table. For every name for which
`rtems_rtl_symbol_global_find` returned a symbol `x` before the call it returns
the same symbol `x`, with the same fields, after the call, whether the call
returns true or false; a symbol that the call links has a name that was not
found before the call and that no other linked symbol has. -/
theorem global_add_keeps_found {W : Type} (T : Target) (alloc : Nat → Option Nat)
    (rtl : Rtl) (obj : rtems_rtl_obj) (esyms : List Byte) (size : Nat)
    (tls_offsets : List (rtems_rtl_tls_offset W)) (tls_size : Nat) (env : W)
    (b : Bool) (rtl1 : Rtl) (obj1 : rtems_rtl_obj) (env1 : W)
    (hok : TableOk T rtl.heap rtl.symbols)
    (hfresh : ∀ n base, alloc n = some base → rtl.heap base = none)
    (h : rtems_rtl_symbol_global_add T alloc rtl obj esyms size tls_offsets tls_size env
      = some (b, rtl1, obj1, env1)) :
    (∀ name x, rtems_rtl_symbol_global_find T rtl.heap rtl.symbols name = some (some x) →
      rtems_rtl_symbol_global_find T rtl1.heap rtl1.symbols name = some (some x) ∧
      deref rtl1.heap x = deref rtl.heap x) ∧
    (∀ p, Linked rtl1.symbols p → ¬ Linked rtl.symbols p →
      (∀ nm, name_of rtl1.heap p = some nm →
        rtems_rtl_symbol_global_find T rtl.heap rtl.symbols nm = some none) ∧
      (∀ q, Linked rtl1.symbols q → q ≠ p → name_of rtl1.heap q ≠ name_of rtl1.heap p)) := by
  cases b with
  | false =>
    obtain ⟨hs, hh, _⟩ := global_add_false_inv T alloc rtl obj esyms size tls_offsets
      tls_size env rtl1 obj1 env1 h
    rw [hs, hh]
    exact ⟨fun name x hx => ⟨hx, rfl⟩, fun p hp hnp => absurd hp hnp⟩
  | true =>
    obtain ⟨base, count, _, hf, hold, inv⟩ := global_add_true_inv T alloc rtl obj esyms size
      tls_offsets tls_size env rtl1 obj1 env1 hok hfresh h
    have hderef : ∀ q, Linked rtl.symbols q → deref rtl1.heap q = deref rtl.heap q := by
      intro q hq
      have hqb := hold q hq
      have h1 : rtl1.heap q.block = rtl.heap q.block := by
        rw [inv.heap_other q.block hqb]
        simp [heap_alloc, hqb]
      simp only [deref, h1]
    have hfind0 : ∀ nm, rtems_rtl_symbol_global_find T (heap_alloc rtl.heap base count)
        rtl.symbols nm = rtems_rtl_symbol_global_find T rtl.heap rtl.symbols nm :=
      fun nm => find_congr T _ _ _ nm
        (fun p hp => name_of_congr _ _ p (deref_heap_alloc rtl.heap base count p (hold p hp)))
    refine ⟨fun name x hx => ?_, fun p hp hnp => ?_⟩
    · obtain ⟨r, hr, _, hsome⟩ := find_spec T rtl.heap rtl.symbols name hok
      rw [hx] at hr
      cases hr
      exact ⟨inv.keeps name x (by rw [← hfind0 name] at hx; exact hx), hderef x (hsome x rfl).1⟩
    · have hpb : p.block = base ∧ p.index < count := by
        rcases inv.linked_new p hp with h1 | h1
        · exact absurd h1 hnp
        · exact h1
      have hpe : p = ⟨base, p.index⟩ := by
        cases p
        simp only at hpb
        simp [hpb.1]
      rw [hpe] at hp
      obtain ⟨f1, f2⟩ := inv.first p.index hp
      rw [← hpe] at f1 f2 hp
      refine ⟨fun nm hnm => ?_, fun q hq hqp => ?_⟩
      · obtain ⟨r, hr, hnone, _⟩ := find_spec T rtl.heap rtl.symbols nm hok
        have : r = none := hnone.2 (fun q hq hqn => by
          have := f1 q hq
          rw [hnm, name_of_congr _ _ q (hderef q hq), hqn] at this
          exact this rfl)
        rw [hr, this]
      · rcases inv.linked_new q hq with h1 | ⟨h1, h2⟩
        · exact f1 q h1
        · have hqe : q = ⟨base, q.index⟩ := by
            cases q
            simp only at h1
            simp [h1]
          have hne : q.index ≠ p.index := by
            intro e
            apply hqp
            rw [hqe, hpe, e]
          rcases Nat.lt_or_gt_of_ne hne with hlt | hgt
          · rw [hqe]
            exact f2 q.index hlt
          · rw [hqe] at hq
            obtain ⟨_, g2⟩ := inv.first q.index hq
            rw [← hqe] at g2
            have := g2 p.index hgt
            rw [← hpe] at this
            exact fun e => this e.symm

/-- C4, at the table that holds `alpha`, `beta` and `gamma` and an export table
with the records `beta` and `foo`: the find of `beta` returns the symbol of
the first table before and after the call. -/
theorem global_add_keeps_found_witness :
    (rtems_rtl_symbol_global_add target32 (fun _ => some 200) scenario_linked empty_obj
        scenario_blob scenario_blob.length ([] : List (rtems_rtl_tls_offset Unit)) 0 ()
      = some (true, scenario_published, ⟨none, 0, 0, some 200, 40, 2⟩, ())) ∧
    rtems_rtl_symbol_global_find target32 scenario_linked.heap scenario_linked.symbols
      (cstring "beta") = some (some ⟨100, 1⟩) ∧
    rtems_rtl_symbol_global_find target32 scenario_published.heap scenario_published.symbols
      (cstring "beta") = some (some ⟨100, 1⟩) ∧
    deref scenario_published.heap ⟨100, 1⟩ = deref scenario_linked.heap ⟨100, 1⟩ :=
  ⟨rfl, by decide,
   ((global_add_keeps_found target32 (fun _ => some 200) scenario_linked empty_obj
      scenario_blob scenario_blob.length ([] : List (rtems_rtl_tls_offset Unit)) 0 ()
      true scenario_published ⟨none, 0, 0, some 200, 40, 2⟩ () scenario_table_ok
      (scenario_fresh 200 rfl) rfl).1 (cstring "beta") ⟨100, 1⟩ (by decide))⟩

/-- C6: when the four bytes after the end of records position `s` reached by
the scan are not exactly `DE AD BE EF`, `rtems_rtl_symbol_global_add` returns
false; and it returns true only when they are, that is when their big endian
composition is `0xDEADBEEF`. -/
theorem global_add_marker {W : Type} (T : Target) (alloc : Nat → Option Nat)
    (rtl : Rtl) (obj : rtems_rtl_obj) (esyms : List Byte) (size : Nat)
    (tls_offsets : List (rtems_rtl_tls_offset W)) (tls_size : Nat) (env : W) :
    (∀ s count b1 b2 b3 b4, count_loop T esyms size (size + 1) 0 0 = some (some (s, count)) →
      esyms[s + 1]? = some b1 → esyms[s + 2]? = some b2 → esyms[s + 3]? = some b3 →
      esyms[s + 4]? = some b4 → ¬ (b1 = 0xDE ∧ b2 = 0xAD ∧ b3 = 0xBE ∧ b4 = 0xEF) →
      rtems_rtl_symbol_global_add T alloc rtl obj esyms size tls_offsets tls_size env
        = some (false, rtems_rtl_set_error rtl Errno.ENOMEM "invalid export symbol table",
                obj, env)) ∧
    (∀ rtl1 obj1 env1,
      rtems_rtl_symbol_global_add T alloc rtl obj esyms size tls_offsets tls_size env
        = some (true, rtl1, obj1, env1) →
      ∃ s count, count_loop T esyms size (size + 1) 0 0 = some (some (s, count)) ∧
        esyms[s + 1]? = some 0xDE ∧ esyms[s + 2]? = some 0xAD ∧ esyms[s + 3]? = some 0xBE ∧
        esyms[s + 4]? = some 0xEF ∧ read_marker esyms s = some 0xdeadbeef) := by
  constructor
  · intro s count b1 b2 b3 b4 hc h1 h2 h3 h4 hne
    have hm := read_marker_spec esyms s b1 b2 b3 b4 h1 h2 h3 h4
    have hne2 : b1.val * 16777216 + b2.val * 65536 + b3.val * 256 + b4.val ≠ 0xdeadbeef :=
      fun e => hne ((marker_bytes b1 b2 b3 b4).1 e)
    unfold rtems_rtl_symbol_global_add
    simp only [hc, hm]
    rw [if_pos hne2]
  · intro rtl1 obj1 env1 h
    rcases global_add_inv T alloc rtl obj esyms size tls_offsets tls_size env true rtl1 obj1 env1 h
      with ⟨hb, _⟩ | ⟨_, s, count, base, hc, hm, _⟩
    · cases hb
    · obtain ⟨b1, b2, b3, b4, h1, h2, h3, h4, e⟩ := read_marker_inv esyms s _ hm
      obtain ⟨rfl, rfl, rfl, rfl⟩ := (marker_bytes b1 b2 b3 b4).1 e.symm
      exact ⟨s, count, hc, h1, h2, h3, h4, hm⟩

/-- C6, at a table whose marker ends in `EE`: the call returns false. -/
theorem global_add_marker_witness :
    (count_loop target32 bad_marker_blob bad_marker_blob.length (bad_marker_blob.length + 1) 0 0
        = some (some (17, 2)) ∧
      bad_marker_blob[17 + 1]? = some 0xDE ∧ bad_marker_blob[17 + 2]? = some 0xAD ∧
      bad_marker_blob[17 + 3]? = some 0xBE ∧ bad_marker_blob[17 + 4]? = some 0xEE ∧
      ¬ ((0xDE : Byte) = 0xDE ∧ (0xAD : Byte) = 0xAD ∧ (0xBE : Byte) = 0xBE ∧
          (0xEE : Byte) = 0xEF)) ∧
    rtems_rtl_symbol_global_add target32 (fun _ => some 200) scenario_linked empty_obj
        bad_marker_blob bad_marker_blob.length ([] : List (rtems_rtl_tls_offset Unit)) 0 ()
      = some (false, rtems_rtl_set_error scenario_linked Errno.ENOMEM "invalid export symbol table",
              empty_obj, ()) :=
  ⟨⟨by decide, by decide, by decide, by decide, by decide, by decide⟩,
   (global_add_marker target32 (fun _ => some 200) scenario_linked empty_obj
      bad_marker_blob bad_marker_blob.length ([] : List (rtems_rtl_tls_offset Unit)) 0 ()).1
      17 2 0xDE 0xAD 0xBE 0xEE (by decide) (by decide) (by decide) (by decide) (by decide)
      (by decide)⟩

theorem takeWhile_name (name rest : List Byte) (h : (0 : Byte) ∉ name) :
    (name ++ 0 :: rest).takeWhile (fun b => b ≠ 0) = name := by
  induction name with
  | nil => simp
  | cons a as ih =>
    have ha : a ≠ 0 := fun e => h (by rw [e]; exact List.mem_cons_self _ _)
    have has : (0 : Byte) ∉ as := fun e => h (List.mem_cons_of_mem _ e)
    simpa [List.takeWhile, ha] using ih has

theorem strlen_name (esyms : List Byte) (s : Nat) (name rest : List Byte)
    (h0 : (0 : Byte) ∉ name) (h : esyms.drop s = name ++ 0 :: rest) :
    strlen esyms s = some name.length := by
  unfold strlen
  rw [h, takeWhile_name name rest h0]
  simp

theorem string_at_name (esyms : List Byte) (s : Nat) (name rest : List Byte)
    (h : esyms.drop s = name ++ rest) : string_at esyms s name.length = name := by
  simp [string_at, h]

theorem getElem?_of_drop (esyms : List Byte) (s k : Nat) (suf : List Byte)
    (h : esyms.drop s = suf) : esyms[s + k]? = suf[k]? := by
  rw [← h, List.getElem?_drop]

theorem drop_add_of_drop (esyms : List Byte) (s : Nat) (a b : List Byte)
    (h : esyms.drop s = a ++ b) : esyms.drop (s + a.length) = b := by
  rw [← List.drop_drop, h, List.drop_left]

theorem lt_length_of_drop (esyms : List Byte) (s : Nat) (a : Byte) (suf : List Byte)
    (h : esyms.drop s = a :: suf) : s < esyms.length := by
  by_contra hge
  rw [List.drop_eq_nil_of_le (Nat.le_of_not_lt hge)] at h
  cases h

theorem read_bytes_of_drop (esyms : List Byte) (data : List Byte) :
    ∀ (s : Nat) (rest : List Byte), esyms.drop s = data ++ rest →
      read_bytes esyms s data.length = some data := by
  induction data with
  | nil => intro s rest _; rfl
  | cons d ds ih =>
    intro s rest h
    have h0 : esyms[s]? = some d := by
      have := getElem?_of_drop esyms s 0 _ h
      simpa using this
    have h1 : esyms.drop (s + 1) = ds ++ rest := by
      have := drop_add_of_drop esyms s [d] (ds ++ rest) (by simpa using h)
      simpa using this
    simp only [List.length_cons, read_bytes, h0, ih (s + 1) rest h1]

theorem find_tls_offset_from_eq {W : Type} (index : Nat)
    (tls_offsets : List (rtems_rtl_tls_offset W)) :
    ∀ (remaining entry : Nat), entry + remaining = tls_offsets.length →
      find_tls_offset_from index tls_offsets remaining entry
        = some ((tls_offsets.drop entry).find? (fun e => e.index = index)) := by
  intro remaining
  induction remaining with
  | zero =>
    intro entry h
    have : tls_offsets.drop entry = [] := List.drop_eq_nil_of_le (by omega)
    simp [find_tls_offset_from, this]
  | succ m ih =>
    intro entry h
    have hlt : entry < tls_offsets.length := by omega
    have hd : tls_offsets.drop entry = tls_offsets[entry] :: tls_offsets.drop (entry + 1) :=
      List.drop_eq_getElem_cons hlt
    simp only [find_tls_offset_from, List.getElem?_eq_getElem hlt, hd, List.find?_cons]
    by_cases he : tls_offsets[entry].index = index
    · simp [he]
    · simp only [he, if_false, decide_False]
      exact ih (entry + 1) (by omega)

theorem find_tls_offset_eq {W : Type} (index : Nat) (tls_offsets : List (rtems_rtl_tls_offset W)) :
    rtems_rtl_symbol_find_tls_offset index tls_offsets tls_offsets.length
      = some (tls_entry tls_offsets index) := by
  unfold rtems_rtl_symbol_find_tls_offset tls_entry
  rw [find_tls_offset_from_eq index tls_offsets tls_offsets.length 0 (by omega)]
  simp


theorem encode_record_length (T : Target) (r : Record) (h : WfRecord T r) :
    (encode_record r).length = r.1.length + 1 + T.ptr_bytes := by
  simp [encode_record, h.2.2]
  omega

theorem count_loop_export (T : Target) (esyms : List Byte) (recs : List Record) :
    ∀ (s count fuel : Nat), (∀ r, r ∈ recs → WfRecord T r) →
      esyms.drop s = encode_records recs ++ end_marker → recs.length < fuel →
      count_loop T esyms esyms.length fuel s count
        = some (some (s + (encode_records recs).length, count + recs.length)) := by
  induction recs with
  | nil =>
    intro s count fuel _ hd hf
    obtain ⟨f, rfl⟩ : ∃ f, fuel = f + 1 := ⟨fuel - 1, by simp at hf; omega⟩
    have hd2 : esyms.drop s = 0 :: [0xDE, 0xAD, 0xBE, 0xEF] := by simpa [encode_records] using hd
    have hs := lt_length_of_drop esyms s _ _ hd2
    have h0 : esyms[s]? = some 0 := by
      have := getElem?_of_drop esyms s 0 _ hd2
      simpa using this
    simp [count_loop, hs, h0, encode_records]
  | cons r rs ih =>
    intro s count fuel hwf hd hf
    obtain ⟨f, rfl⟩ : ∃ f, fuel = f + 1 := ⟨fuel - 1, by simp at hf; omega⟩
    obtain ⟨hne, hz, hlen⟩ := hwf r (List.mem_cons_self _ _)
    have hd1 : esyms.drop s = r.1 ++ 0 :: (r.2 ++ (encode_records rs ++ end_marker)) := by
      simpa [encode_records, encode_record] using hd
    obtain ⟨a, as, hname⟩ : ∃ a as, r.1 = a :: as := List.exists_cons_of_ne_nil hne
    have ha : a ≠ 0 := fun e => hz (by rw [hname, e]; exact List.mem_cons_self _ _)
    have hs : s < esyms.length :=
      lt_length_of_drop esyms s a (as ++ 0 :: (r.2 ++ (encode_records rs ++ end_marker)))
        (by rw [hd1, hname]; rfl)
    have h0 : esyms[s]? = some a := by
      have := getElem?_of_drop esyms s 0 _ hd1
      simpa [hname] using this
    have hl := strlen_name esyms s r.1 _ hz hd1
    have hnul : esyms[s + r.1.length]? = some 0 := by
      rw [getElem?_of_drop esyms s r.1.length _ hd1,
        List.getElem?_append_right (Nat.le_refl _)]
      simp
    have hle : s + r.1.length ≤ esyms.length := by
      by_contra hgt
      rw [List.getElem?_eq_none (by omega)] at hnul
      cases hnul
    have hnext : esyms.drop (s + (r.1.length + T.ptr_bytes + 1))
        = encode_records rs ++ end_marker := by
      have h1 : esyms.drop s = encode_record r ++ (encode_records rs ++ end_marker) := by
        simpa [encode_records] using hd
      have h2 := drop_add_of_drop esyms s _ _ h1
      rw [encode_record_length T r ⟨hne, hz, hlen⟩] at h2
      rw [← h2]
      congr 1
      omega
    have hrec := ih (s + (r.1.length + T.ptr_bytes + 1)) (count + 1) f
      (fun q hq => hwf q (List.mem_cons_of_mem _ hq)) hnext (by simp at hf; omega)
    unfold count_loop
    simp only [hs, if_true, h0, ne_eq, ha, not_false_eq_true, hl, hnul]
    have hgt : ¬ (s + r.1.length > esyms.length) := by omega
    simp only [not_true_eq_false, false_or, hgt, if_false, hrec]
    simp only [encode_records, List.length_append, List.length_cons,
      encode_record_length T r ⟨hne, hz, hlen⟩]
    congr 3 <;> omega

theorem store_defined (heap : Heap) (p : SymPtr) (f : rtems_rtl_obj_sym → rtems_rtl_obj_sym)
    (sym : rtems_rtl_obj_sym) (h : deref heap p = some sym) :
    ∃ heap1, store heap p f = some heap1 := by
  unfold deref at h
  unfold store
  cases hb : heap p.block with
  | none => simp [hb] at h
  | some tbl =>
    simp only [hb] at h
    simp only [h]
    exact ⟨_, rfl⟩

theorem insert_defined (T : Target) (heap : Heap) (t : rtems_rtl_symbols) (p : SymPtr)
    (nm : List Byte) (hok : TableOk T heap t) (hnm : name_of heap p = some nm)
    (hnl : ¬ Linked t p) : ∃ t1, rtems_rtl_symbol_global_insert T heap t p = some t1 := by
  have hz : t.nbuckets ≠ 0 := Nat.pos_iff_ne_zero.1 hok.pos
  have hlt : rtems_rtl_symbol_hash T nm % t.nbuckets < t.buckets.length := by
    rw [hok.len]; exact Nat.mod_lt _ hok.pos
  have hoff : rtems_chain_is_node_off_chain t p = true := (off_chain_iff t p).2 hnl
  simp only [rtems_rtl_symbol_global_insert, hnm, bucket_index, hz, if_false,
    rtems_chain_append, List.getElem?_eq_getElem hlt, hoff, if_true]
  exact ⟨_, rfl⟩

theorem published_values_cons {W : Type} (T : Target) (tls_offsets : List (rtems_rtl_tls_offset W))
    (k : Nat) (r : Record) (rs : List Record) (env : W) :
    published_values T tls_offsets k (r :: rs) env =
      ((resolve_value T r.2 (tls_entry tls_offsets k) env).1 ::
        (published_values T tls_offsets (k + 1) rs
          (resolve_value T r.2 (tls_entry tls_offsets k) env).2).1,
       (published_values T tls_offsets (k + 1) rs
          (resolve_value T r.2 (tls_entry tls_offsets k) env).2).2) := by
  rfl


theorem populate_record_export {W : Type} (T : Target) (esyms : List Byte)
    (tls_offsets : List (rtems_rtl_tls_offset W)) (base n : Nat) (rtl0 : Rtl)
    (hold : ∀ p, Linked rtl0.symbols p → p.block ≠ base)
    (s count : Nat) (rtl : Rtl) (env : W) (r : Record) (rest : List Byte)
    (hwf : WfRecord T r) (hd : esyms.drop s = encode_record r ++ rest)
    (inv : PubInv T base n rtl0 count rtl) (hc : count < n) :
    ∃ rtl1, populate_record T esyms tls_offsets tls_offsets.length base s count rtl env
        = some (s + (encode_record r).length, rtl1,
            (resolve_value T r.2 (tls_entry tls_offsets count) env).2) ∧
      PubInv T base n rtl0 (count + 1) rtl1 ∧
      (∃ sym, deref rtl1.heap ⟨base, count⟩ = some sym ∧ sym.name = some r.1 ∧
        sym.value = (resolve_value T r.2 (tls_entry tls_offsets count) env).1) ∧
      (∀ q, q ≠ (⟨base, count⟩ : SymPtr) → deref rtl1.heap q = deref rtl.heap q) := by
  obtain ⟨hne, hz, hlen⟩ := hwf
  have hd1 : esyms.drop s = r.1 ++ 0 :: (r.2 ++ rest) := by
    simpa [encode_record] using hd
  have hl := strlen_name esyms s r.1 _ hz hd1
  have hname : string_at esyms s r.1.length = r.1 := string_at_name esyms s r.1 _ hd1
  have hdata : read_bytes esyms (s + (r.1.length + 1)) T.ptr_bytes = some r.2 := by
    have h1 : esyms.drop (s + (r.1 ++ [0]).length) = r.2 ++ rest :=
      drop_add_of_drop esyms s (r.1 ++ [0]) (r.2 ++ rest) (by simpa using hd1)
    rw [← hlen]
    exact read_bytes_of_drop esyms r.2 _ rest (by simpa using h1)
  obtain ⟨sym0, hsym0⟩ := inv.live count hc
  obtain ⟨heap1, hs1⟩ := store_defined rtl.heap ⟨base, count⟩
    (fun sym => { sym with name := some r.1 }) sym0 hsym0
  obtain ⟨sym0', hd0, hd1', hq1, _, _⟩ := deref_store _ _ _ _ hs1
  obtain ⟨heap2, hs2⟩ := store_defined heap1 ⟨base, count⟩
    (fun sym => { sym with value := (resolve_value T r.2 (tls_entry tls_offsets count) env).1 })
    _ hd1'
  obtain ⟨sym1, hd1'', hd2, hq2, _, _⟩ := deref_store _ _ _ _ hs2
  rw [hd1'] at hd1''
  cases hd1''
  have hnl : ¬ Linked rtl.symbols ⟨base, count⟩ :=
    pubinv_not_linked T base n rtl0 rtl count count hold inv (Nat.le_refl _)
  have hnameL : ∀ q, Linked rtl.symbols q → name_of heap2 q = name_of rtl.heap q := by
    intro q hq
    have hne : q ≠ (⟨base, count⟩ : SymPtr) := fun e => hnl (e ▸ hq)
    exact name_of_congr _ _ q (by rw [hq2 q hne, hq1 q hne])
  have hok2 : TableOk T heap2 rtl.symbols := tableok_congr T _ _ _ hnameL inv.ok
  have hnew : name_of heap2 ⟨base, count⟩ = some r.1 := by simp [name_of, hd2]
  obtain ⟨found, hfound, _, _⟩ := find_spec T heap2 rtl.symbols r.1 hok2
  have hrun : ∃ rtl1, populate_record T esyms tls_offsets tls_offsets.length base s count rtl env
      = some (s + (encode_record r).length, rtl1,
          (resolve_value T r.2 (tls_entry tls_offsets count) env).2) ∧ rtl1.heap = heap2 := by
    have hlen2 : s + (r.1.length + 1) + T.ptr_bytes = s + (encode_record r).length := by
      rw [encode_record_length T r ⟨hne, hz, hlen⟩]
      omega
    unfold populate_record
    simp only [hl, hname, hs1, hdata, find_tls_offset_eq, hs2, hfound, hlen2]
    cases found with
    | some x => exact ⟨_, rfl, rfl⟩
    | none =>
      obtain ⟨t1, ht1⟩ := insert_defined T heap2 rtl.symbols ⟨base, count⟩ r.1 hok2 hnew hnl
      simp only [ht1]
      exact ⟨_, rfl, rfl⟩
  obtain ⟨rtl1, hrun, hheap⟩ := hrun
  refine ⟨rtl1, hrun,
    pubinv_step T esyms tls_offsets tls_offsets.length base n rtl0 hold s count rtl rtl1 env _ _
      inv hrun, ⟨_, by rw [hheap]; exact hd2, rfl, rfl⟩, fun q hq => ?_⟩
  rw [hheap, hq2 q hq, hq1 q hq]

theorem populate_loop_export {W : Type} (T : Target) (esyms : List Byte)
    (tls_offsets : List (rtems_rtl_tls_offset W)) (base n : Nat) (rtl0 : Rtl)
    (hold : ∀ p, Linked rtl0.symbols p → p.block ≠ base) (recs : List Record) :
    ∀ (s count fuel : Nat) (rtl : Rtl) (env : W), (∀ r, r ∈ recs → WfRecord T r) →
      esyms.drop s = encode_records recs ++ end_marker → recs.length < fuel →
      PubInv T base n rtl0 count rtl → count + recs.length ≤ n →
      ∃ rtl1, populate_loop T esyms esyms.length tls_offsets tls_offsets.length base fuel s count
          rtl env = some (rtl1, (published_values T tls_offsets count recs env).2) ∧
        PubInv T base n rtl0 (count + recs.length) rtl1 ∧
        (∀ k r, recs[k]? = some r → ∃ sym, deref rtl1.heap ⟨base, count + k⟩ = some sym ∧
          sym.name = some r.1 ∧
          (published_values T tls_offsets count recs env).1[k]? = some sym.value) ∧
        (∀ q : SymPtr, (q.block ≠ base ∨ q.index < count) → deref rtl1.heap q = deref rtl.heap q) := by
  induction recs with
  | nil =>
    intro s count fuel rtl env _ hd hf inv _
    obtain ⟨f, rfl⟩ : ∃ f, fuel = f + 1 := ⟨fuel - 1, by simp at hf; omega⟩
    have hd2 : esyms.drop s = 0 :: [0xDE, 0xAD, 0xBE, 0xEF] := by simpa [encode_records] using hd
    have hs := lt_length_of_drop esyms s _ _ hd2
    have h0 : esyms[s]? = some 0 := by
      have := getElem?_of_drop esyms s 0 _ hd2
      simpa using this
    refine ⟨rtl, by simp [populate_loop, hs, h0, published_values], by simpa using inv,
      fun k r hk => by simp at hk, fun _ _ => rfl⟩
  | cons r rs ih =>
    intro s count fuel rtl env hwf hd hf inv hn
    obtain ⟨f, rfl⟩ : ∃ f, fuel = f + 1 := ⟨fuel - 1, by simp at hf; omega⟩
    have hwfr := hwf r (List.mem_cons_self _ _)
    obtain ⟨hne, hz, hlen⟩ := hwfr
    have hd1 : esyms.drop s = encode_record r ++ (encode_records rs ++ end_marker) := by
      simpa [encode_records] using hd
    obtain ⟨a, as, hname⟩ : ∃ a as, r.1 = a :: as := List.exists_cons_of_ne_nil hne
    have ha : a ≠ 0 := fun e => hz (by rw [hname, e]; exact List.mem_cons_self _ _)
    have hd0 : esyms.drop s = a :: (as ++ 0 :: (r.2 ++ (encode_records rs ++ end_marker))) := by
      rw [hd1]
      simp [encode_record, hname]
    have hs : s < esyms.length := lt_length_of_drop esyms s a _ hd0
    have h0 : esyms[s]? = some a := by
      have := getElem?_of_drop esyms s 0 _ hd0
      simpa using this
    simp only [List.length_cons] at hn
    obtain ⟨rtl1, hrun, inv1, ⟨sym, hsym, hsn, hsv⟩, hq⟩ :=
      populate_record_export T esyms tls_offsets base n rtl0 hold s count rtl env r _
        ⟨hne, hz, hlen⟩ hd1 inv (by omega)
    have hnext := drop_add_of_drop esyms s _ _ hd1
    obtain ⟨rtl2, hrun2, inv2, hcont, hkeep⟩ :=
      ih (s + (encode_record r).length) (count + 1) f rtl1
        (resolve_value T r.2 (tls_entry tls_offsets count) env).2
        (fun q hq => hwf q (List.mem_cons_of_mem _ hq)) hnext (by simp at hf; omega) inv1
        (by omega)
    refine ⟨rtl2, ?_, ?_, ?_, ?_⟩
    · unfold populate_loop
      simp only [hs, if_true, h0, ne_eq, ha, not_false_eq_true, hrun, published_values_cons]
      exact hrun2
    · have : count + (r :: rs).length = count + 1 + rs.length := by
        simp only [List.length_cons]; omega
      rw [this]
      exact inv2
    · intro k r1 hk
      rw [published_values_cons]
      cases k with
      | zero =>
        simp only [List.getElem?_cons_zero, Option.some.injEq] at hk
        subst hk
        refine ⟨sym, ?_, hsn, by simp [hsv]⟩
        rw [Nat.add_zero, hkeep ⟨base, count⟩ (Or.inr (Nat.lt_succ_self _))]
        exact hsym
      | succ k =>
        simp only [List.getElem?_cons_succ] at hk
        obtain ⟨sym2, h1, h2, h3⟩ := hcont k r1 hk
        refine ⟨sym2, ?_, h2, by simpa using h3⟩
        have : count + (k + 1) = count + 1 + k := by omega
        rw [this]
        exact h1
    · intro q hq0
      have hq1 : q.block ≠ base ∨ q.index < count + 1 := by
        rcases hq0 with h | h
        · exact Or.inl h
        · exact Or.inr (by omega)
      rw [hkeep q hq1]
      apply hq
      intro e
      rw [e] at hq0
      rcases hq0 with h | h
      · exact h rfl
      · exact Nat.lt_irrefl _ h


theorem encode_records_length_ge (recs : List Record) :
    recs.length ≤ (encode_records recs).length := by
  induction recs with
  | nil => simp [encode_records]
  | cons r rs ih =>
    simp only [encode_records, encode_record, List.length_cons, List.length_append]
    omega

theorem read_marker_export (recs : List Record) :
    read_marker (export_table recs) (encode_records recs).length = some 0xdeadbeef := by
  have h : ∀ k, (export_table recs)[(encode_records recs).length + k]? = end_marker[k]? := by
    intro k
    unfold export_table
    rw [List.getElem?_append_right (Nat.le_add_right _ _)]
    simp
  rw [read_marker_spec (export_table recs) _ 0xDE 0xAD 0xBE 0xEF
    (by rw [h 1]; rfl) (by rw [h 2]; rfl) (by rw [h 3]; rfl) (by rw [h 4]; rfl)]
  rfl

theorem global_add_export {W : Type} (T : Target) (alloc : Nat → Option Nat) (rtl : Rtl)
    (obj : rtems_rtl_obj) (recs : List Record) (tls_offsets : List (rtems_rtl_tls_offset W))
    (env : W) (base : Nat) (hok : TableOk T rtl.heap rtl.symbols)
    (hwf : ∀ r, r ∈ recs → WfRecord T r)
    (ha : alloc (recs.length * T.sym_bytes) = some base) (hf : rtl.heap base = none) :
    ∃ rtl1, rtems_rtl_symbol_global_add T alloc rtl obj (export_table recs)
        (export_table recs).length tls_offsets tls_offsets.length env
        = some (true, rtl1,
            { obj with global_size := recs.length * T.sym_bytes, global_table := some base,
                       global_syms := recs.length },
            (published_values T tls_offsets 0 recs env).2) ∧
      (∀ p, Linked rtl.symbols p → p.block ≠ base) ∧
      PubInv T base recs.length { rtl with heap := heap_alloc rtl.heap base recs.length }
        recs.length rtl1 ∧
      (∀ k r, recs[k]? = some r → ∃ sym, deref rtl1.heap ⟨base, k⟩ = some sym ∧
        sym.name = some r.1 ∧
        (published_values T tls_offsets 0 recs env).1[k]? = some sym.value) := by
  have hfuel : recs.length < (export_table recs).length + 1 := by
    have := encode_records_length_ge recs
    simp only [export_table, List.length_append]
    omega
  have hcount := count_loop_export T (export_table recs) recs 0 0 ((export_table recs).length + 1)
    hwf rfl hfuel
  obtain ⟨hold, hinit⟩ := pubinv_init T rtl base recs.length hok hf
  obtain ⟨rtl1, hrun, inv, hcont, _⟩ :=
    populate_loop_export T (export_table recs) tls_offsets base recs.length
      { rtl with heap := heap_alloc rtl.heap base recs.length } hold recs 0 0
      ((export_table recs).length + 1) { rtl with heap := heap_alloc rtl.heap base recs.length }
      env hwf rfl hfuel hinit (by omega)
  rw [Nat.zero_add] at inv
  refine ⟨rtl1, ?_, hold, inv, fun k r hk => ?_⟩
  · unfold rtems_rtl_symbol_global_add
    simp only [hcount, Nat.zero_add, read_marker_export recs, ha, hrun]
    simp
  · obtain ⟨sym, h1, h2, h3⟩ := hcont k r hk
    rw [Nat.zero_add] at h1
    exact ⟨sym, h1, h2, h3⟩

theorem le_bytes_length (n v : Nat) : (le_bytes n v).length = n := by
  induction n generalizing v with
  | zero => rfl
  | succ n ih => simp [le_bytes, ih]

theorem le_bytes_value (n v : Nat) :
    (le_bytes n v).foldr (fun b acc => b.val + 256 * acc) 0 = v % 256 ^ n := by
  induction n generalizing v with
  | zero => simp [le_bytes, Nat.mod_one]
  | succ n ih =>
    have hpow : 256 ^ (n + 1) = 256 * 256 ^ n := by rw [pow_succ, Nat.mul_comm]
    simp only [le_bytes, List.foldr_cons, ih, hpow, Nat.mod_mul]
    simp [Fin.ofNat]

theorem encode_value_length (T : Target) (v : Nat) : (encode_value T v).length = T.ptr_bytes := by
  unfold encode_value
  split <;> simp [le_bytes_length]

theorem copy_voidp_encode (T : Target) (v : Nat) (h : v < 256 ^ T.ptr_bytes) :
    copy_voidp T (encode_value T v) = v := by
  unfold copy_voidp encode_value
  cases hb : T.big_endian with
  | false =>
    simp only [Bool.false_eq_true, if_false]
    rw [le_bytes_value, Nat.mod_eq_of_lt h]
  | true =>
    simp only [if_true, List.foldl_reverse]
    have : (fun (x : Byte) (y : Nat) => y * 256 + x.val) = (fun b acc => b.val + 256 * acc) := by
      funext x y
      omega
    rw [this, le_bytes_value, Nat.mod_eq_of_lt h]

theorem published_values_no_tls {W : Type} (T : Target) (recs : List Record) :
    ∀ (k : Nat) (env : W),
      published_values T ([] : List (rtems_rtl_tls_offset W)) k recs env
        = (recs.map (fun r => copy_voidp T r.2), env) := by
  induction recs with
  | nil => intro k env; rfl
  | cons r rs ih =>
    intro k env
    rw [published_values_cons]
    simp [tls_entry, resolve_value, ih]

theorem published_values_get {W : Type} (T : Target) (tls_offsets : List (rtems_rtl_tls_offset W))
    (recs : List Record) :
    ∀ (j : Nat) (env : W) (k : Nat) (r : Record), recs[k]? = some r →
      (published_values T tls_offsets j recs env).1[k]? =
        some (resolve_value T r.2 (tls_entry tls_offsets (j + k))
          (published_values T tls_offsets j (recs.take k) env).2).1 ∧
      (published_values T tls_offsets j (recs.take (k + 1)) env).2 =
        (resolve_value T r.2 (tls_entry tls_offsets (j + k))
          (published_values T tls_offsets j (recs.take k) env).2).2 := by
  induction recs with
  | nil => intro j env k r hk; simp at hk
  | cons q qs ih =>
    intro j env k r hk
    cases k with
    | zero =>
      simp only [List.getElem?_cons_zero, Option.some.injEq] at hk
      subst hk
      simp [published_values_cons, published_values]
    | succ k =>
      simp only [List.getElem?_cons_succ] at hk
      obtain ⟨h1, h2⟩ := ih (j + 1) (resolve_value T q.2 (tls_entry tls_offsets j) env).2 k r hk
      have hj : j + 1 + k = j + (k + 1) := by omega
      rw [hj] at h1 h2
      simp only [List.take_succ_cons, published_values_cons, List.getElem?_cons_succ]
      exact ⟨h1, h2⟩

theorem published_values_take_all {W : Type} (T : Target)
    (tls_offsets : List (rtems_rtl_tls_offset W)) (recs : List Record) (j : Nat) (env : W) :
    published_values T tls_offsets j (recs.take recs.length) env
      = published_values T tls_offsets j recs env := by
  rw [List.take_length]

/-- C10: the TLS substitution. On a well formed export table, for the record
at ordinal `k`, with `env_k` the environment after the records before it: if
the TLS offset table has an entry with index `k` (the first such entry `f`,
which is the only one when the table has at most one entry per ordinal), the
symbol written for the record has the value that the one call `f ()` made for
this record returns, and the bytes of the record are not used; if no entry has
index `k`, the value is the pointer in the bytes of the record and no offset
function is called. -/
theorem tls_substitution {W : Type} (T : Target) (alloc : Nat → Option Nat) (rtl : Rtl)
    (obj : rtems_rtl_obj) (recs : List Record) (tls_offsets : List (rtems_rtl_tls_offset W))
    (env : W) (base : Nat) (hok : TableOk T rtl.heap rtl.symbols)
    (hwf : ∀ r, r ∈ recs → WfRecord T r)
    (ha : alloc (recs.length * T.sym_bytes) = some base) (hf : rtl.heap base = none) :
    ∃ rtl1 obj1,
      rtems_rtl_symbol_global_add T alloc rtl obj (export_table recs) (export_table recs).length
        tls_offsets tls_offsets.length env
        = some (true, rtl1, obj1,
            (published_values T tls_offsets 0 (recs.take recs.length) env).2) ∧
      obj1.global_table = some base ∧
      ∀ k r, recs[k]? = some r → ∃ sym, deref rtl1.heap ⟨base, k⟩ = some sym ∧
        sym.name = some r.1 ∧
        (∀ f, tls_entry tls_offsets k = some f →
          sym.value = (f.offset (published_values T tls_offsets 0 (recs.take k) env).2).1 ∧
          (published_values T tls_offsets 0 (recs.take (k + 1)) env).2
            = (f.offset (published_values T tls_offsets 0 (recs.take k) env).2).2) ∧
        (∀ e, e ∈ tls_offsets → e.index = k →
          (∀ e1, e1 ∈ tls_offsets → e1.index = k → e1 = e) → tls_entry tls_offsets k = some e) ∧
        (∀ e, e ∈ tls_offsets → e.index = k → ∃ f, tls_entry tls_offsets k = some f) ∧
        ((∀ e, e ∈ tls_offsets → e.index ≠ k) →
          sym.value = copy_voidp T r.2 ∧
          (published_values T tls_offsets 0 (recs.take (k + 1)) env).2
            = (published_values T tls_offsets 0 (recs.take k) env).2) := by
  obtain ⟨rtl1, hrun, _, _, hcont⟩ := global_add_export T alloc rtl obj recs tls_offsets env base
    hok hwf ha hf
  rw [published_values_take_all]
  refine ⟨rtl1, _, hrun, rfl, fun k r hk => ?_⟩
  obtain ⟨sym, h1, h2, h3⟩ := hcont k r hk
  obtain ⟨g1, g2⟩ := published_values_get T tls_offsets recs 0 env k r hk
  rw [g1, Nat.zero_add] at h3
  rw [Nat.zero_add] at g2
  have hv := (Option.some.inj h3).symm
  have hsome : ∀ e, e ∈ tls_offsets → e.index = k → ∃ f, tls_entry tls_offsets k = some f := by
    intro e he hek
    cases hfind : tls_entry tls_offsets k with
    | some f => exact ⟨f, rfl⟩
    | none =>
      unfold tls_entry at hfind
      have := List.find?_eq_none.1 hfind e he
      simp [hek] at this
  refine ⟨sym, h1, h2, fun f hfe => ?_, fun e he hek huniq => ?_, hsome, fun hnone => ?_⟩
  · rw [hv, g2, hfe]
    exact ⟨rfl, rfl⟩
  · obtain ⟨f, hfe⟩ := hsome e he hek
    have hmem : f ∈ tls_offsets := List.mem_of_find?_eq_some hfe
    have hidx : f.index = k := by
      have := List.find?_some hfe
      simpa using this
    rw [hfe, huniq f hmem hidx]
  · have hfe : tls_entry tls_offsets k = none := by
      unfold tls_entry
      exact List.find?_eq_none.2 (fun e he => by simpa using hnone e he)
    rw [hv, g2, hfe]
    exact ⟨rfl, rfl⟩

/-- C10, the scenario of the specification: the record at ordinal 3 has the TLS
entry with index 3 and offset function `f`; its symbol has the value `0x1000`
that the first call of `f` returns, not the `0x44332211` of its bytes, and `f`
was called once. -/
theorem tls_substitution_witness :
    (∀ r, r ∈ [(cstring "a", encode_value target32 1), (cstring "bb", encode_value target32 2),
        (cstring "ccc", encode_value target32 3),
        (cstring "tls_var", encode_value target32 0x44332211)] → WfRecord target32 r) ∧
    rtems_rtl_symbol_global_add target32 (fun _ => some 200) scenario_linked empty_obj
      tls_blob tls_blob.length tls_table tls_table.length 0
      = some (true, tls_published, ⟨none, 0, 0, some 200, 80, 4⟩, 1) ∧
    (deref tls_published.heap ⟨200, 3⟩).map (fun sym => sym.value) = some 0x1000 ∧
    (deref tls_published.heap ⟨200, 2⟩).map (fun sym => sym.value) = some 3 ∧
    ∃ rtl1 obj1,
      rtems_rtl_symbol_global_add target32 (fun _ => some 200) scenario_linked empty_obj
        (export_table [(cstring "a", encode_value target32 1),
          (cstring "bb", encode_value target32 2), (cstring "ccc", encode_value target32 3),
          (cstring "tls_var", encode_value target32 0x44332211)])
        (export_table [(cstring "a", encode_value target32 1),
          (cstring "bb", encode_value target32 2), (cstring "ccc", encode_value target32 3),
          (cstring "tls_var", encode_value target32 0x44332211)]).length
        tls_table tls_table.length 0
        = some (true, rtl1, obj1, 1) ∧ obj1.global_table = some 200 :=
  ⟨by
    intro r hr
    simp only [List.mem_cons, List.mem_singleton, List.not_mem_nil, or_false] at hr
    rcases hr with rfl | rfl | rfl | rfl <;> exact ⟨by decide, by decide, by decide⟩,
   rfl, by decide, by decide,
   (tls_substitution target32 (fun _ => some 200) scenario_linked empty_obj
      [(cstring "a", encode_value target32 1), (cstring "bb", encode_value target32 2),
        (cstring "ccc", encode_value target32 3),
        (cstring "tls_var", encode_value target32 0x44332211)]
      tls_table 0 200 scenario_table_ok
      (by
        intro r hr
        simp only [List.mem_cons, List.mem_singleton, List.not_mem_nil, or_false] at hr
        rcases hr with rfl | rfl | rfl | rfl <;> exact ⟨by decide, by decide, by decide⟩)
      rfl rfl).imp (fun rtl1 h => h.imp (fun obj1 h2 => ⟨h2.1, h2.2.1⟩))⟩

/-- C7 as stated fails at a name whose NUL is at the index `size`: the table
`short_blob` is declared with size 1, the name `a` of its first record starts
at index 0 and its NUL is at index 1, which is not below the size; the check
`(s + l) > size` (rtl-sym.c:128) passes, `rtems_rtl_symbol_global_add` returns
true and links the symbol `a`, which was not found before. -/
theorem global_add_nul_at_size :
    strlen short_blob 0 = some 1 ∧ short_blob[0 + 1]? = some 0 ∧ ¬ (0 + 1 < 1) ∧
    rtems_rtl_symbol_global_add target32 (fun _ => some 200) scenario_linked empty_obj
        short_blob 1 ([] : List (rtems_rtl_tls_offset Unit)) 0 ()
      = some (true, short_published, ⟨none, 0, 0, some 200, 20, 1⟩, ()) ∧
    rtems_rtl_symbol_global_find target32 scenario_linked.heap scenario_linked.symbols
      (cstring "a") = some none ∧
    rtems_rtl_symbol_global_find target32 short_published.heap short_published.symbols
      (cstring "a") = some (some ⟨200, 0⟩) ∧
    short_published.symbols.buckets ≠ scenario_linked.symbols.buckets :=
  ⟨by decide, by decide, by decide, rfl, by decide, by decide, by decide⟩

theorem extract_buckets (t : rtems_rtl_symbols) (p : SymPtr) :
    (if !rtems_chain_is_node_off_chain t p then rtems_chain_extract t p else t)
      = { t with buckets := t.buckets.map (fun c => c.filter (fun q => q ≠ p)) } := by
  by_cases h : rtems_chain_is_node_off_chain t p = true
  · simp only [h, Bool.not_true, Bool.false_eq_true, if_false]
    have hall : ∀ c, c ∈ t.buckets → c.filter (fun q => decide (q ≠ p)) = c := by
      intro c hc
      rw [List.filter_eq_self]
      intro q hq
      have hnl := (off_chain_iff t p).1 h
      simp only [decide_eq_true_eq]
      intro e
      exact hnl ⟨c, hc, e ▸ hq⟩
    have : t.buckets.map (fun c => c.filter (fun q => decide (q ≠ p))) = t.buckets := by
      conv_rhs => rw [← List.map_id t.buckets]
      exact List.map_congr_left (fun c hc => by simpa using hall c hc)
    cases t
    simp only at this ⊢
    rw [this]
  · simp only [Bool.not_eq_true] at h
    simp [h, rtems_chain_extract]

theorem erase_loop_spec (heap : Heap) (base : Nat) :
    ∀ (n s : Nat) (t t1 : rtems_rtl_symbols), erase_loop heap base n s t = some t1 →
      t1.nbuckets = t.nbuckets ∧
      t1.buckets = t.buckets.map (fun c => c.filter
        (fun q => !(decide (q.block = base) && (decide (s ≤ q.index) && decide (q.index < s + n))))) := by
  intro n
  induction n with
  | zero =>
    intro s t t1 h
    simp only [erase_loop, Option.some.injEq] at h
    subst h
    refine ⟨rfl, ?_⟩
    have : ∀ c : rtems_chain_control, c.filter (fun q =>
        !(decide (q.block = base) && (decide (s ≤ q.index) && decide (q.index < s + 0)))) = c := by
      intro c
      rw [List.filter_eq_self]
      intro q _
      simp
      omega
    simp only [this, List.map_id']
  | succ n ih =>
    intro s t t1 h
    unfold erase_loop at h
    cases hd : deref heap ⟨base, s⟩ with
    | none => simp [hd] at h
    | some sym =>
      simp only [hd] at h
      have h2 : erase_loop heap base n (s + 1)
          (if !rtems_chain_is_node_off_chain t ⟨base, s⟩ then rtems_chain_extract t ⟨base, s⟩
            else t) = some t1 := by
        by_cases hoff : rtems_chain_is_node_off_chain t ⟨base, s⟩ = true
        · simpa [hoff] using h
        · simp only [Bool.not_eq_true] at hoff
          simpa [hoff] using h
      rw [extract_buckets] at h2
      obtain ⟨g1, g2⟩ := ih (s + 1) _ t1 h2
      refine ⟨g1, ?_⟩
      rw [g2]
      simp only [List.map_map]
      apply List.map_congr_left
      intro c _
      simp only [Function.comp, List.filter_filter]
      apply List.filter_congr
      intro q _
      cases q with
      | mk qb qi =>
        by_cases hb : qb = base
        · by_cases hi : qi = s
          · subst hb hi
            simp
          · have hne : (⟨qb, qi⟩ : SymPtr) ≠ ⟨base, s⟩ := by
              intro e
              injection e with _ e2
              exact hi e2
            have hne2 : decide (¬ (⟨base, qi⟩ : SymPtr) = ⟨base, s⟩) = true := by
              rw [decide_eq_true_eq]
              exact hb ▸ hne
            have hiff : (decide (s + 1 ≤ qi) && decide (qi < s + 1 + n))
                = (decide (s ≤ qi) && decide (qi < s + (n + 1))) := by
              rw [Bool.eq_iff_iff]
              simp only [Bool.and_eq_true, decide_eq_true_eq]
              omega
            simp only [hb, decide_True, Bool.true_and, ne_eq, hne2, Bool.and_true, hiff]
        · have hne : (⟨qb, qi⟩ : SymPtr) ≠ ⟨base, s⟩ := by
            intro e
            injection e with e1 _
            exact hb e1
          simp [hb, hne]

theorem erase_loop_defined (heap : Heap) (base : Nat) :
    ∀ (n s : Nat) (t : rtems_rtl_symbols),
      (∀ k, s ≤ k → k < s + n → ∃ sym, deref heap ⟨base, k⟩ = some sym) →
      ∃ t1, erase_loop heap base n s t = some t1 := by
  intro n
  induction n with
  | zero => intro s t _; exact ⟨t, rfl⟩
  | succ n ih =>
    intro s t hlive
    obtain ⟨sym, hsym⟩ := hlive s (Nat.le_refl _) (by omega)
    unfold erase_loop
    simp only [hsym]
    split
    · exact ih (s + 1) _ (fun k h1 h2 => hlive k (by omega) (by omega))
    · exact ih (s + 1) _ (fun k h1 h2 => hlive k (by omega) (by omega))


theorem erase_inv (rtl rtl1 : Rtl) (obj obj1 : rtems_rtl_obj)
    (h : rtems_rtl_symbol_obj_erase rtl obj = some (rtl1, obj1)) :
    rtl1.symbols.nbuckets = rtl.symbols.nbuckets ∧
    rtl1.symbols.buckets = rtl.symbols.buckets.map (fun c => c.filter (not_of_obj obj)) ∧
    (∀ b, obj.local_table ≠ some b → obj.global_table ≠ some b → rtl1.heap b = rtl.heap b) ∧
    rtl1.errors = rtl.errors ∧ obj1.local_table = none ∧ obj1.global_table = none := by
  have hloc : ∃ rtlL objL, rtems_rtl_symbol_obj_erase_local rtl obj = (rtlL, objL) ∧
      rtlL.symbols = rtl.symbols ∧ rtlL.errors = rtl.errors ∧
      (∀ b, obj.local_table ≠ some b → rtlL.heap b = rtl.heap b) ∧
      objL.global_table = obj.global_table ∧ objL.global_syms = obj.global_syms ∧
      objL.local_table = none := by
    unfold rtems_rtl_symbol_obj_erase_local
    cases hl : obj.local_table with
    | none => exact ⟨rtl, obj, rfl, rfl, rfl, fun _ _ => rfl, rfl, rfl, hl⟩
    | some l =>
      refine ⟨_, _, rfl, rfl, rfl, fun b hb => ?_, rfl, rfl, rfl⟩
      have : b ≠ l := fun e => hb (by rw [e])
      simp [heap_free, this]
  obtain ⟨rtlL, objL, hL, hsymL, herrL, hheapL, hgt, hgs, hlt⟩ := hloc
  unfold rtems_rtl_symbol_obj_erase at h
  rw [hL] at h
  simp only at h
  cases hg : objL.global_table with
  | none =>
    simp only [hg, Option.some.injEq, Prod.mk.injEq] at h
    obtain ⟨rfl, rfl⟩ := h
    rw [hg] at hgt
    refine ⟨by rw [hsymL], ?_, fun b hb _ => hheapL b hb, herrL, hlt, hg⟩
    rw [hsymL]
    have : ∀ c : rtems_chain_control, c.filter (not_of_obj obj) = c := by
      intro c
      rw [List.filter_eq_self]
      intro q _
      simp [not_of_obj, ← hgt]
    simp only [this, List.map_id']
  | some base =>
    simp only [hg] at h
    cases hloop : erase_loop rtlL.heap base objL.global_syms 0 rtlL.symbols with
    | none => simp [hloop] at h
    | some t1 =>
      simp only [hloop, Option.some.injEq, Prod.mk.injEq] at h
      obtain ⟨rfl, rfl⟩ := h
      obtain ⟨g1, g2⟩ := erase_loop_spec _ _ _ _ _ _ hloop
      rw [hg] at hgt
      refine ⟨by simp only [g1, hsymL], ?_, fun b hb1 hb2 => ?_, herrL, hlt, rfl⟩
      · simp only [g2, hsymL]
        apply List.map_congr_left
        intro c _
        apply List.filter_congr
        intro q _
        simp only [not_of_obj, ← hgt, Option.some.injEq, Nat.zero_le, decide_True, Bool.true_and,
          Nat.zero_add, hgs]
        by_cases hq : q.block = base
        · simp [hq]
        · have : ¬ base = q.block := fun e => hq e.symm
          simp [hq, this]
      · have : b ≠ base := fun e => hb2 (by rw [← hgt, e])
        simp only [heap_free, this, if_false]
        exact hheapL b hb1

theorem erase_defined (rtl : Rtl) (obj : rtems_rtl_obj)
    (hlive : ∀ base, obj.global_table = some base → obj.local_table ≠ some base ∧
      ∀ k, k < obj.global_syms → ∃ sym, deref rtl.heap ⟨base, k⟩ = some sym) :
    ∃ r, rtems_rtl_symbol_obj_erase rtl obj = some r := by
  unfold rtems_rtl_symbol_obj_erase rtems_rtl_symbol_obj_erase_local
  cases hl : obj.local_table with
  | none =>
    simp only
    cases hg : obj.global_table with
    | none => exact ⟨_, rfl⟩
    | some base =>
      simp only
      obtain ⟨t1, ht1⟩ := erase_loop_defined rtl.heap base obj.global_syms 0 rtl.symbols
        (fun k _ hk => (hlive base hg).2 k (by omega))
      simp only [ht1]
      exact ⟨_, rfl⟩
  | some l =>
    simp only
    cases hg : obj.global_table with
    | none => exact ⟨_, rfl⟩
    | some base =>
      simp only
      have hne : base ≠ l := by
        intro e
        apply (hlive base hg).1
        rw [hl, e]
      obtain ⟨t1, ht1⟩ := erase_loop_defined (heap_free rtl.heap l) base obj.global_syms 0
        rtl.symbols (fun k _ hk => by
          obtain ⟨sym, hsym⟩ := (hlive base hg).2 k (by omega)
          exact ⟨sym, by simpa [deref, heap_free, hne] using hsym⟩)
      simp only [ht1]
      exact ⟨_, rfl⟩

theorem erase_linked (rtl rtl1 : Rtl) (obj obj1 : rtems_rtl_obj)
    (h : rtems_rtl_symbol_obj_erase rtl obj = some (rtl1, obj1)) (q : SymPtr) :
    Linked rtl1.symbols q ↔ Linked rtl.symbols q ∧ not_of_obj obj q = true := by
  obtain ⟨_, hb, _⟩ := erase_inv rtl rtl1 obj obj1 h
  unfold Linked
  rw [hb]
  constructor
  · rintro ⟨c, hc, hq⟩
    obtain ⟨c0, hc0, rfl⟩ := List.mem_map.1 hc
    obtain ⟨hq1, hq2⟩ := List.mem_filter.1 hq
    exact ⟨⟨c0, hc0, hq1⟩, hq2⟩
  · rintro ⟨⟨c, hc, hq⟩, hn⟩
    exact ⟨c.filter (not_of_obj obj), List.mem_map.2 ⟨c, hc, rfl⟩, List.mem_filter.2 ⟨hq, hn⟩⟩

theorem erase_name_of (rtl rtl1 : Rtl) (obj obj1 : rtems_rtl_obj) (hobj : ObjOk rtl obj)
    (h : rtems_rtl_symbol_obj_erase rtl obj = some (rtl1, obj1)) (q : SymPtr)
    (hq : Linked rtl1.symbols q) : deref rtl1.heap q = deref rtl.heap q := by
  obtain ⟨_, _, hheap, _⟩ := erase_inv rtl rtl1 obj obj1 h
  obtain ⟨hq0, hn⟩ := (erase_linked rtl rtl1 obj obj1 h q).1 hq
  have h1 := hobj.local_unlinked q hq0
  have h2 : obj.global_table ≠ some q.block := by
    intro e
    have := hobj.global_bound q hq0 e
    simp [not_of_obj, e, this] at hn
  simp only [deref, hheap q.block h1 h2]

theorem erase_ok (T : Target) (rtl rtl1 : Rtl) (obj obj1 : rtems_rtl_obj)
    (hok : TableOk T rtl.heap rtl.symbols) (hobj : ObjOk rtl obj)
    (h : rtems_rtl_symbol_obj_erase rtl obj = some (rtl1, obj1)) :
    TableOk T rtl1.heap rtl1.symbols := by
  obtain ⟨hn, hb, _⟩ := erase_inv rtl rtl1 obj obj1 h
  refine ⟨by rw [hb, hn, List.length_map]; exact hok.len, by rw [hn]; exact hok.pos, ?_⟩
  intro i c hi p hp
  have hpl : Linked rtl1.symbols p := (linked_iff_getElem _ p).2 ⟨i, c, hi, hp⟩
  rw [hb, List.getElem?_map] at hi
  cases hc0 : rtl.symbols.buckets[i]? with
  | none => simp [hc0] at hi
  | some c0 =>
    simp only [hc0, Option.map_some', Option.some.injEq] at hi
    subst hi
    obtain ⟨nm, hnm, hidx⟩ := hok.placed i c0 hc0 p (List.mem_filter.1 hp).1
    refine ⟨nm, ?_, by rw [hn]; exact hidx⟩
    rw [name_of_congr _ _ p (erase_name_of rtl rtl1 obj obj1 hobj h p hpl)]
    exact hnm

theorem find_in_chain_filter (heap : Heap) (name : List Byte) (keep : SymPtr → Bool)
    (chain : rtems_chain_control) (x : SymPtr)
    (h : find_in_chain heap name chain = some (some x)) (hx : keep x = true) :
    find_in_chain heap name (chain.filter keep) = some (some x) := by
  induction chain with
  | nil => simp [find_in_chain] at h
  | cons q rest ih =>
    simp only [find_in_chain] at h
    cases hq : name_of heap q with
    | none => simp [hq] at h
    | some nm =>
      simp only [hq] at h
      by_cases hn : name = nm
      · simp only [hn, if_true, Option.some.injEq] at h
        subst h
        simp [List.filter, hx, find_in_chain, hq, hn]
      · simp only [hn, if_false] at h
        by_cases hk : keep q = true
        · simp only [List.filter, hk, find_in_chain, hq, hn, if_false]
          exact ih h
        · simp only [Bool.not_eq_true] at hk
          simp only [List.filter, hk]
          exact ih h

theorem erase_keeps_found (T : Target) (rtl rtl1 : Rtl) (obj obj1 : rtems_rtl_obj)
    (hok : TableOk T rtl.heap rtl.symbols) (hobj : ObjOk rtl obj)
    (h : rtems_rtl_symbol_obj_erase rtl obj = some (rtl1, obj1)) (name : List Byte) (x : SymPtr)
    (hx : rtems_rtl_symbol_global_find T rtl.heap rtl.symbols name = some (some x))
    (hkeep : not_of_obj obj x = true) :
    rtems_rtl_symbol_global_find T rtl1.heap rtl1.symbols name = some (some x) ∧
      deref rtl1.heap x = deref rtl.heap x := by
  obtain ⟨hn, hb, _⟩ := erase_inv rtl rtl1 obj obj1 h
  have hfind : rtems_rtl_symbol_global_find T rtl.heap rtl1.symbols name = some (some x) := by
    unfold rtems_rtl_symbol_global_find at hx ⊢
    have hz : rtl.symbols.nbuckets ≠ 0 := Nat.pos_iff_ne_zero.1 hok.pos
    simp only [bucket_index, hn, hz, if_false, hb, List.getElem?_map] at hx ⊢
    cases hc : rtl.symbols.buckets[rtems_rtl_symbol_hash T name % rtl.symbols.nbuckets]? with
    | none => simp [hc] at hx
    | some c =>
      simp only [hc, Option.map_some'] at hx ⊢
      exact find_in_chain_filter rtl.heap name _ c x hx hkeep
  have hcong := find_congr T rtl1.heap rtl.heap rtl1.symbols name
    (fun p hp => name_of_congr _ _ p (erase_name_of rtl rtl1 obj obj1 hobj h p hp))
  obtain ⟨r, hr, _, hsome⟩ := find_spec T rtl.heap rtl.symbols name hok
  rw [hx] at hr
  cases hr
  have hxl : Linked rtl1.symbols x :=
    (erase_linked rtl rtl1 obj obj1 h x).2 ⟨(hsome x rfl).1, hkeep⟩
  exact ⟨by rw [hcong]; exact hfind, erase_name_of rtl rtl1 obj obj1 hobj h x hxl⟩

theorem linked_iff_flatten (t : rtems_rtl_symbols) (p : SymPtr) :
    Linked t p ↔ p ∈ t.buckets.flatten := by
  unfold Linked
  rw [List.mem_flatten]

theorem erase_find_none (T : Target) (rtl rtl1 : Rtl) (obj obj1 : rtems_rtl_obj)
    (hok : TableOk T rtl.heap rtl.symbols) (hobj : ObjOk rtl obj)
    (h : rtems_rtl_symbol_obj_erase rtl obj = some (rtl1, obj1)) (name : List Byte)
    (hexcl : ∀ p, Linked rtl.symbols p → name_of rtl.heap p = some name →
      obj.global_table = some p.block) :
    rtems_rtl_symbol_global_find T rtl1.heap rtl1.symbols name = some none := by
  obtain ⟨r, hr, hnone, _⟩ := find_spec T rtl1.heap rtl1.symbols name
    (erase_ok T rtl rtl1 obj obj1 hok hobj h)
  have : r = none := hnone.2 (fun p hp hname => by
    obtain ⟨hp0, hkeep⟩ := (erase_linked rtl rtl1 obj obj1 h p).1 hp
    rw [name_of_congr _ _ p (erase_name_of rtl rtl1 obj obj1 hobj h p hp)] at hname
    have hg := hexcl p hp0 hname
    have hi := hobj.global_bound p hp0 hg
    simp [not_of_obj, hg, hi] at hkeep)
  rw [hr, this]

theorem pubinv_objok (T : Target) (base n : Nat) (rtl0 rtl1 : Rtl) (obj : rtems_rtl_obj)
    (hold : ∀ p, Linked rtl0.symbols p → p.block ≠ base)
    (inv : PubInv T base n rtl0 n rtl1)
    (hlocal : ∀ l, obj.local_table = some l →
      l ≠ base ∧ ∀ p, Linked rtl0.symbols p → p.block ≠ l) :
    ObjOk rtl1 { obj with global_size := n * T.sym_bytes, global_table := some base,
                          global_syms := n } := by
  constructor
  · intro p hp e
    obtain ⟨h1, h2⟩ := hlocal p.block e
    rcases inv.linked_new p hp with h | ⟨h, _⟩
    · exact h2 p h rfl
    · exact h1 h
  · intro p hp e
    simp only [Option.some.injEq] at e
    rcases inv.linked_new p hp with h | ⟨_, h⟩
    · exact absurd e.symm (hold p h)
    · exact h

/-- C5: after `rtems_rtl_symbol_obj_erase` of an object, the find of every name
that was linked in the global table only by symbols of the global table of the
object (no linked symbol of another table has the name) returns NULL. -/
theorem erase_unpublishes (T : Target) (rtl rtl1 : Rtl) (obj obj1 : rtems_rtl_obj)
    (hok : TableOk T rtl.heap rtl.symbols) (hobj : ObjOk rtl obj)
    (h : rtems_rtl_symbol_obj_erase rtl obj = some (rtl1, obj1)) (name : List Byte)
    (hexcl : ∀ p, Linked rtl.symbols p → name_of rtl.heap p = some name →
      obj.global_table = some p.block) :
    rtems_rtl_symbol_global_find T rtl1.heap rtl1.symbols name = some none :=
  erase_find_none T rtl rtl1 obj obj1 hok hobj h name hexcl

theorem scenario_published_inv :
    PubInv target32 200 2 { scenario_linked with heap := heap_alloc scenario_linked.heap 200 2 } 2
      scenario_published := by
  obtain ⟨base, count, hobj, _, _, inv⟩ := global_add_true_inv target32 (fun _ => some 200)
    scenario_linked empty_obj scenario_blob scenario_blob.length
    ([] : List (rtems_rtl_tls_offset Unit)) 0 () scenario_published scenario_obj ()
    scenario_table_ok (scenario_fresh 200 rfl) rfl
  have hb : base = 200 := by
    have := congrArg rtems_rtl_obj.global_table hobj
    simpa [scenario_obj] using this.symm
  have hc : count = 2 := by
    have := congrArg rtems_rtl_obj.global_syms hobj
    simpa [scenario_obj] using this.symm
  subst hb hc
  exact inv

/-- C5, at the state after the records `beta` and `foo` are added to the table
that holds `alpha`, `beta` and `gamma`: `foo` is linked by the object only,
its find returns the symbol of the object before the erase and NULL after. -/
theorem erase_unpublishes_witness :
    rtems_rtl_symbol_obj_erase scenario_published scenario_obj
      = some (scenario_erased, ⟨none, 0, 0, none, 0, 0⟩) ∧
    (∀ p, Linked scenario_published.symbols p →
      name_of scenario_published.heap p = some (cstring "foo") →
      scenario_obj.global_table = some p.block) ∧
    rtems_rtl_symbol_global_find target32 scenario_published.heap scenario_published.symbols
      (cstring "foo") = some (some ⟨200, 1⟩) ∧
    rtems_rtl_symbol_global_find target32 scenario_erased.heap scenario_erased.symbols
      (cstring "foo") = some none :=
  ⟨rfl,
   fun p hp => (by decide : ∀ p, p ∈ scenario_published.symbols.buckets.flatten →
      name_of scenario_published.heap p = some (cstring "foo") →
      scenario_obj.global_table = some p.block) p ((linked_iff_flatten _ p).1 hp),
   by decide,
   erase_unpublishes target32 scenario_published scenario_erased scenario_obj
     ⟨none, 0, 0, none, 0, 0⟩ scenario_published_inv.ok
     (pubinv_objok target32 200 2 _ scenario_published empty_obj
       (fun p hp => by
          have := linked_block_live target32 scenario_heap scenario_table scenario_table_ok p hp
          intro e
          rw [e] at this
          exact this rfl)
       scenario_published_inv (fun l hl => by cases hl))
     rfl (cstring "foo")
     (fun p hp => (by decide : ∀ p, p ∈ scenario_published.symbols.buckets.flatten →
        name_of scenario_published.heap p = some (cstring "foo") →
        scenario_obj.global_table = some p.block) p ((linked_iff_flatten _ p).1 hp))⟩

theorem pubinv_heap_eq (T : Target) (base n count : Nat) (rtl rtl1 : Rtl)
    (inv : PubInv T base n { rtl with heap := heap_alloc rtl.heap base n } count rtl1)
    (blk : Nat) (h : blk ≠ base) : rtl1.heap blk = rtl.heap blk := by
  rw [inv.heap_other blk h]
  simp [heap_alloc, h]

theorem pubinv_deref_eq (T : Target) (base n count : Nat) (rtl rtl1 : Rtl)
    (inv : PubInv T base n { rtl with heap := heap_alloc rtl.heap base n } count rtl1)
    (p : SymPtr) (h : p.block ≠ base) : deref rtl1.heap p = deref rtl.heap p := by
  simp only [deref, pubinv_heap_eq T base n count rtl rtl1 inv p.block h]

theorem global_add_export_of {W : Type} (T : Target) (alloc : Nat → Option Nat) (rtl : Rtl)
    (obj : rtems_rtl_obj) (recs : List (List Byte × Nat)) (env : W) (base : Nat)
    (hok : TableOk T rtl.heap rtl.symbols)
    (hrecs : ∀ r, r ∈ recs → r.1 ≠ [] ∧ (0 : Byte) ∉ r.1 ∧ r.2 < 256 ^ T.ptr_bytes)
    (ha : alloc (recs.length * T.sym_bytes) = some base) (hf : rtl.heap base = none) :
    ∃ rtl1,
      rtems_rtl_symbol_global_add T alloc rtl obj (export_table_of T recs)
        (export_table_of T recs).length ([] : List (rtems_rtl_tls_offset W)) 0 env
        = some (true, rtl1,
            { obj with global_size := recs.length * T.sym_bytes, global_table := some base,
                       global_syms := recs.length }, env) ∧
      (∀ p, Linked rtl.symbols p → p.block ≠ base) ∧
      PubInv T base recs.length { rtl with heap := heap_alloc rtl.heap base recs.length }
        recs.length rtl1 ∧
      ∀ k r, recs[k]? = some r → ∃ sym, deref rtl1.heap ⟨base, k⟩ = some sym ∧
        sym.name = some r.1 ∧ sym.value = r.2 := by
  have hwf : ∀ r, r ∈ recs.map (fun r => (r.1, encode_value T r.2)) → WfRecord T r := by
    intro r hr
    obtain ⟨q, hq, rfl⟩ := List.mem_map.1 hr
    exact ⟨(hrecs q hq).1, (hrecs q hq).2.1, encode_value_length T q.2⟩
  obtain ⟨rtl1, hrun, hold, inv, hcont⟩ := global_add_export T alloc rtl obj
    (recs.map (fun r => (r.1, encode_value T r.2))) ([] : List (rtems_rtl_tls_offset W)) env base
    hok hwf (by simpa using ha) hf
  rw [published_values_no_tls] at hrun
  simp only [List.length_map] at hrun inv
  refine ⟨rtl1, hrun, hold, inv, fun k r hk => ?_⟩
  obtain ⟨sym, h1, h2, h3⟩ := hcont k (r.1, encode_value T r.2) (by simp [hk])
  rw [published_values_no_tls] at h3
  simp only [List.map_map, List.getElem?_map, hk, Option.map_some', Function.comp,
    Option.some.injEq] at h3
  exact ⟨sym, h1, h2, by rw [← h3, copy_voidp_encode T r.2 (hrecs r (List.getElem?_mem hk)).2.2]⟩

theorem publish_first_found (T : Target) (rtl rtl1 : Rtl) (recs : List (List Byte × Nat))
    (base : Nat) (foo : List Byte) (v i : Nat)
    (hok : TableOk T rtl.heap rtl.symbols)
    (hnofoo : rtems_rtl_symbol_global_find T rtl.heap rtl.symbols foo = some none)
    (hold : ∀ p, Linked rtl.symbols p → p.block ≠ base)
    (inv : PubInv T base recs.length { rtl with heap := heap_alloc rtl.heap base recs.length }
      recs.length rtl1)
    (hcont : ∀ k r, recs[k]? = some r → ∃ sym, deref rtl1.heap ⟨base, k⟩ = some sym ∧
      sym.name = some r.1 ∧ sym.value = r.2)
    (hi : recs[i]? = some (foo, v))
    (hfirst : ∀ j r, j < i → recs[j]? = some r → r.1 ≠ foo) :
    rtems_rtl_symbol_global_find T rtl1.heap rtl1.symbols foo = some (some ⟨base, i⟩) ∧
    (∃ sym, deref rtl1.heap ⟨base, i⟩ = some sym ∧ sym.name = some foo ∧ sym.value = v) ∧
    (∀ p, Linked rtl1.symbols p → name_of rtl1.heap p = some foo → p.block = base) := by
  have hlt : i < recs.length := by
    by_contra hge
    rw [List.getElem?_eq_none (Nat.le_of_not_lt hge)] at hi
    cases hi
  obtain ⟨sym, hsym, hname, hval⟩ := hcont i (foo, v) hi
  have hnamei : name_of rtl1.heap ⟨base, i⟩ = some foo := by simp [name_of, hsym, hname]
  have hblock : ∀ p, Linked rtl1.symbols p → name_of rtl1.heap p = some foo → p.block = base := by
    intro p hp hpn
    rcases inv.linked_new p hp with h | ⟨h, _⟩
    · exfalso
      rw [name_of_congr _ _ p
        (pubinv_deref_eq T base recs.length recs.length rtl rtl1 inv p (hold p h))] at hpn
      obtain ⟨r, hr, hnone, _⟩ := find_spec T rtl.heap rtl.symbols foo hok
      rw [hnofoo] at hr
      cases hr
      exact hnone.1 rfl p h hpn
    · exact h
  obtain ⟨nm, x, hnm, hfx⟩ := inv.found i hlt
  rw [hnamei] at hnm
  cases hnm
  obtain ⟨r, hr, _, hsome⟩ := find_spec T rtl1.heap rtl1.symbols foo inv.ok
  rw [hfx] at hr
  cases hr
  obtain ⟨hxl, hxn⟩ := hsome x rfl
  have hxb := hblock x hxl hxn
  have hxe : x = ⟨base, x.index⟩ := by
    cases x
    simp only at hxb
    simp [hxb]
  have hxi : x.index = i := by
    rw [hxe] at hxl hxn
    obtain ⟨_, f2⟩ := inv.first x.index hxl
    rcases Nat.lt_trichotomy x.index i with h | h | h
    · exfalso
      have hxlt : x.index < recs.length := by omega
      obtain ⟨sym2, hs2, hn2, _⟩ := hcont x.index recs[x.index] (List.getElem?_eq_getElem hxlt)
      have : name_of rtl1.heap ⟨base, x.index⟩ = some recs[x.index].1 := by
        simp [name_of, hs2, hn2]
      rw [hxn] at this
      exact hfirst x.index recs[x.index] h (List.getElem?_eq_getElem hxlt)
        (Option.some.inj this).symm
    · exact h
    · exfalso
      have := f2 i h
      rw [hnamei, hxn] at this
      exact this rfl
  rw [hxe, hxi] at hfx
  exact ⟨hfx, ⟨sym, hsym, hname, hval⟩, hblock⟩


/-- C3: first definition wins. Modules A and B have well formed export tables;
the first record named `foo` of A is record `i` with value `vA`, and B has a
record `k` named `foo` with value `vB`. They are added with
`rtems_rtl_symbol_global_add` in the order A then B to a table in which `foo`
is not found. Then the symbol of B for `foo` is never linked; the find of
`foo` returns the symbol `i` of the table of A, with value `vA`, after both
calls and after `rtems_rtl_symbol_obj_erase` of B, and returns NULL after
`rtems_rtl_symbol_obj_erase` of A as well. -/
theorem first_definition_wins {W : Type} (T : Target) (allocA allocB : Nat → Option Nat)
    (rtl : Rtl) (objA objB : rtems_rtl_obj) (recsA recsB : List (List Byte × Nat)) (env : W)
    (a b : Nat) (foo : List Byte) (vA vB i k : Nat)
    (hok : TableOk T rtl.heap rtl.symbols)
    (hnofoo : rtems_rtl_symbol_global_find T rtl.heap rtl.symbols foo = some none)
    (hwA : ∀ r, r ∈ recsA → r.1 ≠ [] ∧ (0 : Byte) ∉ r.1 ∧ r.2 < 256 ^ T.ptr_bytes)
    (hwB : ∀ r, r ∈ recsB → r.1 ≠ [] ∧ (0 : Byte) ∉ r.1 ∧ r.2 < 256 ^ T.ptr_bytes)
    (hiA : recsA[i]? = some (foo, vA))
    (hfirst : ∀ j r, j < i → recsA[j]? = some r → r.1 ≠ foo)
    (hkB : recsB[k]? = some (foo, vB))
    (haA : allocA (recsA.length * T.sym_bytes) = some a) (hfa : rtl.heap a = none)
    (haB : allocB (recsB.length * T.sym_bytes) = some b) (hfb : rtl.heap b = none)
    (hab : a ≠ b)
    (hlA : ∀ l, objA.local_table = some l →
      rtl.heap l ≠ none ∧ ∀ p, Linked rtl.symbols p → p.block ≠ l)
    (hlB : ∀ l, objB.local_table = some l →
      rtl.heap l ≠ none ∧ ∀ p, Linked rtl.symbols p → p.block ≠ l) :
    ∃ rtl1 objA1 rtl2 objB1 rtl3 objB2 rtl4 objA2 symA symB,
      rtems_rtl_symbol_global_add T allocA rtl objA (export_table_of T recsA)
        (export_table_of T recsA).length ([] : List (rtems_rtl_tls_offset W)) 0 env
        = some (true, rtl1, objA1, env) ∧
      rtems_rtl_symbol_global_add T allocB rtl1 objB (export_table_of T recsB)
        (export_table_of T recsB).length ([] : List (rtems_rtl_tls_offset W)) 0 env
        = some (true, rtl2, objB1, env) ∧
      objA1.global_table = some a ∧ objB1.global_table = some b ∧
      symA.name = some foo ∧ symA.value = vA ∧
      deref rtl2.heap ⟨b, k⟩ = some symB ∧ symB.name = some foo ∧ symB.value = vB ∧
      ¬ Linked rtl2.symbols ⟨b, k⟩ ∧
      rtems_rtl_symbol_global_find T rtl2.heap rtl2.symbols foo = some (some ⟨a, i⟩) ∧
      deref rtl2.heap ⟨a, i⟩ = some symA ∧
      rtems_rtl_symbol_obj_erase rtl2 objB1 = some (rtl3, objB2) ∧
      rtems_rtl_symbol_global_find T rtl3.heap rtl3.symbols foo = some (some ⟨a, i⟩) ∧
      deref rtl3.heap ⟨a, i⟩ = some symA ∧
      rtems_rtl_symbol_obj_erase rtl3 objA1 = some (rtl4, objA2) ∧
      rtems_rtl_symbol_global_find T rtl4.heap rtl4.symbols foo = some none := by
  -- the publish of A
  obtain ⟨rtl1, hrunA, holdA, invA, hcontA⟩ := global_add_export_of T allocA rtl objA recsA env a
    hok hwA haA hfa
  obtain ⟨hfindA, ⟨symA, hsymA, hnameA, hvalA⟩, hblockA⟩ := publish_first_found T rtl rtl1 recsA
    a foo vA i hok hnofoo holdA invA hcontA hiA hfirst
  -- the publish of B
  have hfb1 : rtl1.heap b = none := by
    rw [pubinv_heap_eq T a recsA.length recsA.length rtl rtl1 invA b (fun e => hab e.symm)]
    exact hfb
  obtain ⟨rtl2, hrunB, holdB, invB, hcontB⟩ := global_add_export_of T allocB rtl1 objB recsB env b
    invA.ok hwB haB hfb1
  have hderefB : ∀ p : SymPtr, p.block ≠ b → deref rtl2.heap p = deref rtl1.heap p :=
    fun p hp => pubinv_deref_eq T b recsB.length recsB.length rtl1 rtl2 invB p hp
  have hfindB : rtems_rtl_symbol_global_find T rtl2.heap rtl2.symbols foo = some (some ⟨a, i⟩) := by
    apply invB.keeps
    rw [find_congr T (heap_alloc rtl1.heap b recsB.length) rtl1.heap rtl1.symbols foo
      (fun p hp => name_of_congr _ _ p (deref_heap_alloc rtl1.heap b recsB.length p (holdB p hp)))]
    exact hfindA
  have hsymA2 : deref rtl2.heap ⟨a, i⟩ = some symA := by
    rw [hderefB ⟨a, i⟩ hab]
    exact hsymA
  obtain ⟨symB, hsymB, hnameB, hvalB⟩ := hcontB k (foo, vB) hkB
  have hxl1 : Linked rtl1.symbols ⟨a, i⟩ := by
    obtain ⟨r, hr, _, hsome⟩ := find_spec T rtl1.heap rtl1.symbols foo invA.ok
    rw [hfindA] at hr
    cases hr
    exact (hsome _ rfl).1
  have hnlB : ¬ Linked rtl2.symbols ⟨b, k⟩ := by
    intro hl
    obtain ⟨f1, _⟩ := invB.first k hl
    have := f1 ⟨a, i⟩ hxl1
    simp [name_of, hsymA2, hsymB, hnameA, hnameB] at this
  -- the blocks of the local tables are not the new tables
  have hlocA : ∀ l, objA.local_table = some l → l ≠ a ∧ l ≠ b :=
    fun l hl => ⟨fun e => (hlA l hl).1 (e ▸ hfa), fun e => (hlA l hl).1 (e ▸ hfb)⟩
  have hlocB : ∀ l, objB.local_table = some l → l ≠ a ∧ l ≠ b :=
    fun l hl => ⟨fun e => (hlB l hl).1 (e ▸ hfa), fun e => (hlB l hl).1 (e ▸ hfb)⟩
  -- the erase of B
  have hobjB : ObjOk rtl2
      { objB with global_size := recsB.length * T.sym_bytes, global_table := some b,
                  global_syms := recsB.length } :=
    pubinv_objok T b recsB.length { rtl1 with heap := heap_alloc rtl1.heap b recsB.length }
      rtl2 objB holdB invB (fun l hl => by
      refine ⟨(hlocB l hl).2, fun p hp => ?_⟩
      rcases invA.linked_new p hp with h | ⟨h, _⟩
      · exact (hlB l hl).2 p h
      · rw [h]; exact fun e => (hlocB l hl).1 e.symm)
  obtain ⟨⟨rtl3, objB2⟩, heB⟩ := erase_defined rtl2
    { objB with global_size := recsB.length * T.sym_bytes, global_table := some b,
                global_syms := recsB.length }
    (fun base hb => by
      simp only [Option.some.injEq] at hb
      subst hb
      exact ⟨fun e => (hlocB b e).2 rfl, fun j hj => invB.live j hj⟩)
  have hkeepA : not_of_obj
      { objB with global_size := recsB.length * T.sym_bytes, global_table := some b,
                  global_syms := recsB.length } ⟨a, i⟩ = true := by
    simp [not_of_obj, hab.symm]
  obtain ⟨hfind3, hderef3⟩ := erase_keeps_found T rtl2 rtl3 _ objB2 invB.ok hobjB heB foo ⟨a, i⟩
    hfindB hkeepA
  have hok3 := erase_ok T rtl2 rtl3 _ objB2 invB.ok hobjB heB
  obtain ⟨_, _, hheap3, _⟩ := erase_inv rtl2 rtl3 _ objB2 heB
  -- every symbol linked after the erase of B is an old one or one of A
  have hlinked3 : ∀ p, Linked rtl3.symbols p →
      (Linked rtl.symbols p ∧ p.block ≠ a ∧ p.block ≠ b) ∨
        (p.block = a ∧ p.index < recsA.length) := by
    intro p hp
    obtain ⟨hp2, hkeep⟩ := (erase_linked rtl2 rtl3 _ objB2 heB p).1 hp
    rcases invB.linked_new p hp2 with h | ⟨h1, h2⟩
    · rcases invA.linked_new p h with h0 | h0
      · exact Or.inl ⟨h0, holdA p h0, fun e => by
          have := linked_block_live T rtl.heap rtl.symbols hok p h0
          rw [e] at this
          exact this hfb⟩
      · exact Or.inr h0
    · simp [not_of_obj, h1, h2] at hkeep
  have hobjA : ObjOk rtl3
      { objA with global_size := recsA.length * T.sym_bytes, global_table := some a,
                  global_syms := recsA.length } := by
    constructor
    · intro p hp e
      rcases hlinked3 p hp with ⟨h0, _, _⟩ | ⟨h0, _⟩
      · exact (hlA p.block e).2 p h0 rfl
      · exact (hlocA p.block e).1 h0
    · intro p hp e
      simp only [Option.some.injEq] at e
      rcases hlinked3 p hp with ⟨_, h0, _⟩ | ⟨_, h0⟩
      · exact absurd e.symm h0
      · exact h0
  have hheapA3 : rtl3.heap a = rtl1.heap a := by
    rw [hheap3 a (fun e => (hlocB a e).1 rfl) (fun e => hab (Option.some.inj e).symm),
      pubinv_heap_eq T b recsB.length recsB.length rtl1 rtl2 invB a hab]
  obtain ⟨⟨rtl4, objA2⟩, heA⟩ := erase_defined rtl3
    { objA with global_size := recsA.length * T.sym_bytes, global_table := some a,
                global_syms := recsA.length }
    (fun base hb => by
      simp only [Option.some.injEq] at hb
      subst hb
      refine ⟨fun e => (hlocA a e).1 rfl, fun j hj => ?_⟩
      obtain ⟨sym, hsym⟩ := invA.live j hj
      exact ⟨sym, by simpa [deref, hheapA3] using hsym⟩)
  have hnone4 := erase_find_none T rtl3 rtl4 _ objA2 hok3 hobjA heA foo (fun p hp hpn => by
    rcases hlinked3 p hp with ⟨h0, h1, h2⟩ | ⟨h0, _⟩
    · exfalso
      have hp3 : deref rtl3.heap p = deref rtl.heap p := by
        rw [erase_name_of rtl2 rtl3 _ objB2 hobjB heB p hp, hderefB p h2,
          pubinv_deref_eq T a recsA.length recsA.length rtl rtl1 invA p h1]
      rw [name_of_congr _ _ p hp3] at hpn
      obtain ⟨r, hr, hnone, _⟩ := find_spec T rtl.heap rtl.symbols foo hok
      rw [hnofoo] at hr
      cases hr
      exact hnone.1 rfl p h0 hpn
    · simp [h0])
  exact ⟨rtl1, _, rtl2, _, rtl3, objB2, rtl4, objA2, symA, symB, hrunA, hrunB, rfl, rfl, hnameA,
    hvalA, hsymB, hnameB, hvalB, hnlB, hfindB, hsymA2, heB, hfind3,
    by rw [hderef3]; exact hsymA2, heA, hnone4⟩


/-- C3, at the table that holds `alpha`, `beta` and `gamma`: A exports `beta`
and `foo` with value `0x11`, B exports `foo` with value `0x22` and `bar`; the
table of A is allocated at address 200 and the table of B at address 300. -/
theorem first_definition_wins_witness :
    (rtems_rtl_symbol_global_find target32 scenario_linked.heap scenario_linked.symbols
        (cstring "foo") = some none ∧
      [(cstring "beta", 9), (cstring "foo", 0x11)][1]? = some (cstring "foo", 0x11) ∧
      [(cstring "foo", 0x22), (cstring "bar", 3)][0]? = some (cstring "foo", 0x22) ∧
      scenario_linked.heap 200 = none ∧ scenario_linked.heap 300 = none ∧ 200 ≠ 300) ∧
    ∃ rtl1 objA1 rtl2 objB1 rtl3 objB2 rtl4 objA2 symA symB,
      rtems_rtl_symbol_global_add target32 (fun _ => some 200) scenario_linked empty_obj
        (export_table_of target32 [(cstring "beta", 9), (cstring "foo", 0x11)])
        (export_table_of target32 [(cstring "beta", 9), (cstring "foo", 0x11)]).length
        ([] : List (rtems_rtl_tls_offset Unit)) 0 ()
        = some (true, rtl1, objA1, ()) ∧
      rtems_rtl_symbol_global_add target32 (fun _ => some 300) rtl1 empty_obj
        (export_table_of target32 [(cstring "foo", 0x22), (cstring "bar", 3)])
        (export_table_of target32 [(cstring "foo", 0x22), (cstring "bar", 3)]).length
        ([] : List (rtems_rtl_tls_offset Unit)) 0 ()
        = some (true, rtl2, objB1, ()) ∧
      objA1.global_table = some 200 ∧ objB1.global_table = some 300 ∧
      symA.name = some (cstring "foo") ∧ symA.value = 0x11 ∧
      deref rtl2.heap ⟨300, 0⟩ = some symB ∧ symB.name = some (cstring "foo") ∧
      symB.value = 0x22 ∧ ¬ Linked rtl2.symbols ⟨300, 0⟩ ∧
      rtems_rtl_symbol_global_find target32 rtl2.heap rtl2.symbols (cstring "foo")
        = some (some ⟨200, 1⟩) ∧
      deref rtl2.heap ⟨200, 1⟩ = some symA ∧
      rtems_rtl_symbol_obj_erase rtl2 objB1 = some (rtl3, objB2) ∧
      rtems_rtl_symbol_global_find target32 rtl3.heap rtl3.symbols (cstring "foo")
        = some (some ⟨200, 1⟩) ∧
      deref rtl3.heap ⟨200, 1⟩ = some symA ∧
      rtems_rtl_symbol_obj_erase rtl3 objA1 = some (rtl4, objA2) ∧
      rtems_rtl_symbol_global_find target32 rtl4.heap rtl4.symbols (cstring "foo") = some none :=
  ⟨⟨by decide, by decide, by decide, rfl, rfl, by decide⟩,
   first_definition_wins target32 (fun _ => some 200) (fun _ => some 300) scenario_linked
     empty_obj empty_obj [(cstring "beta", 9), (cstring "foo", 0x11)]
     [(cstring "foo", 0x22), (cstring "bar", 3)] () 200 300 (cstring "foo") 0x11 0x22 1 0
     scenario_table_ok (by decide) (by decide) (by decide) (by decide)
     (fun j r hj h => by
        have hj0 : j = 0 := by omega
        subst hj0
        simp only [List.getElem?_cons_zero, Option.some.injEq] at h
        subst h
        decide)
     (by decide) rfl rfl rfl rfl (by decide) (fun l hl => by cases hl) (fun l hl => by cases hl)⟩

theorem count_loop_fuel (T : Target) (esyms : List Byte) (size : Nat) :
    ∀ (fuel s count k : Nat), size ≤ s + fuel →
      count_loop T esyms size (fuel + 1 + k) s count = count_loop T esyms size (fuel + 1) s count := by
  intro fuel
  induction fuel with
  | zero =>
    intro s count k h
    have hs : ¬ s < size := by omega
    rw [show 0 + 1 + k = k + 1 by omega]
    simp [count_loop, hs]
  | succ fuel ih =>
    intro s count k h
    rw [show fuel + 1 + 1 + k = (fuel + 1 + k) + 1 by omega]
    unfold count_loop
    by_cases hs : s < size
    · simp only [hs, if_true]
      cases esyms[s]? with
      | none => rfl
      | some c =>
        simp only
        by_cases hc : c ≠ 0
        · rw [if_pos hc, if_pos hc]
          cases strlen esyms s with
          | none => rfl
          | some l =>
            simp only
            cases esyms[s + l]? with
            | none => rfl
            | some e =>
              simp only
              split
              · rfl
              · exact ih _ _ k (by omega)
        · rw [if_neg hc, if_neg hc]
    · simp only [hs, if_false]

theorem populate_loop_fuel {W : Type} (T : Target) (esyms : List Byte) (size : Nat)
    (tls_offsets : List (rtems_rtl_tls_offset W)) (tls_size base : Nat) :
    ∀ (fuel s count k : Nat) (rtl : Rtl) (env : W), size ≤ s + fuel →
      populate_loop T esyms size tls_offsets tls_size base (fuel + 1 + k) s count rtl env
        = populate_loop T esyms size tls_offsets tls_size base (fuel + 1) s count rtl env := by
  intro fuel
  induction fuel with
  | zero =>
    intro s count k rtl env h
    have hs : ¬ s < size := by omega
    rw [show 0 + 1 + k = k + 1 by omega]
    simp [populate_loop, hs]
  | succ fuel ih =>
    intro s count k rtl env h
    rw [show fuel + 1 + 1 + k = (fuel + 1 + k) + 1 by omega]
    unfold populate_loop
    by_cases hs : s < size
    · simp only [hs, if_true]
      cases esyms[s]? with
      | none => rfl
      | some c =>
        simp only
        by_cases hc : c ≠ 0
        · rw [if_pos hc, if_pos hc]
          cases hrec : populate_record T esyms tls_offsets tls_size base s count rtl env with
          | none => rfl
          | some res =>
            obtain ⟨s1, rtl1, env1⟩ := res
            simp only
            obtain ⟨l, _, _, _, _, _, _, _, _, _, _, _, hs1, _⟩ :=
              populate_record_inv T esyms tls_offsets tls_size base s count rtl rtl1 env env1 s1 hrec
            exact ih _ _ k _ _ (by omega)
        · rw [if_neg hc, if_neg hc]
    · simp only [hs, if_false]

theorem hash_fold_mod (w : Nat) (s : List Byte) :
    ∀ h : Nat, s.foldl (fun h c => (h * 33 + c.val) % 2 ^ w) (h % 2 ^ w)
      = (s.foldl (fun h b => h * 33 + b.val) h) % 2 ^ w := by
  induction s with
  | nil => intro h; rfl
  | cons c cs ih =>
    intro h
    simp only [List.foldl_cons]
    have : (h % 2 ^ w * 33 + c.val) % 2 ^ w = (h * 33 + c.val) % 2 ^ w := by
      rw [Nat.add_mod, Nat.mul_mod, Nat.mod_mod, ← Nat.mul_mod, ← Nat.add_mod]
    rw [this, ih]

/-- C14: `rtems_rtl_symbol_hash` is the DJB2 reference modulo `2^32` for every
string, whatever the width of the accumulator `uint_fast32_t` from 32 bits on,
so the results for 32 and for 64 bits are equal; the hash of the empty string
is 5381. -/
theorem hash_is_djb2 (T : Target) (s : List Byte) (hw : 32 ≤ T.fast32_bits) :
    rtems_rtl_symbol_hash T s = djb2 s % 2 ^ 32 ∧
    rtems_rtl_symbol_hash T s
      = rtems_rtl_symbol_hash { T with fast32_bits := 32 } s ∧
    rtems_rtl_symbol_hash T s
      = rtems_rtl_symbol_hash { T with fast32_bits := 64 } s ∧
    rtems_rtl_symbol_hash T [] = 5381 := by
  have hgen : ∀ w, 32 ≤ w →
      (s.foldl (fun h c => (h * 33 + c.val) % 2 ^ w) 5381) % 2 ^ 32 = djb2 s % 2 ^ 32 := by
    intro w hw32
    have h5381 : 5381 % 2 ^ w = 5381 :=
      Nat.mod_eq_of_lt (lt_of_lt_of_le (by norm_num : 5381 < 2 ^ 32)
        (Nat.pow_le_pow_right (by norm_num) hw32))
    have := hash_fold_mod w s 5381
    rw [h5381] at this
    rw [this]
    exact Nat.mod_mod_of_dvd _ (Nat.pow_dvd_pow 2 hw32)
  have h1 : rtems_rtl_symbol_hash T s = djb2 s % 2 ^ 32 := hgen T.fast32_bits hw
  refine ⟨h1, ?_, ?_, ?_⟩
  · rw [h1]
    exact (hgen 32 (Nat.le_refl _)).symm
  · rw [h1]
    exact (hgen 64 (by norm_num)).symm
  · have h5381 : 5381 % 2 ^ T.fast32_bits = 5381 :=
      Nat.mod_eq_of_lt (lt_of_lt_of_le (by norm_num : 5381 < 2 ^ 32)
        (Nat.pow_le_pow_right (by norm_num) hw))
    simp [rtems_rtl_symbol_hash]

/-- C14, at the string `alpha` on a target with a `uint_fast32_t` of 64 bits:
the hash is `253193259`, the DJB2 value `210706590763` modulo `2^32`. -/
theorem hash_is_djb2_witness :
    32 ≤ (⟨8, false, 64, 40, 24, 64⟩ : Target).fast32_bits ∧
    djb2 (cstring "alpha") = 210706590763 ∧
    rtems_rtl_symbol_hash ⟨8, false, 64, 40, 24, 64⟩ (cstring "alpha") = 253193259 ∧
    (rtems_rtl_symbol_hash ⟨8, false, 64, 40, 24, 64⟩ (cstring "alpha")
        = djb2 (cstring "alpha") % 2 ^ 32 ∧
      rtems_rtl_symbol_hash ⟨8, false, 64, 40, 24, 64⟩ (cstring "alpha")
        = rtems_rtl_symbol_hash { (⟨8, false, 64, 40, 24, 64⟩ : Target) with fast32_bits := 32 }
            (cstring "alpha") ∧
      rtems_rtl_symbol_hash ⟨8, false, 64, 40, 24, 64⟩ (cstring "alpha")
        = rtems_rtl_symbol_hash { (⟨8, false, 64, 40, 24, 64⟩ : Target) with fast32_bits := 64 }
            (cstring "alpha") ∧
      rtems_rtl_symbol_hash ⟨8, false, 64, 40, 24, 64⟩ [] = 5381) :=
  ⟨by decide, by decide, by decide,
   hash_is_djb2 ⟨8, false, 64, 40, 24, 64⟩ (cstring "alpha") (by decide)⟩

theorem populate_loop_errors {W : Type} (T : Target) (esyms : List Byte) (size : Nat)
    (tls_offsets : List (rtems_rtl_tls_offset W)) (tls_size base : Nat)
    (rtl rtl1 : Rtl) (env env1 : W) (r : Nat × Nat)
    (h : populate_loop T esyms size tls_offsets tls_size base (size + 1) 0 0 rtl env
      = some (rtl1, env1))
    (hc : count_loop T esyms size (size + 1) 0 0 = some (some r)) :
    rtl1.errors = rtl.errors :=
  populate_loop_induct T esyms size tls_offsets tls_size base
    (fun _ _ r _ => r.errors = rtl.errors)
    (fun s c r0 e s1 r1 e1 hP hrec => by
      obtain ⟨_, _, _, _, _, _, _, _, _, _, _, _, _, _, herr, _⟩ :=
        populate_record_inv T esyms tls_offsets tls_size base s c r0 r1 e e1 s1 hrec
      rw [herr]
      exact hP)
    (size + 1) 0 0 rtl env rtl1 env1 r rfl h hc

/-- C20: the recorded errors follow the boolean results. A call of
`rtems_rtl_symbol_table_open` or of `rtems_rtl_symbol_global_add` that returns
true records no error; one that returns false records exactly one: `ENOMEM`
for the open, `EINVAL` for a name that fails the bounds check, and `ENOMEM`
both for a wrong end marker and for a failed allocation. -/
theorem error_recorded_iff_false {W : Type} (T : Target) (alloc : Nat → Option Nat)
    (rtl : Rtl) (n : Nat) (obj : rtems_rtl_obj) (esyms : List Byte) (size : Nat)
    (tls_offsets : List (rtems_rtl_tls_offset W)) (tls_size : Nat) (env : W) :
    (∀ rtl1, rtems_rtl_symbol_table_open T alloc rtl n = some (true, rtl1) →
      rtl1.errors = rtl.errors) ∧
    (∀ rtl1, rtems_rtl_symbol_table_open T alloc rtl n = some (false, rtl1) →
      rtl1.errors = (Errno.ENOMEM, "no memory for global symbol table") :: rtl.errors) ∧
    (∀ rtl1 obj1 env1,
      rtems_rtl_symbol_global_add T alloc rtl obj esyms size tls_offsets tls_size env
        = some (true, rtl1, obj1, env1) → rtl1.errors = rtl.errors) ∧
    (∀ rtl1 obj1 env1,
      rtems_rtl_symbol_global_add T alloc rtl obj esyms size tls_offsets tls_size env
        = some (false, rtl1, obj1, env1) →
      (count_loop T esyms size (size + 1) 0 0 = some none ∧
        rtl1.errors = (Errno.EINVAL, "invalid exported symbol table") :: rtl.errors) ∨
      (∃ s count marker, count_loop T esyms size (size + 1) 0 0 = some (some (s, count)) ∧
        read_marker esyms s = some marker ∧ marker ≠ 0xdeadbeef ∧
        rtl1.errors = (Errno.ENOMEM, "invalid export symbol table") :: rtl.errors) ∨
      (∃ s count, count_loop T esyms size (size + 1) 0 0 = some (some (s, count)) ∧
        read_marker esyms s = some 0xdeadbeef ∧ alloc (count * T.sym_bytes) = none ∧
        rtl1.errors = (Errno.ENOMEM, "no memory for global symbols") :: rtl.errors)) := by
  refine ⟨?_, ?_, ?_, ?_⟩
  · intro rtl1 h
    rw [open_inv T alloc rtl rtl1 n h]
  · intro rtl1 h
    unfold rtems_rtl_symbol_table_open at h
    simp only at h
    cases ha : alloc (n * T.chain_bytes % 2 ^ T.size_bits) with
    | none =>
      simp only [ha, Option.some.injEq, Prod.mk.injEq, true_and] at h
      rw [← h]
      rfl
    | some a =>
      simp only [ha] at h
      split at h
      · simp at h
      · cases h
  · intro rtl1 obj1 env1 h
    rcases global_add_inv T alloc rtl obj esyms size tls_offsets tls_size env true rtl1 obj1 env1 h
      with ⟨hb, _⟩ | ⟨_, s, count, base, hc, _, _, hp, _⟩
    · cases hb
    · exact populate_loop_errors T esyms size tls_offsets tls_size base
        { rtl with heap := heap_alloc rtl.heap base count } rtl1 env env1 _ hp hc
  · intro rtl1 obj1 env1 h
    rcases global_add_inv T alloc rtl obj esyms size tls_offsets tls_size env false rtl1 obj1 env1 h
      with ⟨_, _, hcase⟩ | ⟨hb, _⟩
    · rcases hcase with ⟨hc, _, rfl⟩ | ⟨s, count, m, hc, hm, hne, _, rfl⟩ |
        ⟨s, count, hc, hm, ha, _, rfl⟩
      · exact Or.inl ⟨hc, rfl⟩
      · exact Or.inr (Or.inl ⟨s, count, m, hc, hm, hne, rfl⟩)
      · exact Or.inr (Or.inr ⟨s, count, hc, hm, ha, rfl⟩)
    · cases hb

/-- C20, at the table with a wrong end marker: the call returns false and
records the one error `ENOMEM`; the call on `scenario_blob` returns true and
records none. -/
theorem error_recorded_iff_false_witness :
    rtems_rtl_symbol_global_add target32 (fun _ => some 200) scenario_linked empty_obj
        bad_marker_blob bad_marker_blob.length ([] : List (rtems_rtl_tls_offset Unit)) 0 ()
      = some (false, rtems_rtl_set_error scenario_linked Errno.ENOMEM "invalid export symbol table",
              empty_obj, ()) ∧
    (rtems_rtl_set_error scenario_linked Errno.ENOMEM "invalid export symbol table").errors
      = [(Errno.ENOMEM, "invalid export symbol table")] ∧
    rtems_rtl_symbol_global_add target32 (fun _ => some 200) scenario_linked empty_obj
        scenario_blob scenario_blob.length ([] : List (rtems_rtl_tls_offset Unit)) 0 ()
      = some (true, scenario_published, ⟨none, 0, 0, some 200, 40, 2⟩, ()) ∧
    scenario_published.errors = scenario_linked.errors :=
  ⟨rfl, rfl, rfl,
   (error_recorded_iff_false target32 (fun _ => some 200) scenario_linked 16 empty_obj
      scenario_blob scenario_blob.length ([] : List (rtems_rtl_tls_offset Unit)) 0 ()).2.2.1
      scenario_published ⟨none, 0, 0, some 200, 40, 2⟩ () rfl⟩

theorem erase_local_inv (rtl : Rtl) (obj : rtems_rtl_obj) :
    (rtems_rtl_symbol_obj_erase_local rtl obj).1.symbols = rtl.symbols ∧
    (rtems_rtl_symbol_obj_erase_local rtl obj).1.errors = rtl.errors ∧
    (∀ b, obj.local_table ≠ some b →
      (rtems_rtl_symbol_obj_erase_local rtl obj).1.heap b = rtl.heap b) ∧
    (rtems_rtl_symbol_obj_erase_local rtl obj).2.local_table = none ∧
    (rtems_rtl_symbol_obj_erase_local rtl obj).2.global_table = obj.global_table ∧
    (rtems_rtl_symbol_obj_erase_local rtl obj).2.global_syms = obj.global_syms ∧
    (rtems_rtl_symbol_obj_erase_local rtl obj).2.global_size = obj.global_size ∧
    (obj.local_table ≠ none →
      (rtems_rtl_symbol_obj_erase_local rtl obj).2.local_size = 0 ∧
      (rtems_rtl_symbol_obj_erase_local rtl obj).2.local_syms = 0) ∧
    (obj.local_table = none → rtems_rtl_symbol_obj_erase_local rtl obj = (rtl, obj)) := by
  unfold rtems_rtl_symbol_obj_erase_local
  cases hl : obj.local_table with
  | none => exact ⟨rfl, rfl, fun _ _ => rfl, hl, rfl, rfl, rfl, fun h => absurd rfl h, fun _ => rfl⟩
  | some l =>
    refine ⟨rfl, rfl, fun b hb => ?_, rfl, rfl, rfl, rfl, fun _ => ⟨rfl, rfl⟩,
      fun h => (by cases h)⟩
    have : b ≠ l := fun e => hb (by rw [e])
    simp [heap_free, this]

/-- C17 as stated fails: for an object whose local table is NULL while
`local_size` is 60 and `local_syms` is 3, `rtems_rtl_symbol_obj_erase_local`
does nothing, as all it does is inside the test `if (obj->local_table)`
(rtl-sym.c:311); the two fields are 60 and 3 after the call, not 0. -/
theorem erase_local_null_keeps_counts :
    rtems_rtl_symbol_obj_erase_local scenario_published ⟨none, 60, 3, some 200, 40, 2⟩
      = (scenario_published, ⟨none, 60, 3, some 200, 40, 2⟩) ∧
    (rtems_rtl_symbol_obj_erase_local scenario_published
      ⟨none, 60, 3, some 200, 40, 2⟩).2.local_size = 60 ∧
    (rtems_rtl_symbol_obj_erase_local scenario_published
      ⟨none, 60, 3, some 200, 40, 2⟩).2.local_syms = 3 ∧
    ¬ ((rtems_rtl_symbol_obj_erase_local scenario_published
          ⟨none, 60, 3, some 200, 40, 2⟩).2.local_size = 0 ∧
      (rtems_rtl_symbol_obj_erase_local scenario_published
          ⟨none, 60, 3, some 200, 40, 2⟩).2.local_syms = 0) :=
  ⟨rfl, rfl, rfl, by decide⟩

/-- C17, amended: `rtems_rtl_symbol_obj_erase_local` leaves the local table
NULL. When the local table was not NULL, its memory is freed and `local_size`
and `local_syms` are zero after the call; when it was NULL, the call changes
nothing at all and the two fields keep their values. In both cases nothing
else changes: the global table of the object, `global_syms`, `global_size`,
the recorded errors, every table in memory but the local one and every bucket
chain are unchanged, and, as no symbol of the local table is linked, the find
of every name returns what it returned before. -/
theorem erase_local_frame (T : Target) (rtl : Rtl) (obj : rtems_rtl_obj)
    (hunlinked : ∀ p, Linked rtl.symbols p → obj.local_table ≠ some p.block) :
    (rtems_rtl_symbol_obj_erase_local rtl obj).2.local_table = none ∧
    (obj.local_table ≠ none →
      (rtems_rtl_symbol_obj_erase_local rtl obj).2.local_size = 0 ∧
      (rtems_rtl_symbol_obj_erase_local rtl obj).2.local_syms = 0 ∧
      ∀ b, obj.local_table = some b → (rtems_rtl_symbol_obj_erase_local rtl obj).1.heap b = none) ∧
    (obj.local_table = none → rtems_rtl_symbol_obj_erase_local rtl obj = (rtl, obj)) ∧
    (rtems_rtl_symbol_obj_erase_local rtl obj).2.global_table = obj.global_table ∧
    (rtems_rtl_symbol_obj_erase_local rtl obj).2.global_syms = obj.global_syms ∧
    (rtems_rtl_symbol_obj_erase_local rtl obj).2.global_size = obj.global_size ∧
    (rtems_rtl_symbol_obj_erase_local rtl obj).1.symbols.buckets = rtl.symbols.buckets ∧
    (rtems_rtl_symbol_obj_erase_local rtl obj).1.symbols = rtl.symbols ∧
    (rtems_rtl_symbol_obj_erase_local rtl obj).1.errors = rtl.errors ∧
    (∀ b, obj.local_table ≠ some b →
      (rtems_rtl_symbol_obj_erase_local rtl obj).1.heap b = rtl.heap b) ∧
    (∀ name,
      rtems_rtl_symbol_global_find T (rtems_rtl_symbol_obj_erase_local rtl obj).1.heap
        (rtems_rtl_symbol_obj_erase_local rtl obj).1.symbols name
      = rtems_rtl_symbol_global_find T rtl.heap rtl.symbols name) := by
  obtain ⟨h1, h2, h3, h4, h5, h6, h7, h8, h9⟩ := erase_local_inv rtl obj
  refine ⟨h4, fun hne => ⟨(h8 hne).1, (h8 hne).2, fun b hb => ?_⟩, h9, h5, h6, h7, by rw [h1],
    h1, h2, h3, fun name => ?_⟩
  · simp [rtems_rtl_symbol_obj_erase_local, hb, heap_free]
  · rw [h1]
    apply find_congr
    intro p hp
    apply name_of_congr
    simp only [deref, h3 p.block (hunlinked p hp)]

theorem local_state_linked (p : SymPtr) (hp : Linked local_state.symbols p) :
    p ∈ local_state.symbols.buckets.flatten :=
  (linked_iff_flatten _ p).1 hp

/-- C17, at an object with a local table at address 50 and two linked symbols
in its global table at address 200: after the call the find of `foo` returns
the symbol of the global table as before. -/
theorem erase_local_frame_witness :
    (∀ p, p ∈ local_state.symbols.buckets.flatten → local_obj.local_table ≠ some p.block) ∧
    local_obj.local_table = some 50 ∧
    (rtems_rtl_symbol_obj_erase_local local_state local_obj).1.heap 50 = none ∧
    rtems_rtl_symbol_global_find target32 local_state.heap local_state.symbols (cstring "foo")
      = some (some ⟨200, 1⟩) ∧
    (rtems_rtl_symbol_obj_erase_local local_state local_obj).2 = ⟨none, 0, 0, some 200, 40, 2⟩ ∧
    rtems_rtl_symbol_global_find target32
      (rtems_rtl_symbol_obj_erase_local local_state local_obj).1.heap
      (rtems_rtl_symbol_obj_erase_local local_state local_obj).1.symbols (cstring "foo")
      = rtems_rtl_symbol_global_find target32 local_state.heap local_state.symbols
          (cstring "foo") :=
  ⟨by decide, rfl, rfl, by decide, by decide,
   (erase_local_frame target32 local_state local_obj
      (fun p hp => (by decide : ∀ p, p ∈ local_state.symbols.buckets.flatten →
        local_obj.local_table ≠ some p.block) p (local_state_linked p hp))).2.2.2.2.2.2.2.2.2.2
      (cstring "foo")⟩

/-- C18: `rtems_rtl_symbol_obj_erase` skips the symbols that are not linked and
is idempotent. When none of the first `global_syms` symbols of the global
table of the object is linked, the global symbol table with every bucket chain
is unchanged; and a second call on the object and the state that a first call
left returns the same object and the same state. -/
theorem erase_idempotent (rtl rtl1 : Rtl) (obj obj1 : rtems_rtl_obj)
    (h : rtems_rtl_symbol_obj_erase rtl obj = some (rtl1, obj1)) :
    ((∀ b s, obj.global_table = some b → s < obj.global_syms → ¬ Linked rtl.symbols ⟨b, s⟩) →
      rtl1.symbols.buckets = rtl.symbols.buckets ∧ rtl1.symbols = rtl.symbols) ∧
    rtems_rtl_symbol_obj_erase rtl1 obj1 = some (rtl1, obj1) := by
  obtain ⟨hn, hb, _, _, hl, hg⟩ := erase_inv rtl rtl1 obj obj1 h
  constructor
  · intro hno
    have hbuckets : rtl1.symbols.buckets = rtl.symbols.buckets := by
      rw [hb]
      conv_rhs => rw [← List.map_id rtl.symbols.buckets]
      apply List.map_congr_left
      intro c hc
      simp only [id]
      rw [List.filter_eq_self]
      intro q hq
      by_contra hk
      simp only [not_of_obj, Bool.not_eq_true', Bool.not_eq_false, Bool.and_eq_true,
        decide_eq_true_eq] at hk
      exact hno q.block q.index hk.1 hk.2 ⟨c, hc, hq⟩
    refine ⟨hbuckets, ?_⟩
    cases hs1 : rtl1.symbols with
    | mk b1 n1 =>
      cases hs : rtl.symbols with
      | mk b0 n0 =>
        rw [hs1, hs] at hbuckets
        rw [hs1, hs] at hn
        simp only at hbuckets hn
        rw [hbuckets, hn]
  · unfold rtems_rtl_symbol_obj_erase rtems_rtl_symbol_obj_erase_local
    simp [hl, hg]

/-- C18, at the erase of the object of `scenario_published`, whose symbol
`beta` was never linked and whose symbol `foo` is: the second call changes
nothing; and at the erase of an object none of whose symbols is linked. -/
theorem erase_idempotent_witness :
    rtems_rtl_symbol_obj_erase scenario_published scenario_obj
      = some (scenario_erased, ⟨none, 0, 0, none, 0, 0⟩) ∧
    rtems_rtl_symbol_obj_erase scenario_erased ⟨none, 0, 0, none, 0, 0⟩
      = some (scenario_erased, ⟨none, 0, 0, none, 0, 0⟩) ∧
    (rtems_rtl_symbol_obj_erase scenario_opened unpublished_obj).map (fun r => r.1.symbols)
      = some scenario_opened.symbols :=
  ⟨rfl,
   (erase_idempotent scenario_published scenario_erased scenario_obj ⟨none, 0, 0, none, 0, 0⟩
      rfl).2,
   by decide⟩

theorem insert_all_append (T : Target) (heap : Heap) (ps qs : List SymPtr) :
    ∀ t : rtems_rtl_symbols, insert_all T heap t (ps ++ qs)
      = match insert_all T heap t ps with
        | none => none
        | some t1 => insert_all T heap t1 qs := by
  induction ps with
  | nil => intro t; rfl
  | cons p ps ih =>
    intro t
    simp only [List.cons_append, insert_all]
    cases rtems_rtl_symbol_global_insert T heap t p with
    | none => rfl
    | some t2 => exact ih t2

theorem insert_all_find_some (T : Target) (heap : Heap) (ps : List SymPtr) (name : List Byte)
    (x : SymPtr) :
    ∀ t t1 : rtems_rtl_symbols, insert_all T heap t ps = some t1 →
      rtems_rtl_symbol_global_find T heap t name = some (some x) →
      rtems_rtl_symbol_global_find T heap t1 name = some (some x) := by
  induction ps with
  | nil =>
    intro t t1 h hx
    simp only [insert_all, Option.some.injEq] at h
    subst h
    exact hx
  | cons p ps ih =>
    intro t t1 h hx
    simp only [insert_all] at h
    cases hi : rtems_rtl_symbol_global_insert T heap t p with
    | none => simp [hi] at h
    | some t2 =>
      simp only [hi] at h
      exact ih t2 t1 h (find_insert_some T heap t t2 p x name hi hx)

theorem insert_all_not_linked (T : Target) (heap : Heap) (ps : List SymPtr) :
    ∀ t t1 : rtems_rtl_symbols, insert_all T heap t ps = some t1 →
      ∀ p, p ∈ ps → ¬ Linked t p := by
  induction ps with
  | nil => intro t t1 _ p hp; simp at hp
  | cons q qs ih =>
    intro t t1 h p hp
    simp only [insert_all] at h
    cases hi : rtems_rtl_symbol_global_insert T heap t q with
    | none => simp [hi] at h
    | some t2 =>
      simp only [hi] at h
      obtain ⟨_, _, _, _, _, hnl, _⟩ := insert_inv T heap t t2 q hi
      rcases List.mem_cons.1 hp with rfl | hp
      · exact hnl
      · intro hl
        exact ih t2 t1 h p hp ((insert_linked T heap t t2 q hi p).2 (Or.inl hl))

theorem find_after_inserts (T : Target) (heap : Heap) (t0 t : rtems_rtl_symbols)
    (pre post : List SymPtr) (p : SymPtr) (nm : List Byte)
    (hok : TableOk T heap t0)
    (hno : ∀ q, Linked t0 q → name_of heap q ≠ some nm)
    (hpre : ∀ q, q ∈ pre → name_of heap q ≠ some nm)
    (hp : name_of heap p = some nm)
    (hrun : insert_all T heap t0 (pre ++ p :: post) = some t) :
    rtems_rtl_symbol_global_find T heap t nm = some (some p) := by
  rw [insert_all_append] at hrun
  cases h1 : insert_all T heap t0 pre with
  | none => simp [h1] at hrun
  | some t1 =>
    simp only [h1, insert_all] at hrun
    cases h2 : rtems_rtl_symbol_global_insert T heap t1 p with
    | none => simp [h2] at hrun
    | some t2 =>
      simp only [h2] at hrun
      obtain ⟨hok1, _, hl1⟩ := insert_all_ok T heap pre t0 t1 hok h1
      have hok2 := insert_ok T heap t1 t2 p hok1 h2
      apply insert_all_find_some T heap post nm p t2 t hrun
      obtain ⟨r, hr, hnone, hsome⟩ := find_spec T heap t2 nm hok2
      cases r with
      | none =>
        exact absurd hp (hnone.1 rfl p ((insert_linked T heap t1 t2 p h2 p).2 (Or.inr rfl)))
      | some x =>
        obtain ⟨hxl, hxn⟩ := hsome x rfl
        rcases (insert_linked T heap t1 t2 p h2 x).1 hxl with hx | hx
        · exfalso
          rcases (hl1 x).1 hx with hx0 | hx0
          · exact hno x hx0 hxn
          · exact hpre x hx0 hxn
        · rw [hr, hx]

theorem extract_linked (t : rtems_rtl_symbols) (s q : SymPtr) :
    Linked (rtems_chain_extract t s) q ↔ Linked t q ∧ q ≠ s := by
  unfold Linked rtems_chain_extract
  constructor
  · rintro ⟨c, hc, hq⟩
    obtain ⟨c0, hc0, rfl⟩ := List.mem_map.1 hc
    obtain ⟨h1, h2⟩ := List.mem_filter.1 hq
    exact ⟨⟨c0, hc0, h1⟩, by simpa using h2⟩
  · rintro ⟨⟨c, hc, hq⟩, hne⟩
    exact ⟨_, List.mem_map.2 ⟨c, hc, rfl⟩, List.mem_filter.2 ⟨hq, by simpa using hne⟩⟩

theorem extract_ok (T : Target) (heap : Heap) (t : rtems_rtl_symbols) (s : SymPtr)
    (hok : TableOk T heap t) : TableOk T heap (rtems_chain_extract t s) := by
  refine ⟨by simp [rtems_chain_extract, hok.len], hok.pos, ?_⟩
  intro i c hi p hp
  simp only [rtems_chain_extract, List.getElem?_map] at hi
  cases hc0 : t.buckets[i]? with
  | none => simp [hc0] at hi
  | some c0 =>
    simp only [hc0, Option.map_some', Option.some.injEq] at hi
    subst hi
    exact hok.placed i c0 hc0 p (List.mem_filter.1 hp).1

theorem extract_insert_comm (T : Target) (heap : Heap) (t t1 : rtems_rtl_symbols)
    (s p : SymPtr) (hne : p ≠ s) (h : rtems_rtl_symbol_global_insert T heap t p = some t1) :
    rtems_rtl_symbol_global_insert T heap (rtems_chain_extract t s) p
      = some (rtems_chain_extract t1 s) := by
  obtain ⟨nm, chain, hnm, hz, hb, hnl, rfl⟩ := insert_inv T heap t t1 p h
  have hlt : rtems_rtl_symbol_hash T nm % t.nbuckets < t.buckets.length := by
    by_contra hge
    rw [List.getElem?_eq_none (Nat.le_of_not_lt hge)] at hb
    cases hb
  have hoff : rtems_chain_is_node_off_chain (rtems_chain_extract t s) p = true :=
    (off_chain_iff _ p).2 (fun hl => hnl ((extract_linked t s p).1 hl).1)
  have hb2 : (rtems_chain_extract t s).buckets[rtems_rtl_symbol_hash T nm % t.nbuckets]?
      = some (chain.filter (fun q => q ≠ s)) := by
    simp [rtems_chain_extract, List.getElem?_map, hb]
  have hn : (rtems_chain_extract t s).nbuckets = t.nbuckets := rfl
  simp only [rtems_rtl_symbol_global_insert, hnm, bucket_index, hn, hz, if_false,
    rtems_chain_append, hb2, hoff, if_true, Option.some.injEq]
  simp only [rtems_chain_extract, rtems_rtl_symbols.mk.injEq, and_true]
  apply List.ext_getElem?
  intro i
  simp only [List.getElem?_set, List.getElem?_map, List.length_map]
  by_cases hi : rtems_rtl_symbol_hash T nm % t.nbuckets = i
  · subst hi
    simp [hlt, List.filter_append, hne]
  · simp [hi]

theorem extract_insert_all_comm (T : Target) (heap : Heap) (s : SymPtr) (ps : List SymPtr) :
    ∀ t t1 : rtems_rtl_symbols, s ∉ ps → insert_all T heap t ps = some t1 →
      insert_all T heap (rtems_chain_extract t s) ps = some (rtems_chain_extract t1 s) := by
  induction ps with
  | nil =>
    intro t t1 _ h
    simp only [insert_all, Option.some.injEq] at h ⊢
    rw [h]
  | cons p ps ih =>
    intro t t1 hs h
    simp only [insert_all] at h ⊢
    cases hi : rtems_rtl_symbol_global_insert T heap t p with
    | none => simp [hi] at h
    | some t2 =>
      simp only [hi] at h
      have hne : p ≠ s := fun e => hs (by rw [e]; exact List.mem_cons_self _ _)
      rw [extract_insert_comm T heap t t2 s p hne hi]
      exact ih t2 t1 (fun hm => hs (List.mem_cons_of_mem _ hm)) h

/-- C15: the chain order. In a table where no linked symbol has the name, `s1`
is inserted, then symbols of other names, then `s2` of the same name as `s1`,
then any symbols. The two symbols are distinct, the find of the name returns
`s1`, the one inserted first, and once `s1` is unlinked with
`rtems_chain_extract` it returns `s2`. -/
theorem chain_order (T : Target) (heap : Heap) (t0 t : rtems_rtl_symbols)
    (s1 s2 : SymPtr) (mid after : List SymPtr) (nm : List Byte)
    (hok : TableOk T heap t0)
    (hno : ∀ q, Linked t0 q → name_of heap q ≠ some nm)
    (hmid : ∀ q, q ∈ mid → name_of heap q ≠ some nm)
    (hn1 : name_of heap s1 = some nm) (hn2 : name_of heap s2 = some nm)
    (hrun : insert_all T heap t0 (s1 :: (mid ++ s2 :: after)) = some t) :
    s1 ≠ s2 ∧
    rtems_rtl_symbol_global_find T heap t nm = some (some s1) ∧
    rtems_rtl_symbol_global_find T heap (rtems_chain_extract t s1) nm = some (some s2) := by
  have hfirst : rtems_rtl_symbol_global_find T heap t nm = some (some s1) :=
    find_after_inserts T heap t0 t [] (mid ++ s2 :: after) s1 nm hok hno
      (fun q hq => by simp at hq) hn1 hrun
  simp only [insert_all] at hrun
  cases hi : rtems_rtl_symbol_global_insert T heap t0 s1 with
  | none => simp [hi] at hrun
  | some tA =>
    simp only [hi] at hrun
    have hl1 : Linked tA s1 := (insert_linked T heap t0 tA s1 hi s1).2 (Or.inr rfl)
    have hnotin : s1 ∉ mid ++ s2 :: after :=
      fun hm => insert_all_not_linked T heap _ tA t hrun s1 hm hl1
    have hne : s1 ≠ s2 := fun e => hnotin (by rw [e]; simp)
    refine ⟨hne, hfirst, ?_⟩
    have hcomm := extract_insert_all_comm T heap s1 _ tA t hnotin hrun
    apply find_after_inserts T heap (rtems_chain_extract tA s1) _ mid after s2 nm
      (extract_ok T heap tA s1 (insert_ok T heap t0 tA s1 hok hi)) ?_ hmid hn2 hcomm
    intro q hq
    obtain ⟨hq1, hq2⟩ := (extract_linked tA s1 q).1 hq
    rcases (insert_linked T heap t0 tA s1 hi q).1 hq1 with h | h
    · exact hno q h
    · exact absurd h hq2


/-- C15, at the table with 16 buckets and two symbols named `beta`: the find
returns the one of the table at 100, inserted first, and the one of the table
at 300 after the first is unlinked. -/
theorem chain_order_witness :
    (name_of dup_heap ⟨100, 1⟩ = some (cstring "beta") ∧
      name_of dup_heap ⟨300, 0⟩ = some (cstring "beta") ∧
      insert_all target32 dup_heap { buckets := List.replicate 16 [], nbuckets := 16 }
        (⟨100, 1⟩ :: ([⟨100, 0⟩] ++ ⟨300, 0⟩ :: [⟨100, 2⟩])) = some dup_table) ∧
    (⟨100, 1⟩ : SymPtr) ≠ ⟨300, 0⟩ ∧
    rtems_rtl_symbol_global_find target32 dup_heap dup_table (cstring "beta")
      = some (some ⟨100, 1⟩) ∧
    rtems_rtl_symbol_global_find target32 dup_heap (rtems_chain_extract dup_table ⟨100, 1⟩)
      (cstring "beta") = some (some ⟨300, 0⟩) :=
  ⟨⟨by decide, by decide, by decide⟩,
   chain_order target32 dup_heap { buckets := List.replicate 16 [], nbuckets := 16 } dup_table
     ⟨100, 1⟩ ⟨300, 0⟩ [⟨100, 0⟩] [⟨100, 2⟩] (cstring "beta")
     (empty_table_ok target32 dup_heap 16 (by decide))
     (fun q hq => absurd hq (empty_table_not_linked 16 q))
     (by decide) (by decide) (by decide) (by decide)⟩

theorem obj_add_loop_eq (T : Target) (heap : Heap) (base : Nat) :
    ∀ (k s : Nat) (t : rtems_rtl_symbols),
      obj_add_loop T heap (some base) k s t = insert_all T heap t (table_ptrs base s k) := by
  intro k
  induction k with
  | zero => intro s t; rfl
  | succ k ih =>
    intro s t
    simp only [obj_add_loop, table_ptrs, List.range'_succ, List.map_cons, insert_all]
    cases rtems_rtl_symbol_global_insert T heap t ⟨base, s⟩ with
    | none => rfl
    | some t1 => exact ih (s + 1) t1

theorem mem_table_ptrs (base s k : Nat) (p : SymPtr) :
    p ∈ table_ptrs base s k ↔ p.block = base ∧ s ≤ p.index ∧ p.index < s + k := by
  unfold table_ptrs
  simp only [List.mem_map, List.mem_range'_1]
  constructor
  · rintro ⟨i, ⟨h1, h2⟩, rfl⟩
    exact ⟨rfl, h1, h2⟩
  · rintro ⟨h1, h2, h3⟩
    exact ⟨p.index, ⟨h2, h3⟩, by cases p; simp only at h1; simp [h1]⟩

theorem table_ptrs_nodup (base s k : Nat) : (table_ptrs base s k).Nodup := by
  unfold table_ptrs
  apply List.Nodup.map
  · intro a b h
    injection h
  · exact List.nodup_range' s k

theorem table_ptrs_split (base i r : Nat) :
    table_ptrs base 0 (i + (1 + r))
      = table_ptrs base 0 i ++ ⟨base, i⟩ :: table_ptrs base (i + 1) r := by
  unfold table_ptrs
  have h1 : List.range' 0 (i + (1 + r)) = List.range' 0 i ++ List.range' (0 + i) (1 + r) := by
    rw [List.range'_append_1, Nat.add_comm]
  rw [h1, Nat.zero_add, Nat.add_comm 1 r, List.range'_succ]
  simp

theorem insert_all_defined (T : Target) (heap : Heap) (ps : List SymPtr) :
    ∀ t : rtems_rtl_symbols, TableOk T heap t →
      (∀ p, p ∈ ps → ∃ nm, name_of heap p = some nm) → (∀ p, p ∈ ps → ¬ Linked t p) →
      ps.Nodup → ∃ t1, insert_all T heap t ps = some t1 := by
  induction ps with
  | nil => intro t _ _ _ _; exact ⟨t, rfl⟩
  | cons p ps ih =>
    intro t hok hnames hnl hnd
    obtain ⟨nm, hnm⟩ := hnames p (List.mem_cons_self _ _)
    obtain ⟨t1, ht1⟩ := insert_defined T heap t p nm hok hnm (hnl p (List.mem_cons_self _ _))
    simp only [insert_all, ht1]
    apply ih t1 (insert_ok T heap t t1 p hok ht1)
      (fun q hq => hnames q (List.mem_cons_of_mem _ hq))
    · intro q hq hl
      rcases (insert_linked T heap t t1 p ht1 q).1 hl with h | h
      · exact hnl q (List.mem_cons_of_mem _ hq) h
      · rw [h] at hq
        exact (List.nodup_cons.1 hnd).1 hq
    · exact (List.nodup_cons.1 hnd).2

theorem insert_linked_count (T : Target) (heap : Heap) (t t1 : rtems_rtl_symbols) (p : SymPtr)
    (h : rtems_rtl_symbol_global_insert T heap t p = some t1) :
    linked_count t1 = linked_count t + 1 := by
  obtain ⟨nm, chain, _, _, hb, _, rfl⟩ := insert_inv T heap t t1 p h
  have hlt : rtems_rtl_symbol_hash T nm % t.nbuckets < t.buckets.length := by
    by_contra hge
    rw [List.getElem?_eq_none (Nat.le_of_not_lt hge)] at hb
    cases hb
  have hchain : t.buckets[rtems_rtl_symbol_hash T nm % t.nbuckets] = chain := by
    rw [List.getElem?_eq_getElem hlt] at hb
    exact Option.some.inj hb
  have hsplit : t.buckets = t.buckets.take (rtems_rtl_symbol_hash T nm % t.nbuckets) ++
      chain :: t.buckets.drop (rtems_rtl_symbol_hash T nm % t.nbuckets + 1) := by
    rw [← hchain, ← List.drop_eq_getElem_cons hlt, List.take_append_drop]
  unfold linked_count
  simp only
  rw [List.set_eq_take_append_cons_drop, if_pos hlt]
  conv_rhs => rw [hsplit]
  simp only [List.flatten_append, List.flatten_cons, List.length_append, List.length_cons,
    List.length_nil]
  omega

theorem insert_all_linked_count (T : Target) (heap : Heap) (ps : List SymPtr) :
    ∀ t t1 : rtems_rtl_symbols, insert_all T heap t ps = some t1 →
      linked_count t1 = linked_count t + ps.length := by
  induction ps with
  | nil =>
    intro t t1 h
    simp only [insert_all, Option.some.injEq] at h
    subst h
    rfl
  | cons p ps ih =>
    intro t t1 h
    simp only [insert_all] at h
    cases hi : rtems_rtl_symbol_global_insert T heap t p with
    | none => simp [hi] at h
    | some t2 =>
      simp only [hi] at h
      rw [ih t2 t1 h, insert_linked_count T heap t t2 p hi, List.length_cons]
      omega

/-- C16: `rtems_rtl_symbol_obj_add` publishes without a check of the names.
For an object whose global table at `base` holds `global_syms` symbols with
names, none of them linked, the call links them all: the number of linked
symbols grows by exactly `global_syms`, also when names were present already;
the find of a name that was found before returns the same, earlier symbol, and
the find of a name that was not found returns the first symbol of the table,
in the order of the array, that has the name. -/
theorem obj_add_unconditional (T : Target) (rtl : Rtl) (obj : rtems_rtl_obj) (base : Nat)
    (hok : TableOk T rtl.heap rtl.symbols) (hg : obj.global_table = some base)
    (hnames : ∀ s, s < obj.global_syms → ∃ nm, name_of rtl.heap ⟨base, s⟩ = some nm)
    (hunlinked : ∀ s, s < obj.global_syms → ¬ Linked rtl.symbols ⟨base, s⟩) :
    ∃ rtl1, rtems_rtl_symbol_obj_add T rtl obj = some rtl1 ∧
      rtl1.heap = rtl.heap ∧
      linked_count rtl1.symbols = linked_count rtl.symbols + obj.global_syms ∧
      (∀ s, s < obj.global_syms → Linked rtl1.symbols ⟨base, s⟩) ∧
      (∀ nm x, rtems_rtl_symbol_global_find T rtl.heap rtl.symbols nm = some (some x) →
        rtems_rtl_symbol_global_find T rtl1.heap rtl1.symbols nm = some (some x)) ∧
      (∀ nm i, rtems_rtl_symbol_global_find T rtl.heap rtl.symbols nm = some none →
        i < obj.global_syms → name_of rtl.heap ⟨base, i⟩ = some nm →
        (∀ j, j < i → name_of rtl.heap ⟨base, j⟩ ≠ some nm) →
        rtems_rtl_symbol_global_find T rtl1.heap rtl1.symbols nm = some (some ⟨base, i⟩)) := by
  have hmem : ∀ p, p ∈ table_ptrs base 0 obj.global_syms →
      p = ⟨base, p.index⟩ ∧ p.index < obj.global_syms := by
    intro p hp
    obtain ⟨h1, _, h3⟩ := (mem_table_ptrs base 0 obj.global_syms p).1 hp
    exact ⟨by cases p; simp only at h1; simp [h1], by omega⟩
  obtain ⟨t1, ht1⟩ := insert_all_defined T rtl.heap (table_ptrs base 0 obj.global_syms)
    rtl.symbols hok
    (fun p hp => by
      obtain ⟨h1, h2⟩ := hmem p hp
      rw [h1]
      exact hnames p.index h2)
    (fun p hp => by
      obtain ⟨h1, h2⟩ := hmem p hp
      rw [h1]
      exact hunlinked p.index h2)
    (table_ptrs_nodup base 0 obj.global_syms)
  have hrun : rtems_rtl_symbol_obj_add T rtl obj = some { rtl with symbols := t1 } := by
    simp only [rtems_rtl_symbol_obj_add, hg, obj_add_loop_eq, ht1]
  obtain ⟨_, _, hl⟩ := insert_all_ok T rtl.heap _ rtl.symbols t1 hok ht1
  refine ⟨_, hrun, rfl, ?_, ?_, ?_, ?_⟩
  · rw [insert_all_linked_count T rtl.heap _ rtl.symbols t1 ht1]
    simp [table_ptrs]
  · intro s hs
    exact (hl _).2 (Or.inr ((mem_table_ptrs base 0 obj.global_syms _).2 ⟨rfl, Nat.zero_le _,
      by simpa using hs⟩))
  · intro nm x hx
    exact insert_all_find_some T rtl.heap _ nm x rtl.symbols t1 ht1 hx
  · intro nm i hnone hi hnm hfirst
    have hk : obj.global_syms = i + (1 + (obj.global_syms - i - 1)) := by omega
    rw [hk, table_ptrs_split] at ht1
    refine find_after_inserts T rtl.heap rtl.symbols t1 _ _ ⟨base, i⟩ nm hok ?_ ?_ hnm ht1
    · intro q hq hqn
      obtain ⟨r, hr, hn, _⟩ := find_spec T rtl.heap rtl.symbols nm hok
      rw [hnone] at hr
      cases hr
      exact hn.1 rfl q hq hqn
    · intro q hq
      obtain ⟨h1, _, h3⟩ := (mem_table_ptrs base 0 i q).1 hq
      have : q = ⟨base, q.index⟩ := by cases q; simp only at h1; simp [h1]
      rw [this]
      exact hfirst q.index (by omega)


theorem dup_state_ok : TableOk target32 dup_state.heap dup_state.symbols :=
  (insert_all_ok target32 dup_heap [⟨300, 0⟩]
    { buckets := List.replicate 16 [], nbuckets := 16 } dup_state.symbols
    (empty_table_ok target32 dup_heap 16 (by decide)) (by decide)).1

/-- C16, at a table that holds `beta` of the table at 300 and an object whose
global table at 100 holds `alpha`, `beta` and `gamma`, not linked: after the
call four symbols are linked, the find of `beta` returns the earlier symbol
and the find of `alpha` returns the symbol of the object. -/
theorem obj_add_unconditional_witness :
    unpublished_obj.global_table = some 100 ∧
    linked_count dup_state.symbols = 1 ∧
    rtems_rtl_symbol_global_find target32 dup_state.heap dup_state.symbols (cstring "beta")
      = some (some ⟨300, 0⟩) ∧
    rtems_rtl_symbol_global_find target32 dup_state.heap dup_state.symbols (cstring "alpha")
      = some none ∧
    ∃ rtl1, rtems_rtl_symbol_obj_add target32 dup_state unpublished_obj = some rtl1 ∧
      linked_count rtl1.symbols = linked_count dup_state.symbols + unpublished_obj.global_syms ∧
      rtems_rtl_symbol_global_find target32 rtl1.heap rtl1.symbols (cstring "beta")
        = some (some ⟨300, 0⟩) ∧
      rtems_rtl_symbol_global_find target32 rtl1.heap rtl1.symbols (cstring "alpha")
        = some (some ⟨100, 0⟩) :=
  ⟨rfl, by decide, by decide, by decide,
   (obj_add_unconditional target32 dup_state unpublished_obj 100 dup_state_ok rfl
      (fun s hs => by
        have hs3 : s < 3 := hs
        interval_cases s <;> exact ⟨_, rfl⟩)
      (fun s hs hl => by
        have hs3 : s < 3 := hs
        have hm := (linked_iff_flatten _ _).1 hl
        interval_cases s <;> revert hm <;> decide)).imp
     (fun rtl1 h => ⟨h.1, h.2.2.1, h.2.2.2.2.1 (cstring "beta") ⟨300, 0⟩ (by decide),
        h.2.2.2.2.2 (cstring "alpha") 0 (by decide) (by decide) (by decide)
          (fun j hj => absurd hj (Nat.not_lt_zero j))⟩)⟩

theorem strcmp_self (a : List Byte) : strcmp a a = 0 := by
  induction a with
  | nil => rfl
  | cons x xs ih => simp [strcmp, ih]

theorem strcmp_eq_zero (a : List Byte) : ∀ b : List Byte, strcmp a b = 0 ↔ a = b := by
  induction a with
  | nil =>
    intro b
    cases b with
    | nil => simp [strcmp]
    | cons y ys => simp [strcmp]
  | cons x xs ih =>
    intro b
    cases b with
    | nil => simp [strcmp]
    | cons y ys =>
      simp only [strcmp]
      by_cases hxy : x = y
      · simp [hxy, ih ys]
      · simp only [hxy, if_false, List.cons.injEq, false_and, iff_false]
        split <;> simp

theorem strcmp_swap (a : List Byte) : ∀ b : List Byte, strcmp b a = - strcmp a b := by
  induction a with
  | nil =>
    intro b
    cases b with
    | nil => simp [strcmp]
    | cons y ys => simp [strcmp]
  | cons x xs ih =>
    intro b
    cases b with
    | nil => simp [strcmp]
    | cons y ys =>
      simp only [strcmp]
      by_cases hxy : x = y
      · simp [hxy, ih ys]
      · have hyx : ¬ y = x := fun e => hxy e.symm
        simp only [hxy, hyx, if_false]
        rcases lt_or_gt_of_ne hxy with h | h
        · have : ¬ y < x := not_lt.2 (le_of_lt h)
          simp [h, this]
        · have : ¬ x < y := not_lt.2 (le_of_lt h)
          simp [h, this]

theorem strcmp_neg_trans (a : List Byte) :
    ∀ b c : List Byte, strcmp a b < 0 → strcmp b c < 0 → strcmp a c < 0 := by
  induction a with
  | nil =>
    intro b c hab hbc
    cases b with
    | nil => simp [strcmp] at hab
    | cons y ys =>
      cases c with
      | nil => simp [strcmp] at hbc
      | cons z zs => simp [strcmp]
  | cons x xs ih =>
    intro b c hab hbc
    cases b with
    | nil => simp [strcmp] at hab
    | cons y ys =>
      cases c with
      | nil => simp [strcmp] at hbc
      | cons z zs =>
        simp only [strcmp] at hab hbc ⊢
        by_cases hxy : x = y
        · subst hxy
          simp only [if_true] at hab
          by_cases hxz : x = z
          · subst hxz
            simp only [if_true] at hbc ⊢
            exact ih ys zs hab hbc
          · simp only [hxz, if_false] at hbc ⊢
            exact hbc
        · simp only [hxy, if_false] at hab
          have hlt : x < y := by
            by_contra hn
            simp [hn] at hab
          by_cases hyz : y = z
          · subst hyz
            simp [hxy, hlt]
          · simp only [hyz, if_false] at hbc
            have hlt2 : y < z := by
              by_contra hn
              simp [hn] at hbc
            have hxz : x < z := lt_trans hlt hlt2
            have hne : ¬ x = z := ne_of_lt hxz
            simp [hne, hxz]

theorem strcmp_le_trans (a b c : List Byte) (hab : strcmp a b ≤ 0) (hbc : strcmp b c ≤ 0) :
    strcmp a c ≤ 0 := by
  rcases lt_or_eq_of_le hab with h1 | h1
  · rcases lt_or_eq_of_le hbc with h2 | h2
    · exact le_of_lt (strcmp_neg_trans a b c h1 h2)
    · rw [← (strcmp_eq_zero b c).1 h2]
      exact hab
  · rw [(strcmp_eq_zero a b).1 h1]
    exact hbc

theorem sorted_names_get (names : List (List Byte)) (hs : SortedNames names) (i j : Nat)
    (a b : List Byte) (hij : i ≤ j) (hi : names[i]? = some a) (hj : names[j]? = some b) :
    strcmp a b ≤ 0 := by
  rcases Nat.lt_or_eq_of_le hij with h | h
  · have hjl : j < names.length := by
      by_contra hge
      rw [List.getElem?_eq_none (Nat.le_of_not_lt hge)] at hj
      cases hj
    have hil : i < names.length := by omega
    rw [List.getElem?_eq_getElem hil] at hi
    rw [List.getElem?_eq_getElem hjl] at hj
    cases hi
    cases hj
    exact (List.pairwise_iff_getElem.1 hs) i j hil hjl h
  · subst h
    rw [hi] at hj
    cases hj
    rw [strcmp_self]


theorem bsearch_loop_spec (tbl : List rtems_rtl_obj_sym) (names : List (List Byte))
    (x : List Byte)
    (hnames : ∀ (i : Nat) (nm : List Byte), names[i]? = some nm →
      ∃ sym : rtems_rtl_obj_sym, tbl[i]? = some sym ∧ sym.name = some nm)
    (hs : SortedNames names) :
    ∀ (fuel lower upper : Nat), upper ≤ names.length → upper - lower < fuel →
      ∃ r, bsearch_loop rtems_rtl_symbol_obj_compare ⟨some x, 0, 0⟩ tbl fuel lower upper = some r ∧
        (∀ i, r = some i → names[i]? = some x) ∧
        (r = none → ∀ i, lower ≤ i → i < upper → names[i]? ≠ some x) := by
  intro fuel
  induction fuel with
  | zero => intro lower upper _ h; omega
  | succ fuel ih =>
    intro lower upper hup hfuel
    unfold bsearch_loop
    by_cases hlu : lower < upper
    · rw [if_pos hlu]
      have hmid1 : lower ≤ (lower + upper) / 2 := by omega
      have hmid2 : (lower + upper) / 2 < upper := by omega
      have hmidl : (lower + upper) / 2 < names.length := by omega
      obtain ⟨sym, hsym, hsn⟩ := hnames ((lower + upper) / 2) names[(lower + upper) / 2]
        (List.getElem?_eq_getElem hmidl)
      have hcmp : rtems_rtl_symbol_obj_compare ⟨some x, 0, 0⟩ sym
          = some (strcmp x names[(lower + upper) / 2]) := by
        simp [rtems_rtl_symbol_obj_compare, hsn]
      simp only [hsym, hcmp]
      by_cases hneg : strcmp x names[(lower + upper) / 2] < 0
      · rw [if_pos hneg]
        obtain ⟨r, hr, h1, h2⟩ := ih lower ((lower + upper) / 2) (by omega) (by omega)
        refine ⟨r, hr, h1, fun hnone i hli hiu hi => ?_⟩
        by_cases him : i < (lower + upper) / 2
        · exact h2 hnone i hli him hi
        · have hle := sorted_names_get names hs ((lower + upper) / 2) i _ x (by omega)
            (List.getElem?_eq_getElem hmidl) hi
          rw [strcmp_swap] at hle
          omega
      · rw [if_neg hneg]
        by_cases hpos : strcmp x names[(lower + upper) / 2] > 0
        · rw [if_pos hpos]
          obtain ⟨r, hr, h1, h2⟩ := ih ((lower + upper) / 2 + 1) upper hup (by omega)
          refine ⟨r, hr, h1, fun hnone i hli hiu hi => ?_⟩
          by_cases him : (lower + upper) / 2 + 1 ≤ i
          · exact h2 hnone i him hiu hi
          · have hle := sorted_names_get names hs i ((lower + upper) / 2) x _ (by omega) hi
              (List.getElem?_eq_getElem hmidl)
            omega
        · rw [if_neg hpos]
          have hz : strcmp x names[(lower + upper) / 2] = 0 := by omega
          refine ⟨some ((lower + upper) / 2), rfl, fun i hi => ?_, fun h => (by cases h)⟩
          cases hi
          rw [List.getElem?_eq_getElem hmidl, (strcmp_eq_zero _ _).1 hz]
    · rw [if_neg hlu]
      exact ⟨none, rfl, fun i h => (by cases h), fun _ i h1 h2 => by omega⟩

theorem obj_table_search_spec (heap : Heap) (table : Option Nat) (syms : Nat)
    (names : List (List Byte)) (x : List Byte)
    (ht : TableNames heap table syms names) (hs : SortedNames names) :
    ∃ r, obj_table_search heap table syms x = some r ∧
      (r = none ↔ x ∉ names) ∧
      (∀ p, r = some p → table = some p.block ∧ p.index < syms ∧
        names[p.index]? = some x ∧ name_of heap p = some x) := by
  unfold obj_table_search
  by_cases h0 : syms = 0
  · have hnil : names = [] := List.length_eq_zero.1 (by rw [ht.len, h0])
    simp only [h0, if_true]
    exact ⟨none, rfl, by simp [hnil], fun p h => (by cases h)⟩
  · obtain ⟨base, tbl, hb, htbl, hnames⟩ := ht.live (Nat.pos_of_ne_zero h0)
    obtain ⟨r, hr, h1, h2⟩ := bsearch_loop_spec tbl names x hnames hs (syms + 1) 0 syms
      (by rw [ht.len]) (by omega)
    simp only [h0, if_false, hb, htbl, bsearch, hr]
    cases r with
    | none =>
      refine ⟨none, rfl, ?_, fun p h => (by cases h)⟩
      simp only [true_iff]
      intro hmem
      obtain ⟨i, hi⟩ := List.mem_iff_getElem?.1 hmem
      have hil : i < syms := by
        rw [← ht.len]
        by_contra hge
        rw [List.getElem?_eq_none (Nat.le_of_not_lt hge)] at hi
        cases hi
      exact h2 rfl i (Nat.zero_le _) hil hi
    | some i =>
      have hi := h1 i rfl
      have hil : i < syms := by
        rw [← ht.len]
        by_contra hge
        rw [List.getElem?_eq_none (Nat.le_of_not_lt hge)] at hi
        cases hi
      refine ⟨some ⟨base, i⟩, rfl, ?_, fun p hp => ?_⟩
      · simp only [reduceCtorEq, false_iff, not_not]
        exact List.mem_iff_getElem?.2 ⟨i, hi⟩
      · cases hp
        obtain ⟨sym, hsym, hsn⟩ := hnames i x hi
        exact ⟨rfl, hil, hi, by simp [name_of, deref, htbl, hsym, hsn]⟩


theorem obj_find_cases (T : Target) (rtl : Rtl) (obj : rtems_rtl_obj) (x : List Byte)
    (lnames gnames : List (List Byte))
    (hl : TableNames rtl.heap obj.local_table obj.local_syms lnames) (hls : SortedNames lnames)
    (hg : TableNames rtl.heap obj.global_table obj.global_syms gnames)
    (hgs : SortedNames gnames) :
    (x ∈ lnames → ∃ p, rtems_rtl_symbol_obj_find T rtl obj x = some (some p) ∧
      obj.local_table = some p.block ∧ p.index < obj.local_syms ∧
      name_of rtl.heap p = some x) ∧
    (x ∉ lnames → x ∈ gnames → ∃ p, rtems_rtl_symbol_obj_find T rtl obj x = some (some p) ∧
      obj.global_table = some p.block ∧ p.index < obj.global_syms ∧
      name_of rtl.heap p = some x) ∧
    (x ∉ lnames → x ∉ gnames → rtems_rtl_symbol_obj_find T rtl obj x
      = rtems_rtl_symbol_global_find T rtl.heap rtl.symbols x) := by
  obtain ⟨rl, hrl, hln, hlp⟩ := obj_table_search_spec rtl.heap obj.local_table obj.local_syms
    lnames x hl hls
  obtain ⟨rg, hrg, hgn, hgp⟩ := obj_table_search_spec rtl.heap obj.global_table obj.global_syms
    gnames x hg hgs
  refine ⟨fun hx => ?_, fun hx hxg => ?_, fun hx hxg => ?_⟩
  · cases rl with
    | none => exact absurd hx (hln.1 rfl)
    | some p =>
      obtain ⟨h1, h2, _, h4⟩ := hlp p rfl
      exact ⟨p, by simp [rtems_rtl_symbol_obj_find, hrl], h1, h2, h4⟩
  · have hrl0 : rl = none := hln.2 hx
    subst hrl0
    cases rg with
    | none => exact absurd hxg (hgn.1 rfl)
    | some p =>
      obtain ⟨h1, h2, _, h4⟩ := hgp p rfl
      exact ⟨p, by simp [rtems_rtl_symbol_obj_find, hrl, hrg], h1, h2, h4⟩
  · have hrl0 : rl = none := hln.2 hx
    have hrg0 : rg = none := hgn.2 hxg
    subst hrl0 hrg0
    simp [rtems_rtl_symbol_obj_find, hrl, hrg]

/-- C11: the scoping. For an object whose local table is sorted by name and
holds a symbol named `x` (so the table is not empty),
`rtems_rtl_symbol_obj_find` returns a symbol of the local table of the object
whose name is `x`, whatever the global table of the object and the global
symbol table hold. -/
theorem obj_find_local_first (T : Target) (rtl : Rtl) (obj : rtems_rtl_obj) (x : List Byte)
    (lnames : List (List Byte))
    (hl : TableNames rtl.heap obj.local_table obj.local_syms lnames) (hls : SortedNames lnames)
    (hx : x ∈ lnames) :
    0 < obj.local_syms ∧
    ∃ p, rtems_rtl_symbol_obj_find T rtl obj x = some (some p) ∧
      obj.local_table = some p.block ∧ p.index < obj.local_syms ∧
      name_of rtl.heap p = some x := by
  obtain ⟨r, hr, hn, hp⟩ := obj_table_search_spec rtl.heap obj.local_table obj.local_syms
    lnames x hl hls
  cases r with
  | none => exact absurd hx (hn.1 rfl)
  | some p =>
    obtain ⟨h1, h2, _, h4⟩ := hp p rfl
    exact ⟨by omega, p, by simp [rtems_rtl_symbol_obj_find, hr], h1, h2, h4⟩

/-- C12: for an object with sorted tables, a name `x` that is not in the local
table and is in the global table of the object is resolved to a symbol of the
global table of the object named `x`, whatever the global symbol table holds
for `x`, also a symbol of another object. -/
theorem obj_find_own_global (T : Target) (rtl : Rtl) (obj : rtems_rtl_obj) (x : List Byte)
    (lnames gnames : List (List Byte))
    (hl : TableNames rtl.heap obj.local_table obj.local_syms lnames) (hls : SortedNames lnames)
    (hg : TableNames rtl.heap obj.global_table obj.global_syms gnames)
    (hgs : SortedNames gnames) (hx : x ∉ lnames) (hxg : x ∈ gnames) :
    ∃ p, rtems_rtl_symbol_obj_find T rtl obj x = some (some p) ∧
      obj.global_table = some p.block ∧ p.index < obj.global_syms ∧
      name_of rtl.heap p = some x :=
  (obj_find_cases T rtl obj x lnames gnames hl hls hg hgs).2.1 hx hxg

/-- C13: for an object with sorted tables and every name,
`rtems_rtl_symbol_obj_find` returns NULL if and only if the name is in neither
table and `rtems_rtl_symbol_global_find` returns NULL; and when the name is in
neither table, as it is when both counts are zero, the result is the result of
`rtems_rtl_symbol_global_find`. -/
theorem obj_find_null_iff (T : Target) (rtl : Rtl) (obj : rtems_rtl_obj) (x : List Byte)
    (lnames gnames : List (List Byte))
    (hl : TableNames rtl.heap obj.local_table obj.local_syms lnames) (hls : SortedNames lnames)
    (hg : TableNames rtl.heap obj.global_table obj.global_syms gnames)
    (hgs : SortedNames gnames) :
    (rtems_rtl_symbol_obj_find T rtl obj x = some none ↔
      x ∉ lnames ∧ x ∉ gnames ∧
        rtems_rtl_symbol_global_find T rtl.heap rtl.symbols x = some none) ∧
    (x ∉ lnames → x ∉ gnames →
      rtems_rtl_symbol_obj_find T rtl obj x
        = rtems_rtl_symbol_global_find T rtl.heap rtl.symbols x) ∧
    (obj.local_syms = 0 → obj.global_syms = 0 →
      rtems_rtl_symbol_obj_find T rtl obj x
        = rtems_rtl_symbol_global_find T rtl.heap rtl.symbols x) := by
  obtain ⟨h1, h2, h3⟩ := obj_find_cases T rtl obj x lnames gnames hl hls hg hgs
  refine ⟨⟨fun h => ?_, fun h => ?_⟩, h3, fun hl0 hg0 => ?_⟩
  · by_cases hx : x ∈ lnames
    · obtain ⟨p, hp, _⟩ := h1 hx
      rw [hp] at h
      cases h
    · by_cases hxg : x ∈ gnames
      · obtain ⟨p, hp, _⟩ := h2 hx hxg
        rw [hp] at h
        cases h
      · exact ⟨hx, hxg, by rw [← h3 hx hxg]; exact h⟩
  · rw [h3 h.1 h.2.1]
    exact h.2.2
  · have hln : lnames = [] := List.length_eq_zero.1 (by rw [hl.len, hl0])
    have hgn : gnames = [] := List.length_eq_zero.1 (by rw [hg.len, hg0])
    exact h3 (by simp [hln]) (by simp [hgn])


theorem table_names_of (heap : Heap) (table : Option Nat) (syms : Nat)
    (names : List (List Byte)) (base : Nat) (tbl : List rtems_rtl_obj_sym)
    (hb : table = some base) (htbl : heap base = some tbl) (hlen : names.length = syms)
    (h : (tbl.take syms).map (fun sym => sym.name) = names.map some) :
    TableNames heap table syms names := by
  refine ⟨hlen, fun _ => ⟨base, tbl, hb, htbl, fun i nm hi => ?_⟩⟩
  have h1 : (names.map some)[i]? = some (some nm) := by simp [hi]
  rw [← h, List.getElem?_map] at h1
  cases hs : (tbl.take syms)[i]? with
  | none => simp [hs] at h1
  | some sym =>
    simp only [hs, Option.map_some', Option.some.injEq] at h1
    rw [List.getElem?_take] at hs
    split at hs
    · exact ⟨sym, hs, h1⟩
    · cases hs

theorem table_names_empty (heap : Heap) (table : Option Nat) :
    TableNames heap table 0 [] :=
  ⟨rfl, fun h => absurd h (Nat.lt_irrefl 0)⟩

theorem local_state_local_names :
    TableNames local_state.heap local_obj.local_table local_obj.local_syms
      [cstring "beta", cstring "x"] :=
  table_names_of local_state.heap _ _ _ 50 _ rfl rfl rfl (by decide)

theorem local_state_global_names :
    TableNames local_state.heap local_obj.global_table local_obj.global_syms
      [cstring "beta", cstring "foo"] :=
  table_names_of local_state.heap _ _ _ 200 _ rfl rfl rfl (by decide)

/-- C11, at an object whose local table holds `beta` and `x`, whose global
table holds `beta` and `foo`, in a state whose global symbol table holds
another `beta`: the find of `beta` through the object returns the symbol of
the local table. -/
theorem obj_find_local_first_witness :
    SortedNames [cstring "beta", cstring "x"] ∧
    cstring "beta" ∈ [cstring "beta", cstring "x"] ∧
    rtems_rtl_symbol_global_find target32 local_state.heap local_state.symbols (cstring "beta")
      = some (some ⟨100, 1⟩) ∧
    rtems_rtl_symbol_obj_find target32 local_state local_obj (cstring "beta")
      = some (some ⟨50, 0⟩) ∧
    (0 < local_obj.local_syms ∧
      ∃ p, rtems_rtl_symbol_obj_find target32 local_state local_obj (cstring "beta")
          = some (some p) ∧
        local_obj.local_table = some p.block ∧ p.index < local_obj.local_syms ∧
        name_of local_state.heap p = some (cstring "beta")) :=
  ⟨by decide, by decide, by decide, by decide,
   obj_find_local_first target32 local_state local_obj (cstring "beta")
     [cstring "beta", cstring "x"] local_state_local_names (by decide) (by decide)⟩

/-- C12, at the same object: `foo` is not in the local table and is in the
global table of the object, and the find returns that symbol; for the object
without a local table the find of `beta` returns the symbol of its own global
table although the global symbol table holds the `beta` of another table. -/
theorem obj_find_own_global_witness :
    (SortedNames [cstring "beta", cstring "x"] ∧ SortedNames [cstring "beta", cstring "foo"] ∧
      cstring "foo" ∉ [cstring "beta", cstring "x"] ∧
      cstring "foo" ∈ [cstring "beta", cstring "foo"]) ∧
    rtems_rtl_symbol_obj_find target32 local_state local_obj (cstring "foo")
      = some (some ⟨200, 1⟩) ∧
    rtems_rtl_symbol_global_find target32 scenario_published.heap scenario_published.symbols
      (cstring "beta") = some (some ⟨100, 1⟩) ∧
    rtems_rtl_symbol_obj_find target32 scenario_published scenario_obj (cstring "beta")
      = some (some ⟨200, 0⟩) ∧
    ∃ p, rtems_rtl_symbol_obj_find target32 local_state local_obj (cstring "foo")
        = some (some p) ∧
      local_obj.global_table = some p.block ∧ p.index < local_obj.global_syms ∧
      name_of local_state.heap p = some (cstring "foo") :=
  ⟨⟨by decide, by decide, by decide, by decide⟩, by decide, by decide, by decide,
   obj_find_own_global target32 local_state local_obj (cstring "foo")
     [cstring "beta", cstring "x"] [cstring "beta", cstring "foo"] local_state_local_names
     (by decide) local_state_global_names (by decide) (by decide) (by decide)⟩

/-- C13, at the same object: `delta` is in neither table and is not in the
global symbol table, and the find through the object returns NULL; `alpha` is
in neither table and the find returns the symbol of the global symbol table. -/
theorem obj_find_null_iff_witness :
    (SortedNames [cstring "beta", cstring "x"] ∧ SortedNames [cstring "beta", cstring "foo"]) ∧
    rtems_rtl_symbol_obj_find target32 local_state local_obj (cstring "delta") = some none ∧
    rtems_rtl_symbol_obj_find target32 local_state local_obj (cstring "alpha")
      = some (some ⟨100, 0⟩) ∧
    (rtems_rtl_symbol_obj_find target32 local_state local_obj (cstring "delta") = some none ↔
      cstring "delta" ∉ [cstring "beta", cstring "x"] ∧
      cstring "delta" ∉ [cstring "beta", cstring "foo"] ∧
      rtems_rtl_symbol_global_find target32 local_state.heap local_state.symbols
        (cstring "delta") = some none) :=
  ⟨⟨by decide, by decide⟩, by decide, by decide,
   (obj_find_null_iff target32 local_state local_obj (cstring "delta")
     [cstring "beta", cstring "x"] [cstring "beta", cstring "foo"] local_state_local_names
     (by decide) local_state_global_names (by decide)).1⟩

theorem find_tls_offset_from_spec {W : Type} (index : Nat)
    (tls_offsets : List (rtems_rtl_tls_offset W)) :
    ∀ (remaining entry : Nat), entry + remaining ≤ tls_offsets.length →
      ∃ r, find_tls_offset_from index tls_offsets remaining entry = some r ∧
        (∀ e, r = some e → ∃ pos, entry ≤ pos ∧ pos < entry + remaining ∧
          tls_offsets[pos]? = some e ∧ e.index = index ∧
          ∀ j e1, entry ≤ j → j < pos → tls_offsets[j]? = some e1 → e1.index ≠ index) ∧
        (r = none ↔ ∀ j e1, entry ≤ j → j < entry + remaining →
          tls_offsets[j]? = some e1 → e1.index ≠ index) := by
  intro remaining
  induction remaining with
  | zero =>
    intro entry _
    refine ⟨none, rfl, fun e he => (by cases he), fun _ => ?_, fun _ => rfl⟩
    intro j e1 h1 h2
    omega
  | succ n ih =>
    intro entry hlen
    have hlt : entry < tls_offsets.length := by omega
    have hget : tls_offsets[entry]? = some (tls_offsets.get ⟨entry, hlt⟩) :=
      List.getElem?_eq_getElem hlt
    simp only [find_tls_offset_from, hget]
    by_cases hidx : (tls_offsets.get ⟨entry, hlt⟩).index = index
    · rw [if_pos hidx]
      refine ⟨some (tls_offsets.get ⟨entry, hlt⟩), rfl, ?_, ?_⟩
      · intro e he
        cases he
        exact ⟨entry, Nat.le_refl _, by omega, hget, hidx, fun j e1 h1 h2 => by omega⟩
      · constructor
        · intro h
          cases h
        · intro h
          exact absurd hidx (h entry _ (Nat.le_refl _) (by omega) hget)
    · rw [if_neg hidx]
      obtain ⟨r, hr, hsome, hnone⟩ := ih (entry + 1) (by omega)
      refine ⟨r, hr, ?_, ?_⟩
      · intro e he
        obtain ⟨pos, hp1, hp2, hp3, hp4, hp5⟩ := hsome e he
        refine ⟨pos, by omega, by omega, hp3, hp4, fun j e1 h1 h2 hj => ?_⟩
        by_cases hje : j = entry
        · subst hje
          rw [hget] at hj
          cases hj
          exact hidx
        · exact hp5 j e1 (by omega) h2 hj
      · constructor
        · intro h j e1 h1 h2 hj
          by_cases hje : j = entry
          · subst hje
            rw [hget] at hj
            cases hj
            exact hidx
          · exact hnone.1 h j e1 (by omega) (by omega) hj
        · intro h
          exact hnone.2 (fun j e1 h1 h2 hj => h j e1 (by omega) (by omega) hj)

/-- C24: `rtems_rtl_symbol_find_tls_offset` is a linear scan. On a table that
has at least `tls_size` entries the function returns; a result that is not
NULL is the entry at the least position below `tls_size` whose index is
`index`; the result is NULL exactly when no entry among the first `tls_size`
has that index. With `tls_size = 0` the result is NULL and no entry is read:
the function returns NULL on every table, the NULL table (no memory at all)
included. -/
theorem tls_offset_linear_scan {W : Type} (index : Nat)
    (tls_offsets : List (rtems_rtl_tls_offset W)) (tls_size : Nat)
    (hsize : tls_size ≤ tls_offsets.length) :
    (∃ r, rtems_rtl_symbol_find_tls_offset index tls_offsets tls_size = some r ∧
      (∀ e, r = some e → ∃ pos, pos < tls_size ∧ tls_offsets[pos]? = some e ∧
        e.index = index ∧
        ∀ j e1, j < pos → tls_offsets[j]? = some e1 → e1.index ≠ index) ∧
      (r = none ↔ ∀ j e1, j < tls_size → tls_offsets[j]? = some e1 → e1.index ≠ index)) ∧
    (∀ table : List (rtems_rtl_tls_offset W),
      rtems_rtl_symbol_find_tls_offset index table 0 = some none) ∧
    rtems_rtl_symbol_find_tls_offset index ([] : List (rtems_rtl_tls_offset W)) 0 = some none := by
  refine ⟨?_, fun _ => rfl, rfl⟩
  obtain ⟨r, hr, hsome, hnone⟩ :=
    find_tls_offset_from_spec index tls_offsets tls_size 0 (by omega)
  refine ⟨r, hr, ?_, ?_⟩
  · intro e he
    obtain ⟨pos, _, hp2, hp3, hp4, hp5⟩ := hsome e he
    exact ⟨pos, by omega, hp3, hp4, fun j e1 h1 hj => hp5 j e1 (Nat.zero_le _) h1 hj⟩
  · constructor
    · intro h j e1 h1 hj
      exact hnone.1 h j e1 (Nat.zero_le _) (by omega) hj
    · intro h
      exact hnone.2 (fun j e1 _ h2 hj => h j e1 (by omega) hj)


theorem takeWhile_length_get (p : Byte → Bool) :
    ∀ xs : List Byte, (xs.takeWhile p).length < xs.length →
      ∃ x, xs[(xs.takeWhile p).length]? = some x ∧ p x = false := by
  intro xs
  induction xs with
  | nil => intro h; simp at h
  | cons a as ih =>
    intro h
    by_cases hp : p a = true
    · simp only [List.takeWhile_cons, hp, if_true, List.length_cons] at h ⊢
      obtain ⟨x, hx, hpx⟩ := ih (by omega)
      exact ⟨x, by simpa using hx, hpx⟩
    · simp only [List.takeWhile_cons, hp] at h ⊢
      exact ⟨a, by simp, by simpa using hp⟩

theorem strlen_nul (esyms : List Byte) (s l : Nat) (h : strlen esyms s = some l) :
    esyms[s + l]? = some 0 := by
  unfold strlen at h
  simp only at h
  split at h
  · rename_i hlt
    cases h
    obtain ⟨x, hx, hpx⟩ := takeWhile_length_get (fun b => decide (b ≠ 0)) (esyms.drop s) hlt
    rw [List.getElem?_drop] at hx
    have hx0 : x = 0 := by simpa using hpx
    rw [hx, hx0]
  · cases h

theorem count_loop_end (T : Target) (esyms : List Byte) (size : Nat) :
    ∀ (fuel s count : Nat) (r : Nat × Nat),
      count_loop T esyms size fuel s count = some (some r) →
      ¬ r.1 < size ∨ esyms[r.1]? = some 0 := by
  intro fuel
  induction fuel with
  | zero => intro s count r h; simp [count_loop] at h
  | succ n ih =>
    intro s count r h
    rcases count_loop_step T esyms size n s count r h with ⟨hr, hend⟩ | ⟨_, _, l, _, _, _, _, _, hrec⟩
    · rw [hr]
      exact hend
    · exact ih _ _ r hrec

/-- C23: the name check of the decoder. The scan of
`rtems_rtl_symbol_global_add` stands at a record that starts at the index `s`
below the declared size and whose name has the length `l`. When the NUL of the
name is at or before the declared size (`s + l ≤ size`) the record passes the
check and the scan goes on behind the record with one record more counted;
when it is beyond the declared size (`s + l > size`) the scan fails and the
call returns false with the error `EINVAL`. -/
theorem name_bounds_check {W : Type} (T : Target) (alloc : Nat → Option Nat) (rtl : Rtl)
    (obj : rtems_rtl_obj) (esyms : List Byte) (size : Nat)
    (tls_offsets : List (rtems_rtl_tls_offset W)) (tls_size : Nat) (env : W)
    (fuel s count l : Nat) (c : Byte)
    (hreach : count_loop T esyms size (size + 1) 0 0 = count_loop T esyms size (fuel + 1) s count)
    (hs : s < size) (hc : esyms[s]? = some c) (hc0 : c ≠ 0) (hl : strlen esyms s = some l) :
    esyms[s + l]? = some 0 ∧
    (s + l ≤ size →
      count_loop T esyms size (fuel + 1) s count
        = count_loop T esyms size fuel (s + (l + T.ptr_bytes + 1)) (count + 1)) ∧
    (size < s + l →
      count_loop T esyms size (fuel + 1) s count = some none ∧
      rtems_rtl_symbol_global_add T alloc rtl obj esyms size tls_offsets tls_size env
        = some (false, rtems_rtl_set_error rtl Errno.EINVAL "invalid exported symbol table",
                obj, env)) := by
  have hnul := strlen_nul esyms s l hl
  have hstep : count_loop T esyms size (fuel + 1) s count
      = if (0 : Byte) ≠ 0 ∨ s + l > size then some none
        else count_loop T esyms size fuel (s + (l + T.ptr_bytes + 1)) (count + 1) := by
    conv_lhs => unfold count_loop
    simp only [hs, if_true, hc, hl, hnul]
    rw [if_pos hc0]
  refine ⟨hnul, fun hle => ?_, fun hgt => ?_⟩
  · rw [hstep, if_neg]
    intro hbad
    rcases hbad with hbad | hbad
    · exact hbad rfl
    · omega
  · have hfail : count_loop T esyms size (fuel + 1) s count = some none := by
      rw [hstep, if_pos (Or.inr hgt)]
    refine ⟨hfail, ?_⟩
    unfold rtems_rtl_symbol_global_add
    rw [hreach, hfail]

/-- C23, at a record whose name `ab` starts at index 0 of a table declared
with size 2 and with size 1: with size 2 the NUL at index 2 passes the check
and the call returns true, with size 1 the call returns false with `EINVAL`. -/
theorem name_bounds_check_witness :
    (count_loop target32 long_blob 1 (1 + 1) 0 0 = count_loop target32 long_blob 1 (1 + 1) 0 0 ∧
      0 < 1 ∧ long_blob[0]? = some 97 ∧ (97 : Byte) ≠ 0 ∧ strlen long_blob 0 = some 2) ∧
    (rtems_rtl_symbol_global_add target32 (fun _ => some 200) scenario_linked empty_obj
        long_blob 2 ([] : List (rtems_rtl_tls_offset Unit)) 0 ()).map (fun r => r.1)
      = some true ∧
    (1 < 0 + 2 →
      count_loop target32 long_blob 1 (1 + 1) 0 0 = some none ∧
      rtems_rtl_symbol_global_add target32 (fun _ => some 200) scenario_linked empty_obj
          long_blob 1 ([] : List (rtems_rtl_tls_offset Unit)) 0 ()
        = some (false,
            rtems_rtl_set_error scenario_linked Errno.EINVAL "invalid exported symbol table",
            empty_obj, ())) :=
  ⟨⟨rfl, by decide, by decide, by decide, by decide⟩, rfl,
   (name_bounds_check target32 (fun _ => some 200) scenario_linked empty_obj long_blob 1
      ([] : List (rtems_rtl_tls_offset Unit)) 0 () 1 0 0 2 97 rfl (by decide) (by decide)
      (by decide) (by decide)).2.2⟩

/-- C7, amended: a name whose NUL is beyond the declared size makes the call
fail. The scan of `rtems_rtl_symbol_global_add` stands at a record that starts
at the index `s` below the declared size, and the NUL of its name is at the
index `s + l`. When this index is above the size, the call returns false with
the error `EINVAL`, and the global symbol table, the memory of the symbol
tables and the object are as they were before the call, whatever the bytes of
the table are. When this index is the size itself, which is not below the
size, the record passes the check and the scan goes on behind it. -/
theorem global_add_nul_beyond_size {W : Type} (T : Target) (alloc : Nat → Option Nat)
    (rtl : Rtl) (obj : rtems_rtl_obj) (esyms : List Byte) (size : Nat)
    (tls_offsets : List (rtems_rtl_tls_offset W)) (tls_size : Nat) (env : W)
    (fuel s count l : Nat) (c : Byte)
    (hreach : count_loop T esyms size (size + 1) 0 0 = count_loop T esyms size (fuel + 1) s count)
    (hs : s < size) (hc : esyms[s]? = some c) (hc0 : c ≠ 0) (hl : strlen esyms s = some l) :
    (size < s + l →
      ∃ rtl1, rtems_rtl_symbol_global_add T alloc rtl obj esyms size tls_offsets tls_size env
          = some (false, rtl1, obj, env) ∧
        rtl1.symbols = rtl.symbols ∧ rtl1.heap = rtl.heap ∧
        rtl1.errors = (Errno.EINVAL, "invalid exported symbol table") :: rtl.errors) ∧
    (s + l = size →
      ¬ s + l < size ∧ esyms[s + l]? = some 0 ∧
      count_loop T esyms size (fuel + 1) s count
        = count_loop T esyms size fuel (s + (l + T.ptr_bytes + 1)) (count + 1)) := by
  have hnul := strlen_nul esyms s l hl
  have hstep : count_loop T esyms size (fuel + 1) s count
      = if (0 : Byte) ≠ 0 ∨ s + l > size then some none
        else count_loop T esyms size fuel (s + (l + T.ptr_bytes + 1)) (count + 1) := by
    conv_lhs => unfold count_loop
    simp only [hs, if_true, hc, hl, hnul]
    rw [if_pos hc0]
  refine ⟨fun hgt => ?_, fun heq => ⟨by omega, hnul, ?_⟩⟩
  · have hfail : count_loop T esyms size (fuel + 1) s count = some none := by
      rw [hstep, if_pos (Or.inr hgt)]
    refine ⟨rtems_rtl_set_error rtl Errno.EINVAL "invalid exported symbol table", ?_,
      rfl, rfl, rfl⟩
    unfold rtems_rtl_symbol_global_add
    rw [hreach, hfail]
  · rw [hstep, if_neg]
    intro hbad
    rcases hbad with hbad | hbad
    · exact hbad rfl
    · omega

/-- C7, amended, at the table `scenario_blob` declared with the size 3: the
name `beta` of its first record has its NUL at the index 4, above the size;
the call returns false with `EINVAL` and the find of `beta` returns the symbol
it returned before. -/
theorem global_add_nul_beyond_size_witness :
    (count_loop target32 scenario_blob 3 (3 + 1) 0 0
        = count_loop target32 scenario_blob 3 (3 + 1) 0 0 ∧
      0 < 3 ∧ scenario_blob[0]? = some 98 ∧ (98 : Byte) ≠ 0 ∧
      strlen scenario_blob 0 = some 4 ∧ 3 < 0 + 4) ∧
    rtems_rtl_symbol_global_find target32 scenario_linked.heap scenario_linked.symbols
      (cstring "beta") = some (some ⟨100, 1⟩) ∧
    ∃ rtl1, rtems_rtl_symbol_global_add target32 (fun _ => some 200) scenario_linked empty_obj
          scenario_blob 3 ([] : List (rtems_rtl_tls_offset Unit)) 0 ()
        = some (false, rtl1, empty_obj, ()) ∧
      rtl1.symbols = scenario_linked.symbols ∧ rtl1.heap = scenario_linked.heap ∧
      rtl1.errors = (Errno.EINVAL, "invalid exported symbol table") :: scenario_linked.errors :=
  ⟨⟨rfl, by decide, by decide, by decide, by decide, by decide⟩, by decide,
   (global_add_nul_beyond_size target32 (fun _ => some 200) scenario_linked empty_obj
      scenario_blob 3 ([] : List (rtems_rtl_tls_offset Unit)) 0 () 3 0 0 4 98 rfl (by decide)
      (by decide) (by decide) (by decide)).1 (by decide)⟩

/-- C22 as stated fails: the table `exact_blob` is declared with the size 6,
which its one record fills; `rtems_rtl_symbol_global_add` returns true, the
scan ends at the index 6, which is not below the size, and the byte at the
index 6 is `0x55`, not zero. -/
theorem scan_end_not_below_size :
    (rtems_rtl_symbol_global_add target32 (fun _ => some 200) scenario_linked empty_obj
        exact_blob 6 ([] : List (rtems_rtl_tls_offset Unit)) 0 ()).map (fun r => r.1)
      = some true ∧
    count_loop target32 exact_blob 6 (6 + 1) 0 0 = some (some (6, 1)) ∧
    exact_blob[6]? = some 0x55 ∧
    ¬ (∀ s count, count_loop target32 exact_blob 6 (6 + 1) 0 0 = some (some (s, count)) →
        s < 6 ∧ exact_blob[s]? = some 0) := by
  refine ⟨rfl, by decide, by decide, fun h => ?_⟩
  have h6 := (h 6 1 (by decide)).1
  omega

/-- C22, amended: when `rtems_rtl_symbol_global_add` returns true, the scan of
the records ended at an index `s` that is below the declared size and holds a
zero byte, or that is not below the declared size; in both cases the bytes
`DE AD BE EF` are at the indices `s + 1` to `s + 4`. -/
theorem scan_end_position {W : Type} (T : Target) (alloc : Nat → Option Nat) (rtl : Rtl)
    (obj : rtems_rtl_obj) (esyms : List Byte) (size : Nat)
    (tls_offsets : List (rtems_rtl_tls_offset W)) (tls_size : Nat) (env : W)
    (rtl1 : Rtl) (obj1 : rtems_rtl_obj) (env1 : W)
    (h : rtems_rtl_symbol_global_add T alloc rtl obj esyms size tls_offsets tls_size env
      = some (true, rtl1, obj1, env1)) :
    ∃ s count, count_loop T esyms size (size + 1) 0 0 = some (some (s, count)) ∧
      ((s < size ∧ esyms[s]? = some 0) ∨ size ≤ s) ∧
      esyms[s + 1]? = some 0xDE ∧ esyms[s + 2]? = some 0xAD ∧ esyms[s + 3]? = some 0xBE ∧
      esyms[s + 4]? = some 0xEF := by
  rcases global_add_inv T alloc rtl obj esyms size tls_offsets tls_size env true rtl1 obj1 env1 h
    with ⟨hb, _⟩ | ⟨_, s, count, base, hcount, hmark, _, _, _⟩
  · cases hb
  · obtain ⟨b1, b2, b3, b4, h1, h2, h3, h4, hm⟩ := read_marker_inv esyms s _ hmark
    obtain ⟨e1, e2, e3, e4⟩ := (marker_bytes b1 b2 b3 b4).1 hm.symm
    subst e1 e2 e3 e4
    refine ⟨s, count, hcount, ?_, h1, h2, h3, h4⟩
    rcases count_loop_end T esyms size (size + 1) 0 0 (s, count) hcount with hge | hz
    · exact Or.inr (Nat.le_of_not_lt hge)
    · by_cases hlt : s < size
      · exact Or.inl ⟨hlt, hz⟩
      · exact Or.inr (Nat.le_of_not_lt hlt)

/-- C22, amended, at the table `scenario_blob` with its length as size, where
the scan ends at the zero byte at index 17, and at `exact_blob` with size 6,
where it ends at the size. -/
theorem scan_end_position_witness :
    rtems_rtl_symbol_global_add target32 (fun _ => some 200) scenario_linked empty_obj
        scenario_blob scenario_blob.length ([] : List (rtems_rtl_tls_offset Unit)) 0 ()
      = some (true, scenario_published, ⟨none, 0, 0, some 200, 40, 2⟩, ()) ∧
    count_loop target32 scenario_blob scenario_blob.length (scenario_blob.length + 1) 0 0
      = some (some (17, 2)) ∧
    scenario_blob[17]? = some 0 ∧
    ∃ s count, count_loop target32 scenario_blob scenario_blob.length
        (scenario_blob.length + 1) 0 0 = some (some (s, count)) ∧
      ((s < scenario_blob.length ∧ scenario_blob[s]? = some 0) ∨ scenario_blob.length ≤ s) ∧
      scenario_blob[s + 1]? = some 0xDE ∧ scenario_blob[s + 2]? = some 0xAD ∧
      scenario_blob[s + 3]? = some 0xBE ∧ scenario_blob[s + 4]? = some 0xEF :=
  ⟨rfl, by decide, by decide,
   scan_end_position target32 (fun _ => some 200) scenario_linked empty_obj scenario_blob
     scenario_blob.length ([] : List (rtems_rtl_tls_offset Unit)) 0 () scenario_published
     ⟨none, 0, 0, some 200, 40, 2⟩ () rfl⟩

/-- C29: the check of the end marker is not bounded by the declared size.
The table `scenario_blob` declared with the size 18 has its zero length name
at index 17, the last declared byte, and `exact_blob` declared with the size 6
ends the scan at the index 6 because the size is reached. In both, the four
bytes that the check reads, at the indices `s + 1` to `s + 4`, are all at or
beyond the size, and the call returns true with them and false with a memory
that is equal below the size and differs in one of these bytes. -/
theorem sentinel_read_unbounded :
    (scenario_blob.take 18 = bad_marker_blob.take 18 ∧
      count_loop target32 scenario_blob 18 (18 + 1) 0 0 = some (some (17, 2)) ∧
      count_loop target32 bad_marker_blob 18 (18 + 1) 0 0 = some (some (17, 2)) ∧
      scenario_blob[17]? = some 0 ∧ 18 ≤ 17 + 1 ∧
      scenario_blob[17 + 4]? = some 0xEF ∧ bad_marker_blob[17 + 4]? = some 0xEE ∧
      (rtems_rtl_symbol_global_add target32 (fun _ => some 200) scenario_linked empty_obj
          scenario_blob 18 ([] : List (rtems_rtl_tls_offset Unit)) 0 ()).map (fun r => r.1)
        = some true ∧
      rtems_rtl_symbol_global_add target32 (fun _ => some 200) scenario_linked empty_obj
          bad_marker_blob 18 ([] : List (rtems_rtl_tls_offset Unit)) 0 ()
        = some (false,
            rtems_rtl_set_error scenario_linked Errno.ENOMEM "invalid export symbol table",
            empty_obj, ())) ∧
    (exact_blob.take 6 = exact_blob_bad.take 6 ∧
      count_loop target32 exact_blob 6 (6 + 1) 0 0 = some (some (6, 1)) ∧
      count_loop target32 exact_blob_bad 6 (6 + 1) 0 0 = some (some (6, 1)) ∧
      6 ≤ 6 + 1 ∧
      exact_blob[6 + 1]? = some 0xDE ∧ exact_blob_bad[6 + 1]? = some 0xDF ∧
      (rtems_rtl_symbol_global_add target32 (fun _ => some 200) scenario_linked empty_obj
          exact_blob 6 ([] : List (rtems_rtl_tls_offset Unit)) 0 ()).map (fun r => r.1)
        = some true ∧
      rtems_rtl_symbol_global_add target32 (fun _ => some 200) scenario_linked empty_obj
          exact_blob_bad 6 ([] : List (rtems_rtl_tls_offset Unit)) 0 ()
        = some (false,
            rtems_rtl_set_error scenario_linked Errno.ENOMEM "invalid export symbol table",
            empty_obj, ())) :=
  ⟨⟨by decide, by decide, by decide, by decide, by decide, by decide, by decide, rfl, rfl⟩,
   ⟨by decide, by decide, by decide, by decide, by decide, by decide, rfl, rfl⟩⟩

/-- C24, at a table with the indices 5, 3 and 3: the scan for 3 over three
entries returns the entry at position 1, the first of the two; over one entry
it returns NULL; the scan for 7 returns NULL. -/
theorem tls_offset_linear_scan_witness :
    3 ≤ tls_table3.length ∧
    (rtems_rtl_symbol_find_tls_offset 3 tls_table3 3).map
        (fun r => r.map (fun e => (e.offset 0).1)) = some (some 0x1000) ∧
    (rtems_rtl_symbol_find_tls_offset 3 tls_table3 1).map
        (fun r => r.map (fun e => (e.offset 0).1)) = some none ∧
    (rtems_rtl_symbol_find_tls_offset 7 tls_table3 3).map
        (fun r => r.map (fun e => (e.offset 0).1)) = some none ∧
    ∃ r, rtems_rtl_symbol_find_tls_offset 3 tls_table3 3 = some r ∧
      (∀ e, r = some e → ∃ pos, pos < 3 ∧ tls_table3[pos]? = some e ∧ e.index = 3 ∧
        ∀ j e1, j < pos → tls_table3[j]? = some e1 → e1.index ≠ 3) ∧
      (r = none ↔ ∀ j e1, j < 3 → tls_table3[j]? = some e1 → e1.index ≠ 3) :=
  ⟨by decide, rfl, rfl, rfl, (tls_offset_linear_scan 3 tls_table3 3 (by decide)).1⟩

/-- The invariant of the second loop for the names and values it has written:
after `count` records the loop stands where `decode_first` stands, and the
first `count` symbols of the table at `base`, which has `n` symbols, hold the
names and values of `decode_first`. -/
theorem populate_loop_decoded {W : Type} (T : Target) (esyms : List Byte) (size : Nat)
    (tls_offsets : List (rtems_rtl_tls_offset W)) (tls_size base n : Nat) (env0 : W) :
    ∀ (fuel s count : Nat) (rtl : Rtl) (env : W) (rtl1 : Rtl) (env1 : W) (r : Nat × Nat),
      (∃ (recs : List (List Byte × Nat)) (tbl : List rtems_rtl_obj_sym), decode_first T esyms tls_offsets tls_size env0 count = some (s, recs, env) ∧
        recs.length = count ∧ rtl.heap base = some tbl ∧ tbl.length = n ∧
        ∀ (k : Nat) (pr : List Byte × Nat), recs[k]? = some pr →
          ∃ sym : rtems_rtl_obj_sym, tbl[k]? = some sym ∧
          sym.name = some pr.1 ∧ sym.value = pr.2) →
      populate_loop T esyms size tls_offsets tls_size base fuel s count rtl env = some (rtl1, env1) →
      count_loop T esyms size fuel s count = some (some r) →
      ∃ (recs : List (List Byte × Nat)) (tbl : List rtems_rtl_obj_sym), decode_first T esyms tls_offsets tls_size env0 r.2 = some (r.1, recs, env1) ∧
        recs.length = r.2 ∧ rtl1.heap base = some tbl ∧ tbl.length = n ∧
        ∀ (k : Nat) (pr : List Byte × Nat), recs[k]? = some pr →
          ∃ sym : rtems_rtl_obj_sym, tbl[k]? = some sym ∧
          sym.name = some pr.1 ∧ sym.value = pr.2 := by
  apply populate_loop_induct T esyms size tls_offsets tls_size base
    (fun s count rtl env =>
      ∃ (recs : List (List Byte × Nat)) (tbl : List rtems_rtl_obj_sym), decode_first T esyms tls_offsets tls_size env0 count = some (s, recs, env) ∧
        recs.length = count ∧ rtl.heap base = some tbl ∧ tbl.length = n ∧
        ∀ (k : Nat) (pr : List Byte × Nat), recs[k]? = some pr →
          ∃ sym : rtems_rtl_obj_sym, tbl[k]? = some sym ∧
          sym.name = some pr.1 ∧ sym.value = pr.2)
  intro s count rtl env s1 rtl1 env1 hP hrec
  obtain ⟨recs, tbl, hdec, hlen, htbl, htl, hcont⟩ := hP
  obtain ⟨l, data, tls_off, sym0, hl, hdata, htls, _, hnew, hother, _, hsame, hs1, henv1, _, _⟩ :=
    populate_record_inv T esyms tls_offsets tls_size base s count rtl rtl1 env env1 s1 hrec
  obtain ⟨tbl1, htbl1, htl1⟩ := hsame tbl htbl
  refine ⟨recs ++ [(string_at esyms s l, (resolve_value T data tls_off env).1)], tbl1, ?_, ?_,
    htbl1, by rw [htl1, htl], ?_⟩
  · simp only [decode_first, hdec, hl, hdata, htls]
    rw [hs1, henv1]
  · rw [List.length_append, hlen]
    rfl
  · intro k pr hk
    have hderef : ∀ q : SymPtr, q.block = base → deref rtl1.heap q = tbl1[q.index]? := by
      intro q hq
      unfold deref
      rw [hq, htbl1]
    have hderef0 : ∀ q : SymPtr, q.block = base → deref rtl.heap q = tbl[q.index]? := by
      intro q hq
      unfold deref
      rw [hq, htbl]
    by_cases hkc : k < count
    · rw [List.getElem?_append_left (by omega)] at hk
      obtain ⟨sym, hsym, hn, hv⟩ := hcont k pr hk
      refine ⟨sym, ?_, hn, hv⟩
      have hne : (⟨base, k⟩ : SymPtr) ≠ ⟨base, count⟩ := by
        intro e
        injection e with _ e2
        omega
      have := hother ⟨base, k⟩ hne
      rw [hderef ⟨base, k⟩ rfl, hderef0 ⟨base, k⟩ rfl] at this
      rw [this]
      exact hsym
    · have hge : recs.length ≤ k := by omega
      rw [List.getElem?_append_right hge] at hk
      have hk0 : k - recs.length = 0 := by
        by_contra hne
        have : (k - recs.length) = (k - recs.length - 1) + 1 := by omega
        rw [this] at hk
        simp at hk
      rw [hk0] at hk
      simp only [List.getElem?_cons_zero, Option.some.injEq] at hk
      have hkeq : k = count := by omega
      subst hkeq
      rw [hderef ⟨base, k⟩ rfl] at hnew
      rw [← hk]
      exact ⟨_, hnew, rfl, rfl⟩

theorem global_add_decoded {W : Type} (T : Target) (alloc : Nat → Option Nat) (rtl : Rtl)
    (obj : rtems_rtl_obj) (esyms : List Byte) (size : Nat)
    (tls_offsets : List (rtems_rtl_tls_offset W)) (tls_size : Nat) (env : W)
    (rtl1 : Rtl) (obj1 : rtems_rtl_obj) (env1 : W)
    (h : rtems_rtl_symbol_global_add T alloc rtl obj esyms size tls_offsets tls_size env
      = some (true, rtl1, obj1, env1)) :
    ∃ (s count base : Nat) (recs : List (List Byte × Nat)) (tbl : List rtems_rtl_obj_sym),
      count_loop T esyms size (size + 1) 0 0 = some (some (s, count)) ∧
      obj1 = { obj with global_size := count * T.sym_bytes, global_table := some base,
                        global_syms := count } ∧
      decode_first T esyms tls_offsets tls_size env count = some (s, recs, env1) ∧
      recs.length = count ∧ rtl1.heap base = some tbl ∧ tbl.length = count ∧
      ∀ (k : Nat) (pr : List Byte × Nat), recs[k]? = some pr →
          ∃ sym : rtems_rtl_obj_sym, tbl[k]? = some sym ∧
        sym.name = some pr.1 ∧ sym.value = pr.2 := by
  rcases global_add_inv T alloc rtl obj esyms size tls_offsets tls_size env true rtl1 obj1 env1 h
    with ⟨hb, _⟩ | ⟨_, s, count, base, hcount, _, _, hpop, hobj⟩
  · cases hb
  · obtain ⟨recs, tbl, hdec, hlen, htbl, htl, hcont⟩ :=
      populate_loop_decoded T esyms size tls_offsets tls_size base count env (size + 1) 0 0
        { rtl with heap := heap_alloc rtl.heap base count } env rtl1 env1 (s, count)
        ⟨[], List.replicate count ⟨none, 0, 0⟩, rfl, rfl, by simp [heap_alloc], by simp,
          fun k pr hk => by simp at hk⟩
        hpop hcount
    exact ⟨s, count, base, recs, tbl, hcount, hobj, hdec, hlen, htbl, htl, hcont⟩


theorem decoded_table_map (recs : List (List Byte × Nat)) (tbl : List rtems_rtl_obj_sym)
    (hlen : tbl.length = recs.length)
    (hcont : ∀ (k : Nat) (pr : List Byte × Nat), recs[k]? = some pr →
      ∃ sym : rtems_rtl_obj_sym, tbl[k]? = some sym ∧ sym.name = some pr.1 ∧ sym.value = pr.2) :
    tbl.map (fun sym => (sym.name, sym.value)) = recs.map (fun pr => (some pr.1, pr.2)) := by
  apply List.ext_getElem?
  intro k
  rw [List.getElem?_map, List.getElem?_map]
  cases hr : recs[k]? with
  | none =>
    have : tbl[k]? = none := by
      rw [List.getElem?_eq_none_iff] at hr ⊢
      omega
    rw [this]
    rfl
  | some pr =>
    obtain ⟨sym, hs, hn, hv⟩ := hcont k pr hr
    rw [hs]
    simp [hn, hv]

/-- C21: decoding does not depend on the global symbol table. Two calls of
`rtems_rtl_symbol_global_add` on the same export table, size and TLS table,
with offset functions that start in the same environment, from any two states
and with any two allocators and objects, that both return true, leave the same
`global_syms`, the same environment, and tables that hold the same sequence of
names and values. -/
theorem decode_independent {W : Type} (T : Target) (allocA allocB : Nat → Option Nat)
    (rtlA rtlB : Rtl) (objA objB : rtems_rtl_obj) (esyms : List Byte) (size : Nat)
    (tls_offsets : List (rtems_rtl_tls_offset W)) (tls_size : Nat) (env : W)
    (rtlA1 rtlB1 : Rtl) (objA1 objB1 : rtems_rtl_obj) (envA1 envB1 : W)
    (hA : rtems_rtl_symbol_global_add T allocA rtlA objA esyms size tls_offsets tls_size env
      = some (true, rtlA1, objA1, envA1))
    (hB : rtems_rtl_symbol_global_add T allocB rtlB objB esyms size tls_offsets tls_size env
      = some (true, rtlB1, objB1, envB1)) :
    objA1.global_syms = objB1.global_syms ∧ envA1 = envB1 ∧
    ∃ (a b : Nat) (tblA tblB : List rtems_rtl_obj_sym),
      objA1.global_table = some a ∧ objB1.global_table = some b ∧
      rtlA1.heap a = some tblA ∧ rtlB1.heap b = some tblB ∧
      tblA.length = objA1.global_syms ∧ tblB.length = objB1.global_syms ∧
      tblA.map (fun sym => (sym.name, sym.value)) = tblB.map (fun sym => (sym.name, sym.value)) ∧
      ∀ sym, sym ∈ tblA → sym.name ≠ none := by
  obtain ⟨sA, cA, a, recsA, tblA, hcA, hoA, hdA, hlA, htA, htlA, hcontA⟩ :=
    global_add_decoded T allocA rtlA objA esyms size tls_offsets tls_size env rtlA1 objA1 envA1 hA
  obtain ⟨sB, cB, b, recsB, tblB, hcB, hoB, hdB, hlB, htB, htlB, hcontB⟩ :=
    global_add_decoded T allocB rtlB objB esyms size tls_offsets tls_size env rtlB1 objB1 envB1 hB
  rw [hcA] at hcB
  simp only [Option.some.injEq, Prod.mk.injEq] at hcB
  obtain ⟨hs, hc⟩ := hcB
  subst hs hc
  rw [hdA] at hdB
  simp only [Option.some.injEq, Prod.mk.injEq] at hdB
  obtain ⟨_, hr, he⟩ := hdB
  subst hr he
  have hmA := decoded_table_map recsA tblA (by rw [htlA, hlA]) hcontA
  have hmB := decoded_table_map recsA tblB (by rw [htlB, hlA]) hcontB
  refine ⟨by rw [hoA, hoB], rfl, a, b, tblA, tblB, by rw [hoA], by rw [hoB], htA, htB,
    by rw [hoA]; exact htlA, by rw [hoB]; exact htlB, by rw [hmA, hmB], ?_⟩
  intro sym hsym hnone
  have hmem : (sym.name, sym.value) ∈ tblA.map (fun sym => (sym.name, sym.value)) :=
    List.mem_map.2 ⟨sym, hsym, rfl⟩
  rw [hmA, List.mem_map] at hmem
  obtain ⟨pr, _, hpr⟩ := hmem
  rw [hnone] at hpr
  simp at hpr

/-- C21, at the table `scenario_blob` added to the table that holds `beta`
already, with the new table at 200, and to the empty table, with the new table
at 300: both tables hold `beta` with 9 and `foo` with `0x44332211`; the find
of `beta` returns the old symbol in the first state and the new one in the
second. -/
theorem decode_independent_witness :
    (rtems_rtl_symbol_global_add target32 (fun _ => some 200) scenario_linked empty_obj
        scenario_blob scenario_blob.length ([] : List (rtems_rtl_tls_offset Unit)) 0 ()
      = some (true, scenario_published, ⟨none, 0, 0, some 200, 40, 2⟩, ()) ∧
      rtems_rtl_symbol_global_add target32 (fun _ => some 300) scenario_opened empty_obj
        scenario_blob scenario_blob.length ([] : List (rtems_rtl_tls_offset Unit)) 0 ()
      = some (true, fresh_published, ⟨none, 0, 0, some 300, 40, 2⟩, ())) ∧
    scenario_published.heap 200
      = some [⟨some (cstring "beta"), 9, 0⟩, ⟨some (cstring "foo"), 0x44332211, 0⟩] ∧
    fresh_published.heap 300
      = some [⟨some (cstring "beta"), 9, 0⟩, ⟨some (cstring "foo"), 0x44332211, 0⟩] ∧
    rtems_rtl_symbol_global_find target32 scenario_published.heap scenario_published.symbols
      (cstring "beta") = some (some ⟨100, 1⟩) ∧
    rtems_rtl_symbol_global_find target32 fresh_published.heap fresh_published.symbols
      (cstring "beta") = some (some ⟨300, 0⟩) ∧
    (⟨none, 0, 0, some 200, 40, 2⟩ : rtems_rtl_obj).global_syms
      = (⟨none, 0, 0, some 300, 40, 2⟩ : rtems_rtl_obj).global_syms ∧
    ∃ (a b : Nat) (tblA tblB : List rtems_rtl_obj_sym),
      (⟨none, 0, 0, some 200, 40, 2⟩ : rtems_rtl_obj).global_table = some a ∧
      (⟨none, 0, 0, some 300, 40, 2⟩ : rtems_rtl_obj).global_table = some b ∧
      scenario_published.heap a = some tblA ∧ fresh_published.heap b = some tblB ∧
      tblA.map (fun sym => (sym.name, sym.value)) = tblB.map (fun sym => (sym.name, sym.value)) :=
  ⟨⟨rfl, rfl⟩, by decide, by decide, by decide, by decide, rfl,
   (decode_independent target32 (fun _ => some 200) (fun _ => some 300) scenario_linked
      scenario_opened empty_obj empty_obj scenario_blob scenario_blob.length
      ([] : List (rtems_rtl_tls_offset Unit)) 0 () scenario_published fresh_published
      ⟨none, 0, 0, some 200, 40, 2⟩ ⟨none, 0, 0, some 300, 40, 2⟩ () () rfl rfl).2.2.imp
     (fun a h => h.imp (fun b h => h.imp (fun tblA h => h.imp (fun tblB h =>
       ⟨h.1, h.2.1, h.2.2.1, h.2.2.2.1, h.2.2.2.2.2.2.1⟩))))⟩

/-- C25: `rtems_rtl_symbol_global_add` keeps the names of the linked symbols
unique. When no two linked symbols have the same name before the call, no two
have after it, whether the call returns true or false; and when it returns
true, a symbol of the new table that has the name of an earlier symbol of the
table is not linked, so of the records of one name in the export table only
the first can be linked. -/
theorem global_add_unique_names {W : Type} (T : Target) (alloc : Nat → Option Nat)
    (rtl : Rtl) (obj : rtems_rtl_obj) (esyms : List Byte) (size : Nat)
    (tls_offsets : List (rtems_rtl_tls_offset W)) (tls_size : Nat) (env : W)
    (b : Bool) (rtl1 : Rtl) (obj1 : rtems_rtl_obj) (env1 : W)
    (hok : TableOk T rtl.heap rtl.symbols)
    (hfresh : ∀ n base, alloc n = some base → rtl.heap base = none)
    (huniq : ∀ p q, Linked rtl.symbols p → Linked rtl.symbols q →
      name_of rtl.heap p = name_of rtl.heap q → p = q)
    (h : rtems_rtl_symbol_global_add T alloc rtl obj esyms size tls_offsets tls_size env
      = some (b, rtl1, obj1, env1)) :
    (∀ p q, Linked rtl1.symbols p → Linked rtl1.symbols q →
      name_of rtl1.heap p = name_of rtl1.heap q → p = q) ∧
    (b = true → ∃ base, obj1.global_table = some base ∧
      ∀ j k, j < k → name_of rtl1.heap ⟨base, j⟩ = name_of rtl1.heap ⟨base, k⟩ →
        ¬ Linked rtl1.symbols ⟨base, k⟩) := by
  cases b with
  | false =>
    obtain ⟨hs, hh, _⟩ := global_add_false_inv T alloc rtl obj esyms size tls_offsets
      tls_size env rtl1 obj1 env1 h
    rw [hs, hh]
    exact ⟨huniq, fun hb => by cases hb⟩
  | true =>
    obtain ⟨base, count, hobj, hf, hold, inv⟩ := global_add_true_inv T alloc rtl obj esyms size
      tls_offsets tls_size env rtl1 obj1 env1 hok hfresh h
    have hname : ∀ q, Linked rtl.symbols q → name_of rtl1.heap q = name_of rtl.heap q := by
      intro q hq
      have hqb := hold q hq
      have h1 : rtl1.heap q.block = rtl.heap q.block := by
        rw [inv.heap_other q.block hqb]
        simp [heap_alloc, hqb]
      simp only [name_of, deref, h1]
    have hsplit : ∀ p, Linked rtl1.symbols p →
        Linked rtl.symbols p ∨ (Linked rtl1.symbols ⟨base, p.index⟩ ∧ p = ⟨base, p.index⟩) := by
      intro p hp
      rcases inv.linked_new p hp with h1 | ⟨h1, _⟩
      · exact Or.inl h1
      · have hpe : p = ⟨base, p.index⟩ := by
          cases p
          simp only at h1
          simp [h1]
        refine Or.inr ⟨?_, hpe⟩
        rw [← hpe]
        exact hp
    refine ⟨fun p q hp hq hpq => ?_, fun _ => ⟨base, by rw [hobj], fun j k hjk hnm hk => ?_⟩⟩
    · rcases hsplit p hp with hp0 | ⟨hp1, hpe⟩
      · rcases hsplit q hq with hq0 | ⟨hq1, hqe⟩
        · exact huniq p q hp0 hq0 (by rw [← hname p hp0, ← hname q hq0]; exact hpq)
        · have := (inv.first q.index hq1).1 p hp0
          rw [← hqe] at this
          exact absurd hpq this
      · rcases hsplit q hq with hq0 | ⟨hq1, hqe⟩
        · have := (inv.first p.index hp1).1 q hq0
          rw [← hpe] at this
          exact absurd hpq.symm this
        · by_cases hidx : p.index = q.index
          · rw [hpe, hqe, hidx]
          · rcases Nat.lt_or_gt_of_ne hidx with hlt | hgt
            · have := (inv.first q.index hq1).2 p.index hlt
              rw [← hpe, ← hqe] at this
              exact absurd hpq this
            · have := (inv.first p.index hp1).2 q.index hgt
              rw [← hpe, ← hqe] at this
              exact absurd hpq.symm this
    · exact (inv.first k hk).2 j hjk hnm

/-- C25, at an export table with the records `foo`, `beta` and `foo` added to
the table that holds `alpha`, `beta` and `gamma`: the call returns true, the
first `foo` is linked, and `beta` and the second `foo` stay in the table at
address 200 without a link. -/
theorem global_add_unique_names_witness :
    (∀ p q, Linked scenario_linked.symbols p → Linked scenario_linked.symbols q →
      name_of scenario_linked.heap p = name_of scenario_linked.heap q → p = q) ∧
    rtems_rtl_symbol_global_add target32 (fun _ => some 200) scenario_linked empty_obj
        twice_blob twice_blob.length ([] : List (rtems_rtl_tls_offset Unit)) 0 ()
      = some (true, twice_published, ⟨none, 0, 0, some 200, 60, 3⟩, ()) ∧
    twice_published.symbols.buckets.flatten
      = [⟨100, 1⟩, ⟨100, 2⟩, ⟨200, 0⟩, ⟨100, 0⟩] ∧
    (twice_published.heap 200).map (fun tbl => tbl.map (fun sym => sym.name))
      = some [some (cstring "foo"), some (cstring "beta"), some (cstring "foo")] ∧
    ∀ p q, Linked twice_published.symbols p → Linked twice_published.symbols q →
      name_of twice_published.heap p = name_of twice_published.heap q → p = q :=
  have huniq : ∀ p q, Linked scenario_linked.symbols p → Linked scenario_linked.symbols q →
      name_of scenario_linked.heap p = name_of scenario_linked.heap q → p = q :=
    fun p q hp hq =>
      (by decide : ∀ p, p ∈ scenario_linked.symbols.buckets.flatten →
        ∀ q, q ∈ scenario_linked.symbols.buckets.flatten →
          name_of scenario_linked.heap p = name_of scenario_linked.heap q → p = q)
        p ((linked_iff_flatten _ p).1 hp) q ((linked_iff_flatten _ q).1 hq)
  ⟨huniq, rfl, by decide, by decide,
   (global_add_unique_names target32 (fun _ => some 200) scenario_linked empty_obj twice_blob
      twice_blob.length ([] : List (rtems_rtl_tls_offset Unit)) 0 () true twice_published
      ⟨none, 0, 0, some 200, 60, 3⟩ () scenario_table_ok (scenario_fresh 200 rfl) huniq rfl).1⟩


theorem erase_fields (rtl rtl1 : Rtl) (obj obj1 : rtems_rtl_obj)
    (h : rtems_rtl_symbol_obj_erase rtl obj = some (rtl1, obj1)) :
    (obj.local_table ≠ none → obj1.local_size = 0 ∧ obj1.local_syms = 0) ∧
    (obj.local_table = none →
      obj1.local_size = obj.local_size ∧ obj1.local_syms = obj.local_syms) ∧
    (obj.global_table ≠ none → obj1.global_size = 0 ∧ obj1.global_syms = 0) ∧
    (obj.global_table = none →
      obj1.global_size = obj.global_size ∧ obj1.global_syms = obj.global_syms) ∧
    (∀ b, obj.local_table = some b → rtl1.heap b = none) ∧
    (∀ b, obj.global_table = some b → rtl1.heap b = none) := by
  unfold rtems_rtl_symbol_obj_erase rtems_rtl_symbol_obj_erase_local at h
  cases hl : obj.local_table with
  | none =>
    simp only [hl] at h
    cases hg : obj.global_table with
    | none =>
      simp only [hg, Option.some.injEq, Prod.mk.injEq] at h
      obtain ⟨_, rfl⟩ := h
      exact ⟨fun hne => absurd rfl hne, fun _ => ⟨rfl, rfl⟩, fun hne => absurd rfl hne,
        fun _ => ⟨rfl, rfl⟩, fun b hb => (by cases hb), fun b hb => (by cases hb)⟩
    | some base =>
      simp only [hg] at h
      cases hloop : erase_loop rtl.heap base obj.global_syms 0 rtl.symbols with
      | none => simp [hloop] at h
      | some t1 =>
        simp only [hloop, Option.some.injEq, Prod.mk.injEq] at h
        obtain ⟨rfl, rfl⟩ := h
        refine ⟨fun hne => absurd rfl hne, fun _ => ⟨rfl, rfl⟩, fun _ => ⟨rfl, rfl⟩,
          fun hn => (by cases hn), fun b hb => (by cases hb), fun b hb => ?_⟩
        cases hb
        simp [heap_free]
  | some l =>
    simp only [hl] at h
    cases hg : obj.global_table with
    | none =>
      simp only [hg, Option.some.injEq, Prod.mk.injEq] at h
      obtain ⟨rfl, rfl⟩ := h
      refine ⟨fun _ => ⟨rfl, rfl⟩, fun hn => (by cases hn), fun hne => absurd rfl hne,
        fun _ => ⟨rfl, rfl⟩, fun b hb => ?_, fun b hb => (by cases hb)⟩
      cases hb
      simp [heap_free]
    | some base =>
      simp only [hg] at h
      cases hloop : erase_loop (heap_free rtl.heap l) base obj.global_syms 0 rtl.symbols with
      | none => simp [hloop] at h
      | some t1 =>
        simp only [hloop, Option.some.injEq, Prod.mk.injEq] at h
        obtain ⟨rfl, rfl⟩ := h
        refine ⟨fun _ => ⟨rfl, rfl⟩, fun hn => (by cases hn), fun _ => ⟨rfl, rfl⟩,
          fun hn => (by cases hn), fun b hb => ?_, fun b hb => ?_⟩
        · cases hb
          simp [heap_free]
        · cases hb
          simp [heap_free]

/-- C27 as stated fails: `rtems_rtl_symbol_global_add` on the object of
`scenario_blob` with an allocator that fails returns false and leaves the
object with the global table NULL, `global_size` 0 and `global_syms` 2, as the
branch of the failed allocation (rtl-sym.c:160) does not touch `global_syms`;
`rtems_rtl_symbol_obj_erase` of this object does nothing, as all it does to
the global fields is inside the test `if (obj->global_table)` (rtl-sym.c:324),
and `global_syms` is 2 after the call, not 0. -/
theorem erase_keeps_stale_count :
    rtems_rtl_symbol_global_add target32 (fun _ => none) scenario_published scenario_obj
        scenario_blob scenario_blob.length ([] : List (rtems_rtl_tls_offset Unit)) 0 ()
      = some (false,
          rtems_rtl_set_error scenario_published Errno.ENOMEM "no memory for global symbols",
          ⟨none, 0, 0, none, 0, 2⟩, ()) ∧
    rtems_rtl_symbol_obj_erase
        (rtems_rtl_set_error scenario_published Errno.ENOMEM "no memory for global symbols")
        ⟨none, 0, 0, none, 0, 2⟩
      = some (rtems_rtl_set_error scenario_published Errno.ENOMEM "no memory for global symbols",
          ⟨none, 0, 0, none, 0, 2⟩) ∧
    ¬ ∃ rtl1 obj1, rtems_rtl_symbol_obj_erase
          (rtems_rtl_set_error scenario_published Errno.ENOMEM "no memory for global symbols")
          ⟨none, 0, 0, none, 0, 2⟩ = some (rtl1, obj1) ∧
        obj1.global_syms = 0 := by
  refine ⟨rfl, rfl, ?_⟩
  rintro ⟨rtl1, obj1, h, h0⟩
  have h2 : rtems_rtl_symbol_obj_erase
      (rtems_rtl_set_error scenario_published Errno.ENOMEM "no memory for global symbols")
      ⟨none, 0, 0, none, 0, 2⟩
    = some (rtems_rtl_set_error scenario_published Errno.ENOMEM "no memory for global symbols",
        ⟨none, 0, 0, none, 0, 2⟩) := rfl
  rw [h2] at h
  simp only [Option.some.injEq, Prod.mk.injEq] at h
  rw [← h.2] at h0
  cases h0

/-- C27, amended: no dangling membership after `rtems_rtl_symbol_obj_erase`.
In a state whose table is in order and in which the object owns its linked
symbols: after the call no symbol of the global table of the object is linked
and both tables of the object are NULL; for a table that was not NULL the
memory is freed and its count and size are zero, for a table that was NULL the
count and size keep the values they had; every bucket chain is the chain it
was without the symbols of the object, so the symbols of other objects are in
the same buckets in the same order; and every symbol still linked is live with
the fields it had. -/
theorem erase_no_dangling (T : Target) (rtl rtl1 : Rtl) (obj obj1 : rtems_rtl_obj)
    (hok : TableOk T rtl.heap rtl.symbols) (hobj : ObjOk rtl obj)
    (h : rtems_rtl_symbol_obj_erase rtl obj = some (rtl1, obj1)) :
    (∀ base s, obj.global_table = some base → ¬ Linked rtl1.symbols ⟨base, s⟩) ∧
    (obj1.local_table = none ∧ obj1.global_table = none ∧
      (obj.local_table ≠ none → obj1.local_size = 0 ∧ obj1.local_syms = 0) ∧
      (obj.local_table = none →
        obj1.local_size = obj.local_size ∧ obj1.local_syms = obj.local_syms) ∧
      (obj.global_table ≠ none → obj1.global_size = 0 ∧ obj1.global_syms = 0) ∧
      (obj.global_table = none →
        obj1.global_size = obj.global_size ∧ obj1.global_syms = obj.global_syms)) ∧
    (∀ b, obj.local_table = some b ∨ obj.global_table = some b → rtl1.heap b = none) ∧
    rtl1.symbols.nbuckets = rtl.symbols.nbuckets ∧
    rtl1.symbols.buckets.length = rtl.symbols.buckets.length ∧
    (∀ (i : Nat) (c : rtems_chain_control), rtl.symbols.buckets[i]? = some c →
      rtl1.symbols.buckets[i]?
        = some (c.filter (fun q => decide (obj.global_table ≠ some q.block))) ∧
      (c.filter (fun q => decide (obj.global_table ≠ some q.block))).Sublist c) ∧
    (∀ q, Linked rtl.symbols q → obj.global_table ≠ some q.block → Linked rtl1.symbols q) ∧
    (∀ q, Linked rtl1.symbols q → ∃ sym, deref rtl1.heap q = some sym ∧
      deref rtl.heap q = some sym) ∧
    TableOk T rtl1.heap rtl1.symbols := by
  obtain ⟨hn, hb, _, _, hl1, hg1⟩ := erase_inv rtl rtl1 obj obj1 h
  obtain ⟨hfl, hfl0, hfg, hfg0, hf2, hf3⟩ := erase_fields rtl rtl1 obj obj1 h
  have hf1 := And.intro hl1 (And.intro hg1 (And.intro hfl (And.intro hfl0 (And.intro hfg hfg0))))
  have hok1 := erase_ok T rtl rtl1 obj obj1 hok hobj h
  have hfilter : ∀ c, c ∈ rtl.symbols.buckets →
      c.filter (not_of_obj obj) = c.filter (fun q => decide (obj.global_table ≠ some q.block)) := by
    intro c hc
    apply List.filter_congr
    intro q hq
    by_cases hqb : obj.global_table = some q.block
    · have := hobj.global_bound q ⟨c, hc, hq⟩ hqb
      simp [not_of_obj, hqb, this]
    · simp [not_of_obj, hqb]
  refine ⟨fun base s hg hlink => ?_, hf1, fun b hb => hb.elim (hf2 b) (hf3 b), hn,
    by rw [hb, List.length_map], fun i c hc => ?_, fun q hq hne => ?_, fun q hq => ?_, hok1⟩
  · have := ((erase_linked rtl rtl1 obj obj1 h ⟨base, s⟩).1 hlink)
    have hb2 := hobj.global_bound ⟨base, s⟩ this.1 hg
    have hno := this.2
    simp [not_of_obj, hg, hb2] at hno
  · have hmem : c ∈ rtl.symbols.buckets := List.getElem?_mem hc
    refine ⟨?_, List.filter_sublist _⟩
    rw [hb, List.getElem?_map, hc, Option.map_some', hfilter c hmem]
  · refine (erase_linked rtl rtl1 obj obj1 h q).2 ⟨hq, ?_⟩
    simp [not_of_obj, hne]
  · have hd := erase_name_of rtl rtl1 obj obj1 hobj h q hq
    obtain ⟨i, c, hc, hqc⟩ := (linked_iff_getElem rtl1.symbols q).1 hq
    obtain ⟨nm, hnm, _⟩ := hok1.placed i c hc q hqc
    cases hdq : deref rtl1.heap q with
    | none => simp [name_of, hdq] at hnm
    | some sym => exact ⟨sym, rfl, by rw [← hd, hdq]⟩

/-- C27, at the object of `scenario_blob`: after the erase `foo` is not linked
any more, the table at 200 is freed, and the chains hold `beta`, `gamma` and
`alpha` of the table at 100 as before. -/
theorem erase_no_dangling_witness :
    rtems_rtl_symbol_obj_erase scenario_published scenario_obj
      = some (scenario_erased, ⟨none, 0, 0, none, 0, 0⟩) ∧
    scenario_published.symbols.buckets.flatten = [⟨100, 1⟩, ⟨100, 2⟩, ⟨200, 1⟩, ⟨100, 0⟩] ∧
    scenario_erased.symbols.buckets.flatten = [⟨100, 1⟩, ⟨100, 2⟩, ⟨100, 0⟩] ∧
    scenario_erased.symbols = scenario_table ∧
    (∀ base s, scenario_obj.global_table = some base →
      ¬ Linked scenario_erased.symbols ⟨base, s⟩) ∧
    (∀ b, scenario_obj.local_table = some b ∨ scenario_obj.global_table = some b →
      scenario_erased.heap b = none) :=
  have h := erase_no_dangling target32 scenario_published scenario_erased scenario_obj
    ⟨none, 0, 0, none, 0, 0⟩ scenario_published_inv.ok
    (pubinv_objok target32 200 2 _ scenario_published empty_obj
      (fun p hp => by
         have := linked_block_live target32 scenario_heap scenario_table scenario_table_ok p hp
         intro e
         rw [e] at this
         exact this rfl)
      scenario_published_inv (fun l hl => by cases hl))
    rfl
  ⟨rfl, by decide, by decide, by decide, h.1, h.2.2.1⟩

theorem obj_add_ok (T : Target) (rtl rtl1 : Rtl) (obj : rtems_rtl_obj)
    (hok : TableOk T rtl.heap rtl.symbols)
    (h : rtems_rtl_symbol_obj_add T rtl obj = some rtl1) :
    TableOk T rtl1.heap rtl1.symbols ∧ rtl1.symbols.nbuckets = rtl.symbols.nbuckets ∧
      rtl1.heap = rtl.heap := by
  unfold rtems_rtl_symbol_obj_add at h
  cases hloop : obj_add_loop T rtl.heap obj.global_table obj.global_syms 0 rtl.symbols with
  | none => simp [hloop] at h
  | some t1 =>
    simp only [hloop, Option.some.injEq] at h
    subst h
    cases hg : obj.global_table with
    | none =>
      rw [hg] at hloop
      cases hk : obj.global_syms with
      | zero =>
        rw [hk] at hloop
        simp only [obj_add_loop, Option.some.injEq] at hloop
        subst hloop
        exact ⟨hok, rfl, rfl⟩
      | succ k =>
        rw [hk] at hloop
        simp [obj_add_loop] at hloop
    | some base =>
      rw [hg, obj_add_loop_eq] at hloop
      obtain ⟨h1, h2, _⟩ := insert_all_ok T rtl.heap _ rtl.symbols t1 hok hloop
      exact ⟨h1, h2, rfl⟩

theorem reachable_ok (T : Target) (n : Nat) (hn : 0 < n) (rtl : Rtl)
    (hr : Reachable T n rtl) : TableOk T rtl.heap rtl.symbols ∧ rtl.symbols.nbuckets = n := by
  induction hr with
  | opened alloc rtl0 rtl1 hopen =>
    rw [open_inv T alloc rtl0 rtl1 n hopen]
    exact ⟨empty_table_ok T rtl0.heap n hn, rfl⟩
  | load rtl0 a tbl _ hfree ih =>
    refine ⟨tableok_congr T _ rtl0.heap rtl0.symbols (fun p hp => ?_) ih.1, ih.2⟩
    have hlive := linked_block_live T rtl0.heap rtl0.symbols ih.1 p hp
    have hne : p.block ≠ a := fun e => hlive (by rw [e]; exact hfree)
    simp [name_of, deref, hne]
  | insert rtl0 p t1 _ hins ih =>
    exact ⟨insert_ok T rtl0.heap rtl0.symbols t1 p ih.1 hins,
      by rw [← ih.2]; exact insert_nbuckets T rtl0.heap rtl0.symbols t1 p hins⟩
  | global_add alloc rtl0 obj esyms size tls_offsets tls_size env b rtl1 obj1 env1 _ hfresh hadd ih =>
    cases b with
    | false =>
      obtain ⟨hs, hh, _⟩ := global_add_false_inv T alloc rtl0 obj esyms size tls_offsets
        tls_size env rtl1 obj1 env1 hadd
      rw [hs, hh]
      exact ih
    | true =>
      obtain ⟨base, count, _, _, _, inv⟩ := global_add_true_inv T alloc rtl0 obj esyms size
        tls_offsets tls_size env rtl1 obj1 env1 ih.1 hfresh hadd
      exact ⟨inv.ok, by rw [inv.nb]; exact ih.2⟩
  | obj_add rtl0 obj rtl1 _ hadd ih =>
    obtain ⟨h1, h2, _⟩ := obj_add_ok T rtl0 rtl1 obj ih.1 hadd
    exact ⟨h1, by rw [h2]; exact ih.2⟩
  | erase_local rtl0 obj _ hun ih =>
    obtain ⟨hs, _, hheap, _⟩ := erase_local_inv rtl0 obj
    rw [hs]
    refine ⟨tableok_congr T _ rtl0.heap rtl0.symbols (fun p hp => ?_) ih.1, ih.2⟩
    simp only [name_of, deref, hheap p.block (hun p hp)]
  | erase rtl0 obj rtl1 obj1 _ hobj herase ih =>
    obtain ⟨hnb, _⟩ := erase_inv rtl0 rtl1 obj obj1 herase
    exact ⟨erase_ok T rtl0 rtl1 obj obj1 ih.1 hobj herase, by rw [hnb]; exact ih.2⟩

/-- C26: the bucket invariant. In every state that is reachable from
`rtems_rtl_symbol_table_open` with `n > 0` buckets by
`rtems_rtl_symbol_global_insert`, `rtems_rtl_symbol_global_add`,
`rtems_rtl_symbol_obj_add`, `rtems_rtl_symbol_obj_erase_local` and
`rtems_rtl_symbol_obj_erase`, the table has `n` buckets and every linked
symbol has a name, is in the bucket with the index
`rtems_rtl_symbol_hash (name) % n`, and is in no bucket with another index. -/
theorem bucket_invariant (T : Target) (n : Nat) (hn : 0 < n) (rtl : Rtl)
    (hr : Reachable T n rtl) :
    rtl.symbols.nbuckets = n ∧ rtl.symbols.buckets.length = n ∧
    ∀ p, Linked rtl.symbols p → ∃ nm, name_of rtl.heap p = some nm ∧
      (∃ c, rtl.symbols.buckets[rtems_rtl_symbol_hash T nm % n]? = some c ∧ p ∈ c) ∧
      ∀ (i : Nat) (c : rtems_chain_control), rtl.symbols.buckets[i]? = some c → p ∈ c →
        i = rtems_rtl_symbol_hash T nm % n := by
  obtain ⟨hok, hnb⟩ := reachable_ok T n hn rtl hr
  refine ⟨hnb, by rw [hok.len, hnb], fun p hp => ?_⟩
  obtain ⟨i, c, hc, hpc⟩ := (linked_iff_getElem rtl.symbols p).1 hp
  obtain ⟨nm, hnm, hi⟩ := hok.placed i c hc p hpc
  rw [hnb] at hi
  refine ⟨nm, hnm, ⟨c, by rw [hi]; exact hc, hpc⟩, fun j c2 hc2 hpc2 => ?_⟩
  obtain ⟨nm2, hnm2, hj⟩ := hok.placed j c2 hc2 p hpc2
  rw [hnm] at hnm2
  cases hnm2
  rw [hnb] at hj
  exact hj.symm

/-- C26, at the state after the table is opened with 16 buckets and the
records `beta` and `foo` are added: `beta` is in bucket 1 and `foo` in
bucket 9. -/
theorem bucket_invariant_witness :
    0 < 16 ∧ Reachable target32 16 fresh_published ∧
    fresh_published.symbols.buckets
      = [[], [⟨300, 0⟩], [], [], [], [], [], [], [], [⟨300, 1⟩], [], [], [], [], [], []] ∧
    rtems_rtl_symbol_hash target32 (cstring "beta") % 16 = 1 ∧
    rtems_rtl_symbol_hash target32 (cstring "foo") % 16 = 9 ∧
    (fresh_published.symbols.nbuckets = 16 ∧ fresh_published.symbols.buckets.length = 16 ∧
      ∀ p, Linked fresh_published.symbols p → ∃ nm, name_of fresh_published.heap p = some nm ∧
        (∃ c, fresh_published.symbols.buckets[rtems_rtl_symbol_hash target32 nm % 16]? = some c ∧
          p ∈ c) ∧
        ∀ (i : Nat) (c : rtems_chain_control), fresh_published.symbols.buckets[i]? = some c →
          p ∈ c → i = rtems_rtl_symbol_hash target32 nm % 16) :=
  have hreach : Reachable target32 16 fresh_published :=
    Reachable.global_add (fun _ => some 300) scenario_opened empty_obj scenario_blob
      scenario_blob.length ([] : List (rtems_rtl_tls_offset Unit)) 0 () true fresh_published
      ⟨none, 0, 0, some 300, 40, 2⟩ ()
      (Reachable.opened (fun _ => some 7) scenario_start scenario_opened rfl)
      (scenario_fresh 300 rfl) rfl
  ⟨by decide, hreach, by decide, by decide, by decide,
   bucket_invariant target32 16 (by decide) fresh_published hreach⟩

theorem qsort_insert_perm {α : Type} (compar : α → α → Option Int) (x : α) :
    ∀ l l1 : List α, qsort_insert compar x l = some l1 → l1.Perm (x :: l) := by
  intro l
  induction l with
  | nil =>
    intro l1 h
    simp only [qsort_insert, Option.some.injEq] at h
    rw [← h]
  | cons y ys ih =>
    intro l1 h
    simp only [qsort_insert] at h
    cases hc : compar x y with
    | none => simp [hc] at h
    | some r =>
      simp only [hc] at h
      by_cases hr : r < 0
      · rw [if_pos hr] at h
        cases h
        exact List.Perm.refl _
      · rw [if_neg hr] at h
        cases hi : qsort_insert compar x ys with
        | none => simp [hi] at h
        | some zs =>
          simp only [hi, Option.some.injEq] at h
          rw [← h]
          exact ((ih zs hi).cons y).trans (List.Perm.swap x y ys)

theorem qsort_insert_sorted {α : Type} (compar : α → α → Option Int)
    (hswap : ∀ a b r, compar a b = some r → compar b a = some (-r))
    (htrans : ∀ a b c, (∃ r, compar a b = some r ∧ r ≤ 0) → (∃ r, compar b c = some r ∧ r ≤ 0) →
      ∃ r, compar a c = some r ∧ r ≤ 0)
    (x : α) :
    ∀ l l1 : List α, l.Pairwise (fun a b => ∃ r, compar a b = some r ∧ r ≤ 0) →
      qsort_insert compar x l = some l1 →
      l1.Pairwise (fun a b => ∃ r, compar a b = some r ∧ r ≤ 0) := by
  intro l
  induction l with
  | nil =>
    intro l1 _ h
    simp only [qsort_insert, Option.some.injEq] at h
    rw [← h]
    exact List.pairwise_singleton _ _
  | cons y ys ih =>
    intro l1 hs h
    simp only [qsort_insert] at h
    cases hc : compar x y with
    | none => simp [hc] at h
    | some r =>
      simp only [hc] at h
      obtain ⟨hy, hys⟩ := List.pairwise_cons.1 hs
      by_cases hr : r < 0
      · rw [if_pos hr] at h
        cases h
        refine List.pairwise_cons.2 ⟨fun z hz => ?_, hs⟩
        have hxy : ∃ r, compar x y = some r ∧ r ≤ 0 := ⟨r, hc, by omega⟩
        rcases List.mem_cons.1 hz with rfl | hz
        · exact hxy
        · exact htrans x y z hxy (hy z hz)
      · rw [if_neg hr] at h
        cases hi : qsort_insert compar x ys with
        | none => simp [hi] at h
        | some zs =>
          simp only [hi, Option.some.injEq] at h
          rw [← h]
          refine List.pairwise_cons.2 ⟨fun z hz => ?_, ih zs hys hi⟩
          have hz2 := (qsort_insert_perm compar x ys zs hi).subset hz
          rcases List.mem_cons.1 hz2 with rfl | hz2
          · exact ⟨-r, hswap _ _ r hc, by omega⟩
          · exact hy z hz2

theorem qsort_from_spec {α : Type} (compar : α → α → Option Int)
    (hswap : ∀ a b r, compar a b = some r → compar b a = some (-r))
    (htrans : ∀ a b c, (∃ r, compar a b = some r ∧ r ≤ 0) → (∃ r, compar b c = some r ∧ r ≤ 0) →
      ∃ r, compar a c = some r ∧ r ≤ 0) :
    ∀ rest sorted out : List α,
      sorted.Pairwise (fun a b => ∃ r, compar a b = some r ∧ r ≤ 0) →
      qsort_from compar sorted rest = some out →
      out.Perm (sorted ++ rest) ∧
        out.Pairwise (fun a b => ∃ r, compar a b = some r ∧ r ≤ 0) := by
  intro rest
  induction rest with
  | nil =>
    intro sorted out hs h
    simp only [qsort_from, Option.some.injEq] at h
    rw [← h, List.append_nil]
    exact ⟨List.Perm.refl _, hs⟩
  | cons x rest ih =>
    intro sorted out hs h
    simp only [qsort_from] at h
    cases hi : qsort_insert compar x sorted with
    | none => simp [hi] at h
    | some sorted1 =>
      simp only [hi] at h
      obtain ⟨hp, ho⟩ := ih sorted1 out
        (qsort_insert_sorted compar hswap htrans x sorted sorted1 hs hi) h
      refine ⟨hp.trans ?_, ho⟩
      have h1 := (qsort_insert_perm compar x sorted sorted1 hi).append_right rest
      refine h1.trans ?_
      simp only [List.cons_append]
      exact List.perm_middle.symm

theorem qsort_insert_defined {α : Type} (compar : α → α → Option Int) (x : α) :
    ∀ l : List α, (∀ y, y ∈ l → ∃ r, compar x y = some r) →
      ∃ l1, qsort_insert compar x l = some l1 := by
  intro l
  induction l with
  | nil => intro _; exact ⟨[x], rfl⟩
  | cons y ys ih =>
    intro h
    obtain ⟨r, hr⟩ := h y (List.mem_cons_self _ _)
    obtain ⟨zs, hzs⟩ := ih (fun z hz => h z (List.mem_cons_of_mem _ hz))
    simp only [qsort_insert, hr, hzs]
    by_cases hlt : r < 0
    · exact ⟨_, if_pos hlt⟩
    · exact ⟨_, if_neg hlt⟩

theorem qsort_from_defined {α : Type} (compar : α → α → Option Int) :
    ∀ rest sorted : List α,
      (∀ a b, a ∈ sorted ++ rest → b ∈ sorted ++ rest → ∃ r, compar a b = some r) →
      ∃ out, qsort_from compar sorted rest = some out := by
  intro rest
  induction rest with
  | nil => intro sorted _; exact ⟨sorted, rfl⟩
  | cons x rest ih =>
    intro sorted h
    obtain ⟨sorted1, hi⟩ := qsort_insert_defined compar x sorted
      (fun y hy => h x y (by simp) (by simp [hy]))
    simp only [qsort_from, hi]
    apply ih sorted1
    have hp := qsort_insert_perm compar x sorted sorted1 hi
    have hsub : ∀ a, a ∈ sorted1 ++ rest → a ∈ sorted ++ x :: rest := by
      intro a ha
      rcases List.mem_append.1 ha with ha | ha
      · rcases List.mem_cons.1 (hp.subset ha) with rfl | ha
        · simp
        · simp [ha]
      · simp [ha]
    exact fun a b ha hb => h a b (hsub a ha) (hsub b hb)

theorem qsort_spec {α : Type} (compar : α → α → Option Int)
    (hswap : ∀ a b r, compar a b = some r → compar b a = some (-r))
    (htrans : ∀ a b c, (∃ r, compar a b = some r ∧ r ≤ 0) → (∃ r, compar b c = some r ∧ r ≤ 0) →
      ∃ r, compar a c = some r ∧ r ≤ 0)
    (base out : List α) (nmemb : Nat) (h : qsort compar base nmemb = some out) :
    nmemb ≤ base.length ∧ ∃ sorted : List α, out = sorted ++ base.drop nmemb ∧
      sorted.Perm (base.take nmemb) ∧
      sorted.Pairwise (fun a b => ∃ r, compar a b = some r ∧ r ≤ 0) := by
  unfold qsort at h
  by_cases hlen : base.length < nmemb
  · rw [if_pos hlen] at h
    cases h
  · rw [if_neg hlen] at h
    cases hq : qsort_from compar [] (base.take nmemb) with
    | none => simp [hq] at h
    | some sorted =>
      simp only [hq, Option.some.injEq] at h
      obtain ⟨hp, hs⟩ := qsort_from_spec compar hswap htrans (base.take nmemb) [] sorted
        List.Pairwise.nil hq
      exact ⟨by omega, sorted, h.symm, by simpa using hp, hs⟩

theorem obj_compare_swap (a b : rtems_rtl_obj_sym) (r : Int)
    (h : rtems_rtl_symbol_obj_compare a b = some r) :
    rtems_rtl_symbol_obj_compare b a = some (-r) := by
  unfold rtems_rtl_symbol_obj_compare at h ⊢
  cases ha : a.name with
  | none => simp [ha] at h
  | some sa =>
    cases hb : b.name with
    | none => simp [ha, hb] at h
    | some sb =>
      simp only [ha, hb, Option.some.injEq] at h ⊢
      rw [← h, strcmp_swap sa sb]

theorem obj_compare_le_iff (a b : rtems_rtl_obj_sym) :
    (∃ r, rtems_rtl_symbol_obj_compare a b = some r ∧ r ≤ 0) ↔
      ∃ sa sb, a.name = some sa ∧ b.name = some sb ∧ strcmp sa sb ≤ 0 := by
  unfold rtems_rtl_symbol_obj_compare
  constructor
  · rintro ⟨r, h, hr⟩
    cases ha : a.name with
    | none => simp [ha] at h
    | some sa =>
      cases hb : b.name with
      | none => simp [ha, hb] at h
      | some sb =>
        simp only [ha, hb, Option.some.injEq] at h
        exact ⟨sa, sb, rfl, rfl, by rw [h]; exact hr⟩
  · rintro ⟨sa, sb, ha, hb, hr⟩
    exact ⟨strcmp sa sb, by simp [ha, hb], hr⟩

theorem obj_compare_trans (a b c : rtems_rtl_obj_sym)
    (hab : ∃ r, rtems_rtl_symbol_obj_compare a b = some r ∧ r ≤ 0)
    (hbc : ∃ r, rtems_rtl_symbol_obj_compare b c = some r ∧ r ≤ 0) :
    ∃ r, rtems_rtl_symbol_obj_compare a c = some r ∧ r ≤ 0 := by
  rw [obj_compare_le_iff] at hab hbc ⊢
  obtain ⟨sa, sb, ha, hb, h1⟩ := hab
  obtain ⟨sb2, sc, hb2, hc, h2⟩ := hbc
  rw [hb] at hb2
  cases hb2
  exact ⟨sa, sc, ha, hc, strcmp_le_trans sa sb sc h1 h2⟩


theorem sort_table_spec (symbols : rtems_rtl_symbols) (heap heap1 : Heap) (table : Option Nat)
    (syms : Nat) {kept : Bool} (hpos : 0 < syms)
    (h : sort_table symbols heap table syms = some (heap1, kept)) :
    ∃ (base : Nat) (tbl tbl1 : List rtems_rtl_obj_sym), table = some base ∧
      heap base = some tbl ∧ syms ≤ tbl.length ∧
      heap1 = (fun b => if b = base then some tbl1 else heap b) ∧
      tbl1.length = tbl.length ∧
      (tbl1.take syms).Perm (tbl.take syms) ∧ tbl1.drop syms = tbl.drop syms ∧
      (tbl1.take syms).Pairwise
        (fun a b => ∃ r, rtems_rtl_symbol_obj_compare a b = some r ∧ r ≤ 0) := by
  unfold sort_table at h
  rw [if_neg (by omega)] at h
  cases ht : table with
  | none => simp [ht] at h
  | some base =>
    simp only [ht] at h
    cases hb : heap base with
    | none => simp [hb] at h
    | some tbl =>
      simp only [hb] at h
      cases hq : qsort (fun a b : Nat × rtems_rtl_obj_sym =>
          rtems_rtl_symbol_obj_compare a.2 b.2) tbl.enum syms with
      | none => simp [hq] at h
      | some moved =>
        simp only [hq, Option.some.injEq, Prod.mk.injEq] at h
        · replace h := h.1
          obtain ⟨hlen, sorted, hm, hp, hs⟩ := qsort_spec
            (fun a b : Nat × rtems_rtl_obj_sym => rtems_rtl_symbol_obj_compare a.2 b.2)
            (fun a b r hr => obj_compare_swap a.2 b.2 r hr)
            (fun a b c hab hbc => obj_compare_trans a.2 b.2 c.2 hab hbc)
            tbl.enum moved syms hq
          rw [List.enum_length] at hlen
          have hsl : sorted.length = syms := by
            rw [hp.length_eq, List.length_take, List.enum_length]
            omega
          have hmap : moved.map Prod.snd = sorted.map Prod.snd ++ tbl.drop syms := by
            rw [hm, List.map_append, List.map_drop, List.enum_map_snd]
          have htake : (moved.map Prod.snd).take syms = sorted.map Prod.snd := by
            rw [hmap, List.take_append_of_le_length (by rw [List.length_map, hsl])]
            rw [List.take_of_length_le (by rw [List.length_map, hsl])]
          have hdrop : (moved.map Prod.snd).drop syms = tbl.drop syms := by
            rw [hmap, List.drop_append_of_le_length (by rw [List.length_map, hsl])]
            rw [List.drop_of_length_le (by rw [List.length_map, hsl]), List.nil_append]
          refine ⟨base, tbl, moved.map Prod.snd, rfl, hb, hlen, h.symm, ?_, ?_, hdrop, ?_⟩
          · rw [hmap, List.length_append, List.length_map, hsl, List.length_drop]
            omega
          · rw [htake]
            have := hp.map Prod.snd
            rw [List.map_take, List.enum_map_snd] at this
            exact this
          · rw [htake, List.pairwise_map]
            exact hs

theorem sort_table_zero (symbols : rtems_rtl_symbols) (heap : Heap) (table : Option Nat) :
    sort_table symbols heap table 0 = some (heap, true) := by
  simp [sort_table]

theorem sort_table_defined (symbols : rtems_rtl_symbols) (heap : Heap) (base syms : Nat)
    (tbl : List rtems_rtl_obj_sym) (hb : heap base = some tbl) (hlen : syms ≤ tbl.length)
    (hnames : ∀ sym, sym ∈ tbl.take syms → ∃ nm, sym.name = some nm) :
    ∃ heap1 kept, sort_table symbols heap (some base) syms = some (heap1, kept) := by
  unfold sort_table
  by_cases h0 : syms = 0
  · exact ⟨heap, true, if_pos h0⟩
  · rw [if_neg h0]
    simp only [hb]
    have hq : ∃ moved, qsort (fun a b : Nat × rtems_rtl_obj_sym =>
        rtems_rtl_symbol_obj_compare a.2 b.2) tbl.enum syms = some moved := by
      unfold qsort
      rw [if_neg (by rw [List.enum_length]; omega)]
      obtain ⟨out, hout⟩ := qsort_from_defined
        (fun a b : Nat × rtems_rtl_obj_sym => rtems_rtl_symbol_obj_compare a.2 b.2)
        (tbl.enum.take syms) [] (by
          intro a b ha hb2
          simp only [List.nil_append] at ha hb2
          have hmem : ∀ e : Nat × rtems_rtl_obj_sym, e ∈ tbl.enum.take syms →
              e.2 ∈ tbl.take syms := by
            intro e he
            have := List.mem_map_of_mem Prod.snd he
            rw [List.map_take, List.enum_map_snd] at this
            exact this
          obtain ⟨na, hna⟩ := hnames a.2 (hmem a ha)
          obtain ⟨nb, hnb⟩ := hnames b.2 (hmem b hb2)
          exact ⟨strcmp na nb, by simp [rtems_rtl_symbol_obj_compare, hna, hnb]⟩)
      exact ⟨_, by rw [hout]⟩
    obtain ⟨moved, hmoved⟩ := hq
    simp only [hmoved]
    exact ⟨_, _, rfl⟩

theorem sort_table_kept (symbols : rtems_rtl_symbols) (heap heap1 : Heap) (table : Option Nat)
    (syms : Nat) (kept : Bool) (hunlinked : ∀ p, Linked symbols p → table ≠ some p.block)
    (h : sort_table symbols heap table syms = some (heap1, kept)) : kept = true := by
  unfold sort_table at h
  by_cases h0 : syms = 0
  · rw [if_pos h0] at h
    simp only [Option.some.injEq, Prod.mk.injEq] at h
    exact h.2.symm
  · rw [if_neg h0] at h
    cases ht : table with
    | none => simp [ht] at h
    | some base =>
      simp only [ht] at h
      cases hb : heap base with
      | none => simp [hb] at h
      | some tbl =>
        simp only [hb] at h
        cases hq : qsort (fun a b : Nat × rtems_rtl_obj_sym =>
            rtems_rtl_symbol_obj_compare a.2 b.2) tbl.enum syms with
        | none => simp [hq] at h
        | some moved =>
          simp only [hq, Option.some.injEq, Prod.mk.injEq] at h
          rw [← h.2, List.all_eq_true]
          intro slot _
          rw [Bool.or_eq_true]
          refine Or.inr ((off_chain_iff symbols _).2 (fun hl => ?_))
          exact hunlinked _ hl (by rw [ht])

theorem table_names_take (heap : Heap) (base syms : Nat) (names : List (List Byte))
    (tbl : List rtems_rtl_obj_sym) (hn : TableNames heap (some base) syms names)
    (hb : heap base = some tbl) (hpos : 0 < syms) :
    syms ≤ tbl.length ∧ (tbl.take syms).map (fun sym => sym.name) = names.map some := by
  obtain ⟨b2, tbl2, hb2, ht2, hall⟩ := hn.live hpos
  cases hb2
  rw [hb] at ht2
  cases ht2
  have hlen : syms ≤ tbl.length := by
    have hlast : (syms - 1) < names.length := by rw [hn.len]; omega
    obtain ⟨sym, hsym, _⟩ := hall (syms - 1) _ (List.getElem?_eq_getElem hlast)
    have := (List.getElem?_eq_some_iff.1 hsym).1
    omega
  refine ⟨hlen, ?_⟩
  apply List.ext_getElem?
  intro i
  rw [List.getElem?_map, List.getElem?_map, List.getElem?_take]
  by_cases hi : i < syms
  · rw [if_pos hi]
    have hi2 : i < names.length := by rw [hn.len]; exact hi
    obtain ⟨sym, hsym, hnm⟩ := hall i _ (List.getElem?_eq_getElem hi2)
    rw [hsym, List.getElem?_eq_getElem hi2]
    simp [hnm]
  · rw [if_neg hi]
    have : names[i]? = none := by
      rw [List.getElem?_eq_none_iff, hn.len]
      omega
    rw [this]
    rfl

theorem sorted_table_names (heap heap1 : Heap) (table : Option Nat) (syms : Nat)
    (names : List (List Byte)) (hn : TableNames heap table syms names)
    (hs : SortedTable heap heap1 table syms) :
    ∃ names1 : List (List Byte), names1.Perm names ∧ TableNames heap1 table syms names1 ∧
      SortedNames names1 := by
  by_cases hpos : 0 < syms
  · obtain ⟨base, tbl, hb, ht, _⟩ := hn.live hpos
    subst hb
    obtain ⟨hlen, hmap⟩ := table_names_take heap base syms names tbl hn ht hpos
    obtain ⟨tbl1, ht1, hl1, hperm, _, hsorted⟩ := hs base tbl hpos rfl ht
    have hmap1 : (tbl1.take syms).map (fun sym => sym.name)
        = ((tbl1.take syms).map (fun sym => sym.name.getD [])).map some := by
      rw [List.map_map]
      apply List.map_congr_left
      intro sym hsym
      have hmem : sym.name ∈ (tbl.take syms).map (fun sym => sym.name) :=
        List.mem_map_of_mem _ (hperm.subset hsym)
      rw [hmap, List.mem_map] at hmem
      obtain ⟨nm, _, hnm⟩ := hmem
      simp [← hnm]
    refine ⟨(tbl1.take syms).map (fun sym => sym.name.getD []), ?_, ?_, ?_⟩
    · have hnm : (tbl.take syms).map (fun sym => sym.name.getD []) = names := by
        have := congrArg (List.map (fun o : Option (List Byte) => o.getD [])) hmap
        rw [List.map_map, List.map_map] at this
        rw [show (fun sym : rtems_rtl_obj_sym => sym.name.getD [])
            = (fun o : Option (List Byte) => o.getD []) ∘ (fun sym => sym.name) from rfl, this]
        exact List.map_id _
      have h1 := hperm.map (fun sym => sym.name.getD [])
      rw [hnm] at h1
      exact h1
    · exact table_names_of heap1 (some base) syms _ base tbl1 rfl ht1
        (by rw [List.length_map, List.length_take]; omega) hmap1
    · unfold SortedNames
      rw [List.pairwise_map]
      refine hsorted.imp ?_
      intro a b hab
      obtain ⟨sa, sb, ha, hb, hle⟩ := (obj_compare_le_iff a b).1 hab
      simp [ha, hb, hle]
  · have h0 : syms = 0 := by omega
    subst h0
    have hnil : names = [] := List.length_eq_zero.1 hn.len
    subst hnil
    exact ⟨[], List.Perm.refl _, table_names_empty heap1 table, List.Pairwise.nil⟩


theorem sort_table_frame (symbols : rtems_rtl_symbols) (heap heap1 : Heap) (table : Option Nat)
    (syms : Nat) {kept : Bool} (h : sort_table symbols heap table syms = some (heap1, kept))
    (b : Nat)
    (hb : 0 < syms → table ≠ some b) : heap1 b = heap b := by
  by_cases hpos : 0 < syms
  · obtain ⟨base, tbl, tbl1, ht, _, _, hh, _⟩ :=
      sort_table_spec symbols heap heap1 table syms hpos h
    have hne : b ≠ base := fun e => hb hpos (by rw [ht, e])
    rw [hh]
    simp [hne]
  · have h0 : syms = 0 := by omega
    subst h0
    rw [sort_table_zero] at h
    cases h
    rfl

theorem sort_table_sorted (symbols : rtems_rtl_symbols) (heap heap1 : Heap) (table : Option Nat)
    (syms : Nat) {kept : Bool} (h : sort_table symbols heap table syms = some (heap1, kept)) :
    SortedTable heap heap1 table syms := by
  intro base tbl hpos ht hb
  obtain ⟨base2, tbl2, tbl1, ht2, hb2, _, hh, hl, hp, hd, hs⟩ :=
    sort_table_spec symbols heap heap1 table syms hpos h
  rw [ht] at ht2
  cases ht2
  rw [hb] at hb2
  cases hb2
  exact ⟨tbl1, by rw [hh]; simp, hl, hp, hd, hs⟩

theorem obj_sort_spec (rtl : Rtl) (obj : rtems_rtl_obj) (lnames gnames : List (List Byte))
    (hl : TableNames rtl.heap obj.local_table obj.local_syms lnames)
    (hg : TableNames rtl.heap obj.global_table obj.global_syms gnames)
    (hdist : 0 < obj.local_syms → 0 < obj.global_syms → obj.local_table ≠ obj.global_table) :
    ∃ (heap2 : Heap) (st : Option Rtl),
      rtems_rtl_symbol_obj_sort rtl obj = some (heap2, st) ∧
      SortedTable rtl.heap heap2 obj.local_table obj.local_syms ∧
      SortedTable rtl.heap heap2 obj.global_table obj.global_syms ∧
      (∀ b, (0 < obj.local_syms → obj.local_table ≠ some b) →
        (0 < obj.global_syms → obj.global_table ≠ some b) → heap2 b = rtl.heap b) ∧
      (∀ rtl1, st = some rtl1 → rtl1 = { rtl with heap := heap2 }) ∧
      ((∀ p, Linked rtl.symbols p →
          obj.local_table ≠ some p.block ∧ obj.global_table ≠ some p.block) →
        st = some { rtl with heap := heap2 }) := by
  have hdef : ∀ (heap : Heap) (table : Option Nat) (syms : Nat) (names : List (List Byte)),
      TableNames heap table syms names →
      ∃ heap1 kept, sort_table rtl.symbols heap table syms = some (heap1, kept) := by
    intro heap table syms names hn
    by_cases hpos : 0 < syms
    · obtain ⟨base, tbl, hb, ht, _⟩ := hn.live hpos
      subst hb
      obtain ⟨hlen, hmap⟩ := table_names_take heap base syms names tbl hn ht hpos
      refine sort_table_defined rtl.symbols heap base syms tbl ht hlen (fun sym hsym => ?_)
      have hmem : sym.name ∈ (tbl.take syms).map (fun sym => sym.name) :=
        List.mem_map_of_mem _ hsym
      rw [hmap, List.mem_map] at hmem
      obtain ⟨nm, _, hnm⟩ := hmem
      exact ⟨nm, hnm.symm⟩
    · have h0 : syms = 0 := by omega
      subst h0
      exact ⟨heap, true, sort_table_zero _ _ _⟩
  obtain ⟨heap1, k1, h1⟩ := hdef rtl.heap obj.local_table obj.local_syms lnames hl
  have hg1 : TableNames heap1 obj.global_table obj.global_syms gnames := by
    refine ⟨hg.len, fun hpos => ?_⟩
    obtain ⟨base, tbl, hb, ht, hall⟩ := hg.live hpos
    refine ⟨base, tbl, hb, ?_, hall⟩
    rw [sort_table_frame _ _ _ _ _ h1 base (fun hlpos e => hdist hlpos hpos (by rw [hb, e])), ht]
  obtain ⟨heap2, k2, h2⟩ := hdef heap1 obj.global_table obj.global_syms gnames hg1
  have hrun : rtems_rtl_symbol_obj_sort rtl obj
      = some (heap2, if (k1 && k2) = true then some { rtl with heap := heap2 } else none) := by
    simp [rtems_rtl_symbol_obj_sort, h1, h2]
  have hsl := sort_table_sorted _ _ _ _ _ h1
  have hsg := sort_table_sorted _ _ _ _ _ h2
  have hL : SortedTable rtl.heap heap2 obj.local_table obj.local_syms := by
    intro base tbl hpos ht hb
    obtain ⟨tbl1, ht1, rest⟩ := hsl base tbl hpos ht hb
    refine ⟨tbl1, ?_, rest⟩
    rw [sort_table_frame _ _ _ _ _ h2 base (fun hgpos e => hdist hpos hgpos (by rw [ht, e]))]
    exact ht1
  have hG : SortedTable rtl.heap heap2 obj.global_table obj.global_syms := by
    intro base tbl hpos ht hb
    have hf := sort_table_frame _ _ _ _ _ h1 base
      (fun hlpos e => hdist hlpos hpos (by rw [ht, e]))
    exact hsg base tbl hpos ht (by rw [hf]; exact hb)
  refine ⟨heap2, _, hrun, hL, hG, fun b hbl hbg => ?_, fun rtl1 hst => ?_, fun hun => ?_⟩
  · rw [sort_table_frame _ _ _ _ _ h2 b hbg, sort_table_frame _ _ _ _ _ h1 b hbl]
  · split at hst
    · exact (Option.some.inj hst).symm
    · cases hst
  · have hk1 := sort_table_kept _ _ _ _ _ k1 (fun p hp => (hun p hp).1) h1
    have hk2 := sort_table_kept _ _ _ _ _ k2 (fun p hp => (hun p hp).2) h2
    simp [hk1, hk2]

/-- C28: `rtems_rtl_symbol_obj_sort` sorts the two tables of an object. For an
object whose local table holds `local_syms` symbols with names and whose
global table holds `global_syms` symbols with names, the two tables apart, the
call returns, whether symbols of the tables are linked or not, and after it
the first `local_syms` symbols of the local table are a permutation of the
symbols they were, the same holds for the first `global_syms` symbols of the
global table, and both are in non-decreasing order under
`rtems_rtl_symbol_obj_compare`, which is the order of `strcmp` on the names
that the binary search of `rtems_rtl_symbol_obj_find` takes. The memory of
other tables is unchanged, and where no symbol of the two tables is linked the
state after the call is the state before it with the sorted tables. -/
theorem obj_sort_sorted_perm (rtl : Rtl) (obj : rtems_rtl_obj) (lnames gnames : List (List Byte))
    (hl : TableNames rtl.heap obj.local_table obj.local_syms lnames)
    (hg : TableNames rtl.heap obj.global_table obj.global_syms gnames)
    (hdist : 0 < obj.local_syms → 0 < obj.global_syms → obj.local_table ≠ obj.global_table) :
    ∃ (heap2 : Heap) (st : Option Rtl),
      rtems_rtl_symbol_obj_sort rtl obj = some (heap2, st) ∧
      SortedTable rtl.heap heap2 obj.local_table obj.local_syms ∧
      SortedTable rtl.heap heap2 obj.global_table obj.global_syms ∧
      (∃ lnames1 : List (List Byte), lnames1.Perm lnames ∧
        TableNames heap2 obj.local_table obj.local_syms lnames1 ∧ SortedNames lnames1) ∧
      (∃ gnames1 : List (List Byte), gnames1.Perm gnames ∧
        TableNames heap2 obj.global_table obj.global_syms gnames1 ∧ SortedNames gnames1) ∧
      (∀ b, (0 < obj.local_syms → obj.local_table ≠ some b) →
        (0 < obj.global_syms → obj.global_table ≠ some b) → heap2 b = rtl.heap b) ∧
      (∀ rtl1, st = some rtl1 →
        rtl1.symbols = rtl.symbols ∧ rtl1.errors = rtl.errors ∧ rtl1.heap = heap2) ∧
      ((∀ p, Linked rtl.symbols p →
          obj.local_table ≠ some p.block ∧ obj.global_table ≠ some p.block) →
        st = some { rtl with heap := heap2 }) := by
  obtain ⟨heap2, st, hrun, hL, hG, hframe, hst, hun⟩ := obj_sort_spec rtl obj lnames gnames
    hl hg hdist
  refine ⟨heap2, st, hrun, hL, hG,
    sorted_table_names rtl.heap heap2 obj.local_table obj.local_syms lnames hl hL,
    sorted_table_names rtl.heap heap2 obj.global_table obj.global_syms gnames hg hG,
    hframe, fun rtl1 h1 => ?_, hun⟩
  rw [hst rtl1 h1]
  exact ⟨rfl, rfl, rfl⟩

theorem unsorted_published_names :
    TableNames unsorted_published.heap unsorted_published_obj.global_table
      unsorted_published_obj.global_syms [cstring "foo", cstring "beta"] :=
  table_names_of unsorted_published.heap _ _ _ 300 _ rfl rfl rfl (by decide)

/-- C28, at the object whose global table `foo`, `beta` was published by
`rtems_rtl_symbol_global_add`, both symbols linked: after the sort the table
is `beta`, `foo`. And at an object with the local table `x`, `beta` and the
global table `gamma`, `alpha`, `beta`, none of them linked: after the sort the
local table is `beta`, `x` and the global table is `alpha`, `beta`, `gamma`,
each symbol with its value. -/
theorem obj_sort_sorted_perm_witness :
    (0 < unsorted_published_obj.local_syms → 0 < unsorted_published_obj.global_syms →
      unsorted_published_obj.local_table ≠ unsorted_published_obj.global_table) ∧
    unsorted_published.symbols.buckets.flatten = [⟨300, 1⟩, ⟨300, 0⟩] ∧
    (unsorted_published.heap 300).map (fun tbl => tbl.map (fun sym => sym.name))
      = some [some (cstring "foo"), some (cstring "beta")] ∧
    (rtems_rtl_symbol_obj_sort unsorted_published unsorted_published_obj).map
        (fun r => (r.1 300).map (fun tbl => tbl.map (fun sym => sym.name)))
      = some (some [some (cstring "beta"), some (cstring "foo")]) ∧
    (rtems_rtl_symbol_obj_sort unsorted_state unsorted_obj).map (fun r => (r.1 50, r.1 60))
      = some (some [⟨some (cstring "beta"), 70, 0⟩, ⟨some (cstring "x"), 71, 0⟩],
          some [⟨some (cstring "alpha"), 1, 0⟩, ⟨some (cstring "beta"), 2, 0⟩,
                ⟨some (cstring "gamma"), 3, 0⟩]) ∧
    rtems_rtl_symbol_obj_sort unsorted_state unsorted_obj
      = some (sorted_state.heap, some sorted_state) ∧
    sorted_state.symbols = unsorted_state.symbols ∧
    ∃ (heap2 : Heap) (st : Option Rtl),
      rtems_rtl_symbol_obj_sort unsorted_published unsorted_published_obj = some (heap2, st) ∧
      SortedTable unsorted_published.heap heap2 unsorted_published_obj.local_table
        unsorted_published_obj.local_syms ∧
      SortedTable unsorted_published.heap heap2 unsorted_published_obj.global_table
        unsorted_published_obj.global_syms ∧
      (∃ lnames1 : List (List Byte), lnames1.Perm [] ∧
        TableNames heap2 unsorted_published_obj.local_table unsorted_published_obj.local_syms
          lnames1 ∧ SortedNames lnames1) ∧
      (∃ gnames1 : List (List Byte), gnames1.Perm [cstring "foo", cstring "beta"] ∧
        TableNames heap2 unsorted_published_obj.global_table unsorted_published_obj.global_syms
          gnames1 ∧ SortedNames gnames1) :=
  have hdist : 0 < unsorted_published_obj.local_syms → 0 < unsorted_published_obj.global_syms →
      unsorted_published_obj.local_table ≠ unsorted_published_obj.global_table :=
    fun _ _ => by decide
  ⟨hdist, by decide, by decide, by decide, by decide, rfl, rfl,
   (obj_sort_sorted_perm unsorted_published unsorted_published_obj []
      [cstring "foo", cstring "beta"] (table_names_empty _ _) unsorted_published_names
      hdist).imp (fun heap2 h => h.imp (fun st h2 =>
        ⟨h2.1, h2.2.1, h2.2.2.1, h2.2.2.2.1, h2.2.2.2.2.1⟩))⟩

theorem swap_u32_value (x : Nat) (hx : x < 2 ^ 32) :
    nios2.CPU_swap_u32 x
      = x % 256 * 16777216 + x / 256 % 256 * 65536 + x / 65536 % 256 * 256 + x / 16777216 := by
  unfold nios2.CPU_swap_u32
  simp only [Nat.shiftRight_eq_div_pow, Nat.shiftLeft_eq]
  have hand : ∀ y : Nat, y &&& 0xff = y % 256 := fun y => Nat.and_pow_two_sub_one_eq_mod y 8
  simp only [hand]
  have h4 : x / 2 ^ 24 % 256 = x / 16777216 := by
    norm_num at hx ⊢
    omega
  have e1 : x % 256 * 2 ^ 24 % 2 ^ 32 = 2 ^ 24 * (x % 256) := by
    norm_num
    omega
  have e2 : x / 2 ^ 8 % 256 * 2 ^ 16 % 2 ^ 32 = 2 ^ 16 * (x / 256 % 256) := by
    norm_num
    omega
  have e3 : x / 2 ^ 16 % 256 * 2 ^ 8 % 2 ^ 32 = 2 ^ 8 * (x / 65536 % 256) := by
    norm_num
    omega
  rw [e1, e2, e3, h4, Nat.or_assoc, Nat.or_assoc]
  have s3 : 2 ^ 8 * (x / 65536 % 256) ||| x / 16777216
      = 2 ^ 8 * (x / 65536 % 256) + x / 16777216 :=
    (Nat.mul_add_lt_is_or (by norm_num at hx ⊢; omega) _).symm
  rw [s3]
  have s2 : 2 ^ 16 * (x / 256 % 256) ||| (2 ^ 8 * (x / 65536 % 256) + x / 16777216)
      = 2 ^ 16 * (x / 256 % 256) + (2 ^ 8 * (x / 65536 % 256) + x / 16777216) :=
    (Nat.mul_add_lt_is_or (by norm_num at hx ⊢; omega) _).symm
  rw [s2]
  have s1 : 2 ^ 24 * (x % 256) |||
        (2 ^ 16 * (x / 256 % 256) + (2 ^ 8 * (x / 65536 % 256) + x / 16777216))
      = 2 ^ 24 * (x % 256) +
        (2 ^ 16 * (x / 256 % 256) + (2 ^ 8 * (x / 65536 % 256) + x / 16777216)) :=
    (Nat.mul_add_lt_is_or (by norm_num at hx ⊢; omega) _).symm
  rw [s1]
  norm_num
  omega

theorem swap_u32_bytes (x : Nat) (hx : x < 2 ^ 32) :
    nios2.CPU_swap_u32 x < 2 ^ 32 ∧
    nios2.CPU_swap_u32 x % 256 = x / 16777216 ∧
    nios2.CPU_swap_u32 x / 256 % 256 = x / 65536 % 256 ∧
    nios2.CPU_swap_u32 x / 65536 % 256 = x / 256 % 256 ∧
    nios2.CPU_swap_u32 x / 16777216 = x % 256 := by
  rw [swap_u32_value x hx]
  have hb0 : x % 256 < 256 := Nat.mod_lt _ (by norm_num)
  have hb1 : x / 256 % 256 < 256 := Nat.mod_lt _ (by norm_num)
  have hb2 : x / 65536 % 256 < 256 := Nat.mod_lt _ (by norm_num)
  have hb3 : x / 16777216 < 256 := by
    norm_num at hx
    omega
  generalize x % 256 = b0 at hb0 ⊢
  generalize x / 256 % 256 = b1 at hb1 ⊢
  generalize x / 65536 % 256 = b2 at hb2 ⊢
  generalize x / 16777216 = b3 at hb3 ⊢
  clear hx
  refine ⟨?_, ?_, ?_, ?_, ?_⟩
  · norm_num
    omega
  · omega
  · omega
  · omega
  · omega

/-- C35: the C definition of `CPU_swap_u32` of the nios2 port, the or1k port
and the Thumb-1 branch of the ARM port. For every `x` below `2 ^ 32` the
result is below `2 ^ 32`, byte `i` of the result is byte `3 - i` of `x` for
`i` from 0 to 3, and the swap of the swap of `x` is `x`; the three definitions
are the same function. -/
theorem swap_u32_reverses (x : Nat) (hx : x < 2 ^ 32) :
    nios2.CPU_swap_u32 x < 2 ^ 32 ∧
    (nios2.CPU_swap_u32 x >>> 0) &&& 0xff = (x >>> 24) &&& 0xff ∧
    (nios2.CPU_swap_u32 x >>> 8) &&& 0xff = (x >>> 16) &&& 0xff ∧
    (nios2.CPU_swap_u32 x >>> 16) &&& 0xff = (x >>> 8) &&& 0xff ∧
    (nios2.CPU_swap_u32 x >>> 24) &&& 0xff = (x >>> 0) &&& 0xff ∧
    nios2.CPU_swap_u32 (nios2.CPU_swap_u32 x) = x ∧
    nios2.CPU_swap_u32 = or1k.CPU_swap_u32 ∧ nios2.CPU_swap_u32 = arm.CPU_swap_u32 ∧
    or1k.CPU_swap_u32 (or1k.CPU_swap_u32 x) = x ∧ arm.CPU_swap_u32 (arm.CPU_swap_u32 x) = x := by
  obtain ⟨hlt, y0, y1, y2, y3⟩ := swap_u32_bytes x hx
  have hand : ∀ y : Nat, y &&& 0xff = y % 256 := fun y => Nat.and_pow_two_sub_one_eq_mod y 8
  have hinv : nios2.CPU_swap_u32 (nios2.CPU_swap_u32 x) = x := by
    rw [swap_u32_value _ hlt, y0, y1, y2, y3]
    have h1 : x / 256 / 256 = x / 65536 := Nat.div_div_eq_div_mul x 256 256
    have h2 : x / 65536 / 256 = x / 16777216 := Nat.div_div_eq_div_mul x 65536 256
    omega
  have hor : nios2.CPU_swap_u32 = or1k.CPU_swap_u32 := rfl
  have harm : nios2.CPU_swap_u32 = arm.CPU_swap_u32 := rfl
  have hx3 : x / 16777216 < 256 := by
    norm_num at hx
    omega
  have hy3 : nios2.CPU_swap_u32 x / 16777216 < 256 := by
    norm_num at hlt
    omega
  refine ⟨hlt, ?_, ?_, ?_, ?_, hinv, hor, harm, by rw [← hor]; exact hinv,
    by rw [← harm]; exact hinv⟩
  · simp only [Nat.shiftRight_eq_div_pow, hand]
    norm_num
    rw [y0]
    omega
  · simp only [Nat.shiftRight_eq_div_pow, hand]
    norm_num
    rw [y1]
  · simp only [Nat.shiftRight_eq_div_pow, hand]
    norm_num
    rw [y2]
  · simp only [Nat.shiftRight_eq_div_pow, hand]
    norm_num
    rw [Nat.mod_eq_of_lt hy3, y3]

/-- C35, at `0x12345678`: the swap is `0x78563412`. -/
theorem swap_u32_reverses_witness :
    0x12345678 < 2 ^ 32 ∧ nios2.CPU_swap_u32 0x12345678 = 0x78563412 ∧
    or1k.CPU_swap_u32 0x12345678 = 0x78563412 ∧ arm.CPU_swap_u32 0x12345678 = 0x78563412 ∧
    nios2.CPU_swap_u32 (nios2.CPU_swap_u32 0x12345678) = 0x12345678 :=
  ⟨by decide, by decide, by decide, by decide,
   (swap_u32_reverses 0x12345678 (by decide)).2.2.2.2.2.1⟩

theorem strcmp_sign (a : List Byte) : ∀ b : List Byte,
    strcmp a b = -1 ∨ strcmp a b = 0 ∨ strcmp a b = 1 := by
  induction a with
  | nil =>
    intro b
    cases b with
    | nil => exact Or.inr (Or.inl rfl)
    | cons y ys => exact Or.inl rfl
  | cons x xs ih =>
    intro b
    cases b with
    | nil => exact Or.inr (Or.inr rfl)
    | cons y ys =>
      simp only [strcmp]
      by_cases hxy : x = y
      · rw [if_pos hxy]
        exact ih ys
      · rw [if_neg hxy]
        by_cases hlt : x < y
        · rw [if_pos hlt]
          exact Or.inl rfl
        · rw [if_neg hlt]
          exact Or.inr (Or.inr rfl)

/-- C36: `rtems_rtl_symbol_obj_compare` orders symbols by their names only.
On two symbols with names the result is `strcmp` of the names, with a sign of
-1, 0 or 1, whatever the values and the data of the symbols are; it is 0
exactly when the names are equal; the result for `b` and `a` is the negative
of the result for `a` and `b`; of two symbols one is ordered at or before the
other; and the order, strict and not strict, is transitive. -/
theorem obj_compare_preorder (a b c : rtems_rtl_obj_sym) (na nb nc : List Byte)
    (ha : a.name = some na) (hb : b.name = some nb) (hc : c.name = some nc) :
    rtems_rtl_symbol_obj_compare a b = some (strcmp na nb) ∧
    (strcmp na nb = -1 ∨ strcmp na nb = 0 ∨ strcmp na nb = 1) ∧
    (∀ va da vb db, rtems_rtl_symbol_obj_compare ⟨a.name, va, da⟩ ⟨b.name, vb, db⟩
      = rtems_rtl_symbol_obj_compare a b) ∧
    (rtems_rtl_symbol_obj_compare a b = some 0 ↔ na = nb) ∧
    (∀ r, rtems_rtl_symbol_obj_compare a b = some r →
      rtems_rtl_symbol_obj_compare b a = some (-r)) ∧
    ((∃ r, rtems_rtl_symbol_obj_compare a b = some r ∧ r ≤ 0) ∨
      (∃ r, rtems_rtl_symbol_obj_compare b a = some r ∧ r ≤ 0)) ∧
    ((∃ r, rtems_rtl_symbol_obj_compare a b = some r ∧ r ≤ 0) →
      (∃ r, rtems_rtl_symbol_obj_compare b c = some r ∧ r ≤ 0) →
      ∃ r, rtems_rtl_symbol_obj_compare a c = some r ∧ r ≤ 0) ∧
    ((∃ r, rtems_rtl_symbol_obj_compare a b = some r ∧ r < 0) →
      (∃ r, rtems_rtl_symbol_obj_compare b c = some r ∧ r < 0) →
      ∃ r, rtems_rtl_symbol_obj_compare a c = some r ∧ r < 0) := by
  have hab : rtems_rtl_symbol_obj_compare a b = some (strcmp na nb) := by
    simp [rtems_rtl_symbol_obj_compare, ha, hb]
  have hba : rtems_rtl_symbol_obj_compare b a = some (strcmp nb na) := by
    simp [rtems_rtl_symbol_obj_compare, ha, hb]
  have hbc : rtems_rtl_symbol_obj_compare b c = some (strcmp nb nc) := by
    simp [rtems_rtl_symbol_obj_compare, hb, hc]
  have hac : rtems_rtl_symbol_obj_compare a c = some (strcmp na nc) := by
    simp [rtems_rtl_symbol_obj_compare, ha, hc]
  refine ⟨hab, strcmp_sign na nb, fun _ _ _ _ => rfl, ?_, fun r hr => obj_compare_swap a b r hr,
    ?_, fun h1 h2 => obj_compare_trans a b c h1 h2, ?_⟩
  · rw [hab, Option.some.injEq]
    exact strcmp_eq_zero na nb
  · rw [hab, hba]
    have := strcmp_swap na nb
    by_cases hle : strcmp na nb ≤ 0
    · exact Or.inl ⟨_, rfl, hle⟩
    · exact Or.inr ⟨_, rfl, by omega⟩
  · rw [hab, hbc, hac]
    rintro ⟨r1, h1, hr1⟩ ⟨r2, h2, hr2⟩
    cases h1
    cases h2
    exact ⟨_, rfl, strcmp_neg_trans na nb nc hr1 hr2⟩

/-- C36, at the symbols `alpha` with value 1 and `beta` with value 2, and
`beta` again: `alpha` is before `beta`, whatever the values. -/
theorem obj_compare_preorder_witness :
    rtems_rtl_symbol_obj_compare ⟨some (cstring "alpha"), 1, 0⟩ ⟨some (cstring "beta"), 2, 0⟩
      = some (-1) ∧
    rtems_rtl_symbol_obj_compare ⟨some (cstring "beta"), 2, 0⟩ ⟨some (cstring "alpha"), 1, 0⟩
      = some 1 ∧
    rtems_rtl_symbol_obj_compare ⟨some (cstring "beta"), 2, 0⟩ ⟨some (cstring "beta"), 9, 7⟩
      = some 0 ∧
    (rtems_rtl_symbol_obj_compare ⟨some (cstring "alpha"), 1, 0⟩ ⟨some (cstring "beta"), 2, 0⟩
      = some 0 ↔ cstring "alpha" = cstring "beta") :=
  ⟨by decide, by decide, by decide,
   (obj_compare_preorder ⟨some (cstring "alpha"), 1, 0⟩ ⟨some (cstring "beta"), 2, 0⟩
      ⟨some (cstring "beta"), 9, 7⟩ (cstring "alpha") (cstring "beta") (cstring "beta")
      rfl rfl rfl).2.2.2.1⟩

/-- C37: the index of the bucket is in range. The hash of every name is below
`2 ^ 32`. For a table with `n > 0` buckets the index that
`rtems_rtl_symbol_global_insert` and `rtems_rtl_symbol_global_find` compute is
the hash modulo `n`, which is below `n`, and the bucket of that index is in a
table of `n` buckets. With `n = 0` the index is a remainder by zero and both
functions are undefined; `rtems_rtl_symbol_table_open` with 0 buckets returns
true when the allocation succeeds and leaves such a table. -/
theorem bucket_index_in_range (T : Target) (heap : Heap) (symbols : rtems_rtl_symbols)
    (name : List Byte) (n : Nat) (hn : symbols.nbuckets = n)
    (hlen : symbols.buckets.length = n) :
    rtems_rtl_symbol_hash T name < 2 ^ 32 ∧
    (0 < n → bucket_index T symbols name = some (rtems_rtl_symbol_hash T name % n) ∧
      rtems_rtl_symbol_hash T name % n < n ∧
      ∃ chain, symbols.buckets[rtems_rtl_symbol_hash T name % n]? = some chain) ∧
    (bucket_index T symbols name = none ↔ n = 0) ∧
    (n = 0 → rtems_rtl_symbol_global_find T heap symbols name = none ∧
      ∀ p, name_of heap p = some name → rtems_rtl_symbol_global_insert T heap symbols p = none) ∧
    (∀ (alloc : Nat → Option Nat) (rtl : Rtl) (a : Nat),
      alloc (0 * T.chain_bytes % 2 ^ T.size_bits) = some a →
      ∃ rtl1, rtems_rtl_symbol_table_open T alloc rtl 0 = some (true, rtl1) ∧
        rtl1.symbols.nbuckets = 0 ∧ bucket_index T rtl1.symbols name = none) := by
  refine ⟨Nat.mod_lt _ (by norm_num), fun hpos => ?_, ?_, fun h0 => ?_, fun alloc rtl a ha => ?_⟩
  · have hne : symbols.nbuckets ≠ 0 := by omega
    have hlt : rtems_rtl_symbol_hash T name % n < n := Nat.mod_lt _ hpos
    have hn0 : n ≠ 0 := by omega
    refine ⟨by simp [bucket_index, hn, hn0], hlt, ?_⟩
    exact ⟨_, List.getElem?_eq_getElem (by rw [hlen]; exact hlt)⟩
  · unfold bucket_index
    rw [hn]
    by_cases h0 : n = 0
    · simp [h0]
    · simp [h0]
  · have hb : bucket_index T symbols name = none := by simp [bucket_index, hn, h0]
    refine ⟨by simp [rtems_rtl_symbol_global_find, hb], fun p hp => ?_⟩
    simp [rtems_rtl_symbol_global_insert, hp, hb]
  · have ha0 : alloc 0 = some a := by simpa using ha
    exact ⟨{ rtl with symbols := { buckets := List.replicate 0 [], nbuckets := 0 } },
      by simp [rtems_rtl_symbol_table_open, ha0], rfl, by simp [bucket_index]⟩

/-- C37, at the table of 16 buckets and the name `beta`, and at a table opened
with 0 buckets. -/
theorem bucket_index_in_range_witness :
    (scenario_table.nbuckets = 16 ∧ scenario_table.buckets.length = 16 ∧ 0 < 16) ∧
    rtems_rtl_symbol_hash target32 (cstring "beta") = 2090109345 ∧
    bucket_index target32 scenario_table (cstring "beta") = some 1 ∧
    (rtems_rtl_symbol_table_open target32 (fun _ => some 7) scenario_start 0).map
        (fun r => (r.1, r.2.symbols.nbuckets)) = some (true, 0) ∧
    (rtems_rtl_symbol_table_open target32 (fun _ => some 7) scenario_start 0).map
        (fun r => rtems_rtl_symbol_global_find target32 scenario_heap r.2.symbols (cstring "beta"))
      = some none ∧
    (bucket_index target32 scenario_table (cstring "beta")
        = some (rtems_rtl_symbol_hash target32 (cstring "beta") % 16) ∧
      rtems_rtl_symbol_hash target32 (cstring "beta") % 16 < 16 ∧
      ∃ chain, scenario_table.buckets[rtems_rtl_symbol_hash target32 (cstring "beta") % 16]?
        = some chain) :=
  ⟨⟨rfl, rfl, by decide⟩, by decide, by decide, rfl, by decide,
   (bucket_index_in_range target32 scenario_heap scenario_table (cstring "beta") 16 rfl rfl).2.1
     (by decide)⟩

theorem cmdchown_loop_inv (E : ShellEnv) (task_uid : Nat) (change_uid change_gid : Bool)
    (new_uid new_gid : Nat) (args : List (List Byte)) :
    ∀ (cmds : Nat → rtems_shell_cmd_t) (out : List ShellOutput),
      (∀ id, task_uid ≠ 0 → task_uid ≠ (cmds id).uid →
        (cmdchown_loop E task_uid change_uid change_gid new_uid new_gid args (cmds, out)).1 id
          = cmds id) ∧
      (change_uid = false → ∀ id,
        ((cmdchown_loop E task_uid change_uid change_gid new_uid new_gid args (cmds, out)).1 id).uid
          = (cmds id).uid) ∧
      (change_gid = false → ∀ id,
        ((cmdchown_loop E task_uid change_uid change_gid new_uid new_gid args (cmds, out)).1 id).gid
          = (cmds id).gid) ∧
      (∀ id, (∀ cmd, cmd ∈ args → E.rtems_shell_lookup_cmd cmd ≠ some id) →
        (cmdchown_loop E task_uid change_uid change_gid new_uid new_gid args (cmds, out)).1 id
          = cmds id) := by
  induction args with
  | nil =>
    intro cmds out
    exact ⟨fun _ _ _ => rfl, fun _ _ => rfl, fun _ _ => rfl, fun _ _ => rfl⟩
  | cons cmd rest ih =>
    intro cmds out
    simp only [cmdchown_loop]
    cases hl : E.rtems_shell_lookup_cmd cmd with
    | none =>
      simp only []
      obtain ⟨h1, h2, h3, h4⟩ := ih cmds (out ++ [ShellOutput.error cmd ShellErrno.ENOENT])
      exact ⟨h1, h2, h3, fun id hid => h4 id (fun c hc => hid c (List.mem_cons_of_mem _ hc))⟩
    | some id0 =>
      simp only []
      by_cases hperm : task_uid = 0 ∨ task_uid = (cmds id0).uid
      · rw [if_pos hperm]
        obtain ⟨h1, h2, h3, h4⟩ := ih
          (fun k => if k = id0 then
            (if change_gid = true then
              { (if change_uid = true then
                  { cmds id0 with uid := new_uid % 2 ^ E.uid_bits } else cmds id0) with
                gid := new_gid % 2 ^ E.gid_bits }
            else (if change_uid = true then
                  { cmds id0 with uid := new_uid % 2 ^ E.uid_bits } else cmds id0))
            else cmds k) out
        refine ⟨fun id hz hne => ?_, fun hcu id => ?_, fun hcg id => ?_, fun id hid => ?_⟩
        · have hid : id ≠ id0 := by
            intro e
            subst e
            rcases hperm with hp | hp
            · exact hz hp
            · exact hne hp
          rw [h1 id hz (by simp only [hid, if_false]; exact hne)]
          simp only [hid, if_false]
        · rw [h2 hcu id]
          by_cases hid : id = id0
          · subst hid
            simp only [if_true, hcu]
            by_cases hcg : change_gid = true
            · simp [hcg]
            · simp [hcg]
          · simp only [hid, if_false]
        · rw [h3 hcg id]
          by_cases hid : id = id0
          · subst hid
            simp only [if_true, hcg]
            by_cases hcu : change_uid = true
            · simp [hcu]
            · simp [hcu]
          · simp only [hid, if_false]
        · have hne : id ≠ id0 := by
            intro e
            subst e
            exact hid cmd (List.mem_cons_self _ _) hl
          rw [h4 id (fun c hc => hid c (List.mem_cons_of_mem _ hc))]
          simp only [hne, if_false]
      · rw [if_neg hperm]
        by_cases hsee : E.rtems_shell_can_see_cmd (cmds id0) = true
        · rw [if_pos hsee]
          obtain ⟨h1, h2, h3, h4⟩ := ih cmds (out ++ [ShellOutput.error cmd ShellErrno.EACCES])
          exact ⟨h1, h2, h3, fun id hid => h4 id (fun c hc => hid c (List.mem_cons_of_mem _ hc))⟩
        · rw [if_neg hsee]
          obtain ⟨h1, h2, h3, h4⟩ := ih cmds (out ++ [ShellOutput.error cmd ShellErrno.ENOENT])
          exact ⟨h1, h2, h3, fun id hid => h4 id (fun c hc => hid c (List.mem_cons_of_mem _ hc))⟩


theorem cmdchown_cases (E : ShellEnv) (cmds : Nat → rtems_shell_cmd_t) (a0 s : List Byte)
    (rest : List (List Byte)) :
    (s ≠ cstring ":" ∧ (E.sscanf_uid_gid s UINT_MAX UINT_MAX).1 ≠ 2 ∧
      (E.sscanf_uid_gid s UINT_MAX UINT_MAX).1 ≠ 1 ∧
      (E.sscanf_gid s (E.sscanf_uid_gid s UINT_MAX UINT_MAX).2.2).1 ≠ 1 ∧
      rtems_shell_main_cmdchown E cmds (a0 :: s :: rest) = (-1, cmds, [ShellOutput.usage])) ∨
    (∃ (change_uid change_gid : Bool) (new_uid new_gid : Nat),
      rtems_shell_main_cmdchown E cmds (a0 :: s :: rest)
        = (0, cmdchown_loop E E.getuid change_uid change_gid new_uid new_gid rest (cmds, [])) ∧
      (change_uid = true ↔ s ≠ cstring ":" ∧
        ((E.sscanf_uid_gid s UINT_MAX UINT_MAX).1 = 2 ∨
          (E.sscanf_uid_gid s UINT_MAX UINT_MAX).1 = 1)) ∧
      (change_gid = true ↔ s ≠ cstring ":" ∧
        ((E.sscanf_uid_gid s UINT_MAX UINT_MAX).1 = 2 ∨
          ((E.sscanf_uid_gid s UINT_MAX UINT_MAX).1 ≠ 1 ∧
            (E.sscanf_gid s (E.sscanf_uid_gid s UINT_MAX UINT_MAX).2.2).1 = 1))) ∧
      (s = cstring ":" ∨ (E.sscanf_uid_gid s UINT_MAX UINT_MAX).1 = 2 ∨
        (E.sscanf_uid_gid s UINT_MAX UINT_MAX).1 = 1 ∨
        (E.sscanf_gid s (E.sscanf_uid_gid s UINT_MAX UINT_MAX).2.2).1 = 1)) := by
  unfold rtems_shell_main_cmdchown
  by_cases hs : s = cstring ":"
  · refine Or.inr ⟨false, false, UINT_MAX, UINT_MAX, ?_, ?_, ?_, Or.inl hs⟩
    · simp [hs]
    · simp [hs]
    · simp [hs]
  · by_cases h2 : (E.sscanf_uid_gid s UINT_MAX UINT_MAX).1 = 2
    · refine Or.inr ⟨true, true, (E.sscanf_uid_gid s UINT_MAX UINT_MAX).2.1,
        (E.sscanf_uid_gid s UINT_MAX UINT_MAX).2.2, ?_, ?_, ?_, Or.inr (Or.inl h2)⟩
      · simp [hs, h2]
      · simp [hs, h2]
      · simp [hs, h2]
    · by_cases h1 : (E.sscanf_uid_gid s UINT_MAX UINT_MAX).1 = 1
      · refine Or.inr ⟨true, false, (E.sscanf_uid_gid s UINT_MAX UINT_MAX).2.1,
          (E.sscanf_uid_gid s UINT_MAX UINT_MAX).2.2, ?_, ?_, ?_, Or.inr (Or.inr (Or.inl h1))⟩
        · simp [hs, h1]
        · simp [hs, h1]
        · simp [hs, h1]
      · by_cases h3 : (E.sscanf_gid s (E.sscanf_uid_gid s UINT_MAX UINT_MAX).2.2).1 = 1
        · refine Or.inr ⟨false, true, (E.sscanf_uid_gid s UINT_MAX UINT_MAX).2.1,
            (E.sscanf_gid s (E.sscanf_uid_gid s UINT_MAX UINT_MAX).2.2).2, ?_, ?_, ?_,
            Or.inr (Or.inr (Or.inr h3))⟩
          · simp [hs, h2, h1, h3]
          · simp [hs, h2, h1]
          · simp [hs, h2, h1, h3]
        · exact Or.inl ⟨hs, h2, h1, h3, by simp [hs, h2, h1, h3]⟩

/-- C34: `rtems_shell_main_cmdchown`. With fewer than two arguments, and with
an owner argument that is not `:` and for which `sscanf` with `%u:%u` returns
neither 2 nor 1 and `sscanf` with `:%u` does not return 1, the function
returns -1 and changes no command; in every other case it returns 0, also
when a command that is named is not found. A command whose uid is not the uid
of the calling task keeps its uid and gid when the task does not have the uid
0; a command that no argument names is unchanged; the uid of a command changes
only when a uid was read, and the gid only when a gid was read. -/
theorem cmdchown_spec (E : ShellEnv) (cmds : Nat → rtems_shell_cmd_t)
    (argv : List (List Byte)) :
    (argv.length < 2 → rtems_shell_main_cmdchown E cmds argv = (-1, cmds, [ShellOutput.usage])) ∧
    (∀ a0 s rest, argv = a0 :: s :: rest →
      ((s ≠ cstring ":" ∧ (E.sscanf_uid_gid s UINT_MAX UINT_MAX).1 ≠ 2 ∧
          (E.sscanf_uid_gid s UINT_MAX UINT_MAX).1 ≠ 1 ∧
          (E.sscanf_gid s (E.sscanf_uid_gid s UINT_MAX UINT_MAX).2.2).1 ≠ 1) →
        rtems_shell_main_cmdchown E cmds argv = (-1, cmds, [ShellOutput.usage])) ∧
      ((s = cstring ":" ∨ (E.sscanf_uid_gid s UINT_MAX UINT_MAX).1 = 2 ∨
          (E.sscanf_uid_gid s UINT_MAX UINT_MAX).1 = 1 ∨
          (E.sscanf_gid s (E.sscanf_uid_gid s UINT_MAX UINT_MAX).2.2).1 = 1) →
        (rtems_shell_main_cmdchown E cmds argv).1 = 0) ∧
      (∀ id, ((rtems_shell_main_cmdchown E cmds argv).2.1 id).uid ≠ (cmds id).uid →
        s ≠ cstring ":" ∧ ((E.sscanf_uid_gid s UINT_MAX UINT_MAX).1 = 2 ∨
          (E.sscanf_uid_gid s UINT_MAX UINT_MAX).1 = 1)) ∧
      (∀ id, ((rtems_shell_main_cmdchown E cmds argv).2.1 id).gid ≠ (cmds id).gid →
        s ≠ cstring ":" ∧ ((E.sscanf_uid_gid s UINT_MAX UINT_MAX).1 = 2 ∨
          ((E.sscanf_uid_gid s UINT_MAX UINT_MAX).1 ≠ 1 ∧
            (E.sscanf_gid s (E.sscanf_uid_gid s UINT_MAX UINT_MAX).2.2).1 = 1)))) ∧
    (∀ id, E.getuid ≠ 0 → E.getuid ≠ (cmds id).uid →
      (rtems_shell_main_cmdchown E cmds argv).2.1 id = cmds id) ∧
    (∀ id, (∀ cmd, cmd ∈ argv.drop 2 → E.rtems_shell_lookup_cmd cmd ≠ some id) →
      (rtems_shell_main_cmdchown E cmds argv).2.1 id = cmds id) := by
  rcases argv with _ | ⟨a0, _ | ⟨s, rest⟩⟩
  · exact ⟨fun _ => rfl, fun a0 s rest h => (by cases h), fun _ _ _ => rfl, fun _ _ => rfl⟩
  · exact ⟨fun _ => rfl, fun a0 s rest h => (by cases h), fun _ _ _ => rfl, fun _ _ => rfl⟩
  · refine ⟨fun h => ?_, fun a1 s1 rest1 h => ?_, fun id hz hne => ?_, fun id hid => ?_⟩
    · simp only [List.length_cons] at h
      omega
    · cases h
      rcases cmdchown_cases E cmds a0 s rest with
        ⟨h1, h2, h3, h4, hr⟩ | ⟨cu, cg, nu, ng, hr, hcu, hcg, hm⟩
      · rw [hr]
        refine ⟨fun _ => rfl, fun hm => ?_, fun id hid => absurd rfl hid,
          fun id hid => absurd rfl hid⟩
        rcases hm with hm | hm | hm | hm
        · exact absurd hm h1
        · exact absurd hm h2
        · exact absurd hm h3
        · exact absurd hm h4
      · rw [hr]
        obtain ⟨_, i2, i3, _⟩ := cmdchown_loop_inv E E.getuid cu cg nu ng rest cmds []
        refine ⟨fun hbad => ?_, fun _ => rfl, fun id hid => ?_, fun id hid => ?_⟩
        · obtain ⟨b1, b2, b3, b4⟩ := hbad
          rcases hm with hm | hm | hm | hm
          · exact absurd hm b1
          · exact absurd hm b2
          · exact absurd hm b3
          · exact absurd hm b4
        · apply hcu.1
          by_contra hc
          have hcf : cu = false := by simpa using hc
          exact hid (i2 hcf id)
        · apply hcg.1
          by_contra hc
          have hcf : cg = false := by simpa using hc
          exact hid (i3 hcf id)
    · rcases cmdchown_cases E cmds a0 s rest with
        ⟨_, _, _, _, hr⟩ | ⟨cu, cg, nu, ng, hr, _, _, _⟩
      · rw [hr]
      · rw [hr]
        exact (cmdchown_loop_inv E E.getuid cu cg nu ng rest cmds []).1 id hz hne
    · rcases cmdchown_cases E cmds a0 s rest with
        ⟨_, _, _, _, hr⟩ | ⟨cu, cg, nu, ng, hr, _, _, _⟩
      · rw [hr]
      · rw [hr]
        exact (cmdchown_loop_inv E E.getuid cu cg nu ng rest cmds []).2.2.2 id
          (fun c hc => hid c (by simpa using hc))

/-- C34, at a task of the uid 5 with the commands `ls` of the uid 0 and `rm`
of the uid 5: `cmdchown 7:8 ls rm nope` returns 0, leaves `ls`, gives `rm` the
uid 7 and the gid 8 and prints two errors; `cmdchown x ls` returns -1. -/
theorem cmdchown_spec_witness :
    (rtems_shell_main_cmdchown demo_shell demo_cmds
        [cstring "cmdchown", cstring "7:8", cstring "ls", cstring "rm", cstring "nope"]).1 = 0 ∧
    (rtems_shell_main_cmdchown demo_shell demo_cmds
        [cstring "cmdchown", cstring "7:8", cstring "ls", cstring "rm", cstring "nope"]).2.1 1
      = ⟨7, 8⟩ ∧
    (rtems_shell_main_cmdchown demo_shell demo_cmds
        [cstring "cmdchown", cstring "7:8", cstring "ls", cstring "rm", cstring "nope"]).2.2
      = [ShellOutput.error (cstring "ls") ShellErrno.EACCES,
         ShellOutput.error (cstring "nope") ShellErrno.ENOENT] ∧
    (rtems_shell_main_cmdchown demo_shell demo_cmds
        [cstring "cmdchown", cstring "x", cstring "ls"]).1 = -1 ∧
    (rtems_shell_main_cmdchown demo_shell demo_cmds [cstring "cmdchown"]).1 = -1 ∧
    (demo_shell.getuid ≠ 0 ∧ demo_shell.getuid ≠ (demo_cmds 0).uid) ∧
    (rtems_shell_main_cmdchown demo_shell demo_cmds
        [cstring "cmdchown", cstring "7:8", cstring "ls", cstring "rm", cstring "nope"]).2.1 0
      = demo_cmds 0 :=
  ⟨by decide, by decide, by decide, by decide, by decide, ⟨by decide, by decide⟩,
   (cmdchown_spec demo_shell demo_cmds
      [cstring "cmdchown", cstring "7:8", cstring "ls", cstring "rm", cstring "nope"]).2.2.1 0
     (by decide) (by decide)⟩

theorem sort_table_linked (symbols : rtems_rtl_symbols) (heap heap1 : Heap)
    (table : Option Nat) (syms : Nat)
    (h : sort_table symbols heap table syms = some (heap1, true)) (p : SymPtr)
    (hp : Linked symbols p) : deref heap1 p = deref heap p := by
  by_cases hpos : 0 < syms
  · unfold sort_table at h
    rw [if_neg (by omega)] at h
    cases ht : table with
    | none => simp [ht] at h
    | some base =>
      simp only [ht] at h
      cases hb : heap base with
      | none => simp [hb] at h
      | some tbl =>
        simp only [hb] at h
        cases hq : qsort (fun a b : Nat × rtems_rtl_obj_sym =>
            rtems_rtl_symbol_obj_compare a.2 b.2) tbl.enum syms with
        | none => simp [hq] at h
        | some moved =>
          simp only [hq, Option.some.injEq, Prod.mk.injEq] at h
          · obtain ⟨h, hcheck⟩ := h
            subst h
            by_cases hpb : p.block = base
            · obtain ⟨_, sorted, hm, hperm, _⟩ := qsort_spec
                (fun a b : Nat × rtems_rtl_obj_sym => rtems_rtl_symbol_obj_compare a.2 b.2)
                (fun a b r hr => obj_compare_swap a.2 b.2 r hr)
                (fun a b c hab hbc => obj_compare_trans a.2 b.2 c.2 hab hbc)
                tbl.enum moved syms hq
              have hmp : moved.Perm tbl.enum := by
                rw [hm]
                have := hperm.append_right (tbl.enum.drop syms)
                rwa [List.take_append_drop] at this
              have hlen : moved.length = tbl.length := by
                rw [hmp.length_eq, List.enum_length]
              simp only [deref, hpb, if_true, hb]
              by_cases hi : p.index < tbl.length
              · have hmem : (p.index, tbl[p.index]) ∈ moved :=
                  hmp.symm.subset
                    (List.mk_mem_enum_iff_getElem?.2 (List.getElem?_eq_getElem hi))
                obtain ⟨j, hj⟩ := List.mem_iff_getElem?.1 hmem
                have hjm : (j, (p.index, tbl[p.index])) ∈ moved.enum :=
                  List.mk_mem_enum_iff_getElem?.2 hj
                rw [List.all_eq_true] at hcheck
                have hc := hcheck _ hjm
                simp only [Bool.or_eq_true, decide_eq_true_eq] at hc
                have hji : j = p.index := by
                  rcases hc with hc | hc
                  · exact hc
                  · exfalso
                    have hnl := (off_chain_iff symbols ⟨base, p.index⟩).1 hc
                    apply hnl
                    have hpe : p = ⟨base, p.index⟩ := by
                      cases p
                      simp only at hpb
                      simp [hpb]
                    rw [← hpe]
                    exact hp
                rw [hji] at hj
                rw [List.getElem?_map, hj, List.getElem?_eq_getElem hi]
                rfl
              · rw [List.getElem?_eq_none (by rw [List.length_map, hlen]; omega),
                  List.getElem?_eq_none (by omega)]
            · simp [deref, hpb]
  · have h0 : syms = 0 := by omega
    subst h0
    rw [sort_table_zero] at h
    cases h
    rfl

theorem obj_sort_inv (rtl : Rtl) (obj : rtems_rtl_obj) (heap2 : Heap) (st : Option Rtl)
    (h : rtems_rtl_symbol_obj_sort rtl obj = some (heap2, st)) :
    ∃ heap1 k1 k2,
      sort_table rtl.symbols rtl.heap obj.local_table obj.local_syms = some (heap1, k1) ∧
      sort_table rtl.symbols heap1 obj.global_table obj.global_syms = some (heap2, k2) ∧
      st = if (k1 && k2) = true then some { rtl with heap := heap2 } else none := by
  unfold rtems_rtl_symbol_obj_sort at h
  cases h1 : sort_table rtl.symbols rtl.heap obj.local_table obj.local_syms with
  | none => simp [h1] at h
  | some r1 =>
    obtain ⟨heap1, k1⟩ := r1
    simp only [h1] at h
    cases h2 : sort_table rtl.symbols heap1 obj.global_table obj.global_syms with
    | none => simp [h2] at h
    | some r2 =>
      obtain ⟨heap3, k2⟩ := r2
      simp only [h2, Option.some.injEq, Prod.mk.injEq] at h
      obtain ⟨rfl, rfl⟩ := h
      exact ⟨heap1, k1, k2, rfl, h2, rfl⟩

/-- C32 as stated fails: in the state after `rtems_rtl_symbol_global_add` of
the records `foo` and `beta`, both are linked, `foo` in slot 0 on the chain of
bucket 9 and `beta` in slot 1 on the chain of bucket 1, and
`rtems_rtl_symbol_global_find` returns them. The `qsort` of
`rtems_rtl_symbol_obj_sort` puts the record of slot 1 into slot 0 and the
record of slot 0 into slot 1, each with its chain node, and the call returns
with the table `beta`, `foo`. The chain of bucket 9 still leads to slot 0: the
walk for `foo` meets the record `beta` there and goes on along the node of
`beta`, which is on the chain of bucket 1. There is no state after this sort
in which the find of `foo` returns a symbol. -/
theorem sort_breaks_linked :
    unsorted_published.symbols.buckets
      = [[], [⟨300, 1⟩], [], [], [], [], [], [], [], [⟨300, 0⟩], [], [], [], [], [], []] ∧
    rtems_rtl_symbol_global_find target32 unsorted_published.heap unsorted_published.symbols
      (cstring "foo") = some (some ⟨300, 0⟩) ∧
    rtems_rtl_symbol_global_find target32 unsorted_published.heap unsorted_published.symbols
      (cstring "beta") = some (some ⟨300, 1⟩) ∧
    (unsorted_published.heap 300).map (fun tbl =>
        (qsort (fun a b : Nat × rtems_rtl_obj_sym => rtems_rtl_symbol_obj_compare a.2 b.2)
          tbl.enum 2).map (fun moved => moved.map (fun slot => (slot.1, slot.2.name))))
      = some (some [(1, some (cstring "beta")), (0, some (cstring "foo"))]) ∧
    (rtems_rtl_symbol_obj_sort unsorted_published unsorted_published_obj).map
        (fun r => (name_of r.1 ⟨300, 0⟩, name_of r.1 ⟨300, 1⟩, r.2.isSome))
      = some (some (cstring "beta"), some (cstring "foo"), false) ∧
    ¬ ∃ heap1 rtl1 p,
      rtems_rtl_symbol_obj_sort unsorted_published unsorted_published_obj
        = some (heap1, some rtl1) ∧
      rtems_rtl_symbol_global_find target32 rtl1.heap rtl1.symbols (cstring "foo")
        = some (some p) := by
  have hsort : (rtems_rtl_symbol_obj_sort unsorted_published unsorted_published_obj).map
        (fun r => (name_of r.1 ⟨300, 0⟩, name_of r.1 ⟨300, 1⟩, r.2.isSome))
      = some (some (cstring "beta"), some (cstring "foo"), false) := by decide
  refine ⟨by decide, by decide, by decide, by decide, hsort, ?_⟩
  rintro ⟨heap1, rtl1, p, h, _⟩
  rw [h] at hsort
  simp at hsort

/-- C32, amended: when `rtems_rtl_symbol_obj_sort` leaves the record of every
linked symbol in its slot, which is the case where there is a state after the
call, the global symbol table is unchanged, every linked symbol keeps its
name, value and data, and `rtems_rtl_symbol_global_find` returns for every
name what it returned before the sort. -/
theorem sort_keeps_found (T : Target) (rtl rtl1 : Rtl) (obj : rtems_rtl_obj) (heap1 : Heap)
    (h : rtems_rtl_symbol_obj_sort rtl obj = some (heap1, some rtl1)) :
    rtl1.heap = heap1 ∧
    rtl1.symbols = rtl.symbols ∧
    (∀ p, Linked rtl.symbols p → deref rtl1.heap p = deref rtl.heap p) ∧
    ∀ name, rtems_rtl_symbol_global_find T rtl1.heap rtl1.symbols name
      = rtems_rtl_symbol_global_find T rtl.heap rtl.symbols name := by
  obtain ⟨heap0, k1, k2, h1, h2, hst⟩ := obj_sort_inv rtl obj heap1 (some rtl1) h
  have hk1 : k1 = true := by
    cases k1
    · simp at hst
    · rfl
  have hk2 : k2 = true := by
    cases k2
    · simp at hst
    · rfl
  subst hk1 hk2
  simp only [Bool.and_self, if_true, Option.some.injEq] at hst
  subst hst
  have hd : ∀ p, Linked rtl.symbols p → deref heap1 p = deref rtl.heap p := by
    intro p hp
    rw [sort_table_linked _ _ _ _ _ h2 p hp, sort_table_linked _ _ _ _ _ h1 p hp]
  refine ⟨rfl, rfl, hd, fun name => ?_⟩
  exact find_congr T heap1 rtl.heap rtl.symbols name
    (fun p hp => name_of_congr _ _ p (hd p hp))

/-- C32, amended, at the state where of the table `aaa`, `gamma`, `beta` only
`aaa` is linked: the sort swaps `gamma` and `beta`, and the find of `aaa` and
of `gamma` return the symbols they returned before. -/
theorem sort_keeps_found_witness :
    rtems_rtl_symbol_obj_sort partly_published partly_obj
      = some (partly_sorted.heap, some partly_sorted) ∧
    (partly_published.heap 200).map (fun tbl => tbl.map (fun sym => sym.name))
      = some [some (cstring "aaa"), some (cstring "gamma"), some (cstring "beta")] ∧
    (partly_sorted.heap 200).map (fun tbl => tbl.map (fun sym => sym.name))
      = some [some (cstring "aaa"), some (cstring "beta"), some (cstring "gamma")] ∧
    rtems_rtl_symbol_global_find target32 partly_sorted.heap partly_sorted.symbols
      (cstring "aaa") = some (some ⟨200, 0⟩) ∧
    rtems_rtl_symbol_global_find target32 partly_sorted.heap partly_sorted.symbols
      (cstring "gamma") = some (some ⟨100, 2⟩) ∧
    partly_sorted.symbols = partly_published.symbols ∧
    ∀ name, rtems_rtl_symbol_global_find target32 partly_sorted.heap partly_sorted.symbols name
      = rtems_rtl_symbol_global_find target32 partly_published.heap partly_published.symbols
          name :=
  have h := sort_keeps_found target32 partly_published partly_sorted partly_obj
    partly_sorted.heap rfl
  ⟨rfl, by decide, by decide, by decide, by decide, h.2.1, h.2.2.2⟩


theorem bsearch_loop_any (tbl : List rtems_rtl_obj_sym) (x : List Byte) (n : Nat)
    (hnames : ∀ i, i < n → ∃ (sym : rtems_rtl_obj_sym) (nm : List Byte),
      tbl[i]? = some sym ∧ sym.name = some nm) :
    ∀ (fuel lower upper : Nat), upper ≤ n → upper - lower < fuel →
      ∃ r, bsearch_loop rtems_rtl_symbol_obj_compare ⟨some x, 0, 0⟩ tbl fuel lower upper = some r ∧
        ∀ i, r = some i → i < n ∧ ∃ sym : rtems_rtl_obj_sym, tbl[i]? = some sym ∧
          sym.name = some x := by
  intro fuel
  induction fuel with
  | zero => intro lower upper _ h; omega
  | succ fuel ih =>
    intro lower upper hup hfuel
    unfold bsearch_loop
    by_cases hlu : lower < upper
    · rw [if_pos hlu]
      have hmid : (lower + upper) / 2 < n := by omega
      obtain ⟨sym, nm, hsym, hnm⟩ := hnames _ hmid
      have hcmp : rtems_rtl_symbol_obj_compare ⟨some x, 0, 0⟩ sym = some (strcmp x nm) := by
        simp [rtems_rtl_symbol_obj_compare, hnm]
      simp only [hsym, hcmp]
      by_cases hneg : strcmp x nm < 0
      · rw [if_pos hneg]
        exact ih lower ((lower + upper) / 2) (by omega) (by omega)
      · rw [if_neg hneg]
        by_cases hpos : strcmp x nm > 0
        · rw [if_pos hpos]
          exact ih ((lower + upper) / 2 + 1) upper hup (by omega)
        · rw [if_neg hpos]
          have hz : strcmp x nm = 0 := by omega
          refine ⟨some ((lower + upper) / 2), rfl, fun i hi => ?_⟩
          cases hi
          exact ⟨hmid, sym, hsym, by rw [hnm, (strcmp_eq_zero x nm).1 hz]⟩
    · rw [if_neg hlu]
      exact ⟨none, rfl, fun i h => (by cases h)⟩

theorem obj_table_search_any (heap : Heap) (base syms : Nat) (tbl : List rtems_rtl_obj_sym)
    (x : List Byte) (hb : heap base = some tbl)
    (hnames : ∀ i, i < syms → ∃ (sym : rtems_rtl_obj_sym) (nm : List Byte),
      tbl[i]? = some sym ∧ sym.name = some nm) :
    ∃ r, obj_table_search heap (some base) syms x = some r ∧
      ∀ p, r = some p → p.block = base ∧ p.index < syms ∧ name_of heap p = some x := by
  unfold obj_table_search
  by_cases h0 : syms = 0
  · rw [if_pos h0]
    exact ⟨none, rfl, fun p h => (by cases h)⟩
  · rw [if_neg h0]
    obtain ⟨r, hr, hhit⟩ := bsearch_loop_any tbl x syms hnames (syms + 1) 0 syms
      (Nat.le_refl _) (by omega)
    simp only [hb, bsearch, if_neg h0, hr]
    cases r with
    | none => exact ⟨none, rfl, fun p h => (by cases h)⟩
    | some i =>
      refine ⟨some ⟨base, i⟩, rfl, fun p hp => ?_⟩
      cases hp
      obtain ⟨hi, sym, hsym, hnm⟩ := hhit i rfl
      exact ⟨rfl, hi, by simp [name_of, deref, hb, hsym, hnm]⟩

theorem obj_sort_sorted_global (rtl : Rtl) (obj : rtems_rtl_obj) (heap2 : Heap)
    (st : Option Rtl) (hloc : obj.local_syms = 0)
    (h : rtems_rtl_symbol_obj_sort rtl obj = some (heap2, st)) :
    SortedTable rtl.heap heap2 obj.global_table obj.global_syms := by
  obtain ⟨heap1, k1, k2, h1, h2, _⟩ := obj_sort_inv rtl obj heap2 st h
  rw [hloc, sort_table_zero] at h1
  cases h1
  exact sort_table_sorted _ _ _ _ _ h2

/-- C31: `rtems_rtl_symbol_global_add` does not sort the global table of the
object, and the find through the object resolves all the same. After a call
that returns true on an object without local symbols, for the name of every
symbol of the new table, which are the names of the records of the export
table, `rtems_rtl_symbol_obj_find` returns a symbol that has this name: in the
state after the call, where a miss of the binary search on the table as it is
falls back to the global symbol table, in which the name is linked; in every
state whose memory holds the table sorted, whatever its chains are; and
`rtems_rtl_symbol_obj_sort` returns on this object, and in every state with
the memory it leaves the find returns a symbol of the table with this name. -/
theorem global_add_then_obj_find {W : Type} (T : Target) (alloc : Nat → Option Nat)
    (rtl : Rtl) (obj : rtems_rtl_obj) (esyms : List Byte) (size : Nat)
    (tls_offsets : List (rtems_rtl_tls_offset W)) (tls_size : Nat) (env : W)
    (rtl1 : Rtl) (obj1 : rtems_rtl_obj) (env1 : W)
    (hok : TableOk T rtl.heap rtl.symbols)
    (hfresh : ∀ n base, alloc n = some base → rtl.heap base = none)
    (hloc : obj.local_syms = 0)
    (h : rtems_rtl_symbol_global_add T alloc rtl obj esyms size tls_offsets tls_size env
      = some (true, rtl1, obj1, env1)) :
    ∃ base, obj1.global_table = some base ∧
      (∀ k, k < obj1.global_syms → ∃ name, name_of rtl1.heap ⟨base, k⟩ = some name) ∧
      (∃ heap2 st, rtems_rtl_symbol_obj_sort rtl1 obj1 = some (heap2, st)) ∧
      ∀ k name, k < obj1.global_syms → name_of rtl1.heap ⟨base, k⟩ = some name →
        (∃ p, rtems_rtl_symbol_obj_find T rtl1 obj1 name = some (some p) ∧
          name_of rtl1.heap p = some name) ∧
        (∀ rtl2 : Rtl, SortedTable rtl1.heap rtl2.heap obj1.global_table obj1.global_syms →
          ∃ p, rtems_rtl_symbol_obj_find T rtl2 obj1 name = some (some p) ∧
            name_of rtl2.heap p = some name ∧ obj1.global_table = some p.block) ∧
        (∀ (heap2 : Heap) (st : Option Rtl) (rtl2 : Rtl),
          rtems_rtl_symbol_obj_sort rtl1 obj1 = some (heap2, st) → rtl2.heap = heap2 →
          ∃ p, rtems_rtl_symbol_obj_find T rtl2 obj1 name = some (some p) ∧
            name_of rtl2.heap p = some name ∧ obj1.global_table = some p.block) := by
  obtain ⟨base, count, hobj, _, _, inv⟩ := global_add_true_inv T alloc rtl obj esyms size
    tls_offsets tls_size env rtl1 obj1 env1 hok hfresh h
  have hsyms : obj1.global_syms = count := by rw [hobj]
  have htab : obj1.global_table = some base := by rw [hobj]
  have hloc1 : obj1.local_syms = 0 := by rw [hobj]; exact hloc
  obtain ⟨_, count2, base2, recs, tbl, _, hobj2, _, hrl, htbl, htl, hcont⟩ :=
    global_add_decoded T alloc rtl obj esyms size tls_offsets tls_size env rtl1 obj1 env1 h
  have hcc : count2 = count := by
    have := congrArg rtems_rtl_obj.global_syms (hobj.symm.trans hobj2)
    simpa using this.symm
  have hbb : base2 = base := by
    have := congrArg rtems_rtl_obj.global_table (hobj.symm.trans hobj2)
    simpa using this.symm
  subst hcc hbb
  have hentry : ∀ i, i < count2 → ∃ (sym : rtems_rtl_obj_sym) (nm : List Byte),
      tbl[i]? = some sym ∧ sym.name = some nm := by
    intro i hi
    have hi2 : i < recs.length := by omega
    obtain ⟨sym, hs, hn, _⟩ := hcont i _ (List.getElem?_eq_getElem hi2)
    exact ⟨sym, _, hs, hn⟩
  have hnames : TableNames rtl1.heap obj1.global_table obj1.global_syms
      (recs.map Prod.fst) := by
    rw [htab, hsyms]
    refine table_names_of rtl1.heap _ _ _ base2 tbl rfl htbl (by rw [List.length_map, hrl]) ?_
    rw [List.take_of_length_le (by omega)]
    have := decoded_table_map recs tbl (by omega) hcont
    have h2 := congrArg (List.map Prod.fst) this
    rw [List.map_map, List.map_map] at h2
    rw [List.map_map]
    exact h2
  refine ⟨base2, htab, fun k hk => ?_, ?_, fun k name hk hname => ?_⟩
  · rw [hsyms] at hk
    obtain ⟨sym, nm, hs, hn⟩ := hentry k hk
    exact ⟨nm, by simp [name_of, deref, htbl, hs, hn]⟩
  · have hl0 : TableNames rtl1.heap obj1.local_table obj1.local_syms [] := by
      rw [hloc1]
      exact table_names_empty _ _
    obtain ⟨heap2, st, hrun, _⟩ := obj_sort_spec rtl1 obj1 [] _ hl0 hnames
      (fun h0 _ => by rw [hloc1] at h0; exact absurd h0 (Nat.lt_irrefl 0))
    exact ⟨heap2, st, hrun⟩
  rw [hsyms] at hk
  have hmem : name ∈ recs.map Prod.fst := by
    have hk2 : k < recs.length := by omega
    obtain ⟨sym, hs, hn, _⟩ := hcont k _ (List.getElem?_eq_getElem hk2)
    have hnm : name_of rtl1.heap ⟨base2, k⟩ = some (recs[k]).1 := by
      simp [name_of, deref, htbl, hs, hn]
    rw [hname] at hnm
    cases hnm
    exact List.mem_map_of_mem _ (List.getElem_mem hk2)
  have hsorted : ∀ rtl2 : Rtl,
      SortedTable rtl1.heap rtl2.heap obj1.global_table obj1.global_syms →
      ∃ p, rtems_rtl_symbol_obj_find T rtl2 obj1 name = some (some p) ∧
        name_of rtl2.heap p = some name ∧ obj1.global_table = some p.block := by
    intro rtl2 hst
    obtain ⟨names1, hperm, hn1, hs1⟩ := sorted_table_names rtl1.heap rtl2.heap
      obj1.global_table obj1.global_syms _ hnames hst
    have hl0 : TableNames rtl2.heap obj1.local_table obj1.local_syms [] := by
      rw [hloc1]
      exact table_names_empty _ _
    obtain ⟨p, hp1, hp2, _, hp4⟩ := (obj_find_cases T rtl2 obj1 name [] names1 hl0
      List.Pairwise.nil hn1 hs1).2.1 (List.not_mem_nil _) (hperm.symm.subset hmem)
    exact ⟨p, hp1, hp4, hp2⟩
  refine ⟨?_, hsorted, fun heap2 st rtl2 hs2 hh =>
    hsorted rtl2 (by rw [hh]; exact obj_sort_sorted_global rtl1 obj1 heap2 st hloc1 hs2)⟩
  -- the state after the call: the table as it is
  obtain ⟨r, hr, hhit⟩ := obj_table_search_any rtl1.heap base2 count2 tbl name htbl hentry
  have hlocal : obj_table_search rtl1.heap obj1.local_table obj1.local_syms name = some none := by
    simp [obj_table_search, hloc1]
  unfold rtems_rtl_symbol_obj_find
  rw [hlocal, htab, hsyms, hr]
  cases r with
  | some p => exact ⟨p, rfl, (hhit p rfl).2.2⟩
  | none =>
    obtain ⟨nm, x, hnm, hx⟩ := inv.found k hk
    rw [hname] at hnm
    cases hnm
    obtain ⟨r2, hr2, _, hsome⟩ := find_spec T rtl1.heap rtl1.symbols name inv.ok
    rw [hx] at hr2
    cases hr2
    exact ⟨x, hx, (hsome x rfl).2⟩


/-- C31, at the records `foo` and `beta` added to the empty table: the binary
search for `foo` on the table `foo`, `beta` misses, and the find through the
object returns the symbol `foo` that the global symbol table holds; the
binary search for `beta` hits. -/
theorem global_add_then_obj_find_witness :
    (empty_obj.local_syms = 0 ∧
      rtems_rtl_symbol_global_add target32 (fun _ => some 300) scenario_opened empty_obj
          unsorted_blob unsorted_blob.length ([] : List (rtems_rtl_tls_offset Unit)) 0 ()
        = some (true, unsorted_published, unsorted_published_obj, ())) ∧
    (unsorted_published.heap 300).map (fun tbl => tbl.map (fun sym => sym.name))
      = some [some (cstring "foo"), some (cstring "beta")] ∧
    obj_table_search unsorted_published.heap (some 300) 2 (cstring "foo") = some none ∧
    rtems_rtl_symbol_obj_find target32 unsorted_published unsorted_published_obj (cstring "foo")
      = some (some ⟨300, 0⟩) ∧
    rtems_rtl_symbol_obj_find target32 unsorted_published unsorted_published_obj (cstring "beta")
      = some (some ⟨300, 1⟩) ∧
    ∃ base, unsorted_published_obj.global_table = some base ∧
      ∀ k, k < unsorted_published_obj.global_syms →
        ∃ name, name_of unsorted_published.heap ⟨base, k⟩ = some name :=
  ⟨⟨rfl, rfl⟩, by decide, by decide, by decide, by decide,
   (global_add_then_obj_find target32 (fun _ => some 300) scenario_opened empty_obj
      unsorted_blob unsorted_blob.length ([] : List (rtems_rtl_tls_offset Unit)) 0 ()
      unsorted_published unsorted_published_obj ()
      (empty_table_ok target32 scenario_heap 16 (by decide)) (scenario_fresh 300 rfl) rfl rfl).imp
     (fun base h => ⟨h.1, h.2.1⟩)⟩

/-- C33: a suppressed duplicate is never promoted. Modules A and B have well
formed export tables that both hold a record named `foo`, and they are added
with `rtems_rtl_symbol_global_add` in the order A then B to a table in which
`foo` is not found; B has no local symbols. Then after
`rtems_rtl_symbol_obj_erase` of A alone the global find of `foo` returns
NULL, although the table of B is live and its record `k` is the symbol `foo`
with the value of B. The find through B returns a symbol of the table of B
named `foo`, with the value of its record, when the records of B are in the
order of their names, and it returns a symbol of the table of B named `foo`
in every state whose memory holds the table of B sorted. -/
theorem suppressed_duplicate_not_promoted {W : Type} (T : Target)
    (allocA allocB : Nat → Option Nat) (rtl : Rtl) (objA objB : rtems_rtl_obj)
    (recsA recsB : List (List Byte × Nat)) (env : W)
    (a b : Nat) (foo : List Byte) (vA vB i k : Nat)
    (hok : TableOk T rtl.heap rtl.symbols)
    (hnofoo : rtems_rtl_symbol_global_find T rtl.heap rtl.symbols foo = some none)
    (hwA : ∀ r, r ∈ recsA → r.1 ≠ [] ∧ (0 : Byte) ∉ r.1 ∧ r.2 < 256 ^ T.ptr_bytes)
    (hwB : ∀ r, r ∈ recsB → r.1 ≠ [] ∧ (0 : Byte) ∉ r.1 ∧ r.2 < 256 ^ T.ptr_bytes)
    (hiA : recsA[i]? = some (foo, vA))
    (hkB : recsB[k]? = some (foo, vB))
    (haA : allocA (recsA.length * T.sym_bytes) = some a) (hfa : rtl.heap a = none)
    (haB : allocB (recsB.length * T.sym_bytes) = some b) (hfb : rtl.heap b = none)
    (hab : a ≠ b)
    (hlA : ∀ l, objA.local_table = some l →
      rtl.heap l ≠ none ∧ ∀ p, Linked rtl.symbols p → p.block ≠ l)
    (hlocB : objB.local_syms = 0) :
    ∃ rtl1 objA1 rtl2 objB1 rtl3 objA2 symB,
      rtems_rtl_symbol_global_add T allocA rtl objA (export_table_of T recsA)
        (export_table_of T recsA).length ([] : List (rtems_rtl_tls_offset W)) 0 env
        = some (true, rtl1, objA1, env) ∧
      rtems_rtl_symbol_global_add T allocB rtl1 objB (export_table_of T recsB)
        (export_table_of T recsB).length ([] : List (rtems_rtl_tls_offset W)) 0 env
        = some (true, rtl2, objB1, env) ∧
      objA1.global_table = some a ∧ objB1.global_table = some b ∧
      objB1.global_syms = recsB.length ∧
      (∃ x, rtems_rtl_symbol_global_find T rtl2.heap rtl2.symbols foo = some (some x) ∧
        x.block = a) ∧
      rtems_rtl_symbol_obj_erase rtl2 objA1 = some (rtl3, objA2) ∧
      rtems_rtl_symbol_global_find T rtl3.heap rtl3.symbols foo = some none ∧
      deref rtl3.heap ⟨b, k⟩ = some symB ∧ symB.name = some foo ∧ symB.value = vB ∧
      (SortedNames (recsB.map Prod.fst) →
        ∃ p sym v, rtems_rtl_symbol_obj_find T rtl3 objB1 foo = some (some p) ∧
          p.block = b ∧ recsB[p.index]? = some (foo, v) ∧
          deref rtl3.heap p = some sym ∧ sym.name = some foo ∧ sym.value = v) ∧
      ∀ rtl4 : Rtl, SortedTable rtl3.heap rtl4.heap (some b) recsB.length →
        ∃ p, rtems_rtl_symbol_obj_find T rtl4 objB1 foo = some (some p) ∧
          p.block = b ∧ name_of rtl4.heap p = some foo := by
  -- the publish of A
  obtain ⟨rtl1, hrunA, holdA, invA, hcontA⟩ := global_add_export_of T allocA rtl objA recsA env a
    hok hwA haA hfa
  have hiAlt : i < recsA.length := by
    by_contra hge
    rw [List.getElem?_eq_none (Nat.le_of_not_lt hge)] at hiA
    cases hiA
  obtain ⟨symA, hsymA, hnameA, _⟩ := hcontA i (foo, vA) hiA
  obtain ⟨nm, x, hnm, hx1⟩ := invA.found i hiAlt
  have hnmfoo : nm = foo := by
    simp only [name_of, hsymA, hnameA, Option.some.injEq] at hnm
    exact hnm.symm
  subst hnmfoo
  obtain ⟨r1, hr1, _, hsome1⟩ := find_spec T rtl1.heap rtl1.symbols nm invA.ok
  rw [hx1] at hr1
  cases hr1
  obtain ⟨hxl1, hxn1⟩ := hsome1 x rfl
  have hxa : x.block = a := by
    rcases invA.linked_new x hxl1 with h0 | ⟨h0, _⟩
    · exfalso
      have hd : deref rtl1.heap x = deref rtl.heap x :=
        pubinv_deref_eq T a recsA.length recsA.length rtl rtl1 invA x (holdA x h0)
      rw [name_of_congr _ _ x hd] at hxn1
      obtain ⟨r, hr, hnone, _⟩ := find_spec T rtl.heap rtl.symbols nm hok
      rw [hnofoo] at hr
      cases hr
      exact hnone.1 rfl x h0 hxn1
    · exact h0
  -- the publish of B
  have hfb1 : rtl1.heap b = none := by
    rw [pubinv_heap_eq T a recsA.length recsA.length rtl rtl1 invA b (fun e => hab e.symm)]
    exact hfb
  obtain ⟨rtl2, hrunB, holdB, invB, hcontB⟩ := global_add_export_of T allocB rtl1 objB recsB env b
    invA.ok hwB haB hfb1
  have hderefB : ∀ p : SymPtr, p.block ≠ b → deref rtl2.heap p = deref rtl1.heap p :=
    fun p hp => pubinv_deref_eq T b recsB.length recsB.length rtl1 rtl2 invB p hp
  have hx2 : rtems_rtl_symbol_global_find T rtl2.heap rtl2.symbols nm = some (some x) := by
    apply invB.keeps
    rw [find_congr T (heap_alloc rtl1.heap b recsB.length) rtl1.heap rtl1.symbols nm
      (fun p hp => name_of_congr _ _ p (deref_heap_alloc rtl1.heap b recsB.length p (holdB p hp)))]
    exact hx1
  have hxn2 : name_of rtl2.heap x = some nm := by
    rw [name_of_congr _ _ x (hderefB x (by rw [hxa]; exact hab))]
    exact hxn1
  obtain ⟨symB, hsymB, hnameB, hvalB⟩ := hcontB k (nm, vB) hkB
  have hlocA : ∀ l, objA.local_table = some l → l ≠ a ∧ l ≠ b :=
    fun l hl => ⟨fun e => (hlA l hl).1 (e ▸ hfa), fun e => (hlA l hl).1 (e ▸ hfb)⟩
  -- every symbol linked after both calls is an old one, one of A, or one of B not named foo
  have hlinked2 : ∀ p, Linked rtl2.symbols p →
      (Linked rtl.symbols p ∧ p.block ≠ a ∧ p.block ≠ b) ∨
        (p.block = a ∧ p.index < recsA.length) ∨
        (p.block = b ∧ name_of rtl2.heap p ≠ some nm) := by
    intro p hp
    rcases invB.linked_new p hp with h | ⟨h1, _⟩
    · rcases invA.linked_new p h with h0 | h0
      · exact Or.inl ⟨h0, holdA p h0, fun e => by
          have := linked_block_live T rtl.heap rtl.symbols hok p h0
          rw [e] at this
          exact this hfb⟩
      · exact Or.inr (Or.inl h0)
    · refine Or.inr (Or.inr ⟨h1, fun hn => ?_⟩)
      have hpb : p = ⟨b, p.index⟩ := by
        cases p
        simp only [SymPtr.mk.injEq, and_true]
        exact h1
      rw [hpb] at hp hn
      obtain ⟨f1, _⟩ := invB.first p.index hp
      exact f1 x hxl1 (by rw [hxn2, hn])
  -- the erase of A
  have hobjA : ObjOk rtl2
      { objA with global_size := recsA.length * T.sym_bytes, global_table := some a,
                  global_syms := recsA.length } := by
    constructor
    · intro p hp e
      rcases hlinked2 p hp with ⟨h0, _, _⟩ | ⟨h0, _⟩ | ⟨h0, _⟩
      · exact (hlA p.block e).2 p h0 rfl
      · exact (hlocA p.block e).1 h0
      · exact (hlocA p.block e).2 h0
    · intro p hp e
      simp only [Option.some.injEq] at e
      rcases hlinked2 p hp with ⟨_, h0, _⟩ | ⟨_, h0⟩ | ⟨h0, _⟩
      · exact absurd e.symm h0
      · exact h0
      · exact absurd (e.trans h0) hab
  obtain ⟨⟨rtl3, objA2⟩, heA⟩ := erase_defined rtl2
    { objA with global_size := recsA.length * T.sym_bytes, global_table := some a,
                global_syms := recsA.length }
    (fun base hb => by
      simp only [Option.some.injEq] at hb
      subst hb
      refine ⟨fun e => (hlocA a e).1 rfl, fun j hj => ?_⟩
      obtain ⟨sym, hsym⟩ := invA.live j hj
      exact ⟨sym, by rw [hderefB ⟨a, j⟩ hab]; exact hsym⟩)
  have hnone3 := erase_find_none T rtl2 rtl3 _ objA2 invB.ok hobjA heA nm (fun p hp hpn => by
    rcases hlinked2 p hp with ⟨h0, h1, h2⟩ | ⟨h0, _⟩ | ⟨_, h0⟩
    · exfalso
      have hp2 : deref rtl2.heap p = deref rtl.heap p := by
        rw [hderefB p h2, pubinv_deref_eq T a recsA.length recsA.length rtl rtl1 invA p h1]
      rw [name_of_congr _ _ p hp2] at hpn
      obtain ⟨r, hr, hnone, _⟩ := find_spec T rtl.heap rtl.symbols nm hok
      rw [hnofoo] at hr
      cases hr
      exact hnone.1 rfl p h0 hpn
    · simp [h0]
    · exact absurd hpn h0)
  -- the table of B after the erase of A
  obtain ⟨_, _, hheap3, _⟩ := erase_inv rtl2 rtl3 _ objA2 heA
  have hheapB3 : rtl3.heap b = rtl2.heap b :=
    hheap3 b (fun e => (hlocA b e).2 rfl) (fun e => hab (Option.some.inj e))
  have hderef3 : ∀ j, deref rtl3.heap ⟨b, j⟩ = deref rtl2.heap ⟨b, j⟩ := by
    intro j
    simp only [deref, hheapB3]
  have hkBlt : k < recsB.length := by
    by_contra hge
    rw [List.getElem?_eq_none (Nat.le_of_not_lt hge)] at hkB
    cases hkB
  obtain ⟨tbl, htbl⟩ : ∃ tbl, rtl3.heap b = some tbl := by
    have h3 := (hderef3 k).trans hsymB
    unfold deref at h3
    cases ht : rtl3.heap b with
    | none => simp [ht] at h3
    | some tbl => exact ⟨tbl, rfl⟩
  have hentry : ∀ (j : Nat) (r : List Byte × Nat), recsB[j]? = some r →
      ∃ sym : rtems_rtl_obj_sym,
      tbl[j]? = some sym ∧ sym.name = some r.1 ∧ sym.value = r.2 := by
    intro j r hj
    obtain ⟨sym, hs, hn, hv⟩ := hcontB j r hj
    rw [← hderef3 j] at hs
    simp only [deref, htbl] at hs
    exact ⟨sym, hs, hn, hv⟩
  have hnames : TableNames rtl3.heap (some b) recsB.length (recsB.map Prod.fst) := by
    refine ⟨List.length_map _ _, fun _ => ⟨b, tbl, rfl, htbl, fun j n hj => ?_⟩⟩
    rw [List.getElem?_map] at hj
    cases hr : recsB[j]? with
    | none => simp [hr] at hj
    | some r =>
      simp only [hr, Option.map_some', Option.some.injEq] at hj
      obtain ⟨sym, hs, hn, _⟩ := hentry j r hr
      exact ⟨sym, hs, by rw [hn, hj]⟩
  have hmem : nm ∈ recsB.map Prod.fst :=
    List.mem_map.2 ⟨(nm, vB), List.getElem?_mem hkB, rfl⟩
  have hfindB : ∀ (rtl4 : Rtl) (names : List (List Byte)),
      TableNames rtl4.heap (some b) recsB.length names → SortedNames names → nm ∈ names →
      ∃ p, rtems_rtl_symbol_obj_find T rtl4
          { objB with global_size := recsB.length * T.sym_bytes, global_table := some b,
                      global_syms := recsB.length } nm = some (some p) ∧
        p.block = b ∧ p.index < recsB.length ∧ name_of rtl4.heap p = some nm := by
    intro rtl4 names hn hs hm
    have hl0 : TableNames rtl4.heap objB.local_table objB.local_syms [] := by
      rw [hlocB]
      exact table_names_empty _ _
    obtain ⟨p, hp1, hp2, hp3, hp4⟩ := (obj_find_cases T rtl4
      { objB with global_size := recsB.length * T.sym_bytes, global_table := some b,
                  global_syms := recsB.length } nm [] names hl0
      List.Pairwise.nil hn hs).2.1 (List.not_mem_nil _) hm
    exact ⟨p, hp1, (Option.some.inj hp2).symm, hp3, hp4⟩
  refine ⟨rtl1, _, rtl2, _, rtl3, objA2, symB, hrunA, hrunB, rfl, rfl, rfl, ⟨x, hx2, hxa⟩, heA,
    hnone3, (hderef3 k).trans hsymB, hnameB, hvalB, fun hsorted => ?_, fun rtl4 hst => ?_⟩
  · obtain ⟨p, hp1, hp2, hp3, hp4⟩ := hfindB rtl3 _ hnames hsorted hmem
    obtain ⟨sym, hs, hn, hv⟩ := hentry p.index _ (List.getElem?_eq_getElem hp3)
    have hd : deref rtl3.heap p = some sym := by
      simp only [deref, hp2, htbl]
      exact hs
    have hfst : (recsB[p.index]).1 = nm := by
      simp only [name_of, hd, hn, Option.some.injEq] at hp4
      exact hp4
    refine ⟨p, sym, (recsB[p.index]).2, hp1, hp2, ?_, hd, by rw [hn, hfst], hv⟩
    rw [List.getElem?_eq_getElem hp3, ← hfst]
  · obtain ⟨names1, hperm, hn1, hs1⟩ := sorted_table_names rtl3.heap rtl4.heap (some b)
      recsB.length _ hnames hst
    obtain ⟨p, hp1, hp2, _, hp4⟩ := hfindB rtl4 names1 hn1 hs1 (hperm.symm.subset hmem)
    exact ⟨p, hp1, hp2, hp4⟩


/-- C33, at the table that holds `alpha`, `beta` and `gamma`: A exports `beta`
and `foo` with value `0x11`, B exports `bar` and `foo` with value `0x22`, in
the order of their names; the table of A is allocated at address 200 and the
table of B at address 300. -/
theorem suppressed_duplicate_not_promoted_witness :
    (rtems_rtl_symbol_global_find target32 scenario_linked.heap scenario_linked.symbols
        (cstring "foo") = some none ∧
      [(cstring "beta", 9), (cstring "foo", 0x11)][1]? = some (cstring "foo", 0x11) ∧
      [(cstring "bar", 3), (cstring "foo", 0x22)][1]? = some (cstring "foo", 0x22) ∧
      scenario_linked.heap 200 = none ∧ scenario_linked.heap 300 = none ∧ 200 ≠ 300 ∧
      empty_obj.local_syms = 0 ∧
      SortedNames ([(cstring "bar", 3), (cstring "foo", 0x22)].map Prod.fst)) ∧
    ∃ rtl1 objA1 rtl2 objB1 rtl3 objA2 symB,
      rtems_rtl_symbol_global_add target32 (fun _ => some 200) scenario_linked empty_obj
        (export_table_of target32 [(cstring "beta", 9), (cstring "foo", 0x11)])
        (export_table_of target32 [(cstring "beta", 9), (cstring "foo", 0x11)]).length
        ([] : List (rtems_rtl_tls_offset Unit)) 0 ()
        = some (true, rtl1, objA1, ()) ∧
      rtems_rtl_symbol_global_add target32 (fun _ => some 300) rtl1 empty_obj
        (export_table_of target32 [(cstring "bar", 3), (cstring "foo", 0x22)])
        (export_table_of target32 [(cstring "bar", 3), (cstring "foo", 0x22)]).length
        ([] : List (rtems_rtl_tls_offset Unit)) 0 ()
        = some (true, rtl2, objB1, ()) ∧
      objA1.global_table = some 200 ∧ objB1.global_table = some 300 ∧
      objB1.global_syms = [(cstring "bar", 3), (cstring "foo", 0x22)].length ∧
      (∃ x, rtems_rtl_symbol_global_find target32 rtl2.heap rtl2.symbols (cstring "foo")
          = some (some x) ∧ x.block = 200) ∧
      rtems_rtl_symbol_obj_erase rtl2 objA1 = some (rtl3, objA2) ∧
      rtems_rtl_symbol_global_find target32 rtl3.heap rtl3.symbols (cstring "foo") = some none ∧
      deref rtl3.heap ⟨300, 1⟩ = some symB ∧ symB.name = some (cstring "foo") ∧
      symB.value = 0x22 ∧
      (SortedNames ([(cstring "bar", 3), (cstring "foo", 0x22)].map Prod.fst) →
        ∃ p sym v, rtems_rtl_symbol_obj_find target32 rtl3 objB1 (cstring "foo")
            = some (some p) ∧
          p.block = 300 ∧
          [(cstring "bar", 3), (cstring "foo", 0x22)][p.index]? = some (cstring "foo", v) ∧
          deref rtl3.heap p = some sym ∧ sym.name = some (cstring "foo") ∧ sym.value = v) ∧
      ∀ rtl4 : Rtl, SortedTable rtl3.heap rtl4.heap (some 300)
          [(cstring "bar", 3), (cstring "foo", 0x22)].length →
        ∃ p, rtems_rtl_symbol_obj_find target32 rtl4 objB1 (cstring "foo") = some (some p) ∧
          p.block = 300 ∧ name_of rtl4.heap p = some (cstring "foo") :=
  ⟨⟨by decide, by decide, by decide, rfl, rfl, by decide, rfl, by decide⟩,
   suppressed_duplicate_not_promoted target32 (fun _ => some 200) (fun _ => some 300)
     scenario_linked empty_obj empty_obj [(cstring "beta", 9), (cstring "foo", 0x11)]
     [(cstring "bar", 3), (cstring "foo", 0x22)] () 200 300 (cstring "foo") 0x11 0x22 1 1
     scenario_table_ok (by decide) (by decide) (by decide) (by decide) (by decide)
     rfl rfl rfl rfl (by decide) (fun l hl => by cases hl) rfl⟩

end RtlSym
